import Mathlib

/-!
Verification model of the roamresearch-ical sync extension.

The model is a shallow embedding of the TypeScript sources:
  * ical.ts   — feed client cache, FNV-1a hashing, event representation,
                sorting, title-exclusion and date-range filters;
  * blocks.ts — the reconciliation engine (writeBlocksToPage, syncChildren,
                removeObsoleteBlocks, cleanupObsoletePages, buildEventBlock,
                buildBlockMap, extractICalId and friends);
  * main.ts   — the syncCalendars entry point with its module-level
                sync-in-progress guard.

Modelling conventions, stated once here:
  * The store (Roam graph) is a map from page title to the page's root
    records.  The extension reads ids and property keys only from a page's
    root records and their direct children, writes only two-level records
    (a root block plus flat property blocks), and mutates only uids it
    obtained from those two levels; pages are therefore modelled as lists
    of two-level records (`RoamNode` with `PropNode` children).  Page
    titles stand in for page uids (the uid indirection only matters for
    the read-after-write races that a sequential model does not have; for
    the same reason the session page-uid cache and the retry/backoff
    logic of ensurePage are identity refinements here).
  * `delay` and the cooperative yield points are no-ops in a sequential
    model and are dropped; the batch *structure* (slicing the sorted event
    list into chunks and grouping each chunk by page) is kept exactly.
  * JavaScript `Date` values are integer epoch milliseconds; `setDate`
    day arithmetic is whole-day arithmetic (the model has no DST), and
    the local time zone is UTC.
  * Regular expressions are embedded by their action on the strings the
    system feeds them.  The multiline `^ical-id::\s*(.+)$` (flags `mi`)
    is embedded in full: a match may begin at the string start or after
    any line terminator, its `\s*` may consume further line terminators,
    and its greedy backtracking (an all-whitespace remainder giving back
    one non-terminator whitespace character) is reproduced.  The
    user-supplied exclusion patterns (compiled with flag `i` only, hence
    stateless) are abstracted as Boolean predicates on strings.
  * JavaScript string quirks that the code relies on are embedded
    explicitly: `Map` insertion-order semantics, truthiness of the empty
    string, `trim`, and UTF-16 `charCodeAt` (full surrogate handling;
    `toLowerCase` is embedded for ASCII, which is all the embedded call
    sites distinguish after their own filtering).
-/

namespace RoamIcal

/-! ## JavaScript string primitives -/

/-- The character class of the JavaScript regular-expression `\s`
(also the set trimmed by `String.prototype.trim`). -/
def isJsWhitespace (c : Char) : Bool :=
  c.toNat ∈ [9, 10, 11, 12, 13, 32, 0xA0, 0x1680, 0x2028, 0x2029, 0x202F, 0x205F, 0x3000, 0xFEFF]
    || (0x2000 ≤ c.toNat && c.toNat ≤ 0x200A)

/-- JavaScript `String.prototype.trim` on a character list. -/
def jsTrimList (cs : List Char) : List Char :=
  ((cs.dropWhile isJsWhitespace).reverse.dropWhile isJsWhitespace).reverse

/-- JavaScript `String.prototype.trim`. -/
def jsTrim (s : String) : String :=
  String.mk (jsTrimList s.data)

/-- ASCII lower-casing of one character (JavaScript `toLowerCase` restricted
to ASCII; every embedded call site only distinguishes ASCII letters). -/
def asciiLower (c : Char) : Char :=
  if 65 ≤ c.toNat ∧ c.toNat ≤ 90 then Char.ofNat (c.toNat + 32) else c

/-- ASCII lower-casing of a string. -/
def asciiLowerStr (s : String) : String :=
  String.mk (s.data.map asciiLower)

/-- `replace(/\s+/g, "-")`: each maximal whitespace run becomes one hyphen.
The flag records whether we are inside a whitespace run. -/
def collapseWsAux : Bool → List Char → List Char
  | _, [] => []
  | inRun, c :: rest =>
      if isJsWhitespace c then
        if inRun then collapseWsAux true rest else Char.ofNat 45 :: collapseWsAux true rest
      else c :: collapseWsAux false rest

/-- `replace(/[\r\n]+/g, " ")`: each maximal run of CR/LF becomes one space. -/
def collapseCrlfAux : Bool → List Char → List Char
  | _, [] => []
  | inRun, c :: rest =>
      if c = Char.ofNat 13 ∨ c = Char.ofNat 10 then
        if inRun then collapseCrlfAux true rest else Char.ofNat 32 :: collapseCrlfAux true rest
      else c :: collapseCrlfAux false rest

/-- ical.ts `safeText`: normalise line breaks to spaces, then trim.
The null/undefined input cases of the source are the empty string here. -/
def safeText (value : String) : String :=
  if value = "" then "" else jsTrim (String.mk (collapseCrlfAux false value.data))

/-! ## FNV-1a hashing (ical.ts) -/

/-- UTF-16 code units of one character, as produced by `charCodeAt`. -/
def utf16Codes (c : Char) : List Nat :=
  let n := c.toNat
  if n < 0x10000 then [n]
  else [0xD800 + (n - 0x10000) / 0x400, 0xDC00 + (n - 0x10000) % 0x400]

/-- The sequence of `charCodeAt` values of a string. -/
def charCodes (s : String) : List Nat :=
  (s.data.map utf16Codes).flatten

def FNV_PRIME : Nat := 0x01000193

def FNV_OFFSET : Nat := 0x811c9dc5

/-- ical.ts `fnv1aHash`: 32-bit FNV-1a over the UTF-16 code units.  The
JavaScript `^` / `Math.imul` / `>>> 0` pipeline is arithmetic modulo 2^32. -/
def fnv1aHash (s : String) : Nat :=
  (charCodes s).foldl (fun h c => ((h ^^^ c) * FNV_PRIME) % 4294967296) FNV_OFFSET

/-- One base-36 digit, lower case, as used by `Number.prototype.toString(36)`. -/
def base36Digit (n : Nat) : Char :=
  if n < 10 then Char.ofNat (48 + n) else Char.ofNat (87 + n)

/-- Fuel-driven base-36 conversion (fuel bounds the digit count). -/
def toBase36Aux : Nat → Nat → List Char → List Char
  | 0, _, acc => acc
  | _, 0, acc => acc
  | fuel + 1, n, acc => toBase36Aux fuel (n / 36) (base36Digit (n % 36) :: acc)

/-- `Number.prototype.toString(36)` for natural numbers. -/
def toBase36 (n : Nat) : String :=
  if n = 0 then "0" else String.mk (toBase36Aux n n [])

/-- ical.ts `hashContent`: the same FNV-1a loop, rendered in base 36.
(The source repeats the loop inline; it is the same computation as
`fnv1aHash`.) -/
def hashContent (content : String) : String :=
  toBase36 (fnv1aHash content)

/-- ical.ts `hashEventId`: two differently-salted FNV-1a hashes, base-36,
concatenated. -/
def hashEventId (uid : String) : String :=
  toBase36 (fnv1aHash uid) ++ toBase36 (fnv1aHash (uid ++ "_salt"))

/-- ical.ts `sanitizeEventId`. -/
def sanitizeEventId (uid : String) : String :=
  hashEventId uid

/-! ## Dates (ical.ts `formatRoamDate`) -/

/-- Milliseconds per day. -/
def dayMs : Int := 86400000

/-- Gregorian civil date (year, month 1..12, day 1..31) from a day count
relative to 1970-01-01 (the standard era-based algorithm; all divisions
below act on non-negative operands, where truncating and floor division
agree). -/
def civilFromDays (z0 : Int) : Int × Nat × Nat :=
  let z := z0 + 719468
  let era : Int := (if 0 ≤ z then z else z - 146096) / 146097
  let doe : Int := z - era * 146097
  let yoe : Int := (doe - doe / 1460 + doe / 36524 - doe / 146096) / 365
  let y : Int := yoe + era * 400
  let doy : Int := doe - (365 * yoe + yoe / 4 - yoe / 100)
  let mp : Int := (5 * doy + 2) / 153
  let d : Int := doy - (153 * mp + 2) / 5 + 1
  let m : Int := if mp < 10 then mp + 3 else mp - 9
  ((if m ≤ 2 then y + 1 else y), m.toNat, d.toNat)

def MONTH_NAMES : List String :=
  ["January", "February", "March", "April", "May", "June",
   "July", "August", "September", "October", "November", "December"]

/-- ical.ts `getOrdinalSuffix`. -/
def getOrdinalSuffix (day : Nat) : String :=
  let remainder := day % 100
  if 11 ≤ remainder ∧ remainder ≤ 13 then "th"
  else if day % 10 = 1 then "st"
  else if day % 10 = 2 then "nd"
  else if day % 10 = 3 then "rd"
  else "th"

/-- ical.ts `formatRoamDate`: "Month day<suffix>, year" for an epoch-ms
timestamp (time zone UTC, see the model conventions). -/
def formatRoamDate (ms : Int) : String :=
  let c := civilFromDays (Int.fdiv ms dayMs)
  let month := (MONTH_NAMES.getD (c.2.1 - 1) "")
  let day := c.2.2
  month ++ " " ++ toString day ++ getOrdinalSuffix day ++ ", " ++ toString c.1

/-! ## Events -/

/-- ical.ts `ICalEvent`.  `dtstart`/`dtend` are epoch-ms timestamps or
absent (JavaScript `Date | null`); `meetingUrl` is optional.  The
`attendees` field is never read by any embedded operation and is omitted. -/
structure ICalEvent where
  uid : String
  summary : String
  description : String
  dtstart : Option Int
  dtend : Option Int
  location : String
  url : String
  meetingUrl : Option String
deriving DecidableEq

/-- ical.ts `ICalCalendar` (the fields reconciliation reads). -/
structure ICalCalendar where
  name : String
  events : List ICalEvent
deriving DecidableEq

/-- ical.ts `getEventSortDate`: dtstart, else dtend, else null. -/
def getEventSortDate (e : ICalEvent) : Option Int :=
  match e.dtstart with
  | some d => some d
  | none => e.dtend

/-- The comparator of `sortEventsByDateDescending`: negative keeps `a`
before `b`.  Events without dates sort last; otherwise most recent first. -/
def eventCmp (a b : ICalEvent) : Int :=
  match getEventSortDate a, getEventSortDate b with
  | none, none => 0
  | none, some _ => 1
  | some _, none => -1
  | some da, some db => db - da

/-- Stable insertion used to model the (stable) JavaScript sort. -/
def insertByCmp (x : ICalEvent) : List ICalEvent → List ICalEvent
  | [] => [x]
  | y :: ys => if eventCmp x y ≤ 0 then x :: y :: ys else y :: insertByCmp x ys

/-- ical.ts `sortEventsByDateDescending`: stable sort by `eventCmp`
(ECMAScript sort is stable; a stable insertion sort produces the same
list for this comparator). -/
def sortEventsByDateDescending (events : List ICalEvent) : List ICalEvent :=
  events.foldr insertByCmp []

/-! ## Title-exclusion filter (ical.ts) -/

/-- An exclusion pattern: the action of a compiled case-insensitive
regular expression on a title (`RegExp.prototype.test`). -/
def ExcludePattern := String → Bool

/-- ical.ts `shouldExcludeEvent`: an empty title (falsy) or an empty
pattern list is never excluded; otherwise excluded iff some pattern
matches. -/
def shouldExcludeEvent (title : String) (patterns : List ExcludePattern) : Bool :=
  if title = "" ∨ patterns.isEmpty then false
  else patterns.any (fun p => p title)

/-- ical.ts `filterExcludedEvents` (its yield points are no-ops here). -/
def filterExcludedEvents (events : List ICalEvent) (excludePatterns : List ExcludePattern) :
    List ICalEvent :=
  if excludePatterns.isEmpty then events
  else events.filter (fun e => ¬ shouldExcludeEvent e.summary excludePatterns)

/-! ## Date-range filter (ical.ts) -/

/-- ical.ts `DateRangeConfig`. -/
structure DateRangeConfig where
  daysPast : Int
  daysFuture : Int
deriving DecidableEq

/-- ical.ts `isEventInDateRange`.  `startOfToday` is the midnight
timestamp the source computes from `new Date()`; `setDate` day stepping
is whole-day arithmetic here (model conventions). -/
def isEventInDateRange (e : ICalEvent) (config : DateRangeConfig) (startOfToday : Int) : Bool :=
  match (match e.dtstart with | some d => some d | none => e.dtend) with
  | none => false
  | some eventDate =>
      let pastBoundary := startOfToday - config.daysPast * dayMs
      let futureBoundary := startOfToday + (config.daysFuture + 1) * dayMs
      decide (pastBoundary ≤ eventDate ∧ eventDate < futureBoundary)

/-- ical.ts `filterEventsByDateRange`. -/
def filterEventsByDateRange (events : List ICalEvent) (config : DateRangeConfig)
    (startOfToday : Int) : List ICalEvent :=
  events.filter (fun e => isEventInDateRange e config startOfToday)

/-- Rendering of the specification sentence for the date window (spec
§4.3): the half-open interval from `startOfToday - daysPast` days to
`startOfToday + daysFuture + 1` days, applied to the effective date
(start time if present, else end time). -/
def specDateWindowKeeps (e : ICalEvent) (config : DateRangeConfig) (startOfToday : Int) : Prop :=
  ∃ d, (match e.dtstart with | some x => some x | none => e.dtend) = some d ∧
    startOfToday - config.daysPast * dayMs ≤ d ∧
    d < startOfToday + (config.daysFuture + 1) * dayMs

/-! ## Records, blocks and the store (blocks.ts / settings.ts) -/

/-- A property block payload (`createPropertyBlock` always builds leaf
blocks, so payload children are flat). -/
structure PropPayload where
  text : String
deriving DecidableEq

/-- blocks.ts `BlockPayload`: an event's root block plus its flat
property children. -/
structure BlockPayload where
  text : String
  children : List PropPayload
deriving DecidableEq

/-- A stored property block: a root record's direct child. -/
structure PropNode where
  text : String
  uid : String
deriving DecidableEq

/-- A stored root record (`RoamBasicNode` as reconciliation reads it:
its own text/uid and its direct children; see the model conventions). -/
structure RoamNode where
  text : String
  uid : String
  children : List PropNode
deriving DecidableEq

/-- Line terminators recognised by the multiline anchors of a JavaScript
regular expression. -/
def isLineTerminator (c : Char) : Bool :=
  c = Char.ofNat 10 ∨ c = Char.ofNat 13 ∨ c.toNat = 0x2028 ∨ c.toNat = 0x2029

/-- Greedy match of `\s*(.+)$` (flag `m`) against the remainder of the
string after the `ical-id::` literal: `\s*` consumes whitespace — line
terminators included — as long as a match remains possible afterwards,
and `(.+)` then captures the maximal run of non-terminator characters.
The backtracking of the source regex on an all-whitespace remainder
(giving back one non-terminator whitespace character so `(.+)` can
match it) is reproduced by the fallback branch. -/
def wsCapture : List Char → Option (List Char)
  | [] => none
  | c :: rest =>
      match (if isJsWhitespace c then wsCapture rest else none) with
      | some cap => some cap
      | none =>
          if isLineTerminator c then none
          else some (c :: rest.takeWhile (fun d => ¬ isLineTerminator d))

/-- The suffixes of a character list starting just after each line
terminator: together with the whole list these are the candidate `^`
anchor positions of a multiline match, in the order the engine tries
them. -/
def lineSuffixes : List Char → List (List Char)
  | [] => []
  | c :: rest =>
      if isLineTerminator c then rest :: lineSuffixes rest else lineSuffixes rest

/-- The pattern attempted at one anchor position: the case-insensitive
`ical-id::` literal followed by a `\s*(.+)$` match of the entire
remaining string (which may span further lines), the captured value
trimmed. -/
def icalIdSuffixValue (cs : List Char) : Option String :=
  if (cs.take 9).map asciiLower = "ical-id::".data then
    (wsCapture (cs.drop 9)).map (fun cap => String.mk (jsTrimList cap))
  else none

/-- blocks.ts `extractICalId`: the first multiline match of
`^ical-id::\s*(.+)$` (flags `mi`) over the whole text, at the earliest
anchor position. -/
def extractICalId (content : String) : Option String :=
  (content.data :: lineSuffixes content.data).findSome? icalIdSuffixValue

/-- JavaScript truthiness of an optional string: the empty string is
falsy.  `extractICalIdFromNode` tests each candidate with `if (id)`. -/
def truthyId : Option String → Option String
  | some s => if s = "" then none else some s
  | none => none

/-- blocks.ts `extractICalIdFromNode`: the record's own text first, then
each direct child. -/
def extractICalIdFromNode (node : RoamNode) : Option String :=
  match truthyId (extractICalId node.text) with
  | some id => some id
  | none => node.children.findSome? (fun c => truthyId (extractICalId c.text))

/-- blocks.ts `extractICalIdFromBlock`. -/
def extractICalIdFromBlock (b : BlockPayload) : Option String :=
  match truthyId (extractICalId b.text) with
  | some id => some id
  | none => b.children.findSome? (fun c => truthyId (extractICalId c.text))

/-! JavaScript `Map` on string keys, as an insertion-ordered association
list: `set` overwrites in place or appends, `delete` removes. -/

def jsMapGet {α : Type} (m : List (String × α)) (k : String) : Option α :=
  (m.find? (fun p => p.1 = k)).map (fun p => p.2)

def jsMapSet {α : Type} (m : List (String × α)) (k : String) (v : α) : List (String × α) :=
  if m.any (fun p => p.1 = k) then m.map (fun p => if p.1 = k then (k, v) else p)
  else m ++ [(k, v)]

def jsMapDelete {α : Type} (m : List (String × α)) (k : String) : List (String × α) :=
  m.filter (fun p => p.1 ≠ k)

/-- The common shape of `buildBlockMap` and `buildPropsMap`: fold a list
into a key-indexed map, keying each element by `f` and skipping keyless
elements. -/
def kfold {α : Type} (f : α → Option String) (acc : List (String × α)) (l : List α) :
    List (String × α) :=
  l.foldl (fun m c =>
    match f c with
    | some k => jsMapSet m k c
    | none => m) acc

/-- blocks.ts `buildBlockMap`: existing records indexed by recovered
ical-id (records without one are absent). -/
def buildBlockMap (tree : List RoamNode) : List (String × RoamNode) :=
  tree.foldl (fun m node =>
    match extractICalIdFromNode node with
    | some id => jsMapSet m id node
    | none => m) []

/-- A character of the regular-expression class `[\w-]`. -/
def isWordDashChar (c : Char) : Bool :=
  (48 ≤ c.toNat ∧ c.toNat ≤ 57) ∨ (65 ≤ c.toNat ∧ c.toNat ≤ 90) ∨
    (97 ≤ c.toNat ∧ c.toNat ≤ 122) ∨ c = Char.ofNat 95 ∨ c = Char.ofNat 45

/-- blocks.ts `extractPropertyKey`: `/^([\w-]+)::/` — the leading word/dash
run when it is non-empty and immediately followed by `::`. -/
def extractPropertyKey (text : String) : Option String :=
  let run := text.data.takeWhile isWordDashChar
  if run.isEmpty then none
  else if (text.data.drop run.length).take 2 = [Char.ofNat 58, Char.ofNat 58] then
    some (String.mk run)
  else none

/-- blocks.ts `createPropertyBlock`. -/
def createPropertyBlock (key value : String) : PropPayload :=
  { text := key ++ ":: " ++ value }

/-- blocks.ts `sanitizeTagName`: trim, lower-case, whitespace runs to
hyphens, then strip everything outside `[a-z0-9-_]`. -/
def sanitizeTagName (name : String) : String :=
  String.mk ((collapseWsAux false ((jsTrimList name.data).map asciiLower)).filter
    (fun c => (97 ≤ c.toNat ∧ c.toNat ≤ 122) ∨ (48 ≤ c.toNat ∧ c.toNat ≤ 57) ∨
      c = Char.ofNat 45 ∨ c = Char.ofNat 95))

/-- blocks.ts `buildEventBlock`. -/
def buildEventBlock (event : ICalEvent) (calendarName : String) (titlePrefix : String) :
    BlockPayload :=
  let dateText := match event.dtstart with | some d => formatRoamDate d | none => "No date"
  let title := if safeText event.summary = "" then "Untitled event" else safeText event.summary
  let calendarTag := sanitizeTagName calendarName
  let mainText0 := "[[" ++ dateText ++ "]] " ++ title ++ " #" ++ calendarTag
  let mainText :=
    if titlePrefix ≠ "" ∧ jsTrim titlePrefix ≠ "" then jsTrim titlePrefix ++ " " ++ mainText0
    else mainText0
  let children :=
    [createPropertyBlock "ical-id" event.uid]
    ++ (if safeText event.description ≠ "" then
          [createPropertyBlock "ical-desc" (safeText event.description)] else [])
    ++ (if safeText event.location ≠ "" then
          [createPropertyBlock "ical-location" (safeText event.location)] else [])
    ++ (match event.meetingUrl with
        | some m =>
            if m ≠ "" then
              [createPropertyBlock "ical-meeting-url" ("[**JOIN MEETING**](" ++ m ++ ")")]
            else []
        | none => [])
    ++ (if event.url ≠ "" then [createPropertyBlock "ical-url" ("[link](" ++ event.url ++ ")")]
        else [])
    ++ (match event.dtend with
        | some e =>
            if formatRoamDate e ≠ dateText then
              [createPropertyBlock "ical-end" ("[[" ++ formatRoamDate e ++ "]]")]
            else []
        | none => [])
  { text := mainText, children := children }

/-- blocks.ts `resolveEventPageName`. -/
def resolveEventPageName (event : ICalEvent) (calendarName : String) (pagePrefix : String) :
    String :=
  pagePrefix ++ "/" ++ calendarName ++ "/" ++ sanitizeEventId event.uid

/-- The store: page title → root records, plus a counter supplying fresh
uids for created blocks (page titles stand in for page uids, see the
model conventions). -/
structure Store where
  pages : List (String × List RoamNode)
  counter : Nat
deriving DecidableEq

/-- The uid given to the n-th block created during the run: an injective
supply of fresh names (the host generates opaque unique uids; the model
relies only on freshness, so any injective supply is faithful). -/
def genUid (n : Nat) : String :=
  "gen-" ++ String.mk (List.replicate n (Char.ofNat 105))

/-- Store mutations issued against the host (the trace the theorems
count).  `createRoot` is the blocks.ts `createBlock` call that writes a
whole event record at a page; `createChild` is the `createBlock` call of
`syncChildren` adding one property block. -/
inductive Mutation where
  | createPage (title : String)
  | createRoot (page : String) (node : BlockPayload)
  | createChild (parentUid : String) (node : PropPayload)
  | updateBlock (uid : String) (text : String)
  | deleteBlock (uid : String)
deriving DecidableEq

def getPage (s : Store) (title : String) : Option (List RoamNode) :=
  jsMapGet s.pages title

/-- settings.ts `getBasicTreeByParentUid` applied to a page. -/
def getTree (s : Store) (title : String) : List RoamNode :=
  (getPage s title).getD []

/-- settings.ts `getBasicTreeByParentUid` applied to a block uid: the
direct children of the record carrying that uid. -/
def getChildrenOf (s : Store) (parentUid : String) : List PropNode :=
  match ((s.pages.map (fun p => p.2)).flatten.find? (fun r => r.uid = parentUid)) with
  | some r => r.children
  | none => []

/-- Instantiate property payloads as stored children with fresh uids. -/
def instantiateProps (ctr : Nat) : List PropPayload → List PropNode × Nat
  | [] => ([], ctr)
  | p :: rest =>
      let t := instantiateProps (ctr + 1) rest
      (⟨p.text, genUid ctr⟩ :: t.1, t.2)

/-- Instantiate a block payload as a stored record (the parent block is
created first, then its children in order, as `createBlockRecursive`
does). -/
def instantiateBlock (ctr : Nat) (b : BlockPayload) : RoamNode × Nat :=
  let t := instantiateProps (ctr + 1) b.children
  (⟨b.text, genUid ctr, t.1⟩, t.2)

/-- `createBlock` with a page parent and order "last". -/
def storeCreateRoot (s : Store) (page : String) (b : BlockPayload) : Store :=
  let t := instantiateBlock s.counter b
  { pages := jsMapSet s.pages page (getTree s page ++ [t.1]), counter := t.2 }

/-- `createBlock` with a record parent and order "last". -/
def storeCreateChild (s : Store) (parentUid : String) (p : PropPayload) : Store :=
  let node : PropNode := ⟨p.text, genUid s.counter⟩
  { pages := s.pages.map (fun pg => (pg.1, pg.2.map (fun r =>
      if r.uid = parentUid then { r with children := r.children ++ [node] } else r))),
    counter := s.counter + 1 }

/-- `updateBlock`: replace the text of the block with the given uid. -/
def storeUpdate (s : Store) (uid text : String) : Store :=
  { s with pages := s.pages.map (fun pg => (pg.1, pg.2.map (fun r =>
      ⟨if r.uid = uid then text else r.text, r.uid,
        r.children.map (fun c => if c.uid = uid then ⟨text, c.uid⟩ else c)⟩))) }

/-- `deleteBlock`: remove the block with the given uid (and, for a root,
its subtree). -/
def storeDelete (s : Store) (uid : String) : Store :=
  { s with pages := s.pages.map (fun pg => (pg.1, (pg.2.filter (fun r => r.uid ≠ uid)).map
      (fun r => { r with children := r.children.filter (fun c => c.uid ≠ uid) }))) }

/-- blocks.ts `ensurePage` (sequential model: the session cache and the
retry logic only bridge read-after-write races). -/
def ensurePage (pageName : String) (s : Store) : Store × List Mutation :=
  if (getPage s pageName).isSome then (s, [])
  else ({ pages := s.pages ++ [(pageName, [])], counter := s.counter },
        [Mutation.createPage pageName])

/-- Existing property children indexed by property key (`syncChildren`). -/
def buildPropsMap (children : List PropNode) : List (String × PropNode) :=
  children.foldl (fun m child =>
    match extractPropertyKey child.text with
    | some k => jsMapSet m k child
    | none => m) []

/-- The desired-children loop of blocks.ts `syncChildren`. -/
def syncChildrenGo (parentUid : String) :
    List PropPayload → List (String × PropNode) → Store → Store × List Mutation
  | [], _, s => (s, [])
  | newChild :: rest, propsMap, s =>
      match extractPropertyKey newChild.text with
      | some k =>
          match jsMapGet propsMap k with
          | some existing =>
              if existing.text ≠ newChild.text then
                let s1 := storeUpdate s existing.uid newChild.text
                let t := syncChildrenGo parentUid rest (jsMapDelete propsMap k) s1
                (t.1, Mutation.updateBlock existing.uid newChild.text :: t.2)
              else
                syncChildrenGo parentUid rest (jsMapDelete propsMap k) s
          | none =>
              let s1 := storeCreateChild s parentUid newChild
              let t := syncChildrenGo parentUid rest propsMap s1
              (t.1, Mutation.createChild parentUid newChild :: t.2)
      | none => syncChildrenGo parentUid rest propsMap s

/-- blocks.ts `syncChildren`. -/
def syncChildren (parentUid : String) (newChildren : List PropPayload) (s : Store) :
    Store × List Mutation :=
  syncChildrenGo parentUid newChildren (buildPropsMap (getChildrenOf s parentUid)) s

/-- The desired-blocks loop of blocks.ts `writeBlocksToPage` (skip blocks
without an id, skip duplicate ids, update-and-sync matched records,
create unmatched ones).  Also returns the seen-id list. -/
def writeLoop (pageName : String) (blockMap : List (String × RoamNode)) :
    List BlockPayload → List String → Store → Store × List Mutation × List String
  | [], seen, s => (s, [], seen)
  | block :: rest, seen, s =>
      match extractICalIdFromBlock block with
      | none => writeLoop pageName blockMap rest seen s
      | some icalId =>
          if icalId ∈ seen then writeLoop pageName blockMap rest seen s
          else
            match jsMapGet blockMap icalId with
            | some existing =>
                let su :=
                  if existing.text ≠ block.text then
                    (storeUpdate s existing.uid block.text,
                     [Mutation.updateBlock existing.uid block.text])
                  else (s, [])
                let tc := syncChildren existing.uid block.children su.1
                let tr := writeLoop pageName blockMap rest (seen ++ [icalId]) tc.1
                (tr.1, su.2 ++ tc.2 ++ tr.2.1, tr.2.2)
            | none =>
                let s1 := storeCreateRoot s pageName block
                let tr := writeLoop pageName blockMap rest (seen ++ [icalId]) s1
                (tr.1, Mutation.createRoot pageName block :: tr.2.1, tr.2.2)

/-- blocks.ts `removeObsoleteBlocks`: delete every mapped record whose id
was not seen. -/
def removeObsoleteBlocks (blockMap : List (String × RoamNode)) (seenIds : List String)
    (s : Store) : Store × List Mutation :=
  blockMap.foldl (fun acc entry =>
    if entry.1 ∈ seenIds then acc
    else (storeDelete acc.1 entry.2.uid, acc.2 ++ [Mutation.deleteBlock entry.2.uid]))
    (s, [])

/-- blocks.ts `writeBlocksToPage`. -/
def writeBlocksToPage (pageName : String) (blocks : List BlockPayload) (s : Store) :
    Store × List Mutation :=
  let t1 := ensurePage pageName s
  let blockMap := buildBlockMap (getTree t1.1 pageName)
  let t2 := writeLoop pageName blockMap blocks [] t1.1
  let t3 := removeObsoleteBlocks blockMap t2.2.2 t2.1
  (t3.1, t1.2 ++ t2.2.1 ++ t3.2)

/-- blocks.ts `BatchConfig`. -/
structure BatchConfig where
  batchSize : Nat
  batchDelayMs : Nat
  excludePatterns : List ExcludePattern
  titlePrefix : String

/-- blocks.ts `EventWithBlock`. -/
structure EventWithBlock where
  event : ICalEvent
  calendarName : String
  block : BlockPayload
deriving DecidableEq

/-- Fuel-driven slicing of a list into consecutive chunks of size `k`
(the `i += batchSize` loop; the source diverges when `batchSize = 0`, so
the model is meaningful for `k ≥ 1`, which every theorem assumes). -/
def chunkAux {α : Type} (k : Nat) : Nat → List α → List (List α)
  | 0, _ => []
  | _, [] => []
  | fuel + 1, l => l.take k :: chunkAux k fuel (l.drop k)

def chunksOf {α : Type} (k : Nat) (l : List α) : List (List α) :=
  chunkAux k l.length l

/-- Group events-with-blocks by target page, preserving first-seen page
order and within-page order (a `Map<string, EventWithBlock[]>`). -/
def groupByPage (pagePrefix : String) (l : List EventWithBlock) :
    List (String × List EventWithBlock) :=
  l.foldl (fun m ewb =>
    let pageName := resolveEventPageName ewb.event ewb.calendarName pagePrefix
    match jsMapGet m pageName with
    | some existing => jsMapSet m pageName (existing ++ [ewb])
    | none => m ++ [(pageName, [ewb])]) []

/-- The per-batch page writes of `writeBlocks`. -/
def processGroups : List (String × List EventWithBlock) → Store → Store × List Mutation
  | [], s => (s, [])
  | g :: rest, s =>
      let t1 := writeBlocksToPage g.1 (g.2.map (fun e => e.block)) s
      let t2 := processGroups rest t1.1
      (t2.1, t1.2 ++ t2.2)

/-- The batch loop of `writeBlocks`: each chunk is grouped by page and
written (the inter-batch delay is timing only). -/
def processBatches (pagePrefix : String) :
    List (List EventWithBlock) → Store → Store × List Mutation
  | [], s => (s, [])
  | batch :: rest, s =>
      let t1 := processGroups (groupByPage pagePrefix batch) s
      let t2 := processBatches pagePrefix rest t1.1
      (t2.1, t1.2 ++ t2.2)

/-- The per-page cleanup loop of blocks.ts `cleanupObsoletePages`. -/
def cleanupLoop (byPage : List (String × List EventWithBlock)) (currentEventIds : List String) :
    List String → Store → Store × List Mutation
  | [], s => (s, [])
  | pageTitle :: rest, s =>
      if (jsMapGet byPage pageTitle).isSome then cleanupLoop byPage currentEventIds rest s
      else
        let blockMap := buildBlockMap (getTree s pageTitle)
        let t1 := blockMap.foldl (fun acc entry =>
            if entry.1 ∈ currentEventIds then acc
            else (storeDelete acc.1 entry.2.uid, acc.2 ++ [Mutation.deleteBlock entry.2.uid]))
          (s, [])
        let t2 := cleanupLoop byPage currentEventIds rest t1.1
        (t2.1, t1.2 ++ t2.2)

/-- blocks.ts `cleanupObsoletePages`: on every stored page under the
configured path root that is not a current target page, delete each
mapped record whose id is not desired anywhere in this run. -/
def cleanupObsoletePages (pagePrefix : String)
    (currentEventsByPage : List (String × List EventWithBlock)) (s : Store) :
    Store × List Mutation :=
  let currentEventIds :=
    (currentEventsByPage.map (fun p => p.2.map (fun ewb => ewb.event.uid))).flatten
  let pref := pagePrefix ++ "/"
  let pageTitles := (s.pages.map (fun p => p.1)).filter (fun t => pref.data.isPrefixOf t.data)
  cleanupLoop currentEventsByPage currentEventIds pageTitles s

/-- The desired-event preparation of blocks.ts `writeBlocks`: filter
exclusions per calendar, sort all events most-recent-first, and attach
each event's calendar name (a uid-keyed map, last write wins) and built
block. -/
def desiredWithBlocks (calendars : List ICalCalendar) (config : BatchConfig) :
    List EventWithBlock :=
  let allEvents : List (ICalEvent × String) :=
    (calendars.map (fun cal =>
      (filterExcludedEvents cal.events config.excludePatterns).map (fun e => (e, cal.name)))).flatten
  let sortedEvents := sortEventsByDateDescending (allEvents.map (fun p => p.1))
  let eventCalendarMap := allEvents.foldl (fun m p => jsMapSet m p.1.uid p.2) []
  sortedEvents.map (fun e =>
    let calName := (jsMapGet eventCalendarMap e.uid).getD "Unknown"
    { event := e, calendarName := calName, block := buildEventBlock e calName config.titlePrefix })

/-- blocks.ts `writeBlocks`: prepare the desired events, write them in
batches grouped by page, then sweep obsolete pages. -/
def writeBlocks (pagePrefix : String) (calendars : List ICalCalendar) (config : BatchConfig)
    (s : Store) : Store × List Mutation :=
  let sortedEventsWithBlocks := desiredWithBlocks calendars config
  let t1 := processBatches pagePrefix (chunksOf config.batchSize sortedEventsWithBlocks) s
  let eventsByPage := groupByPage pagePrefix sortedEventsWithBlocks
  let t2 := cleanupObsoletePages pagePrefix eventsByPage t1.1
  (t2.1, t1.2 ++ t2.2)

/-- The page-write calls one run performs, in order: each batch grouped
by page. -/
def runCalls (pagePrefix : String) (k : Nat) (swb : List EventWithBlock) :
    List (String × List EventWithBlock) :=
  ((chunksOf k swb).map (groupByPage pagePrefix)).flatten

/-! ## Local (single-page) view of the page write

`writeBlocksToPage` reads and mutates — under a well-formed store —
only the target page's records.  The following pure functions mirror
its store operations on a single page tree together with the uid
counter; a localization theorem below connects them to the store-level
functions, and the reconciliation properties are proved on this view. -/

/-- `storeUpdate` restricted to one page tree. -/
def localUpdate (uid text : String) (tree : List RoamNode) : List RoamNode :=
  tree.map (fun r => ⟨if r.uid = uid then text else r.text, r.uid,
    r.children.map (fun c => if c.uid = uid then ⟨text, c.uid⟩ else c)⟩)

/-- `storeDelete` restricted to one page tree. -/
def localDelete (uid : String) (tree : List RoamNode) : List RoamNode :=
  (tree.filter (fun r => r.uid ≠ uid)).map
    (fun r => { r with children := r.children.filter (fun c => c.uid ≠ uid) })

/-- `storeCreateChild` restricted to one page tree. -/
def localAppendChild (parentUid : String) (node : PropNode) (tree : List RoamNode) :
    List RoamNode :=
  tree.map (fun r =>
    if r.uid = parentUid then { r with children := r.children ++ [node] } else r)

/-- `getChildrenOf` restricted to one page tree. -/
def localChildrenOf (tree : List RoamNode) (parentUid : String) : List PropNode :=
  match tree.find? (fun r => r.uid = parentUid) with
  | some r => r.children
  | none => []

/-- Local mirror of `syncChildrenGo` (tree and counter passed through). -/
def syncChildrenGoLocal (parentUid : String) :
    List PropPayload → List (String × PropNode) → List RoamNode → Nat →
      (List RoamNode × Nat) × List Mutation
  | [], _, tree, ctr => ((tree, ctr), [])
  | newChild :: rest, propsMap, tree, ctr =>
      match extractPropertyKey newChild.text with
      | some k =>
          match jsMapGet propsMap k with
          | some existing =>
              if existing.text ≠ newChild.text then
                let t := syncChildrenGoLocal parentUid rest (jsMapDelete propsMap k)
                  (localUpdate existing.uid newChild.text tree) ctr
                (t.1, Mutation.updateBlock existing.uid newChild.text :: t.2)
              else syncChildrenGoLocal parentUid rest (jsMapDelete propsMap k) tree ctr
          | none =>
              let t := syncChildrenGoLocal parentUid rest propsMap
                (localAppendChild parentUid ⟨newChild.text, genUid ctr⟩ tree) (ctr + 1)
              (t.1, Mutation.createChild parentUid newChild :: t.2)
      | none => syncChildrenGoLocal parentUid rest propsMap tree ctr

/-- Local mirror of `syncChildren`. -/
def syncChildrenLocal (parentUid : String) (newChildren : List PropPayload)
    (tree : List RoamNode) (ctr : Nat) : (List RoamNode × Nat) × List Mutation :=
  syncChildrenGoLocal parentUid newChildren (buildPropsMap (localChildrenOf tree parentUid))
    tree ctr

/-- Local mirror of `writeLoop` (the page name is carried only so the
trace matches the store-level one). -/
def writeLoopLocal (pageName : String) (blockMap : List (String × RoamNode)) :
    List BlockPayload → List String → List RoamNode → Nat →
      (List RoamNode × Nat) × List Mutation × List String
  | [], seen, tree, ctr => ((tree, ctr), [], seen)
  | block :: rest, seen, tree, ctr =>
      match extractICalIdFromBlock block with
      | none => writeLoopLocal pageName blockMap rest seen tree ctr
      | some icalId =>
          if icalId ∈ seen then writeLoopLocal pageName blockMap rest seen tree ctr
          else
            match jsMapGet blockMap icalId with
            | some existing =>
                let su :=
                  if existing.text ≠ block.text then
                    (localUpdate existing.uid block.text tree,
                     [Mutation.updateBlock existing.uid block.text])
                  else (tree, [])
                let tc := syncChildrenLocal existing.uid block.children su.1 ctr
                let tr := writeLoopLocal pageName blockMap rest (seen ++ [icalId]) tc.1.1 tc.1.2
                (tr.1, su.2 ++ tc.2 ++ tr.2.1, tr.2.2)
            | none =>
                let t := instantiateBlock ctr block
                let tr := writeLoopLocal pageName blockMap rest (seen ++ [icalId])
                  (tree ++ [t.1]) t.2
                (tr.1, Mutation.createRoot pageName block :: tr.2.1, tr.2.2)

/-- Local mirror of `removeObsoleteBlocks`. -/
def removeObsoleteLocal (blockMap : List (String × RoamNode)) (seenIds : List String)
    (tree : List RoamNode) : List RoamNode × List Mutation :=
  blockMap.foldl (fun acc entry =>
    if entry.1 ∈ seenIds then acc
    else (localDelete entry.2.uid acc.1, acc.2 ++ [Mutation.deleteBlock entry.2.uid]))
    (tree, [])

/-- Local mirror of `writeBlocksToPage` after the page exists: the final
page tree, the final counter, and the mutation trace. -/
def writePageLocal (pageName : String) (blocks : List BlockPayload) (tree : List RoamNode)
    (ctr : Nat) : (List RoamNode × Nat) × List Mutation :=
  let blockMap := buildBlockMap tree
  let t2 := writeLoopLocal pageName blockMap blocks [] tree ctr
  let t3 := removeObsoleteLocal blockMap t2.2.2 t2.1.1
  ((t3.1, t2.1.2), t2.2.1 ++ t3.2)

/-! ## Well-formedness -/

/-- The uids a record occupies: its own and its direct children's. -/
def nodeUids (r : RoamNode) : List String :=
  r.uid :: r.children.map (fun c => c.uid)

/-- All uids of a page tree. -/
def treeUids (tree : List RoamNode) : List String :=
  (tree.map nodeUids).flatten

/-- All uids in the store. -/
def storeUids (s : Store) : List String :=
  (s.pages.map (fun p => treeUids p.2)).flatten

/-- Store well-formedness: page titles are distinct, all uids are
distinct, and no stored uid collides with a uid the counter may still
generate. -/
def Store.WF (s : Store) : Prop :=
  (s.pages.map (fun p => p.1)).Nodup ∧ (storeUids s).Nodup ∧
    ∀ u ∈ storeUids s, ∀ k, s.counter ≤ k → u ≠ genUid k

/-- The recovered ids of a page's records, in order (records without a
recoverable id contribute nothing). -/
def treeIds (tree : List RoamNode) : List String :=
  tree.filterMap extractICalIdFromNode

/-- The ids of a desired block list, in order (blocks without an id
contribute nothing). -/
def blockIds (blocks : List BlockPayload) : List String :=
  blocks.filterMap extractICalIdFromBlock

/-- The property keys of a stored record's children, in order. -/
def nodeChildKeys (r : RoamNode) : List String :=
  r.children.filterMap (fun c => extractPropertyKey c.text)

/-- The property keys of a desired block's children, in order. -/
def blockChildKeys (b : BlockPayload) : List String :=
  b.children.filterMap (fun c => extractPropertyKey c.text)

/-- The truthy id a desired property child carries, if any. -/
def childTruthy (c : PropPayload) : Option String :=
  truthyId (extractICalId c.text)

/-- The truthy id a stored property child carries, if any. -/
def propTruthy (c : PropNode) : Option String :=
  truthyId (extractICalId c.text)

/-- A stored record in the shape this system writes: its children's
property keys are distinct, and any child carrying a truthy id is the
ical-id property itself. -/
def NodeOK (r : RoamNode) : Prop :=
  (nodeChildKeys r).Nodup ∧
    ∀ c ∈ r.children, propTruthy c ≠ none → extractPropertyKey c.text = some "ical-id"

/-- A desired block in the shape `buildEventBlock` produces: children
property keys are distinct, and if the root text carries no truthy id
then the first child is the keyed ical-id property carrying the block's
id while no later child carries any truthy id. -/
def BlockOK (b : BlockPayload) : Prop :=
  (blockChildKeys b).Nodup ∧
    (truthyId (extractICalId b.text) = none →
      ∃ c0 rest, b.children = c0 :: rest
        ∧ extractPropertyKey c0.text = some "ical-id"
        ∧ childTruthy c0 = extractICalIdFromBlock b
        ∧ ∀ c ∈ rest, childTruthy c = none)

/-- Replace one page's tree and set the counter (the shape every
store-level operation of a localized page write takes). -/
def setPage (s : Store) (P : String) (tree : List RoamNode) (ctr : Nat) : Store :=
  { pages := jsMapSet s.pages P tree, counter := ctr }

/-- The uids stored on pages other than `P`. -/
def pageOthers (s : Store) (P : String) : List String :=
  ((s.pages.filter (fun p => p.1 ≠ P)).map (fun p => treeUids p.2)).flatten

/-- `u` collides with no uid the counter can generate from `ctr` on. -/
def GenFresh (ctr : Nat) (u : String) : Prop :=
  ∀ k, ctr ≤ k → u ≠ genUid k

/-- The store invariant the page writes preserve: distinct page titles,
no uid stored on two different pages, and no stored uid colliding with a
uid the counter can still generate.  (A real Roam graph satisfies the
stronger `Store.WF`; this is the part the run maintains.) -/
def StoreOK (s : Store) : Prop :=
  (s.pages.map (fun p => p.1)).Nodup ∧
  (∀ P, ∀ u ∈ treeUids (getTree s P), u ∉ pageOthers s P) ∧
  (∀ u ∈ storeUids s, GenFresh s.counter u)

/-! ## Settledness of a page tree against a desired block list

The predicates below describe a page tree on which the reconciliation
loop has nothing left to do; a write on a well-formed tree produces a
settled tree, and a write on a settled tree issues no mutations. -/

/-- Replace the record carrying uid `u` (all of them, matching the
store-level update shape). -/
def replaceByUid (tree : List RoamNode) (u : String) (r₂ : RoamNode) : List RoamNode :=
  tree.map (fun q => if q.uid = u then r₂ else q)

/-- The uids `genUid` produces starting at `a`, `n` of them. -/
def gensFrom : Nat → Nat → List String
  | _, 0 => []
  | a, n + 1 => genUid a :: gensFrom (a + 1) n

/-- One child after a `syncChildren` text update targeting uid `puid`. -/
def updChild (puid txt : String) (c : PropNode) : PropNode :=
  if c.uid = puid then ⟨txt, c.uid⟩ else c

/-- A record after a `syncChildren` text update of its child `puid`. -/
def updRec (r : RoamNode) (puid txt : String) : RoamNode :=
  ⟨r.text, r.uid, r.children.map (updChild puid txt)⟩

/-- A record after a `syncChildren` child creation. -/
def appRec (r : RoamNode) (node : PropNode) : RoamNode :=
  ⟨r.text, r.uid, r.children ++ [node]⟩

/-- How a final child of a synced record relates to the corresponding
original child: same uid, and either the original text or the text of a
matching desired child. -/
def SyncRel (cs : List PropPayload) (p q : PropNode) : Prop :=
  p.uid = q.uid ∧ (p.text = q.text ∨
    ∃ c ∈ cs, extractPropertyKey c.text = extractPropertyKey q.text ∧ p.text = c.text)

/-- First-occurrence deduplication, seeded with an already-seen list:
the order in which the write loop accumulates its seen-id list. -/
def dedupAux (seen : List String) : List String → List String
  | [] => seen
  | x :: rest => if x ∈ seen then dedupAux seen rest else dedupAux (seen ++ [x]) rest

/-- The first desired block carrying id `x`. -/
def firstWithId (x : String) (blocks : List BlockPayload) : Option BlockPayload :=
  blocks.find? (fun b => extractICalIdFromBlock b = some x)

/-- Every keyed desired child of `b` is matched, with equal text, by the
property map of the children of the record carrying uid `u` in `tree`:
`syncChildren` run against that record issues nothing. -/
def PropsSettledIn (tree : List RoamNode) (u : String) (b : BlockPayload) : Prop :=
  ∀ c ∈ b.children, ∀ k, extractPropertyKey c.text = some k →
    ∃ p, jsMapGet (buildPropsMap (localChildrenOf tree u)) k = some p ∧ p.text = c.text

/-- The record the block map recovers for id `x` already realises the
desired block `b`. -/
def SettledFor (tree : List RoamNode) (x : String) (b : BlockPayload) : Prop :=
  ∃ r, jsMapGet (buildBlockMap tree) x = some r ∧ r.text = b.text ∧
    (blockChildKeys b).Nodup ∧ PropsSettledIn tree r.uid b

/-- Some record of the tree realises the desired block `b` under id `x`
(the loop-invariant form of `SettledFor`, independent of the block map). -/
def SettledRec (tree : List RoamNode) (x : String) (b : BlockPayload) : Prop :=
  ∃ r ∈ tree, extractICalIdFromNode r = some x ∧ r.text = b.text ∧
    (blockChildKeys b).Nodup ∧ PropsSettledIn tree r.uid b

/-- A tree on which a page write for `blocks` is a no-op: every first
occurrence of a desired id is realised, and every recoverable id of the
tree is a desired id. -/
def TreeSettled (tree : List RoamNode) (blocks : List BlockPayload) : Prop :=
  (∀ x b, firstWithId x blocks = some b → SettledFor tree x b) ∧
  (∀ x ∈ (buildBlockMap tree).map Prod.fst, x ∈ blockIds blocks)

/-- No character of `s` is a line terminator (the shape safe event field
values have; a terminator inside a value can smuggle an `ical-id::` line
into a property block). -/
def LineFree (s : String) : Prop :=
  ∀ c ∈ s.data, isLineTerminator c = false

/-- An event whose text-carrying fields cannot inject line structure into
the property blocks built from them. -/
def EventLineFree (e : ICalEvent) : Prop :=
  LineFree (safeText e.description) ∧ LineFree (safeText e.location) ∧
    LineFree e.url ∧ ∀ m, e.meetingUrl = some m → LineFree m

/-! ## Feed client (ical.ts `fetchWithCorsProxy`) -/

/-- ical.ts `CalendarCacheEntry`. -/
structure CalendarCacheEntry where
  url : String
  etag : Option String
  lastModified : Option String
  contentHash : String
  lastFetched : Int
deriving DecidableEq

/-- The response the proxy fetch resolves with, as far as the client
reads it: status, body text and the two caching headers. -/
structure HttpResponse where
  status : Nat
  body : String
  etag : Option String
  lastModified : Option String
deriving DecidableEq

/-- `Response.ok`. -/
def responseOk (r : HttpResponse) : Bool :=
  decide (200 ≤ r.status ∧ r.status ≤ 299)

/-- ical.ts `IncrementalFetchResult`. -/
structure IncrementalFetchResult where
  content : String
  changed : Bool
  cached : Bool
  etag : Option String
  lastModified : Option String
deriving DecidableEq

/-- The conditional headers `fetchWithCorsProxy` attaches to the request
(ignored by an origin without conditional support; recorded for
fidelity). -/
def conditionalHeaders (forceRefresh : Bool) (cacheEntry : Option CalendarCacheEntry) :
    List (String × String) :=
  match cacheEntry with
  | none => []
  | some e =>
      if forceRefresh then []
      else
        (match e.etag with | some t => [("If-None-Match", t)] | none => [])
        ++ (match e.lastModified with | some lm => [("If-Modified-Since", lm)] | none => [])

/-- ical.ts `fetchWithCorsProxy`, given the cache entry for the url and
the response the proxy produced (`now` is `Date.now()`): a 304 with a
cache entry short-circuits; a non-ok status throws; otherwise the body
is hashed and compared against the stored hash, and the cache entry is
replaced. -/
def fetchWithCorsProxy (url : String) (cacheEntry : Option CalendarCacheEntry)
    (response : HttpResponse) (now : Int) :
    Except String (IncrementalFetchResult × CalendarCacheEntry) :=
  if response.status = 304 ∧ cacheEntry.isSome then
    match cacheEntry with
    | some e =>
        Except.ok ({ content := "", changed := false, cached := true,
                     etag := e.etag, lastModified := e.lastModified },
                   { e with lastFetched := now })
    | none => Except.error "unreachable"
  else if responseOk response then
    let contentHash := hashContent response.body
    let contentChanged :=
      match cacheEntry with
      | none => true
      | some e => decide (e.contentHash ≠ contentHash)
    Except.ok ({ content := response.body, changed := contentChanged, cached := false,
                 etag := response.etag, lastModified := response.lastModified },
               { url := url, etag := response.etag, lastModified := response.lastModified,
                 contentHash := contentHash, lastFetched := now })
  else Except.error ("HTTP " ++ toString response.status)

/-! ## The sync entry point and its guard (main.ts `syncCalendars`) -/

/-- How one invocation of `syncCalendars` plays out, flattened over the
await points of a single-threaded event loop: settings reading can
throw (before the guard is taken), and the fetch or the write phase
inside the try block can fail. -/
inductive RunScenario where
  | settingsThrow
  | fetchFails
  | writeFails
  | allOk
deriving DecidableEq

/-- The observable outcome of one `syncCalendars` invocation. -/
inductive SyncOutcome where
  | rejectedInProgress
  | threwInSettings
  | rejectedNoCalendars
  | completedWithError
  | completedOk
deriving DecidableEq

/-- The externally visible work of one invocation (status messages are
UI only and not store work). -/
inductive SyncAction where
  | fetchCalendars
  | writeStore
deriving DecidableEq

/-- main.ts `syncCalendars`: the guard check, the settings read, the
empty-calendar check, then guard set, try body, and the finally that
releases the guard.  The state is the module-level `syncInProgress`
boolean; the result records the new guard value, the outcome and the
fetch/store work performed. -/
def syncCalendars (syncInProgress : Bool) (calendarCount : Nat) (scenario : RunScenario) :
    Bool × SyncOutcome × List SyncAction :=
  if syncInProgress then (syncInProgress, SyncOutcome.rejectedInProgress, [])
  else
    match scenario with
    | RunScenario.settingsThrow => (syncInProgress, SyncOutcome.threwInSettings, [])
    | sc =>
        if calendarCount = 0 then (syncInProgress, SyncOutcome.rejectedNoCalendars, [])
        else
          match sc with
          | RunScenario.fetchFails => (false, SyncOutcome.completedWithError,
              [SyncAction.fetchCalendars])
          | RunScenario.writeFails => (false, SyncOutcome.completedWithError,
              [SyncAction.fetchCalendars, SyncAction.writeStore])
          | _ => (false, SyncOutcome.completedOk,
              [SyncAction.fetchCalendars, SyncAction.writeStore])

/-- Decidable event-level well-formedness under which `buildEventBlock`
produces a well-shaped block: the block's root text carries no truthy
id, the generated ical-id property line recovers exactly the event's
uid, and every other generated property value is free of line
terminators. -/
def EventSafe (e : ICalEvent) (cal tp : String) : Prop :=
  truthyId (extractICalId (buildEventBlock e cal tp).text) = none ∧
  childTruthy (createPropertyBlock "ical-id" e.uid) = some e.uid ∧
  LineFree (safeText e.description) ∧ LineFree (safeText e.location) ∧
  LineFree e.url ∧ LineFree (e.meetingUrl.getD "") ∧
  LineFree ((e.dtend.map formatRoamDate).getD "")

/-- A record whose uids appear nowhere else on the page and collide with
no uid the counter can still generate: reconciliation can neither
rewrite nor delete any part of it.  The invariant every page operation
of a run preserves for an id-less record. -/
def Untouched (r : RoamNode) (tree : List RoamNode) (ctr : Nat) : Prop :=
  r ∈ tree ∧ (∀ q ∈ tree, ∀ u ∈ nodeUids q, u ∈ nodeUids r → q = r) ∧
    ∀ u ∈ nodeUids r, GenFresh ctr u

instance (s : String) : Decidable (LineFree s) :=
  inferInstanceAs (Decidable (∀ c ∈ s.data, isLineTerminator c = false))

instance (e : ICalEvent) (cal tp : String) : Decidable (EventSafe e cal tp) :=
  inferInstanceAs (Decidable (_ ∧ _ ∧ _ ∧ _ ∧ _ ∧ _ ∧ _))

instance (r : RoamNode) : Decidable (NodeOK r) :=
  inferInstanceAs (Decidable (_ ∧ ∀ c ∈ r.children, _ → _))

end RoamIcal

namespace RoamIcal

/-!
# Theorems

Each claim of the specification review is settled by one named theorem
below (with a witness for theorems that carry hypotheses, and a
counterexample where the claim as stated fails on the code).
-/

/-- Claim C7 (confirmed): the date-range filter keeps an event iff its
effective date (start time if present, else end time) exists and lies in
the half-open window from `startOfToday - daysPast` days (inclusive) to
`startOfToday + daysFuture + 1` days (exclusive); an event with neither
start nor end time is always excluded. -/
theorem c7_date_range_filter (e : ICalEvent) (config : DateRangeConfig) (startOfToday : Int)
    (events : List ICalEvent) :
    (isEventInDateRange e config startOfToday = true ↔
      specDateWindowKeeps e config startOfToday)
    ∧ (e.dtstart = none → e.dtend = none → isEventInDateRange e config startOfToday = false)
    ∧ (e ∈ filterEventsByDateRange events config startOfToday ↔
        e ∈ events ∧ isEventInDateRange e config startOfToday = true) := by
  refine ⟨?_, ?_, ?_⟩
  · unfold isEventInDateRange specDateWindowKeeps
    cases hs : e.dtstart with
    | some x => simp
    | none =>
        cases he : e.dtend with
        | some y => simp
        | none => simp
  · intro h1 h2
    unfold isEventInDateRange
    rw [h1, h2]
  · unfold filterEventsByDateRange
    simp [List.mem_filter]

/-- Claim C9 (confirmed): a sync request arriving while the module-level
guard is set is rejected — the invocation returns with the state
unchanged, outcome rejected-in-progress, and no fetch or store work —
and any invocation that starts with the guard clear ends with the guard
clear again, whichever way it completes. -/
theorem c9_sync_guard (g : Bool) (n : Nat) (sc : RunScenario) :
    (g = true → syncCalendars g n sc = (true, SyncOutcome.rejectedInProgress, []))
    ∧ (g = false → (syncCalendars g n sc).1 = false) := by
  constructor
  · intro hg
    subst hg
    rfl
  · intro hg
    subst hg
    cases sc <;> simp [syncCalendars] <;> by_cases hn : n = 0 <;> simp [hn]

/-- Witness for C9 at concrete inputs. -/
theorem c9_sync_guard_witness :
    syncCalendars true 1 RunScenario.allOk = (true, SyncOutcome.rejectedInProgress, [])
    ∧ (syncCalendars false 1 RunScenario.fetchFails).1 = false :=
  ⟨(c9_sync_guard true 1 RunScenario.allOk).1 rfl,
   (c9_sync_guard false 1 RunScenario.fetchFails).2 rfl⟩

/-- Claim C8 (confirmed): with a cache entry recorded by a first full
fetch, a second full (non-304) successful response whose body hashes to
the stored content hash yields `changed = false`, even with no
conditional-caching support from the origin. -/
theorem c8_content_hash_unchanged (url : String) (r1 r2 : HttpResponse) (t1 t2 : Int)
    (h1 : responseOk r1 = true) (h2 : responseOk r2 = true) (h2n : r2.status ≠ 304)
    (hh : hashContent r2.body = hashContent r1.body) :
    ∃ c1, fetchWithCorsProxy url none r1 t1 = Except.ok c1 ∧
      ∃ c2, fetchWithCorsProxy url (some c1.2) r2 t2 = Except.ok c2 ∧
        c2.1.changed = false := by
  have e1 : fetchWithCorsProxy url none r1 t1 = Except.ok
      ({ content := r1.body, changed := true, cached := false,
         etag := r1.etag, lastModified := r1.lastModified },
       { url := url, etag := r1.etag, lastModified := r1.lastModified,
         contentHash := hashContent r1.body, lastFetched := t1 }) := by
    unfold fetchWithCorsProxy
    simp [h1]
  have e2 : fetchWithCorsProxy url
      (some { url := url, etag := r1.etag, lastModified := r1.lastModified,
              contentHash := hashContent r1.body, lastFetched := t1 }) r2 t2 = Except.ok
      ({ content := r2.body, changed := false, cached := false,
         etag := r2.etag, lastModified := r2.lastModified },
       { url := url, etag := r2.etag, lastModified := r2.lastModified,
         contentHash := hashContent r2.body, lastFetched := t2 }) := by
    unfold fetchWithCorsProxy
    simp [h2, h2n, hh]
  exact ⟨_, e1, _, e2, rfl⟩

/-- Witness for C8 at concrete inputs (two identical 200 responses). -/
theorem c8_content_hash_unchanged_witness :
    responseOk ⟨200, "VCALENDAR", none, none⟩ = true
    ∧ (200 : Nat) ≠ 304
    ∧ hashContent (HttpResponse.body ⟨200, "VCALENDAR", none, none⟩) =
        hashContent (HttpResponse.body ⟨200, "VCALENDAR", none, none⟩)
    ∧ ∃ c1, fetchWithCorsProxy "u" none ⟨200, "VCALENDAR", none, none⟩ 0 = Except.ok c1 ∧
        ∃ c2, fetchWithCorsProxy "u" (some c1.2) ⟨200, "VCALENDAR", none, none⟩ 1 = Except.ok c2 ∧
          c2.1.changed = false :=
  ⟨by decide, by decide, rfl,
   c8_content_hash_unchanged "u" ⟨200, "VCALENDAR", none, none⟩ ⟨200, "VCALENDAR", none, none⟩
     0 1 (by decide) (by decide) (by decide) rfl⟩

/-- Counterexample for claim C6: with the non-empty list holding the
valid pattern `^$` (matching exactly the empty string) and an input
event with an empty title, the event stays in the filtered output even
though its title matches the pattern — the filter never excludes
falsy (empty) titles. -/
theorem c6_counterexample :
    (fun t : String => t.isEmpty) "" = true
    ∧ filterExcludedEvents [⟨"a", "", "", none, none, "", "", none⟩]
        [fun t : String => t.isEmpty] = [⟨"a", "", "", none, none, "", "", none⟩] := by
  constructor
  · rfl
  · rfl

/-- Claim C6 (corrected): for a non-empty pattern list, every event in
the output with a non-empty title matches none of the patterns (an
empty-titled event is never excluded, whatever it matches), and every
input event missing from the output has a non-empty title matching at
least one pattern. -/
theorem c6_title_exclusion (events : List ICalEvent) (ps : List ExcludePattern)
    (hps : ps ≠ []) :
    (∀ e ∈ filterExcludedEvents events ps, e.summary ≠ "" → ∀ p ∈ ps, p e.summary = false)
    ∧ (∀ e ∈ events, e ∉ filterExcludedEvents events ps →
        e.summary ≠ "" ∧ ∃ p ∈ ps, p e.summary = true) := by
  have hempty : ps.isEmpty = false := by
    cases ps with
    | nil => exact absurd rfl hps
    | cons a l => rfl
  constructor
  · intro e he ht p hp
    unfold filterExcludedEvents at he
    rw [hempty] at he
    simp only [Bool.false_eq_true, if_false, List.mem_filter] at he
    have hx := he.2
    unfold shouldExcludeEvent at hx
    rw [hempty] at hx
    simp only [ht, false_or, or_false, if_false] at hx
    simp only [decide_not, Bool.not_eq_true', decide_eq_false_iff_not] at hx
    by_contra hcon
    exact hx (List.any_eq_true.mpr ⟨p, hp, by simp at hcon ⊢; exact hcon⟩)
  · intro e he hne
    unfold filterExcludedEvents at hne
    rw [hempty] at hne
    simp only [Bool.false_eq_true, if_false, List.mem_filter, not_and] at hne
    have hx := hne he
    unfold shouldExcludeEvent at hx
    rw [hempty] at hx
    by_cases ht : e.summary = ""
    · simp [ht] at hx
    · simp only [ht, false_or, or_false, if_false] at hx
      simp only [decide_not, Bool.not_eq_true', decide_eq_false_iff_not, not_not] at hx
      rcases List.any_eq_true.mp hx with ⟨p, hp, hpt⟩
      exact ⟨ht, p, hp, hpt⟩

/-- Witness for C6 at concrete inputs. -/
theorem c6_title_exclusion_witness :
    ([fun t : String => t = "Busy"] : List ExcludePattern) ≠ []
    ∧ ((∀ e ∈ filterExcludedEvents [⟨"a", "Busy", "", none, none, "", "", none⟩]
          [fun t : String => t = "Busy"], e.summary ≠ "" →
            ∀ p ∈ ([fun t : String => t = "Busy"] : List ExcludePattern), p e.summary = false)
        ∧ (∀ e ∈ [(⟨"a", "Busy", "", none, none, "", "", none⟩ : ICalEvent)],
            e ∉ filterExcludedEvents [⟨"a", "Busy", "", none, none, "", "", none⟩]
              [fun t : String => t = "Busy"] →
              e.summary ≠ "" ∧ ∃ p ∈ ([fun t : String => t = "Busy"] : List ExcludePattern),
                p e.summary = true)) :=
  ⟨by simp,
   c6_title_exclusion [⟨"a", "Busy", "", none, none, "", "", none⟩]
     [fun t : String => t = "Busy"] (by simp)⟩

/-- Claim C10 (confirmed): when an event has no start instant, the
headline written for it carries the literal text
double-bracket No date double-bracket in the date slot. -/
theorem c10_no_date_headline (e : ICalEvent) (cal tp : String) (h : e.dtstart = none) :
    ∃ pre post : List Char,
      (buildEventBlock e cal tp).text.data = pre ++ "[[No date]]".data ++ post := by
  unfold buildEventBlock
  rw [h]
  by_cases hc : tp ≠ "" ∧ jsTrim tp ≠ ""
  · refine ⟨(jsTrim tp).data ++ " ".data, (" " ++
      (if safeText e.summary = "" then "Untitled event" else safeText e.summary) ++ " #" ++
        sanitizeTagName cal).data, ?_⟩
    simp [hc]
  · refine ⟨[], (" " ++
      (if safeText e.summary = "" then "Untitled event" else safeText e.summary) ++ " #" ++
        sanitizeTagName cal).data, ?_⟩
    simp [hc]

/-- Counterexample for claim C1: on a target page holding two
pre-existing records that both recover the same stale ical-id "x" (not
desired at that page, whose only desired identity is "a"), the run
deletes only the record the id map retained (the later one, uid u2) —
the earlier record survives the run undeleted. -/
theorem c1_counterexample :
    extractICalIdFromNode ⟨"old1", "u1", [⟨"ical-id:: x", "cu1"⟩]⟩ = some "x"
    ∧ ("x" : String) ≠ "a"
    ∧ (⟨"old1", "u1", [⟨"ical-id:: x", "cu1"⟩]⟩ : RoamNode) ∈
        getTree
          (writeBlocks "ical" [⟨"work", [⟨"a", "Standup", "", none, none, "", "", none⟩]⟩]
            ⟨50, 500, [], "#gcal"⟩
            ⟨[(resolveEventPageName ⟨"a", "Standup", "", none, none, "", "", none⟩ "work" "ical",
               [⟨"old1", "u1", [⟨"ical-id:: x", "cu1"⟩]⟩,
                ⟨"old2", "u2", [⟨"ical-id:: x", "cu2"⟩]⟩])], 0⟩).1
          (resolveEventPageName ⟨"a", "Standup", "", none, none, "", "", none⟩ "work" "ical")
    ∧ ¬ (∃ n ∈ getTree
          (writeBlocks "ical" [⟨"work", [⟨"a", "Standup", "", none, none, "", "", none⟩]⟩]
            ⟨50, 500, [], "#gcal"⟩
            ⟨[(resolveEventPageName ⟨"a", "Standup", "", none, none, "", "", none⟩ "work" "ical",
               [⟨"old1", "u1", [⟨"ical-id:: x", "cu1"⟩]⟩,
                ⟨"old2", "u2", [⟨"ical-id:: x", "cu2"⟩]⟩])], 0⟩).1
          (resolveEventPageName ⟨"a", "Standup", "", none, none, "", "", none⟩ "work" "ical"),
          n.uid = "u2") := by
  decide

/-- Counterexample for claim C2: with batch size 1, two desired events
sharing uid "a" but with different titles land on the same target page
in different batches; the second run (on the store the first run
produced) still issues a mutation, because each batch-level page write
rewrites the record to its own occurrence. -/
theorem c2_counterexample :
    (writeBlocks "ical"
      [⟨"work", [⟨"a", "S1", "", none, none, "", "", none⟩,
                 ⟨"a", "S2", "", none, none, "", "", none⟩]⟩]
      ⟨1, 500, [], "#gcal"⟩
      (writeBlocks "ical"
        [⟨"work", [⟨"a", "S1", "", none, none, "", "", none⟩,
                   ⟨"a", "S2", "", none, none, "", "", none⟩]⟩]
        ⟨1, 500, [], "#gcal"⟩ ⟨[], 0⟩).1).2 ≠ [] := by
  decide

/-- Counterexample for claim C4: a stored page under the configured
path root that is no current target page keeps a record whose ical-id
"a" is desired at a different location — the sweep skips every id in
the run's global desired set instead of deleting all records of the
obsolete page. -/
theorem c4_counterexample :
    "ical/work/old" ≠
      resolveEventPageName ⟨"a", "Standup", "", none, none, "", "", none⟩ "home" "ical"
    ∧ (("ical/" : String).data.isPrefixOf ("ical/work/old" : String).data) = true
    ∧ (⟨"stale", "w1", [⟨"ical-id:: a", "wc1"⟩]⟩ : RoamNode) ∈
        getTree
          (writeBlocks "ical" [⟨"home", [⟨"a", "Standup", "", none, none, "", "", none⟩]⟩]
            ⟨50, 500, [], "#gcal"⟩
            ⟨[("ical/work/old", [⟨"stale", "w1", [⟨"ical-id:: a", "wc1"⟩]⟩])], 0⟩).1
          "ical/work/old" := by
  decide

/-- Counterexample for claim C5: a pre-existing root record with no
recoverable ical-id on a target page is not deleted by the run — it is
invisible to the stale sweep, which only iterates records with
recoverable ids. -/
theorem c5_counterexample :
    extractICalIdFromNode ⟨"just some note", "n1", []⟩ = none
    ∧ (⟨"just some note", "n1", []⟩ : RoamNode) ∈
        getTree
          (writeBlocks "ical" [⟨"work", [⟨"a", "Standup", "", none, none, "", "", none⟩]⟩]
            ⟨50, 500, [], "#gcal"⟩
            ⟨[(resolveEventPageName ⟨"a", "Standup", "", none, none, "", "", none⟩ "work" "ical",
               [⟨"just some note", "n1", []⟩])], 0⟩).1
          (resolveEventPageName ⟨"a", "Standup", "", none, none, "", "", none⟩ "work" "ical") := by
  decide

/-! ### Infrastructure: JavaScript map semantics -/

theorem map_replace_eq_of_not_any {α : Type} (m : List (String × α)) (k : String) (v : α)
    (h : m.any (fun p => p.1 = k) = false) :
    m.map (fun p => if p.1 = k then (k, v) else p) = m := by
  induction m with
  | nil => rfl
  | cons a l ih =>
      simp only [List.any_cons, Bool.or_eq_false_iff] at h
      simp only [List.map_cons]
      rw [if_neg (by simpa using h.1), ih h.2]

theorem jsMapGet_set_self {α : Type} : ∀ (m : List (String × α)) (k : String) (v : α),
    jsMapGet (jsMapSet m k v) k = some v
  | [], k, v => by
      unfold jsMapSet jsMapGet
      simp
  | a :: l, k, v => by
      by_cases ha : a.1 = k
      · unfold jsMapSet
        rw [if_pos (by simp [List.any_cons, ha])]
        unfold jsMapGet
        simp only [List.map_cons, if_pos ha]
        rw [List.find?_cons_of_pos _ (by simp)]
        rfl
      · by_cases hl : l.any (fun p => p.1 = k)
        · unfold jsMapSet
          rw [if_pos (by simp only [List.any_cons]; rw [hl]; simp)]
          unfold jsMapGet
          simp only [List.map_cons, if_neg ha]
          rw [List.find?_cons_of_neg _ (by simpa using ha)]
          have h2 := jsMapGet_set_self l k v
          unfold jsMapSet at h2
          rw [if_pos hl] at h2
          unfold jsMapGet at h2
          exact h2
        · unfold jsMapSet
          rw [if_neg (by simp only [List.any_cons, Bool.or_eq_true, not_or]; exact ⟨by simpa using ha, hl⟩)]
          unfold jsMapGet
          rw [List.cons_append, List.find?_cons_of_neg _ (by simpa using ha)]
          have h2 := jsMapGet_set_self l k v
          unfold jsMapSet at h2
          rw [if_neg hl] at h2
          unfold jsMapGet at h2
          exact h2

theorem jsMapGet_set_ne {α : Type} : ∀ (m : List (String × α)) (k : String) (v : α)
    (q : String), q ≠ k → jsMapGet (jsMapSet m k v) q = jsMapGet m q
  | [], k, v, q, hq => by
      unfold jsMapSet jsMapGet
      rw [if_neg (by simp), List.nil_append,
          List.find?_cons_of_neg _ (by simpa using fun h => hq h.symm)]
  | a :: l, k, v, q, hq => by
      by_cases haq : a.1 = q
      · have hak : ¬ a.1 = k := by rw [haq]; exact hq
        unfold jsMapSet
        by_cases hl : l.any (fun p => p.1 = k)
        · rw [if_pos (by simp only [List.any_cons]; rw [hl]; simp)]
          unfold jsMapGet
          simp only [List.map_cons, if_neg hak]
          rw [List.find?_cons_of_pos _ (by simpa using haq),
              List.find?_cons_of_pos _ (by simpa using haq)]
        · rw [if_neg (by simp only [List.any_cons, Bool.or_eq_true, not_or]; exact ⟨by simpa using hak, hl⟩)]
          unfold jsMapGet
          rw [List.cons_append, List.find?_cons_of_pos _ (by simpa using haq),
              List.find?_cons_of_pos _ (by simpa using haq)]
      · unfold jsMapSet
        by_cases ha : a.1 = k
        · rw [if_pos (by simp [List.any_cons, ha])]
          unfold jsMapGet
          simp only [List.map_cons, if_pos ha]
          rw [List.find?_cons_of_neg _ (by simpa using fun h => hq h.symm),
              List.find?_cons_of_neg _ (by simpa using haq)]
          by_cases hl : l.any (fun p => p.1 = k)
          · have h2 := jsMapGet_set_ne l k v q hq
            unfold jsMapSet at h2
            rw [if_pos hl] at h2
            unfold jsMapGet at h2
            exact h2
          · rw [map_replace_eq_of_not_any l k v (Bool.eq_false_iff.mpr hl)]
        · by_cases hl : l.any (fun p => p.1 = k)
          · rw [if_pos (by simp only [List.any_cons]; rw [hl]; simp)]
            unfold jsMapGet
            simp only [List.map_cons, if_neg ha]
            rw [List.find?_cons_of_neg _ (by simpa using haq),
                List.find?_cons_of_neg _ (by simpa using haq)]
            have h2 := jsMapGet_set_ne l k v q hq
            unfold jsMapSet at h2
            rw [if_pos hl] at h2
            unfold jsMapGet at h2
            exact h2
          · rw [if_neg (by simp only [List.any_cons, Bool.or_eq_true, not_or]; exact ⟨by simpa using ha, hl⟩)]
            unfold jsMapGet
            rw [List.cons_append, List.find?_cons_of_neg _ (by simpa using haq),
                List.find?_cons_of_neg _ (by simpa using haq)]
            have h2 := jsMapGet_set_ne l k v q hq
            unfold jsMapSet at h2
            rw [if_neg hl] at h2
            unfold jsMapGet at h2
            exact h2

theorem jsMapSet_filter_ne {α : Type} : ∀ (m : List (String × α)) (k : String) (v : α),
    (jsMapSet m k v).filter (fun p => p.1 ≠ k) = m.filter (fun p => p.1 ≠ k)
  | [], k, v => by
      unfold jsMapSet
      rw [if_neg (by simp)]
      simp
  | a :: l, k, v => by
      unfold jsMapSet
      by_cases ha : a.1 = k
      · rw [if_pos (by simp [List.any_cons, ha])]
        simp only [List.map_cons, if_pos ha]
        rw [List.filter_cons, List.filter_cons]
        rw [if_neg (by simp), if_neg (by simp [ha])]
        by_cases hl : l.any (fun p => p.1 = k)
        · have h2 := jsMapSet_filter_ne l k v
          unfold jsMapSet at h2
          rw [if_pos hl] at h2
          exact h2
        · rw [map_replace_eq_of_not_any l k v (Bool.eq_false_iff.mpr hl)]
      · by_cases hl : l.any (fun p => p.1 = k)
        · rw [if_pos (by simp only [List.any_cons]; rw [hl]; simp)]
          simp only [List.map_cons, if_neg ha]
          rw [List.filter_cons, List.filter_cons]
          rw [if_pos (by simp [ha]), if_pos (by simp [ha])]
          have h2 := jsMapSet_filter_ne l k v
          unfold jsMapSet at h2
          rw [if_pos hl] at h2
          rw [h2]
        · rw [if_neg (by simp only [List.any_cons, Bool.or_eq_true, not_or]; exact ⟨by simpa using ha, hl⟩)]
          rw [List.filter_append]
          simp

theorem jsMapSet_set {α : Type} (m : List (String × α)) (k : String) (v1 v2 : α) :
    jsMapSet (jsMapSet m k v1) k v2 = jsMapSet m k v2 := by
  unfold jsMapSet
  by_cases h : m.any (fun p => p.1 = k)
  · rw [if_pos h]
    have hany : ((m.map (fun p => if p.1 = k then (k, v1) else p)).any
        (fun p => p.1 = k)) = true := by
      rw [List.any_map]
      rcases List.any_eq_true.mp h with ⟨p, hp, hpk⟩
      refine List.any_eq_true.mpr ⟨p, hp, ?_⟩
      have hpk2 : p.1 = k := by simpa using hpk
      simp [Function.comp, hpk2]
    rw [if_pos hany, if_pos h, List.map_map]
    apply List.map_congr_left
    intro p hp
    simp only [Function.comp]
    by_cases hpk : p.1 = k <;> simp [hpk]
  · rw [if_neg h]
    have hany : ((m ++ [(k, v1)]).any (fun p => p.1 = k)) = true := by simp
    rw [if_pos hany, if_neg h, List.map_append,
        map_replace_eq_of_not_any m k v2 (Bool.eq_false_iff.mpr h)]
    simp

/-! ### Infrastructure: setPage and pageOthers -/

theorem getPage_setPage (s : Store) (P : String) (t : List RoamNode) (c : Nat) :
    getPage (setPage s P t c) P = some t := by
  unfold getPage setPage
  exact jsMapGet_set_self s.pages P t

theorem getPage_setPage_ne (s : Store) (P Q : String) (t : List RoamNode) (c : Nat)
    (h : Q ≠ P) : getPage (setPage s P t c) Q = getPage s Q := by
  unfold getPage setPage
  exact jsMapGet_set_ne s.pages P t Q h

theorem setPage_setPage (s : Store) (P : String) (t1 t2 : List RoamNode) (c1 c2 : Nat) :
    setPage (setPage s P t1 c1) P t2 c2 = setPage s P t2 c2 := by
  unfold setPage
  simp [jsMapSet_set]

theorem pageOthers_setPage (s : Store) (P : String) (t : List RoamNode) (c : Nat) :
    pageOthers (setPage s P t c) P = pageOthers s P := by
  unfold pageOthers setPage
  rw [jsMapSet_filter_ne]

theorem mem_pageOthers (s : Store) (P : String) (u : String) :
    u ∈ pageOthers s P ↔ ∃ pg ∈ s.pages, pg.1 ≠ P ∧ u ∈ treeUids pg.2 := by
  unfold pageOthers
  simp only [List.mem_flatten, List.mem_map, List.mem_filter]
  constructor
  · rintro ⟨l, ⟨pg, ⟨hpg, hne⟩, rfl⟩, hu⟩
    exact ⟨pg, hpg, by simpa using hne, hu⟩
  · rintro ⟨pg, hpg, hne, hu⟩
    exact ⟨treeUids pg.2, ⟨pg, ⟨hpg, by simpa using hne⟩, rfl⟩, hu⟩

/-! ### Infrastructure: trees and uids -/

theorem map_eq_self_of {α : Type} (l : List α) (f : α → α) (h : ∀ a ∈ l, f a = a) :
    l.map f = l := by
  induction l with
  | nil => rfl
  | cons a t ih =>
      rw [List.map_cons, h a (List.mem_cons_self a t),
          ih (fun b hb => h b (List.mem_cons_of_mem a hb))]

theorem treeUids_cons (r : RoamNode) (rest : List RoamNode) :
    treeUids (r :: rest) = nodeUids r ++ treeUids rest := by
  simp [treeUids]

theorem treeUids_append (t1 t2 : List RoamNode) :
    treeUids (t1 ++ t2) = treeUids t1 ++ treeUids t2 := by
  simp [treeUids]

theorem uid_mem_nodeUids (r : RoamNode) : r.uid ∈ nodeUids r := by
  simp [nodeUids]

theorem child_uid_mem_nodeUids (r : RoamNode) (c : PropNode) (hc : c ∈ r.children) :
    c.uid ∈ nodeUids r := by
  unfold nodeUids
  exact List.mem_cons_of_mem _ (List.mem_map_of_mem _ hc)

theorem mem_treeUids_of_mem (t : List RoamNode) (r : RoamNode) (hr : r ∈ t) (u : String)
    (hu : u ∈ nodeUids r) : u ∈ treeUids t := by
  unfold treeUids
  exact List.mem_flatten.mpr ⟨nodeUids r, List.mem_map_of_mem _ hr, hu⟩

theorem localUpdate_eq_of_not_mem (uid txt : String) (t : List RoamNode)
    (h : uid ∉ treeUids t) : localUpdate uid txt t = t := by
  unfold localUpdate
  apply map_eq_self_of
  intro r hr
  have hruid : ¬ r.uid = uid := fun e =>
    h (mem_treeUids_of_mem t r hr uid (by rw [← e]; exact uid_mem_nodeUids r))
  rw [if_neg hruid]
  have hch : r.children.map (fun c => if c.uid = uid then (⟨txt, c.uid⟩ : PropNode) else c)
      = r.children := by
    apply map_eq_self_of
    intro c hc
    rw [if_neg (fun e => h (mem_treeUids_of_mem t r hr uid
      (by rw [← e]; exact child_uid_mem_nodeUids r c hc)))]
  rw [hch]

theorem localDelete_eq_of_not_mem (uid : String) (t : List RoamNode)
    (h : uid ∉ treeUids t) : localDelete uid t = t := by
  unfold localDelete
  have hf : t.filter (fun r => r.uid ≠ uid) = t := by
    apply List.filter_eq_self.mpr
    intro r hr
    simp only [decide_not, Bool.not_eq_true', decide_eq_false_iff_not]
    exact fun e =>
      h (mem_treeUids_of_mem t r hr uid (by rw [← e]; exact uid_mem_nodeUids r))
  rw [hf]
  apply map_eq_self_of
  intro r hr
  have hch : r.children.filter (fun c => c.uid ≠ uid) = r.children := by
    apply List.filter_eq_self.mpr
    intro c hc
    simp only [decide_not, Bool.not_eq_true', decide_eq_false_iff_not]
    exact fun e => h (mem_treeUids_of_mem t r hr uid
      (by rw [← e]; exact child_uid_mem_nodeUids r c hc))
  rw [hch]

theorem localAppendChild_eq_of_not_mem (parentUid : String) (node : PropNode)
    (t : List RoamNode) (h : parentUid ∉ treeUids t) :
    localAppendChild parentUid node t = t := by
  unfold localAppendChild
  apply map_eq_self_of
  intro r hr
  rw [if_neg (fun e => h (mem_treeUids_of_mem t r hr parentUid
    (by rw [← e]; exact uid_mem_nodeUids r)))]

/-! ### Infrastructure: localization of the primitive store operations -/

theorem pagesMap_eq_jsMapSet (pages : List (String × List RoamNode)) (P : String)
    (tree : List RoamNode) (F : List RoamNode → List RoamNode)
    (hnd : (pages.map (fun p => p.1)).Nodup)
    (hget : jsMapGet pages P = some tree)
    (hother : ∀ pg ∈ pages, pg.1 ≠ P → F pg.2 = pg.2) :
    pages.map (fun pg => (pg.1, F pg.2)) = jsMapSet pages P (F tree) := by
  induction pages with
  | nil => simp [jsMapGet] at hget
  | cons a l ih =>
      by_cases ha : a.1 = P
      · have htree : a.2 = tree := by
          unfold jsMapGet at hget
          rw [List.find?_cons_of_pos _ (by simpa using ha)] at hget
          exact Option.some.inj hget
        unfold jsMapSet
        rw [if_pos (by simp [List.any_cons, ha])]
        simp only [List.map_cons, if_pos ha]
        have hnd2 : a.1 ∉ l.map (fun p => p.1) ∧ (l.map (fun p => p.1)).Nodup := by
          rw [List.map_cons] at hnd
          exact List.nodup_cons.mp hnd
        have hlP : ∀ pg ∈ l, pg.1 ≠ P := by
          intro pg hpg e
          exact hnd2.1 (by rw [ha, ← e]; exact List.mem_map_of_mem _ hpg)
        congr 1
        · rw [ha, htree]
        · rw [map_replace_eq_of_not_any l P (F tree)
            (by apply Bool.eq_false_iff.mpr
                intro hany
                rcases List.any_eq_true.mp hany with ⟨pg, hpg, hppg⟩
                exact hlP pg hpg (by simpa using hppg))]
          apply map_eq_self_of
          intro pg hpg
          rw [hother pg (List.mem_cons_of_mem a hpg) (hlP pg hpg)]
      · have hget2 : jsMapGet l P = some tree := by
          unfold jsMapGet at hget ⊢
          rw [List.find?_cons_of_neg _ (by simpa using ha)] at hget
          exact hget
        have hanyl : l.any (fun p => p.1 = P) = true := by
          have hfind := hget2
          unfold jsMapGet at hfind
          cases hf : l.find? (fun p => p.1 = P) with
          | none => rw [hf] at hfind; simp at hfind
          | some pg =>
              refine List.any_eq_true.mpr ⟨pg, List.mem_of_find?_eq_some hf, ?_⟩
              simpa using List.find?_some hf
        unfold jsMapSet
        rw [if_pos (by simp only [List.any_cons]; rw [hanyl]; simp)]
        simp only [List.map_cons, if_neg ha]
        congr 1
        · rw [hother a (List.mem_cons_self a l) ha]
        · have hnd2 : (l.map (fun p => p.1)).Nodup := by
            rw [List.map_cons] at hnd
            exact (List.nodup_cons.mp hnd).2
          have h2 := ih hnd2 hget2
            (fun pg hpg h => hother pg (List.mem_cons_of_mem a hpg) h)
          unfold jsMapSet at h2
          rw [if_pos hanyl] at h2
          exact h2

theorem storeUpdate_localizes (s : Store) (P : String) (tree : List RoamNode)
    (uid txt : String)
    (hnd : (s.pages.map (fun p => p.1)).Nodup)
    (hget : getPage s P = some tree)
    (hoff : uid ∉ pageOthers s P) :
    storeUpdate s uid txt = setPage s P (localUpdate uid txt tree) s.counter := by
  unfold storeUpdate setPage
  have hpages : s.pages.map (fun pg => (pg.1, localUpdate uid txt pg.2)) =
      jsMapSet s.pages P (localUpdate uid txt tree) := by
    apply pagesMap_eq_jsMapSet s.pages P tree _ hnd hget
    intro pg hpg hne
    apply localUpdate_eq_of_not_mem
    intro hmem
    exact hoff ((mem_pageOthers s P uid).mpr ⟨pg, hpg, hne, hmem⟩)
  exact congrArg (fun x => Store.mk x s.counter) hpages

theorem storeDelete_localizes (s : Store) (P : String) (tree : List RoamNode) (uid : String)
    (hnd : (s.pages.map (fun p => p.1)).Nodup)
    (hget : getPage s P = some tree)
    (hoff : uid ∉ pageOthers s P) :
    storeDelete s uid = setPage s P (localDelete uid tree) s.counter := by
  unfold storeDelete setPage
  have hpages : s.pages.map (fun pg => (pg.1, localDelete uid pg.2)) =
      jsMapSet s.pages P (localDelete uid tree) := by
    apply pagesMap_eq_jsMapSet s.pages P tree _ hnd hget
    intro pg hpg hne
    apply localDelete_eq_of_not_mem
    intro hmem
    exact hoff ((mem_pageOthers s P uid).mpr ⟨pg, hpg, hne, hmem⟩)
  exact congrArg (fun x => Store.mk x s.counter) hpages

theorem storeCreateChild_localizes (s : Store) (P : String) (tree : List RoamNode)
    (parentUid : String) (p : PropPayload)
    (hnd : (s.pages.map (fun p => p.1)).Nodup)
    (hget : getPage s P = some tree)
    (hoff : parentUid ∉ pageOthers s P) :
    storeCreateChild s parentUid p =
      setPage s P (localAppendChild parentUid ⟨p.text, genUid s.counter⟩ tree)
        (s.counter + 1) := by
  unfold storeCreateChild setPage
  have hpages : s.pages.map
      (fun pg => (pg.1, localAppendChild parentUid ⟨p.text, genUid s.counter⟩ pg.2)) =
      jsMapSet s.pages P (localAppendChild parentUid ⟨p.text, genUid s.counter⟩ tree) := by
    apply pagesMap_eq_jsMapSet s.pages P tree _ hnd hget
    intro pg hpg hne
    apply localAppendChild_eq_of_not_mem
    intro hmem
    exact hoff ((mem_pageOthers s P parentUid).mpr ⟨pg, hpg, hne, hmem⟩)
  exact congrArg (fun x => Store.mk x (s.counter + 1)) hpages

theorem storeCreateRoot_localizes (s : Store) (P : String) (tree : List RoamNode)
    (b : BlockPayload) (hget : getPage s P = some tree) :
    storeCreateRoot s P b =
      setPage s P (tree ++ [(instantiateBlock s.counter b).1])
        (instantiateBlock s.counter b).2 := by
  unfold storeCreateRoot setPage getTree
  rw [hget]
  simp

theorem findRoot_flatten (pages : List (String × List RoamNode)) (P : String)
    (tree : List RoamNode) (uid : String)
    (hnd : (pages.map (fun p => p.1)).Nodup)
    (hget : jsMapGet pages P = some tree)
    (hoff : ∀ pg ∈ pages, pg.1 ≠ P → ∀ u ∈ treeUids pg.2, u ≠ uid) :
    ((pages.map (fun p => p.2)).flatten.find? (fun r => r.uid = uid)) =
      tree.find? (fun r => r.uid = uid) := by
  induction pages with
  | nil => simp [jsMapGet] at hget
  | cons a l ih =>
      simp only [List.map_cons, List.flatten_cons]
      rw [List.find?_append]
      by_cases ha : a.1 = P
      · have htree : a.2 = tree := by
          unfold jsMapGet at hget
          rw [List.find?_cons_of_pos _ (by simpa using ha)] at hget
          exact Option.some.inj hget
        rw [htree]
        cases hf : tree.find? (fun r => r.uid = uid) with
        | some r => simp [hf]
        | none =>
            simp only [hf, Option.none_or]
            apply List.find?_eq_none.mpr
            intro r hr
            rcases List.mem_flatten.mp hr with ⟨roots, hroots, hrmem⟩
            rcases List.mem_map.mp hroots with ⟨pg, hpg, rfl⟩
            have hpgne : pg.1 ≠ P := by
              intro e
              have hn : a.1 ∉ l.map (fun p => p.1) := by
                rw [List.map_cons] at hnd
                exact (List.nodup_cons.mp hnd).1
              rw [ha] at hn
              exact hn (by rw [← e]; exact List.mem_map_of_mem _ hpg)
            have hne := hoff pg (List.mem_cons_of_mem a hpg) hpgne r.uid
              (mem_treeUids_of_mem pg.2 r hrmem r.uid (uid_mem_nodeUids r))
            simpa using hne
      · have hget2 : jsMapGet l P = some tree := by
          unfold jsMapGet at hget ⊢
          rw [List.find?_cons_of_neg _ (by simpa using ha)] at hget
          exact hget
        have hnone : a.2.find? (fun r => r.uid = uid) = none := by
          apply List.find?_eq_none.mpr
          intro r hr
          have hne := hoff a (List.mem_cons_self a l) ha r.uid
            (mem_treeUids_of_mem a.2 r hr r.uid (uid_mem_nodeUids r))
          simpa using hne
        rw [hnone, Option.none_or]
        have hnd2 : (l.map (fun p => p.1)).Nodup := by
          rw [List.map_cons] at hnd
          exact (List.nodup_cons.mp hnd).2
        exact ih hnd2 hget2
          (fun pg hpg h => hoff pg (List.mem_cons_of_mem a hpg) h)

theorem jsMapSet_eq_self {α : Type} : ∀ (m : List (String × α)) (k : String) (v : α),
    (m.map (fun p => p.1)).Nodup → jsMapGet m k = some v → jsMapSet m k v = m
  | [], k, v, _, hget => by simp [jsMapGet] at hget
  | a :: l, k, v, hnd, hget => by
      have hnd2 : a.1 ∉ l.map (fun p => p.1) ∧ (l.map (fun p => p.1)).Nodup := by
        rw [List.map_cons] at hnd
        exact List.nodup_cons.mp hnd
      by_cases ha : a.1 = k
      · have hv : a.2 = v := by
          unfold jsMapGet at hget
          rw [List.find?_cons_of_pos _ (by simpa using ha)] at hget
          exact Option.some.inj hget
        unfold jsMapSet
        rw [if_pos (by simp [List.any_cons, ha])]
        simp only [List.map_cons, if_pos ha]
        have htail : l.map (fun p => if p.1 = k then (k, v) else p) = l := by
          apply map_eq_self_of
          intro pg hpg
          rw [if_neg (fun e => hnd2.1 (by rw [ha, ← e]; exact List.mem_map_of_mem _ hpg))]
        rw [htail, ← ha, ← hv]
      · have hget2 : jsMapGet l k = some v := by
          unfold jsMapGet at hget ⊢
          rw [List.find?_cons_of_neg _ (by simpa using ha)] at hget
          exact hget
        have hanyl : l.any (fun p => p.1 = k) = true := by
          have hfind := hget2
          unfold jsMapGet at hfind
          cases hf : l.find? (fun p => p.1 = k) with
          | none => rw [hf] at hfind; simp at hfind
          | some pg =>
              refine List.any_eq_true.mpr ⟨pg, List.mem_of_find?_eq_some hf, ?_⟩
              simpa using List.find?_some hf
        unfold jsMapSet
        rw [if_pos (by simp only [List.any_cons]; rw [hanyl]; simp)]
        simp only [List.map_cons, if_neg ha]
        have h2 := jsMapSet_eq_self l k v hnd2.2 hget2
        unfold jsMapSet at h2
        rw [if_pos hanyl] at h2
        rw [h2]

theorem setPage_self (s : Store) (P : String) (tree : List RoamNode)
    (hnd : (s.pages.map (fun p => p.1)).Nodup) (hget : getPage s P = some tree) :
    setPage s P tree s.counter = s := by
  unfold setPage
  rw [jsMapSet_eq_self s.pages P tree hnd hget]

theorem jsMapSet_keys_of_get {α : Type} (m : List (String × α)) (k : String) (v w : α)
    (hget : jsMapGet m k = some w) :
    (jsMapSet m k v).map (fun p => p.1) = m.map (fun p => p.1) := by
  have hany : m.any (fun p => p.1 = k) = true := by
    unfold jsMapGet at hget
    cases hf : m.find? (fun p => p.1 = k) with
    | none => rw [hf] at hget; simp at hget
    | some pg =>
        refine List.any_eq_true.mpr ⟨pg, List.mem_of_find?_eq_some hf, ?_⟩
        simpa using List.find?_some hf
  unfold jsMapSet
  rw [if_pos hany, List.map_map]
  apply List.map_congr_left
  intro p hp
  simp only [Function.comp]
  by_cases hpk : p.1 = k <;> simp [hpk]

theorem setPage_keys (s : Store) (P : String) (tree w : List RoamNode) (c : Nat)
    (hget : getPage s P = some w) :
    (setPage s P tree c).pages.map (fun p => p.1) = s.pages.map (fun p => p.1) := by
  unfold setPage
  exact jsMapSet_keys_of_get s.pages P tree w hget

theorem setPage_counter (s : Store) (P : String) (t : List RoamNode) (c : Nat) :
    (setPage s P t c).counter = c := rfl

/-! ### Infrastructure: uid bookkeeping of the local operations -/

theorem treeUids_localUpdate (uid txt : String) (t : List RoamNode) :
    treeUids (localUpdate uid txt t) = treeUids t := by
  induction t with
  | nil => rfl
  | cons r rest ih =>
      unfold localUpdate at ih ⊢
      simp only [List.map_cons]
      rw [treeUids_cons, treeUids_cons, ih]
      congr 1
      unfold nodeUids
      simp [List.map_map, Function.comp]
      intro c hc
      by_cases hcu : c.uid = uid <;> simp [hcu]

theorem mem_treeUids_localAppendChild (parentUid : String) (node : PropNode)
    (t : List RoamNode) (u : String) (hu : u ∈ treeUids (localAppendChild parentUid node t)) :
    u ∈ treeUids t ∨ u = node.uid := by
  induction t with
  | nil => simp [localAppendChild, treeUids] at hu
  | cons r rest ih =>
      unfold localAppendChild at hu ih
      simp only [List.map_cons] at hu
      rw [treeUids_cons] at hu
      rcases List.mem_append.mp hu with h1 | h2
      · by_cases hr : r.uid = parentUid
        · rw [if_pos hr] at h1
          unfold nodeUids at h1
          simp only [List.map_append] at h1
          rcases List.mem_cons.mp h1 with e | h3
          · left
            rw [treeUids_cons]
            exact List.mem_append_left _ (by rw [e]; exact uid_mem_nodeUids r)
          · rcases List.mem_append.mp h3 with h4 | h5
            · left
              rw [treeUids_cons]
              refine List.mem_append_left _ ?_
              unfold nodeUids
              exact List.mem_cons_of_mem _ h4
            · right
              simpa using h5
        · rw [if_neg hr] at h1
          left
          rw [treeUids_cons]
          exact List.mem_append_left _ h1
      · rcases ih h2 with h3 | h3
        · left
          rw [treeUids_cons]
          exact List.mem_append_right _ h3
        · right
          exact h3

theorem mem_treeUids_localDelete (uid : String) (t : List RoamNode) (u : String)
    (hu : u ∈ treeUids (localDelete uid t)) : u ∈ treeUids t := by
  induction t with
  | nil => simp [localDelete, treeUids] at hu
  | cons r rest ih =>
      unfold localDelete at hu ih
      rw [List.filter_cons] at hu
      by_cases hr : r.uid ≠ uid
      · rw [if_pos (by simpa using hr)] at hu
        simp only [List.map_cons] at hu
        rw [treeUids_cons] at hu
        rcases List.mem_append.mp hu with h1 | h2
        · unfold nodeUids at h1
          rcases List.mem_cons.mp h1 with e | h3
          · rw [treeUids_cons]
            exact List.mem_append_left _ (by rw [e]; exact uid_mem_nodeUids r)
          · rcases List.mem_map.mp h3 with ⟨c, hc, rfl⟩
            rw [treeUids_cons]
            exact List.mem_append_left _
              (child_uid_mem_nodeUids r c (List.mem_of_mem_filter hc))
        · rw [treeUids_cons]
          exact List.mem_append_right _ (ih h2)
      · rw [if_neg (by simpa using hr)] at hu
        rw [treeUids_cons]
        exact List.mem_append_right _ (ih hu)

theorem instantiateProps_spec (ps : List PropPayload) : ∀ (c : Nat),
    (instantiateProps c ps).2 = c + ps.length
    ∧ (instantiateProps c ps).1.map (fun n => n.text) = ps.map (fun p => p.text)
    ∧ ∀ u ∈ (instantiateProps c ps).1.map (fun n => n.uid),
        ∃ k, c ≤ k ∧ k < c + ps.length ∧ u = genUid k := by
  induction ps with
  | nil => intro c; refine ⟨rfl, rfl, ?_⟩; simp [instantiateProps]
  | cons p rest ih =>
      intro c
      have h := ih (c + 1)
      unfold instantiateProps
      refine ⟨by rw [h.1, List.length_cons]; omega, ?_, ?_⟩
      · simp only [List.map_cons]
        rw [h.2.1]
      · intro u hu
        simp only [List.map_cons] at hu
        rcases List.mem_cons.mp hu with e | h2
        · refine ⟨c, le_refl c, ?_, e⟩
          rw [List.length_cons]
          omega
        · rcases h.2.2 u h2 with ⟨k, hk1, hk2, hk3⟩
          refine ⟨k, by omega, ?_, hk3⟩
          rw [List.length_cons]
          omega

theorem instantiateBlock_spec (b : BlockPayload) (c : Nat) :
    (instantiateBlock c b).2 = c + 1 + b.children.length
    ∧ (instantiateBlock c b).1.text = b.text
    ∧ (instantiateBlock c b).1.uid = genUid c
    ∧ (instantiateBlock c b).1.children.map (fun n => n.text) =
        b.children.map (fun p => p.text)
    ∧ ∀ u ∈ nodeUids (instantiateBlock c b).1,
        ∃ k, c ≤ k ∧ k < c + 1 + b.children.length ∧ u = genUid k := by
  have h := instantiateProps_spec b.children (c + 1)
  unfold instantiateBlock
  refine ⟨by rw [h.1], rfl, rfl, h.2.1, ?_⟩
  intro u hu
  unfold nodeUids at hu
  rcases List.mem_cons.mp hu with e | h2
  · exact ⟨c, le_refl c, by omega, e⟩
  · rcases h.2.2 u h2 with ⟨k, hk1, hk2, hk3⟩
    exact ⟨k, by omega, by omega, hk3⟩

theorem jsMapGet_mem {α : Type} (m : List (String × α)) (k : String) (v : α)
    (h : jsMapGet m k = some v) : (k, v) ∈ m := by
  unfold jsMapGet at h
  cases hf : m.find? (fun p => p.1 = k) with
  | none => rw [hf] at h; simp at h
  | some p =>
      rw [hf] at h
      have hp1 : p.1 = k := by simpa using List.find?_some hf
      have hp2 : p.2 = v := Option.some.inj h
      have hmem := List.mem_of_find?_eq_some hf
      rw [← hp1, ← hp2]
      simpa using hmem

theorem mem_of_mem_jsMapDelete {α : Type} (m : List (String × α)) (k : String)
    (e : String × α) (h : e ∈ jsMapDelete m k) : e ∈ m :=
  List.mem_of_mem_filter h

/-! ### Infrastructure: localization of the page-write loops -/

theorem syncChildrenGo_localizes (P parentUid : String) :
    ∀ (children : List PropPayload) (propsMap : List (String × PropNode)) (s : Store)
      (tree : List RoamNode),
      (s.pages.map (fun p => p.1)).Nodup →
      getPage s P = some tree →
      parentUid ∉ pageOthers s P →
      (∀ e ∈ propsMap, e.2.uid ∉ pageOthers s P) →
      (∀ k, s.counter ≤ k → genUid k ∉ pageOthers s P) →
      syncChildrenGo parentUid children propsMap s =
        (setPage s P (syncChildrenGoLocal parentUid children propsMap tree s.counter).1.1
          (syncChildrenGoLocal parentUid children propsMap tree s.counter).1.2,
         (syncChildrenGoLocal parentUid children propsMap tree s.counter).2)
  | [], propsMap, s, tree, hnd, hget, hpar, hpm, hgen => by
      unfold syncChildrenGo syncChildrenGoLocal
      rw [setPage_self s P tree hnd hget]
  | newChild :: rest, propsMap, s, tree, hnd, hget, hpar, hpm, hgen => by
      cases hk : extractPropertyKey newChild.text with
      | none =>
          simp only [syncChildrenGo, syncChildrenGoLocal, hk]
          exact syncChildrenGo_localizes P parentUid rest propsMap s tree hnd hget hpar
            hpm hgen
      | some k =>
          cases hm : jsMapGet propsMap k with
          | some existing =>
              have hex : existing.uid ∉ pageOthers s P :=
                hpm (k, existing) (jsMapGet_mem propsMap k existing hm)
              by_cases htxt : existing.text = newChild.text
              · simp only [syncChildrenGo, syncChildrenGoLocal, hk, hm]
                rw [if_neg (by simpa using htxt), if_neg (by simpa using htxt)]
                exact syncChildrenGo_localizes P parentUid rest (jsMapDelete propsMap k) s
                  tree hnd hget hpar
                  (fun e he => hpm e (mem_of_mem_jsMapDelete propsMap k e he)) hgen
              · simp only [syncChildrenGo, syncChildrenGoLocal, hk, hm]
                rw [if_pos (by simpa using htxt), if_pos (by simpa using htxt)]
                have hupd := storeUpdate_localizes s P tree existing.uid newChild.text
                  hnd hget hex
                rw [hupd]
                have hrec := syncChildrenGo_localizes P parentUid rest
                  (jsMapDelete propsMap k)
                  (setPage s P (localUpdate existing.uid newChild.text tree) s.counter)
                  (localUpdate existing.uid newChild.text tree)
                  (by rw [setPage_keys s P _ tree s.counter hget]; exact hnd)
                  (getPage_setPage s P _ s.counter)
                  (by rw [pageOthers_setPage]; exact hpar)
                  (by rw [pageOthers_setPage]
                      exact fun e he => hpm e (mem_of_mem_jsMapDelete propsMap k e he))
                  (by rw [pageOthers_setPage]
                      exact hgen)
                rw [hrec, setPage_setPage]
                simp [setPage_counter]
          | none =>
              simp only [syncChildrenGo, syncChildrenGoLocal, hk, hm]
              have hcre := storeCreateChild_localizes s P tree parentUid newChild hnd hget
                hpar
              rw [hcre]
              have hrec := syncChildrenGo_localizes P parentUid rest propsMap
                (setPage s P
                  (localAppendChild parentUid ⟨newChild.text, genUid s.counter⟩ tree)
                  (s.counter + 1))
                (localAppendChild parentUid ⟨newChild.text, genUid s.counter⟩ tree)
                (by rw [setPage_keys s P _ tree (s.counter + 1) hget]; exact hnd)
                (getPage_setPage s P _ (s.counter + 1))
                (by rw [pageOthers_setPage]; exact hpar)
                (by rw [pageOthers_setPage]
                    exact hpm)
                (by rw [pageOthers_setPage]
                    intro k2 hk2
                    rw [setPage_counter] at hk2
                    exact hgen k2 (by omega))
              rw [hrec, setPage_setPage]
              simp [setPage_counter]

theorem mem_jsMapSet {α : Type} (m : List (String × α)) (k : String) (v : α)
    (e : String × α) (h : e ∈ jsMapSet m k v) : e ∈ m ∨ e = (k, v) := by
  unfold jsMapSet at h
  by_cases hany : m.any (fun p => p.1 = k)
  · rw [if_pos hany] at h
    rcases List.mem_map.mp h with ⟨p, hp, he⟩
    by_cases hpk : p.1 = k
    · rw [if_pos hpk] at he
      right
      exact he.symm
    · rw [if_neg hpk] at he
      left
      rw [← he]
      exact hp
  · rw [if_neg hany] at h
    rcases List.mem_append.mp h with h1 | h2
    · left
      exact h1
    · right
      simpa using h2

theorem foldl_mapSet_val_mem {β : Type} (proj : β → Option String) :
    ∀ (cs : List β) (m0 : List (String × β)) (e : String × β),
      e ∈ cs.foldl (fun m c =>
        match proj c with
        | some k => jsMapSet m k c
        | none => m) m0 →
      e ∈ m0 ∨ e.2 ∈ cs
  | [], m0, e, h => Or.inl h
  | c :: rest, m0, e, h => by
      simp only [List.foldl_cons] at h
      cases hp : proj c with
      | none =>
          rw [hp] at h
          rcases foldl_mapSet_val_mem proj rest m0 e h with h1 | h2
          · exact Or.inl h1
          · exact Or.inr (List.mem_cons_of_mem c h2)
      | some k =>
          rw [hp] at h
          rcases foldl_mapSet_val_mem proj rest (jsMapSet m0 k c) e h with h1 | h2
          · rcases mem_jsMapSet m0 k c e h1 with h3 | h4
            · exact Or.inl h3
            · right
              rw [h4]
              exact List.mem_cons_self c rest
          · exact Or.inr (List.mem_cons_of_mem c h2)

theorem buildPropsMap_val_mem (cs : List PropNode) (e : String × PropNode)
    (h : e ∈ buildPropsMap cs) : e.2 ∈ cs := by
  have h2 := foldl_mapSet_val_mem (fun c => extractPropertyKey c.text) cs [] e
  unfold buildPropsMap at h
  rcases h2 h with h3 | h3
  · simp at h3
  · exact h3

theorem buildBlockMap_val_mem (tree : List RoamNode) (e : String × RoamNode)
    (h : e ∈ buildBlockMap tree) : e.2 ∈ tree := by
  have h2 := foldl_mapSet_val_mem extractICalIdFromNode tree [] e
  unfold buildBlockMap at h
  rcases h2 h with h3 | h3
  · simp at h3
  · exact h3

theorem localChildrenOf_uid_mem (tree : List RoamNode) (uid : String) (c : PropNode)
    (h : c ∈ localChildrenOf tree uid) : c.uid ∈ treeUids tree := by
  unfold localChildrenOf at h
  cases hf : tree.find? (fun r => r.uid = uid) with
  | none => rw [hf] at h; simp at h
  | some r =>
      rw [hf] at h
      exact mem_treeUids_of_mem tree r (List.mem_of_find?_eq_some hf) c.uid
        (child_uid_mem_nodeUids r c h)

theorem getChildrenOf_localizes (s : Store) (P : String) (tree : List RoamNode)
    (uid : String)
    (hnd : (s.pages.map (fun p => p.1)).Nodup)
    (hget : getPage s P = some tree)
    (hoff : uid ∉ pageOthers s P) :
    getChildrenOf s uid = localChildrenOf tree uid := by
  unfold getChildrenOf localChildrenOf
  rw [findRoot_flatten s.pages P tree uid hnd hget]
  intro pg hpg hne u hu e
  exact hoff ((mem_pageOthers s P uid).mpr ⟨pg, hpg, hne, by rw [← e]; exact hu⟩)

theorem syncChildrenGoLocal_uids (parentUid : String) :
    ∀ (children : List PropPayload) (propsMap : List (String × PropNode))
      (tree : List RoamNode) (ctr : Nat),
      ctr ≤ (syncChildrenGoLocal parentUid children propsMap tree ctr).1.2
      ∧ ∀ u ∈ treeUids (syncChildrenGoLocal parentUid children propsMap tree ctr).1.1,
          u ∈ treeUids tree ∨ ∃ k, ctr ≤ k ∧
            k < (syncChildrenGoLocal parentUid children propsMap tree ctr).1.2 ∧
            u = genUid k
  | [], propsMap, tree, ctr => by
      unfold syncChildrenGoLocal
      exact ⟨le_refl ctr, fun u hu => Or.inl hu⟩
  | newChild :: rest, propsMap, tree, ctr => by
      cases hk : extractPropertyKey newChild.text with
      | none =>
          simp only [syncChildrenGoLocal, hk]
          exact syncChildrenGoLocal_uids parentUid rest propsMap tree ctr
      | some k =>
          cases hm : jsMapGet propsMap k with
          | some existing =>
              by_cases htxt : existing.text = newChild.text
              · simp only [syncChildrenGoLocal, hk, hm]
                rw [if_neg (by simpa using htxt)]
                exact syncChildrenGoLocal_uids parentUid rest (jsMapDelete propsMap k)
                  tree ctr
              · simp only [syncChildrenGoLocal, hk, hm]
                rw [if_pos (by simpa using htxt)]
                have h := syncChildrenGoLocal_uids parentUid rest (jsMapDelete propsMap k)
                  (localUpdate existing.uid newChild.text tree) ctr
                refine ⟨by simpa using h.1, ?_⟩
                intro u hu
                rcases h.2 u (by simpa using hu) with h1 | h2
                · rw [treeUids_localUpdate] at h1
                  exact Or.inl h1
                · rcases h2 with ⟨k2, hk2a, hk2b, he⟩
                  exact Or.inr ⟨k2, hk2a, by simpa using hk2b, he⟩
          | none =>
              simp only [syncChildrenGoLocal, hk, hm]
              have h := syncChildrenGoLocal_uids parentUid rest propsMap
                (localAppendChild parentUid ⟨newChild.text, genUid ctr⟩ tree) (ctr + 1)
              refine ⟨by have := h.1; simpa using le_trans (Nat.le_succ ctr) this, ?_⟩
              intro u hu
              rcases h.2 u (by simpa using hu) with h1 | h2
              · rcases mem_treeUids_localAppendChild parentUid _ tree u h1 with h3 | h3
                · exact Or.inl h3
                · refine Or.inr ⟨ctr, le_refl ctr, ?_, h3⟩
                  have hm1 := h.1
                  simpa using lt_of_lt_of_le (Nat.lt_succ_self ctr) hm1
              · rcases h2 with ⟨k2, hk2a, hk2b, he⟩
                exact Or.inr ⟨k2, by omega, by simpa using hk2b, he⟩

theorem writeLoop_localizes (P : String) (bm : List (String × RoamNode)) :
    ∀ (blocks : List BlockPayload) (seen : List String) (s : Store) (tree : List RoamNode),
      (s.pages.map (fun p => p.1)).Nodup →
      getPage s P = some tree →
      (∀ e ∈ bm, e.2.uid ∉ pageOthers s P) →
      (∀ u ∈ treeUids tree, u ∉ pageOthers s P) →
      (∀ k, s.counter ≤ k → genUid k ∉ pageOthers s P) →
      writeLoop P bm blocks seen s =
        (setPage s P (writeLoopLocal P bm blocks seen tree s.counter).1.1
          (writeLoopLocal P bm blocks seen tree s.counter).1.2,
         (writeLoopLocal P bm blocks seen tree s.counter).2.1,
         (writeLoopLocal P bm blocks seen tree s.counter).2.2)
  | [], seen, s, tree, hnd, hget, hbm, hO1, hgen => by
      unfold writeLoop writeLoopLocal
      rw [setPage_self s P tree hnd hget]
  | block :: rest, seen, s, tree, hnd, hget, hbm, hO1, hgen => by
      cases hid : extractICalIdFromBlock block with
      | none =>
          simp only [writeLoop, writeLoopLocal, hid]
          exact writeLoop_localizes P bm rest seen s tree hnd hget hbm hO1 hgen
      | some icalId =>
          by_cases hseen : icalId ∈ seen
          · simp only [writeLoop, writeLoopLocal, hid]
            rw [if_pos hseen, if_pos hseen]
            exact writeLoop_localizes P bm rest seen s tree hnd hget hbm hO1 hgen
          · simp only [writeLoop, writeLoopLocal, hid]
            rw [if_neg hseen, if_neg hseen]
            cases hm : jsMapGet bm icalId with
            | some existing =>
                dsimp only
                have hex : existing.uid ∉ pageOthers s P :=
                  hbm _ (jsMapGet_mem bm icalId existing hm)
                by_cases htxt : existing.text = block.text
                · rw [if_neg (by simpa using htxt), if_neg (by simpa using htxt)]
                  simp only [syncChildren, syncChildrenLocal]
                  rw [getChildrenOf_localizes s P tree existing.uid hnd hget hex]
                  have hsync := syncChildrenGo_localizes P existing.uid block.children
                    (buildPropsMap (localChildrenOf tree existing.uid)) s tree hnd hget hex
                    (fun e he => hO1 e.2.uid (localChildrenOf_uid_mem tree existing.uid e.2
                      (buildPropsMap_val_mem _ e he)))
                    hgen
                  rw [hsync]
                  have hmono := syncChildrenGoLocal_uids existing.uid block.children
                    (buildPropsMap (localChildrenOf tree existing.uid)) tree s.counter
                  have hrec := writeLoop_localizes P bm rest (seen ++ [icalId])
                    (setPage s P
                      (syncChildrenGoLocal existing.uid block.children
                        (buildPropsMap (localChildrenOf tree existing.uid)) tree
                        s.counter).1.1
                      (syncChildrenGoLocal existing.uid block.children
                        (buildPropsMap (localChildrenOf tree existing.uid)) tree
                        s.counter).1.2)
                    (syncChildrenGoLocal existing.uid block.children
                      (buildPropsMap (localChildrenOf tree existing.uid)) tree s.counter).1.1
                    (by rw [setPage_keys s P _ tree _ hget]; exact hnd)
                    (getPage_setPage s P _ _)
                    (by rw [pageOthers_setPage]; exact hbm)
                    (by rw [pageOthers_setPage]
                        intro u hu
                        rcases hmono.2 u hu with h1 | h2
                        · exact hO1 u h1
                        · rcases h2 with ⟨k, hk, hkb, rfl⟩
                          exact hgen k hk)
                    (by rw [pageOthers_setPage]
                        rw [setPage_counter]
                        intro k hk
                        exact hgen k (le_trans hmono.1 hk))
                  rw [hrec, setPage_setPage]
                  simp [setPage_counter]
                · rw [if_pos (by simpa using htxt), if_pos (by simpa using htxt)]
                  rw [storeUpdate_localizes s P tree existing.uid block.text hnd hget hex]
                  simp only [syncChildren, syncChildrenLocal]
                  have hnd1 : ((setPage s P (localUpdate existing.uid block.text tree)
                      s.counter).pages.map (fun p => p.1)).Nodup := by
                    rw [setPage_keys s P _ tree _ hget]
                    exact hnd
                  have hex1 : existing.uid ∉
                      pageOthers (setPage s P (localUpdate existing.uid block.text tree)
                        s.counter) P := by
                    rw [pageOthers_setPage]
                    exact hex
                  rw [getChildrenOf_localizes
                    (setPage s P (localUpdate existing.uid block.text tree) s.counter) P
                    (localUpdate existing.uid block.text tree) existing.uid hnd1
                    (getPage_setPage s P _ _) hex1]
                  have hsync := syncChildrenGo_localizes P existing.uid block.children
                    (buildPropsMap (localChildrenOf (localUpdate existing.uid block.text tree)
                      existing.uid))
                    (setPage s P (localUpdate existing.uid block.text tree) s.counter)
                    (localUpdate existing.uid block.text tree) hnd1
                    (getPage_setPage s P _ _) hex1
                    (by rw [pageOthers_setPage]
                        intro e he
                        have hu := localChildrenOf_uid_mem _ existing.uid e.2
                          (buildPropsMap_val_mem _ e he)
                        rw [treeUids_localUpdate] at hu
                        exact hO1 e.2.uid hu)
                    (by rw [pageOthers_setPage]
                        rw [setPage_counter]
                        exact hgen)
                  rw [hsync, setPage_setPage]
                  simp only [setPage_counter]
                  have hmono := syncChildrenGoLocal_uids existing.uid block.children
                    (buildPropsMap (localChildrenOf (localUpdate existing.uid block.text tree)
                      existing.uid))
                    (localUpdate existing.uid block.text tree) s.counter
                  have hrec := writeLoop_localizes P bm rest (seen ++ [icalId])
                    (setPage s P
                      (syncChildrenGoLocal existing.uid block.children
                        (buildPropsMap (localChildrenOf
                          (localUpdate existing.uid block.text tree) existing.uid))
                        (localUpdate existing.uid block.text tree) s.counter).1.1
                      (syncChildrenGoLocal existing.uid block.children
                        (buildPropsMap (localChildrenOf
                          (localUpdate existing.uid block.text tree) existing.uid))
                        (localUpdate existing.uid block.text tree) s.counter).1.2)
                    (syncChildrenGoLocal existing.uid block.children
                      (buildPropsMap (localChildrenOf
                        (localUpdate existing.uid block.text tree) existing.uid))
                      (localUpdate existing.uid block.text tree) s.counter).1.1
                    (by rw [setPage_keys s P _ tree _ hget]; exact hnd)
                    (getPage_setPage s P _ _)
                    (by rw [pageOthers_setPage]; exact hbm)
                    (by rw [pageOthers_setPage]
                        intro u hu
                        rcases hmono.2 u hu with h1 | h2
                        · rw [treeUids_localUpdate] at h1
                          exact hO1 u h1
                        · rcases h2 with ⟨k, hk, hkb, rfl⟩
                          exact hgen k hk)
                    (by rw [pageOthers_setPage]
                        rw [setPage_counter]
                        intro k hk
                        exact hgen k (le_trans hmono.1 hk))
                  rw [hrec, setPage_setPage]
                  simp [setPage_counter]
            | none =>
                dsimp only
                rw [storeCreateRoot_localizes s P tree block hget]
                have hinst := instantiateBlock_spec block s.counter
                have hrec := writeLoop_localizes P bm rest (seen ++ [icalId])
                  (setPage s P (tree ++ [(instantiateBlock s.counter block).1])
                    (instantiateBlock s.counter block).2)
                  (tree ++ [(instantiateBlock s.counter block).1])
                  (by rw [setPage_keys s P _ tree _ hget]; exact hnd)
                  (getPage_setPage s P _ _)
                  (by rw [pageOthers_setPage]; exact hbm)
                  (by rw [pageOthers_setPage]
                      intro u hu
                      rw [treeUids_append] at hu
                      rcases List.mem_append.mp hu with h1 | h2
                      · exact hO1 u h1
                      · have h3 : u ∈ nodeUids (instantiateBlock s.counter block).1 := by
                          rw [treeUids_cons] at h2
                          rcases List.mem_append.mp h2 with h4 | h5
                          · exact h4
                          · simp [treeUids] at h5
                        rcases hinst.2.2.2.2 u h3 with ⟨k, hk1, hk2, rfl⟩
                        exact hgen k hk1)
                  (by rw [pageOthers_setPage]
                      rw [setPage_counter]
                      intro k hk
                      apply hgen k
                      rw [hinst.1] at hk
                      omega)
                rw [hrec, setPage_setPage]
                simp [setPage_counter]

theorem genUid_inj (m n : Nat) (h : genUid m = genUid n) : m = n := by
  have hd := congrArg (fun s => s.data.length) h
  simp only [genUid, String.data_append] at hd
  simpa using hd

theorem removeObsolete_fold_localizes (P : String) (seen : List String) :
    ∀ (bm : List (String × RoamNode)) (s : Store) (tree : List RoamNode)
      (tr : List Mutation),
      (s.pages.map (fun p => p.1)).Nodup →
      getPage s P = some tree →
      (∀ e ∈ bm, e.2.uid ∉ pageOthers s P) →
      bm.foldl (fun acc entry =>
        if entry.1 ∈ seen then acc
        else (storeDelete acc.1 entry.2.uid, acc.2 ++ [Mutation.deleteBlock entry.2.uid]))
        (s, tr) =
      (setPage s P (bm.foldl (fun acc entry =>
          if entry.1 ∈ seen then acc
          else (localDelete entry.2.uid acc.1, acc.2 ++ [Mutation.deleteBlock entry.2.uid]))
          (tree, tr)).1 s.counter,
       (bm.foldl (fun acc entry =>
          if entry.1 ∈ seen then acc
          else (localDelete entry.2.uid acc.1, acc.2 ++ [Mutation.deleteBlock entry.2.uid]))
          (tree, tr)).2)
  | [], s, tree, tr, hnd, hget, hbm => by
      simp only [List.foldl_nil]
      rw [setPage_self s P tree hnd hget]
  | e :: rest, s, tree, tr, hnd, hget, hbm => by
      simp only [List.foldl_cons]
      by_cases hs : e.1 ∈ seen
      · rw [if_pos hs, if_pos hs]
        exact removeObsolete_fold_localizes P seen rest s tree tr hnd hget
          (fun x hx => hbm x (List.mem_cons_of_mem e hx))
      · rw [if_neg hs, if_neg hs]
        have hdel := storeDelete_localizes s P tree e.2.uid hnd hget
          (hbm e (List.mem_cons_self e rest))
        rw [hdel]
        have hrec := removeObsolete_fold_localizes P seen rest
          (setPage s P (localDelete e.2.uid tree) s.counter) (localDelete e.2.uid tree)
          (tr ++ [Mutation.deleteBlock e.2.uid])
          (by rw [setPage_keys s P _ tree _ hget]; exact hnd)
          (getPage_setPage s P _ _)
          (by rw [pageOthers_setPage]
              exact fun x hx => hbm x (List.mem_cons_of_mem e hx))
        rw [hrec, setPage_setPage]
        simp [setPage_counter]

theorem writeBlocksToPage_localizes (P : String) (blocks : List BlockPayload) (s : Store)
    (tree : List RoamNode)
    (hnd : (s.pages.map (fun p => p.1)).Nodup)
    (hget : getPage s P = some tree)
    (hO1 : ∀ u ∈ treeUids tree, u ∉ pageOthers s P)
    (hgen : ∀ k, s.counter ≤ k → genUid k ∉ pageOthers s P) :
    writeBlocksToPage P blocks s =
      (setPage s P (writePageLocal P blocks tree s.counter).1.1
        (writePageLocal P blocks tree s.counter).1.2,
       (writePageLocal P blocks tree s.counter).2) := by
  unfold writeBlocksToPage writePageLocal ensurePage
  rw [if_pos (by rw [hget]; rfl)]
  dsimp only
  have htree : getTree s P = tree := by
    unfold getTree
    rw [hget]
    rfl
  rw [htree]
  have hbm : ∀ e ∈ buildBlockMap tree, e.2.uid ∉ pageOthers s P := by
    intro e he
    apply hO1
    exact mem_treeUids_of_mem tree e.2 (buildBlockMap_val_mem tree e he) e.2.uid
      (uid_mem_nodeUids e.2)
  have hloop := writeLoop_localizes P (buildBlockMap tree) blocks [] s tree hnd hget hbm
    hO1 hgen
  rw [hloop]
  unfold removeObsoleteBlocks removeObsoleteLocal
  have hfold := removeObsolete_fold_localizes P
    (writeLoopLocal P (buildBlockMap tree) blocks [] tree s.counter).2.2
    (buildBlockMap tree)
    (setPage s P (writeLoopLocal P (buildBlockMap tree) blocks [] tree s.counter).1.1
      (writeLoopLocal P (buildBlockMap tree) blocks [] tree s.counter).1.2)
    (writeLoopLocal P (buildBlockMap tree) blocks [] tree s.counter).1.1 []
    (by rw [setPage_keys s P _ tree _ hget]; exact hnd)
    (getPage_setPage s P _ _)
    (by rw [pageOthers_setPage]; exact hbm)
  rw [hfold, setPage_setPage]
  simp [setPage_counter]

theorem mem_storeUids (s : Store) (u : String) :
    u ∈ storeUids s ↔ ∃ pg ∈ s.pages, u ∈ treeUids pg.2 := by
  unfold storeUids
  simp only [List.mem_flatten, List.mem_map]
  constructor
  · rintro ⟨l, ⟨pg, hpg, rfl⟩, hu⟩
    exact ⟨pg, hpg, hu⟩
  · rintro ⟨pg, hpg, hu⟩
    exact ⟨treeUids pg.2, ⟨pg, hpg, rfl⟩, hu⟩

theorem pageOthers_sub_storeUids (s : Store) (P u : String)
    (h : u ∈ pageOthers s P) : u ∈ storeUids s := by
  rcases (mem_pageOthers s P u).mp h with ⟨pg, hpg, _, hu⟩
  exact (mem_storeUids s u).mpr ⟨pg, hpg, hu⟩

theorem getTree_sub_storeUids (s : Store) (P u : String)
    (h : u ∈ treeUids (getTree s P)) : u ∈ storeUids s := by
  unfold getTree at h
  cases hg : getPage s P with
  | none => rw [hg] at h; simp [treeUids] at h
  | some w =>
      rw [hg] at h
      exact (mem_storeUids s u).mpr ⟨(P, w), jsMapGet_mem s.pages P w hg, h⟩

theorem mem_storeUids_setPage (s : Store) (P : String) (X : List RoamNode) (c : Nat)
    (u : String) (h : u ∈ storeUids (setPage s P X c)) :
    u ∈ storeUids s ∨ u ∈ treeUids X := by
  rcases (mem_storeUids _ u).mp h with ⟨pg, hpg, hu⟩
  rcases mem_jsMapSet s.pages P X pg hpg with h1 | h2
  · exact Or.inl ((mem_storeUids s u).mpr ⟨pg, h1, hu⟩)
  · right
    rw [h2] at hu
    exact hu

theorem mem_pageOthers_setPage_any (s : Store) (P Q : String) (X : List RoamNode)
    (c : Nat) (u : String) (h : u ∈ pageOthers (setPage s P X c) Q) :
    u ∈ pageOthers s Q ∨ u ∈ treeUids X := by
  rcases (mem_pageOthers _ Q u).mp h with ⟨pg, hpg, hne, hu⟩
  rcases mem_jsMapSet s.pages P X pg hpg with h1 | h2
  · exact Or.inl ((mem_pageOthers s Q u).mpr ⟨pg, h1, hne, hu⟩)
  · right
    rw [h2] at hu
    exact hu

theorem getPage_none_key_not_mem (s : Store) (P : String) (h : getPage s P = none) :
    P ∉ s.pages.map (fun p => p.1) := by
  intro hmem
  rcases List.mem_map.mp hmem with ⟨pg, hpg, he⟩
  unfold getPage jsMapGet at h
  cases hf : s.pages.find? (fun p => p.1 = P) with
  | some q => rw [hf] at h; simp at h
  | none =>
      have := List.find?_eq_none.mp hf pg hpg
      simp [he] at this

theorem jsMapSet_keys_absent {α : Type} (m : List (String × α)) (k : String) (v : α)
    (h : (m.find? (fun p => p.1 = k)) = none) :
    (jsMapSet m k v).map (fun p => p.1) = m.map (fun p => p.1) ++ [k] := by
  unfold jsMapSet
  have hany : m.any (fun p => p.1 = k) = false := by
    apply Bool.eq_false_iff.mpr
    intro hany
    rcases List.any_eq_true.mp hany with ⟨p, hp, hpk⟩
    have := List.find?_eq_none.mp h p hp
    exact this hpk
  rw [if_neg (by rw [hany]; simp)]
  simp

theorem writeLoopLocal_uids (P : String) (bm : List (String × RoamNode)) :
    ∀ (blocks : List BlockPayload) (seen : List String) (tree : List RoamNode) (ctr : Nat),
      ctr ≤ (writeLoopLocal P bm blocks seen tree ctr).1.2
      ∧ ∀ u ∈ treeUids (writeLoopLocal P bm blocks seen tree ctr).1.1,
          u ∈ treeUids tree ∨ ∃ k, ctr ≤ k ∧
            k < (writeLoopLocal P bm blocks seen tree ctr).1.2 ∧ u = genUid k
  | [], seen, tree, ctr => by
      unfold writeLoopLocal
      exact ⟨le_refl ctr, fun u hu => Or.inl hu⟩
  | block :: rest, seen, tree, ctr => by
      cases hid : extractICalIdFromBlock block with
      | none =>
          simp only [writeLoopLocal, hid]
          exact writeLoopLocal_uids P bm rest seen tree ctr
      | some icalId =>
          by_cases hseen : icalId ∈ seen
          · simp only [writeLoopLocal, hid]
            rw [if_pos hseen]
            exact writeLoopLocal_uids P bm rest seen tree ctr
          · simp only [writeLoopLocal, hid]
            rw [if_neg hseen]
            cases hm : jsMapGet bm icalId with
            | some existing =>
                dsimp only
                by_cases htxt : existing.text = block.text
                · rw [if_neg (by simpa using htxt)]
                  dsimp only [syncChildrenLocal]
                  have hsync := syncChildrenGoLocal_uids existing.uid block.children
                    (buildPropsMap (localChildrenOf tree existing.uid)) tree ctr
                  have hrec := writeLoopLocal_uids P bm rest (seen ++ [icalId])
                    (syncChildrenGoLocal existing.uid block.children
                      (buildPropsMap (localChildrenOf tree existing.uid)) tree ctr).1.1
                    (syncChildrenGoLocal existing.uid block.children
                      (buildPropsMap (localChildrenOf tree existing.uid)) tree ctr).1.2
                  refine ⟨le_trans hsync.1 hrec.1, ?_⟩
                  intro u hu
                  rcases hrec.2 u hu with h1 | h2
                  · rcases hsync.2 u h1 with h3 | h4
                    · exact Or.inl h3
                    · rcases h4 with ⟨k, hk1, hk2, he⟩
                      exact Or.inr ⟨k, hk1, lt_of_lt_of_le hk2 hrec.1, he⟩
                  · rcases h2 with ⟨k, hk1, hk2, he⟩
                    exact Or.inr ⟨k, le_trans hsync.1 hk1, hk2, he⟩
                · rw [if_pos (by simpa using htxt)]
                  dsimp only [syncChildrenLocal]
                  have hsync := syncChildrenGoLocal_uids existing.uid block.children
                    (buildPropsMap (localChildrenOf
                      (localUpdate existing.uid block.text tree) existing.uid))
                    (localUpdate existing.uid block.text tree) ctr
                  have hrec := writeLoopLocal_uids P bm rest (seen ++ [icalId])
                    (syncChildrenGoLocal existing.uid block.children
                      (buildPropsMap (localChildrenOf
                        (localUpdate existing.uid block.text tree) existing.uid))
                      (localUpdate existing.uid block.text tree) ctr).1.1
                    (syncChildrenGoLocal existing.uid block.children
                      (buildPropsMap (localChildrenOf
                        (localUpdate existing.uid block.text tree) existing.uid))
                      (localUpdate existing.uid block.text tree) ctr).1.2
                  refine ⟨le_trans hsync.1 hrec.1, ?_⟩
                  intro u hu
                  rcases hrec.2 u hu with h1 | h2
                  · rcases hsync.2 u h1 with h3 | h4
                    · rw [treeUids_localUpdate] at h3
                      exact Or.inl h3
                    · rcases h4 with ⟨k, hk1, hk2, he⟩
                      exact Or.inr ⟨k, hk1, lt_of_lt_of_le hk2 hrec.1, he⟩
                  · rcases h2 with ⟨k, hk1, hk2, he⟩
                    exact Or.inr ⟨k, le_trans hsync.1 hk1, hk2, he⟩
            | none =>
                dsimp only
                have hinst := instantiateBlock_spec block ctr
                have hrec := writeLoopLocal_uids P bm rest (seen ++ [icalId])
                  (tree ++ [(instantiateBlock ctr block).1])
                  (instantiateBlock ctr block).2
                refine ⟨le_trans (by rw [hinst.1]; omega) hrec.1, ?_⟩
                intro u hu
                rcases hrec.2 u hu with h1 | h2
                · rw [treeUids_append] at h1
                  rcases List.mem_append.mp h1 with h3 | h4
                  · exact Or.inl h3
                  · have h5 : u ∈ nodeUids (instantiateBlock ctr block).1 := by
                      rw [treeUids_cons] at h4
                      rcases List.mem_append.mp h4 with h6 | h7
                      · exact h6
                      · simp [treeUids] at h7
                    rcases hinst.2.2.2.2 u h5 with ⟨k, hk1, hk2, he⟩
                    refine Or.inr ⟨k, hk1, ?_, he⟩
                    calc k < ctr + 1 + block.children.length := hk2
                    _ = (instantiateBlock ctr block).2 := hinst.1.symm
                    _ ≤ _ := hrec.1
                · rcases h2 with ⟨k, hk1, hk2, he⟩
                  refine Or.inr ⟨k, ?_, hk2, he⟩
                  have : ctr ≤ (instantiateBlock ctr block).2 := by
                    rw [hinst.1]
                    omega
                  omega

theorem removeObsolete_fold_local_uids (seen : List String) :
    ∀ (bm : List (String × RoamNode)) (tree : List RoamNode) (tr : List Mutation),
      ∀ u ∈ treeUids ((bm.foldl (fun acc entry =>
          if entry.1 ∈ seen then acc
          else (localDelete entry.2.uid acc.1, acc.2 ++ [Mutation.deleteBlock entry.2.uid]))
          (tree, tr)).1), u ∈ treeUids tree
  | [], tree, tr, u, hu => by simpa using hu
  | e :: rest, tree, tr, u, hu => by
      simp only [List.foldl_cons] at hu
      by_cases hs : e.1 ∈ seen
      · rw [if_pos hs] at hu
        exact removeObsolete_fold_local_uids seen rest tree tr u hu
      · rw [if_neg hs] at hu
        have h2 := removeObsolete_fold_local_uids seen rest (localDelete e.2.uid tree)
          (tr ++ [Mutation.deleteBlock e.2.uid]) u hu
        exact mem_treeUids_localDelete e.2.uid tree u h2

theorem writePageLocal_uids (P : String) (blocks : List BlockPayload)
    (tree : List RoamNode) (ctr : Nat) :
    ctr ≤ (writePageLocal P blocks tree ctr).1.2
    ∧ ∀ u ∈ treeUids (writePageLocal P blocks tree ctr).1.1,
        u ∈ treeUids tree ∨ ∃ k, ctr ≤ k ∧
          k < (writePageLocal P blocks tree ctr).1.2 ∧ u = genUid k := by
  unfold writePageLocal removeObsoleteLocal
  dsimp only
  have hloop := writeLoopLocal_uids P (buildBlockMap tree) blocks [] tree ctr
  refine ⟨hloop.1, ?_⟩
  intro u hu
  have h2 := removeObsolete_fold_local_uids
    (writeLoopLocal P (buildBlockMap tree) blocks [] tree ctr).2.2 (buildBlockMap tree)
    (writeLoopLocal P (buildBlockMap tree) blocks [] tree ctr).1.1 [] u hu
  exact hloop.2 u h2

theorem StoreOK_setPage (s : Store) (P : String) (X : List RoamNode) (c : Nat)
    (hok : StoreOK s) (hc : s.counter ≤ c)
    (hX : ∀ u ∈ treeUids X, u ∈ treeUids (getTree s P) ∨
      ∃ k, s.counter ≤ k ∧ k < c ∧ u = genUid k) :
    StoreOK (setPage s P X c) := by
  obtain ⟨hnd, hdisj, hfresh⟩ := hok
  refine ⟨?_, ?_, ?_⟩
  · cases hg : getPage s P with
    | some w =>
        rw [setPage_keys s P X w c hg]
        exact hnd
    | none =>
        unfold setPage
        have hfind : s.pages.find? (fun p => p.1 = P) = none := by
          unfold getPage jsMapGet at hg
          cases hf : s.pages.find? (fun p => p.1 = P) with
          | none => rfl
          | some q => rw [hf] at hg; simp at hg
        rw [jsMapSet_keys_absent s.pages P X hfind]
        apply List.Nodup.append hnd (List.nodup_singleton P)
        intro a ha hb
        have he : a = P := by simpa using hb
        rw [he] at ha
        exact getPage_none_key_not_mem s P hg ha
  · intro Q u hu hothers
    by_cases hq : Q = P
    · subst hq
      have hX2 : treeUids (getTree (setPage s Q X c) Q) = treeUids X := by
        unfold getTree
        rw [getPage_setPage]
        rfl
      rw [hX2] at hu
      rw [pageOthers_setPage] at hothers
      rcases hX u hu with h1 | h2
      · exact hdisj Q u h1 hothers
      · rcases h2 with ⟨k, hk1, hk2, rfl⟩
        exact hfresh (genUid k) (pageOthers_sub_storeUids s Q (genUid k) hothers) k hk1 rfl
    · have hX2 : getTree (setPage s P X c) Q = getTree s Q := by
        unfold getTree
        rw [getPage_setPage_ne s P Q X c hq]
      rw [hX2] at hu
      rcases mem_pageOthers_setPage_any s P Q X c u hothers with h1 | h2
      · exact hdisj Q u hu h1
      · rcases hX u h2 with h3 | h4
        · -- u lies on page Q and on page P ≠ Q: contradicts disjointness at P
          apply hdisj P u h3
          unfold getTree at hu
          cases hgq : getPage s Q with
          | none => rw [hgq] at hu; simp [treeUids] at hu
          | some w =>
              rw [hgq] at hu
              exact (mem_pageOthers s P u).mpr
                ⟨(Q, w), jsMapGet_mem s.pages Q w hgq, by simpa using hq, hu⟩
        · rcases h4 with ⟨k, hk1, hk2, rfl⟩
          exact hfresh (genUid k) (getTree_sub_storeUids s Q (genUid k) hu) k hk1 rfl
  · intro u hu
    rcases mem_storeUids_setPage s P X c u hu with h1 | h2
    · intro k hk
      exact hfresh u h1 k (le_trans hc hk)
    · rcases hX u h2 with h3 | h4
      · intro k hk
        exact hfresh u (getTree_sub_storeUids s P u h3) k (le_trans hc hk)
      · rcases h4 with ⟨j, hj1, hj2, rfl⟩
        intro k hk he
        rw [setPage_counter] at hk
        have := genUid_inj j k he
        omega

theorem ensurePage_spec (P : String) (s : Store) (hok : StoreOK s) :
    StoreOK (ensurePage P s).1
    ∧ getPage (ensurePage P s).1 P = some (getTree s P)
    ∧ (ensurePage P s).1.counter = s.counter
    ∧ pageOthers (ensurePage P s).1 P = pageOthers s P
    ∧ (∀ Q, Q ≠ P → getPage (ensurePage P s).1 Q = getPage s Q)
    ∧ storeUids (ensurePage P s).1 = storeUids s := by
  unfold ensurePage
  cases hg : getPage s P with
  | some tree =>
      rw [if_pos (by rfl)]
      exact ⟨hok, by unfold getTree; rw [hg]; rfl, rfl, rfl, fun Q _ => rfl, rfl⟩
  | none =>
      rw [if_neg (by simp)]
      have hfind : s.pages.find? (fun p => p.1 = P) = none := by
        unfold getPage jsMapGet at hg
        cases hf : s.pages.find? (fun p => p.1 = P) with
        | none => rfl
        | some q => rw [hf] at hg; simp at hg
      have hgetQ : ∀ Q, Q ≠ P →
          getPage (Store.mk (s.pages ++ [(P, [])]) s.counter) Q = getPage s Q := by
        intro Q hQ
        unfold getPage jsMapGet
        simp only
        rw [List.find?_append]
        cases hf : s.pages.find? (fun p => p.1 = Q) with
        | some q => simp [hf]
        | none =>
            simp only [hf, Option.none_or]
            rw [List.find?_cons_of_neg _ (by simpa using fun h => hQ h.symm)]
            simp
      have hget1 : getPage (Store.mk (s.pages ++ [(P, [])]) s.counter) P = some [] := by
        unfold getPage jsMapGet
        simp only
        rw [List.find?_append, hfind]
        simp
      have huids : storeUids (Store.mk (s.pages ++ [(P, [])]) s.counter) = storeUids s := by
        unfold storeUids
        simp [treeUids]
      have hothers : ∀ Q, pageOthers (Store.mk (s.pages ++ [(P, [])]) s.counter) Q =
          pageOthers s Q ++ pageOthers (Store.mk [(P, [])] s.counter) Q := by
        intro Q
        unfold pageOthers
        simp [List.filter_append]
      have hothersP : pageOthers (Store.mk (s.pages ++ [(P, [])]) s.counter) P =
          pageOthers s P := by
        rw [hothers P]
        have : pageOthers (Store.mk [(P, [])] s.counter) P = [] := by
          unfold pageOthers
          simp
        rw [this, List.append_nil]
      refine ⟨⟨?_, ?_, ?_⟩, ?_, rfl, hothersP, hgetQ, huids⟩
      · simp only
        have hkeys : (s.pages ++ [(P, [])]).map (fun p : String × List RoamNode => p.1) =
            s.pages.map (fun p => p.1) ++ [P] := by simp
        rw [hkeys]
        apply List.Nodup.append hok.1 (List.nodup_singleton P)
        intro a ha hb
        have he : a = P := by simpa using hb
        rw [he] at ha
        exact getPage_none_key_not_mem s P hg ha
      · intro Q u hu hmem
        by_cases hQ : Q = P
        · subst hQ
          unfold getTree at hu
          rw [hget1] at hu
          simp [treeUids] at hu
        · unfold getTree at hu
          rw [hgetQ Q hQ] at hu
          rw [hothers Q] at hmem
          rcases List.mem_append.mp hmem with h1 | h2
          · exact hok.2.1 Q u (by unfold getTree; exact hu) h1
          · unfold pageOthers at h2
            simp only [List.mem_flatten, List.mem_map, List.mem_filter] at h2
            rcases h2 with ⟨l, ⟨pg, ⟨hpg, _⟩, rfl⟩, hul⟩
            have : pg = (P, []) := by simpa using hpg
            rw [this] at hul
            simp [treeUids] at hul
      · intro u hu
        rw [huids] at hu
        exact hok.2.2 u hu
      · unfold getTree
        rw [hg]
        exact hget1

theorem genFresh_pageOthers (s : Store) (hok : StoreOK s) (Q : String) :
    ∀ k, s.counter ≤ k → genUid k ∉ pageOthers s Q := by
  intro k hk hmem
  exact hok.2.2 _ (pageOthers_sub_storeUids s Q _ hmem) k hk rfl

/-- One page write, on any well-formed store: the result is the purely
local reconciliation of the page's tree, installed at the page, after
the page is ensured to exist. -/
theorem writeBlocksToPage_run (P : String) (blocks : List BlockPayload) (s : Store)
    (hok : StoreOK s) :
    writeBlocksToPage P blocks s =
      (setPage (ensurePage P s).1 P
        (writePageLocal P blocks (getTree s P) s.counter).1.1
        (writePageLocal P blocks (getTree s P) s.counter).1.2,
       (ensurePage P s).2 ++ (writePageLocal P blocks (getTree s P) s.counter).2) := by
  cases hg : getPage s P with
  | some tree =>
      have he : ensurePage P s = (s, []) := by
        unfold ensurePage
        rw [if_pos (by rw [hg]; rfl)]
      have htree : getTree s P = tree := by
        unfold getTree
        rw [hg]
        rfl
      rw [he, htree]
      have hO1 : ∀ u ∈ treeUids tree, u ∉ pageOthers s P := by
        intro u hu
        apply hok.2.1 P u
        rw [htree]
        exact hu
      have := writeBlocksToPage_localizes P blocks s tree hok.1 hg hO1
        (genFresh_pageOthers s hok P)
      rw [this]
      simp
  | none =>
      have espec := ensurePage_spec P s hok
      have he : ensurePage P s =
          (Store.mk (s.pages ++ [(P, [])]) s.counter, [Mutation.createPage P]) := by
        unfold ensurePage
        rw [if_neg (by rw [hg]; simp)]
      have htree : getTree s P = [] := by
        unfold getTree
        rw [hg]
        rfl
      have hens1 : ensurePage P (ensurePage P s).1 = ((ensurePage P s).1, []) := by
        have hget1 := espec.2.1
        generalize hs1 : (ensurePage P s).1 = s1 at hget1 ⊢
        unfold ensurePage
        rw [if_pos (by rw [hget1]; rfl)]
      have hbridge : writeBlocksToPage P blocks s =
          ((writeBlocksToPage P blocks (ensurePage P s).1).1,
           Mutation.createPage P ::
             (writeBlocksToPage P blocks (ensurePage P s).1).2) := by
        conv_lhs => unfold writeBlocksToPage
        conv_rhs => unfold writeBlocksToPage
        rw [hens1, he]
        dsimp only
        simp
      rw [hbridge]
      have hO1 : ∀ u ∈ treeUids (getTree s P), u ∉ pageOthers (ensurePage P s).1 P := by
        rw [htree]
        intro u hu
        simp [treeUids] at hu
      have hloc := writeBlocksToPage_localizes P blocks (ensurePage P s).1 (getTree s P)
        espec.1.1 espec.2.1 hO1
        (by rw [espec.2.2.2.1]
            intro k hk
            exact genFresh_pageOthers s hok P k (by rw [espec.2.2.1] at hk; exact hk))
      rw [hloc, espec.2.2.1, he]
      simp

/-! ### Infrastructure: keyed folds (`buildBlockMap` / `buildPropsMap`) -/

theorem buildPropsMap_eq_kfold (chs : List PropNode) :
    buildPropsMap chs = kfold (fun c => extractPropertyKey c.text) [] chs := rfl

theorem buildBlockMap_eq_kfold (tree : List RoamNode) :
    buildBlockMap tree = kfold extractICalIdFromNode [] tree := rfl

theorem kfold_cons {α : Type} (f : α → Option String) (acc : List (String × α)) (c : α)
    (l : List α) :
    kfold f acc (c :: l) =
      kfold f (match f c with | some k => jsMapSet acc k c | none => acc) l := by
  unfold kfold
  rfl

theorem jsMapGet_set {α : Type} (m : List (String × α)) (k k' : String) (v : α) :
    jsMapGet (jsMapSet m k v) k' = if k' = k then some v else jsMapGet m k' := by
  by_cases h : k' = k
  · subst h; simp [jsMapGet_set_self]
  · simp [h, jsMapGet_set_ne m k v k' h]

theorem kfold_entry {α : Type} (f : α → Option String) (P : String → α → Prop) :
    ∀ (l : List α) (acc : List (String × α)),
      (∀ k p, jsMapGet acc k = some p → P k p) →
      (∀ c ∈ l, ∀ k, f c = some k → P k c) →
      ∀ k p, jsMapGet (kfold f acc l) k = some p → P k p := by
  intro l
  induction l with
  | nil => intro acc hacc _ k p hp; exact hacc k p hp
  | cons c rest ih =>
      intro acc hacc hl k p hp
      rw [kfold_cons] at hp
      cases hc : f c with
      | none =>
          rw [hc] at hp
          exact ih acc hacc (fun d hd => hl d (List.mem_cons_of_mem c hd)) k p hp
      | some kc =>
          rw [hc] at hp
          refine ih (jsMapSet acc kc c) ?_ (fun d hd => hl d (List.mem_cons_of_mem c hd)) k p hp
          intro k' p' hp'
          rw [jsMapGet_set] at hp'
          by_cases hk : k' = kc
          · rw [if_pos hk] at hp'
            cases hp'
            exact hl c (List.mem_cons_self c rest) k' (hk ▸ hc)
          · rw [if_neg hk] at hp'
            exact hacc k' p' hp'

theorem kfold_isSome {α : Type} (f : α → Option String) :
    ∀ (l : List α) (acc : List (String × α)) (k : String),
      ((jsMapGet acc k).isSome ∨ ∃ c ∈ l, f c = some k) →
      (jsMapGet (kfold f acc l) k).isSome := by
  intro l
  induction l with
  | nil =>
      intro acc k h
      rcases h with h | ⟨c, hc, _⟩
      · exact h
      · exact absurd hc (List.not_mem_nil c)
  | cons c rest ih =>
      intro acc k h
      rw [kfold_cons]
      cases hc : f c with
      | none =>
          refine ih _ k ?_
          rcases h with h | ⟨d, hd, hdk⟩
          · exact Or.inl h
          · rcases List.mem_cons.mp hd with rfl | hd'
            · rw [hc] at hdk; cases hdk
            · exact Or.inr ⟨d, hd', hdk⟩
      | some kc =>
          refine ih _ k ?_
          rcases h with h | ⟨d, hd, hdk⟩
          · left
            rw [jsMapGet_set]
            by_cases hk : k = kc
            · rw [if_pos hk]; rfl
            · rw [if_neg hk]; exact h
          · rcases List.mem_cons.mp hd with rfl | hd'
            · left
              rw [hdk] at hc
              cases hc
              rw [jsMapGet_set, if_pos rfl]
              rfl
            · exact Or.inr ⟨d, hd', hdk⟩

theorem kfold_no_key {α : Type} (f : α → Option String) :
    ∀ (l : List α) (acc : List (String × α)) (k : String),
      (∀ c ∈ l, f c ≠ some k) →
      jsMapGet (kfold f acc l) k = jsMapGet acc k := by
  intro l
  induction l with
  | nil => intro acc k _; rfl
  | cons c rest ih =>
      intro acc k h
      rw [kfold_cons]
      cases hc : f c with
      | none => exact ih acc k (fun d hd => h d (List.mem_cons_of_mem c hd))
      | some kc =>
          rw [ih _ k (fun d hd => h d (List.mem_cons_of_mem c hd))]
          rw [jsMapGet_set]
          have : k ≠ kc := by
            intro hk
            exact h c (List.mem_cons_self c rest) (by rw [hc, hk])
          rw [if_neg this]

theorem kfold_get_unique {α : Type} (f : α → Option String) :
    ∀ (l : List α) (acc : List (String × α)) (p : α) (k : String),
      (l.filterMap f).Nodup → p ∈ l → f p = some k →
      jsMapGet (kfold f acc l) k = some p := by
  intro l
  induction l with
  | nil => intro acc p k _ hp; exact absurd hp (List.not_mem_nil p)
  | cons c rest ih =>
      intro acc p k hnd hp hk
      rw [kfold_cons]
      rcases List.mem_cons.mp hp with rfl | hp'
      · rw [hk]
        rw [kfold_no_key]
        · rw [jsMapGet_set, if_pos rfl]
        · intro d hd hdk
          rw [List.filterMap_cons, hk] at hnd
          exact (List.nodup_cons.mp hnd).1 (List.mem_filterMap.mpr ⟨d, hd, hdk⟩)
      · cases hc : f c with
        | none =>
            refine ih acc p k ?_ hp' hk
            rw [List.filterMap_cons, hc] at hnd
            exact hnd
        | some kc =>
            refine ih _ p k ?_ hp' hk
            rw [List.filterMap_cons, hc] at hnd
            exact (List.nodup_cons.mp hnd).2

theorem kfold_keys {α : Type} (f : α → Option String) :
    ∀ (l : List α) (acc : List (String × α)) (x : String),
      x ∈ (kfold f acc l).map Prod.fst →
      x ∈ acc.map Prod.fst ∨ ∃ c ∈ l, f c = some x := by
  intro l
  induction l with
  | nil => intro acc x h; exact Or.inl h
  | cons c rest ih =>
      intro acc x h
      rw [kfold_cons] at h
      cases hc : f c with
      | none =>
          rw [hc] at h
          rcases ih acc x h with h' | ⟨d, hd, hdk⟩
          · exact Or.inl h'
          · exact Or.inr ⟨d, List.mem_cons_of_mem c hd, hdk⟩
      | some kc =>
          rw [hc] at h
          rcases ih (jsMapSet acc kc c) x h with h' | ⟨d, hd, hdk⟩
          · unfold jsMapSet at h'
            by_cases hany : acc.any (fun pr => pr.1 = kc)
            · rw [if_pos hany] at h'
              rcases List.mem_map.mp h' with ⟨pr, hpr, hx⟩
              rcases List.mem_map.mp hpr with ⟨pr0, hpr0, hpr0e⟩
              by_cases he : pr0.1 = kc
              · rw [if_pos he] at hpr0e
                subst hpr0e
                exact Or.inr ⟨c, List.mem_cons_self c rest, by rw [hc]; exact congrArg some hx⟩
              · rw [if_neg he] at hpr0e
                subst hpr0e
                exact Or.inl (hx ▸ List.mem_map.mpr ⟨pr0, hpr0, rfl⟩)
            · rw [if_neg hany] at h'
              rw [List.map_append] at h'
              rcases List.mem_append.mp h' with h'' | h''
              · exact Or.inl h''
              · simp at h''
                exact Or.inr ⟨c, List.mem_cons_self c rest, by rw [hc, h'']⟩
          · exact Or.inr ⟨d, List.mem_cons_of_mem c hd, hdk⟩

theorem jsMapGet_delete_ne {α : Type} (m : List (String × α)) (k k' : String) (h : k' ≠ k) :
    jsMapGet (jsMapDelete m k) k' = jsMapGet m k' := by
  induction m with
  | nil => rfl
  | cons pr rest ih =>
      by_cases hp : pr.1 = k
      · have h1 : jsMapDelete (pr :: rest) k = jsMapDelete rest k := by
          unfold jsMapDelete
          rw [List.filter_cons]
          simp [hp]
        have hne : ¬ pr.1 = k' := fun hh => h (by rw [← hh]; exact hp)
        rw [h1, ih]
        unfold jsMapGet
        rw [List.find?_cons]
        simp [hne]
      · have h1 : jsMapDelete (pr :: rest) k = pr :: jsMapDelete rest k := by
          unfold jsMapDelete
          rw [List.filter_cons]
          simp [hp]
        rw [h1]
        unfold jsMapGet
        rw [List.find?_cons, List.find?_cons]
        by_cases hk' : pr.1 = k'
        · simp [hk']
        · simp only [hk', decide_False]
          exact ih

/-! ### Infrastructure: tree structure under distinct uids -/

theorem nodeUids_nodup (tree : List RoamNode) (hnd : (treeUids tree).Nodup) (r : RoamNode)
    (hr : r ∈ tree) : (nodeUids r).Nodup := by
  induction tree with
  | nil => exact absurd hr (List.not_mem_nil r)
  | cons q rest ih =>
      rw [treeUids_cons] at hnd
      rcases List.mem_cons.mp hr with rfl | hr'
      · exact (List.nodup_append.mp hnd).1
      · exact ih (List.nodup_append.mp hnd).2.1 hr'

theorem uid_unique (tree : List RoamNode) (hnd : (treeUids tree).Nodup) (r r' : RoamNode)
    (hr : r ∈ tree) (hr' : r' ∈ tree) (h : r.uid = r'.uid) : r = r' := by
  induction tree with
  | nil => exact absurd hr (List.not_mem_nil r)
  | cons q rest ih =>
      rw [treeUids_cons] at hnd
      have hdisj := (List.nodup_append.mp hnd).2.2
      rcases List.mem_cons.mp hr with rfl | hra
      · rcases List.mem_cons.mp hr' with rfl | hrb
        · rfl
        · exact absurd (mem_treeUids_of_mem rest r' hrb r'.uid (uid_mem_nodeUids r'))
            (h ▸ hdisj (uid_mem_nodeUids r))
      · rcases List.mem_cons.mp hr' with rfl | hrb
        · exact absurd (mem_treeUids_of_mem rest r hra r.uid (uid_mem_nodeUids r))
            (h ▸ hdisj (uid_mem_nodeUids r'))
        · exact ih (List.nodup_append.mp hnd).2.1 hra hrb

theorem nodeUids_disjoint (tree : List RoamNode) (hnd : (treeUids tree).Nodup)
    (r r' : RoamNode) (hr : r ∈ tree) (hr' : r' ∈ tree) (hne : r ≠ r') :
    ∀ u ∈ nodeUids r, u ∉ nodeUids r' := by
  induction tree with
  | nil => exact absurd hr (List.not_mem_nil r)
  | cons q rest ih =>
      rw [treeUids_cons] at hnd
      have hdisj := (List.nodup_append.mp hnd).2.2
      rcases List.mem_cons.mp hr with rfl | hra
      · rcases List.mem_cons.mp hr' with rfl | hrb
        · exact absurd rfl hne
        · intro u hu hu'
          exact hdisj hu (mem_treeUids_of_mem rest r' hrb u hu')
      · rcases List.mem_cons.mp hr' with rfl | hrb
        · intro u hu hu'
          exact hdisj hu' (mem_treeUids_of_mem rest r hra u hu)
        · exact ih (List.nodup_append.mp hnd).2.1 hra hrb

theorem mem_decomp (tree : List RoamNode) (hnd : (treeUids tree).Nodup) (r : RoamNode)
    (hr : r ∈ tree) :
    ∃ l₁ l₂, tree = l₁ ++ r :: l₂ ∧ ∀ q, q ∈ l₁ ∨ q ∈ l₂ → q.uid ≠ r.uid := by
  rcases List.append_of_mem hr with ⟨l₁, l₂, rfl⟩
  refine ⟨l₁, l₂, rfl, ?_⟩
  intro q hq he
  rw [treeUids_append, treeUids_cons] at hnd
  have hruid : r.uid ∈ nodeUids r := uid_mem_nodeUids r
  rcases hq with hq | hq
  · have h1 : q.uid ∈ treeUids l₁ := mem_treeUids_of_mem l₁ q hq q.uid (uid_mem_nodeUids q)
    have hdisj := (List.nodup_append.mp hnd).2.2
    exact hdisj h1 (he ▸ List.mem_append_left _ hruid)
  · have h1 : q.uid ∈ treeUids l₂ := mem_treeUids_of_mem l₂ q hq q.uid (uid_mem_nodeUids q)
    have hnd2 := (List.nodup_append.mp hnd).2.1
    have hdisj := (List.nodup_append.mp hnd2).2.2
    exact hdisj (he ▸ hruid) h1

theorem replaceByUid_decomp (l₁ l₂ : List RoamNode) (r r₂ : RoamNode)
    (h : ∀ q, q ∈ l₁ ∨ q ∈ l₂ → q.uid ≠ r.uid) :
    replaceByUid (l₁ ++ r :: l₂) r.uid r₂ = l₁ ++ r₂ :: l₂ := by
  unfold replaceByUid
  rw [List.map_append, List.map_cons, if_pos rfl]
  rw [map_eq_self_of l₁ _ (fun q hq => by rw [if_neg (h q (Or.inl hq))])]
  rw [map_eq_self_of l₂ _ (fun q hq => by rw [if_neg (h q (Or.inr hq))])]

theorem replaceByUid_self (tree : List RoamNode) (hnd : (treeUids tree).Nodup) (r : RoamNode)
    (hr : r ∈ tree) : replaceByUid tree r.uid r = tree := by
  rcases mem_decomp tree hnd r hr with ⟨l₁, l₂, rfl, h⟩
  exact replaceByUid_decomp l₁ l₂ r r h

theorem localChildrenOf_decomp (l₁ l₂ : List RoamNode) (r : RoamNode)
    (h : ∀ q ∈ l₁, q.uid ≠ r.uid) :
    localChildrenOf (l₁ ++ r :: l₂) r.uid = r.children := by
  induction l₁ with
  | nil =>
      unfold localChildrenOf
      rw [List.nil_append, List.find?_cons]
      simp
  | cons q l ih =>
      unfold localChildrenOf at ih ⊢
      rw [List.cons_append, List.find?_cons]
      have hq : ¬ q.uid = r.uid := h q (List.mem_cons_self q l)
      simp only [hq, decide_False]
      exact ih (fun p hp => h p (List.mem_cons_of_mem q hp))

theorem localChildrenOf_eq (tree : List RoamNode) (hnd : (treeUids tree).Nodup)
    (r : RoamNode) (hr : r ∈ tree) : localChildrenOf tree r.uid = r.children := by
  rcases mem_decomp tree hnd r hr with ⟨l₁, l₂, rfl, h⟩
  exact localChildrenOf_decomp l₁ l₂ r (fun q hq => h q (Or.inl hq))

theorem mem_replaceByUid_of_ne (tree : List RoamNode) (u : String) (r₂ q : RoamNode)
    (hq : q ∈ tree) (hne : q.uid ≠ u) : q ∈ replaceByUid tree u r₂ := by
  unfold replaceByUid
  have : (fun p => if p.uid = u then r₂ else p) q = q := by dsimp only; rw [if_neg hne]
  exact this ▸ List.mem_map_of_mem _ hq

theorem mem_of_mem_replaceByUid (tree : List RoamNode) (u : String) (r₂ q : RoamNode)
    (hq : q ∈ replaceByUid tree u r₂) : q = r₂ ∨ (q ∈ tree ∧ q.uid ≠ u) := by
  rcases List.mem_map.mp hq with ⟨p, hp, he⟩
  by_cases h : p.uid = u
  · rw [if_pos h] at he
    exact Or.inl he.symm
  · rw [if_neg h] at he
    subst he
    exact Or.inr ⟨hp, h⟩

/-! ### Infrastructure: uniform `findSome?` and `gensFrom` -/

theorem findSome_uniform {α β : Type} (f : α → Option β) (x : β) :
    ∀ l : List α, (∀ p ∈ l, f p = none ∨ f p = some x) → (∃ p ∈ l, f p = some x) →
      l.findSome? f = some x := by
  intro l
  induction l with
  | nil => intro _ h; rcases h with ⟨p, hp, _⟩; exact absurd hp (List.not_mem_nil p)
  | cons c rest ih =>
      intro hall hex
      rw [List.findSome?_cons]
      cases hc : f c with
      | some y =>
          rcases hall c (List.mem_cons_self c rest) with h | h
          · rw [hc] at h; cases h
          · rw [hc] at h; exact h
      | none =>
          refine ih (fun p hp => hall p (List.mem_cons_of_mem c hp)) ?_
          rcases hex with ⟨p, hp, hpx⟩
          rcases List.mem_cons.mp hp with rfl | hp'
          · rw [hpx] at hc; cases hc
          · exact ⟨p, hp', hpx⟩

theorem findSome_none {α β : Type} (f : α → Option β) :
    ∀ l : List α, (∀ p ∈ l, f p = none) → l.findSome? f = none := by
  intro l
  induction l with
  | nil => intro _; rfl
  | cons c rest ih =>
      intro hall
      rw [List.findSome?_cons, hall c (List.mem_cons_self c rest)]
      exact ih (fun p hp => hall p (List.mem_cons_of_mem c hp))

theorem mem_gensFrom (u : String) : ∀ (n a : Nat),
    u ∈ gensFrom a n ↔ ∃ k, a ≤ k ∧ k < a + n ∧ u = genUid k := by
  intro n
  induction n with
  | zero =>
      intro a
      constructor
      · intro h; exact absurd h (List.not_mem_nil u)
      · intro ⟨k, h1, h2, _⟩; omega
  | succ m ih =>
      intro a
      unfold gensFrom
      rw [List.mem_cons]
      constructor
      · intro h
        rcases h with h | h
        · exact ⟨a, Nat.le_refl a, by omega, h⟩
        · rcases (ih (a + 1)).mp h with ⟨k, h1, h2, h3⟩
          exact ⟨k, by omega, by omega, h3⟩
      · intro ⟨k, h1, h2, h3⟩
        by_cases hk : k = a
        · exact Or.inl (hk ▸ h3)
        · exact Or.inr ((ih (a + 1)).mpr ⟨k, by omega, by omega, h3⟩)

theorem gensFrom_nodup : ∀ (n a : Nat), (gensFrom a n).Nodup := by
  intro n
  induction n with
  | zero => intro a; exact List.nodup_nil
  | succ m ih =>
      intro a
      unfold gensFrom
      rw [List.nodup_cons]
      refine ⟨?_, ih (a + 1)⟩
      intro h
      rcases (mem_gensFrom (genUid a) m (a + 1)).mp h with ⟨k, h1, _, h3⟩
      have := genUid_inj a k h3
      omega

/-! ### Infrastructure: pointwise list relations -/

theorem forallTwo_mem_right {α β : Type} (R : α → β → Prop) :
    ∀ {l₁ : List α} {l₂ : List β}, List.Forall₂ R l₁ l₂ → ∀ b ∈ l₂, ∃ a ∈ l₁, R a b := by
  intro l₁ l₂ h
  induction h with
  | nil => intro b hb; exact absurd hb (List.not_mem_nil b)
  | @cons a b la lb hab _ ih =>
      intro b' hb'
      rcases List.mem_cons.mp hb' with rfl | hb''
      · exact ⟨a, List.mem_cons_self a la, hab⟩
      · rcases ih b' hb'' with ⟨a', ha', hr⟩
        exact ⟨a', List.mem_cons_of_mem a ha', hr⟩

theorem forallTwo_mem_left {α β : Type} (R : α → β → Prop) :
    ∀ {l₁ : List α} {l₂ : List β}, List.Forall₂ R l₁ l₂ → ∀ a ∈ l₁, ∃ b ∈ l₂, R a b := by
  intro l₁ l₂ h
  induction h with
  | nil => intro a ha; exact absurd ha (List.not_mem_nil a)
  | @cons a b la lb hab _ ih =>
      intro a' ha'
      rcases List.mem_cons.mp ha' with rfl | ha''
      · exact ⟨b, List.mem_cons_self b lb, hab⟩
      · rcases ih a' ha'' with ⟨b', hb', hr⟩
        exact ⟨b', List.mem_cons_of_mem b hb', hr⟩

theorem forallTwo_refl {α : Type} (R : α → α → Prop) :
    ∀ l : List α, (∀ a ∈ l, R a a) → List.Forall₂ R l l := by
  intro l
  induction l with
  | nil => intro _; exact List.Forall₂.nil
  | cons a rest ih =>
      intro h
      exact List.Forall₂.cons (h a (List.mem_cons_self a rest))
        (ih (fun b hb => h b (List.mem_cons_of_mem a hb)))

theorem forallTwo_map_uid {l₁ l₂ : List PropNode}
    (h : List.Forall₂ (fun p q => p.uid = q.uid) l₁ l₂) :
    l₁.map (fun p => p.uid) = l₂.map (fun p => p.uid) := by
  induction h with
  | nil => rfl
  | cons hab _ ih => simp [hab, ih]

theorem map_congr_mem {α β : Type} (l : List α) (f g : α → β) (h : ∀ a ∈ l, f a = g a) :
    l.map f = l.map g := by
  induction l with
  | nil => rfl
  | cons a rest ih =>
      rw [List.map_cons, List.map_cons, h a (List.mem_cons_self a rest),
        ih (fun b hb => h b (List.mem_cons_of_mem a hb))]

/-! ### Infrastructure: local primitives as record replacement -/

theorem localUpdate_root_canon (tree : List RoamNode) (hnd : (treeUids tree).Nodup)
    (r : RoamNode) (hr : r ∈ tree) (txt : String) :
    localUpdate r.uid txt tree = replaceByUid tree r.uid ⟨txt, r.uid, r.children⟩ := by
  unfold localUpdate replaceByUid
  refine map_congr_mem tree _ _ ?_
  intro q hq
  by_cases h : q.uid = r.uid
  · have hqr : q = r := uid_unique tree hnd q r hq hr h
    subst hqr
    rw [if_pos h, if_pos h]
    have hch : q.children.map (fun c => if c.uid = q.uid then (⟨txt, c.uid⟩ : PropNode) else c)
        = q.children := by
      refine map_eq_self_of _ _ ?_
      intro c hc
      have hcu : c.uid ≠ q.uid := by
        have hnn := nodeUids_nodup tree hnd q hq
        unfold nodeUids at hnn
        intro he
        exact (List.nodup_cons.mp hnn).1 (he ▸ List.mem_map_of_mem _ hc)
      rw [if_neg hcu]
    rw [hch]
  · rw [if_neg h, if_neg h]
    have hch : q.children.map (fun c => if c.uid = r.uid then (⟨txt, c.uid⟩ : PropNode) else c)
        = q.children := by
      refine map_eq_self_of _ _ ?_
      intro c hc
      have hqr : q ≠ r := fun he => h (he ▸ rfl)
      have hcu : c.uid ≠ r.uid := by
        intro he
        exact nodeUids_disjoint tree hnd q r hq hr hqr c.uid
          (List.mem_cons_of_mem _ (List.mem_map_of_mem _ hc)) (he ▸ uid_mem_nodeUids r)
      rw [if_neg hcu]
    rw [hch]

theorem localUpdate_child_canon (tree : List RoamNode) (hnd : (treeUids tree).Nodup)
    (r : RoamNode) (hr : r ∈ tree) (p : PropNode) (hp : p ∈ r.children) (txt : String) :
    localUpdate p.uid txt tree = replaceByUid tree r.uid
      ⟨r.text, r.uid,
       r.children.map (fun c => if c.uid = p.uid then ⟨txt, c.uid⟩ else c)⟩ := by
  have hpr : p.uid ≠ r.uid := by
    have hnn := nodeUids_nodup tree hnd r hr
    unfold nodeUids at hnn
    intro he
    exact (List.nodup_cons.mp hnn).1 (he ▸ List.mem_map_of_mem _ hp)
  unfold localUpdate replaceByUid
  refine map_congr_mem tree _ _ ?_
  intro q hq
  by_cases h : q.uid = r.uid
  · have hqr : q = r := uid_unique tree hnd q r hq hr h
    subst hqr
    rw [if_pos h]
    have hqu : ¬ q.uid = p.uid := fun he => hpr (by rw [← he, h])
    rw [if_neg hqu]
  · rw [if_neg h]
    have hqr : q ≠ r := fun he => h (he ▸ rfl)
    have hqu : ¬ q.uid = p.uid := by
      intro he
      exact nodeUids_disjoint tree hnd q r hq hr hqr q.uid (uid_mem_nodeUids q)
        (he ▸ List.mem_cons_of_mem _ (List.mem_map_of_mem _ hp))
    rw [if_neg hqu]
    have hch : q.children.map (fun c => if c.uid = p.uid then (⟨txt, c.uid⟩ : PropNode) else c)
        = q.children := by
      refine map_eq_self_of _ _ ?_
      intro c hc
      have hqr2 : q ≠ r := hqr
      have hcu : c.uid ≠ p.uid := by
        intro he
        exact nodeUids_disjoint tree hnd q r hq hr hqr2 c.uid
          (List.mem_cons_of_mem _ (List.mem_map_of_mem _ hc))
          (he ▸ List.mem_cons_of_mem _ (List.mem_map_of_mem _ hp))
      rw [if_neg hcu]
    rw [hch]

theorem localAppendChild_canon (tree : List RoamNode) (hnd : (treeUids tree).Nodup)
    (r : RoamNode) (hr : r ∈ tree) (node : PropNode) :
    localAppendChild r.uid node tree =
      replaceByUid tree r.uid ⟨r.text, r.uid, r.children ++ [node]⟩ := by
  unfold localAppendChild replaceByUid
  refine map_congr_mem tree _ _ ?_
  intro q hq
  by_cases h : q.uid = r.uid
  · have hqr : q = r := uid_unique tree hnd q r hq hr h
    subst hqr
    rw [if_pos h]
  · rw [if_neg h, if_neg h]

/-! ### Infrastructure: distinctness and freshness through replacement -/

theorem genFresh_mono (u : String) (a b : Nat) (h : GenFresh a u) (hab : a ≤ b) :
    GenFresh b u :=
  fun k hk => h k (Nat.le_trans hab hk)

theorem genFresh_genUid (k b : Nat) (h : k < b) : GenFresh b (genUid k) := by
  intro j hj he
  have := genUid_inj k j he
  omega

theorem nodup_insert_gens (A B cu : List String) (u : String) (a n : Nat)
    (hnd : (A ++ ((u :: cu) ++ B)).Nodup)
    (hfresh : ∀ v ∈ A ++ ((u :: cu) ++ B), GenFresh a v) :
    (A ++ ((u :: (cu ++ gensFrom a n)) ++ B)).Nodup := by
  have hng : ∀ v, v ∈ A ++ ((u :: cu) ++ B) → v ∉ gensFrom a n := by
    intro v hv hg
    rcases (mem_gensFrom v n a).mp hg with ⟨k, hk1, _, hv3⟩
    exact hfresh v hv k hk1 hv3
  obtain ⟨hA, hrest, hdA⟩ := List.nodup_append.mp hnd
  obtain ⟨hucu, hB, hdM⟩ := List.nodup_append.mp hrest
  obtain ⟨hu1, hcu⟩ := List.nodup_cons.mp hucu
  have h1 : (cu ++ gensFrom a n).Nodup := by
    refine List.nodup_append.mpr ⟨hcu, gensFrom_nodup n a, ?_⟩
    intro v hv hg
    exact hng v (List.mem_append_right A (List.mem_append_left B
      (List.mem_cons_of_mem u hv))) hg
  have h2 : (u :: (cu ++ gensFrom a n)).Nodup := by
    refine List.nodup_cons.mpr ⟨?_, h1⟩
    intro h
    rcases List.mem_append.mp h with h | h
    · exact hu1 h
    · exact hng u (List.mem_append_right A (List.mem_append_left B
        (List.mem_cons_self u cu))) h
  have h3 : ((u :: (cu ++ gensFrom a n)) ++ B).Nodup := by
    refine List.nodup_append.mpr ⟨h2, hB, ?_⟩
    intro v hv hvB
    rcases List.mem_cons.mp hv with rfl | hv'
    · exact hdM (List.mem_cons_self _ cu) hvB
    · rcases List.mem_append.mp hv' with h | h
      · exact hdM (List.mem_cons_of_mem u h) hvB
      · exact hng v (List.mem_append_right A (List.mem_append_right _ hvB)) h
  refine List.nodup_append.mpr ⟨hA, h3, ?_⟩
  intro v hvA hv2
  rcases List.mem_append.mp hv2 with h | h
  · rcases List.mem_cons.mp h with rfl | h'
    · exact hdA hvA (List.mem_append_left B (List.mem_cons_self _ cu))
    · rcases List.mem_append.mp h' with h'' | h''
      · exact hdA hvA (List.mem_append_left B (List.mem_cons_of_mem u h''))
      · exact hng v (List.mem_append_left _ hvA) h''
  · exact hdA hvA (List.mem_append_right _ h)

theorem treeUids_mid (l₁ l₂ : List RoamNode) (r : RoamNode) :
    treeUids (l₁ ++ r :: l₂) = treeUids l₁ ++ (nodeUids r ++ treeUids l₂) := by
  rw [treeUids_append, treeUids_cons]

theorem nodeUids_eq (r₂ r : RoamNode) (a n : Nat) (huid : r₂.uid = r.uid)
    (hch : r₂.children.map (fun p => p.uid) = r.children.map (fun p => p.uid) ++ gensFrom a n) :
    nodeUids r₂ = r.uid :: (r.children.map (fun p => p.uid) ++ gensFrom a n) := by
  unfold nodeUids
  rw [huid, hch]

theorem replace_nodup (l₁ l₂ : List RoamNode) (r r₂ : RoamNode) (a n : Nat)
    (hnd : (treeUids (l₁ ++ r :: l₂)).Nodup)
    (hfresh : ∀ u ∈ treeUids (l₁ ++ r :: l₂), GenFresh a u)
    (huid : r₂.uid = r.uid)
    (hch : r₂.children.map (fun p => p.uid) =
      r.children.map (fun p => p.uid) ++ gensFrom a n) :
    (treeUids (l₁ ++ r₂ :: l₂)).Nodup := by
  rw [treeUids_mid] at hnd hfresh ⊢
  rw [nodeUids_eq r₂ r a n huid hch]
  have hnu : nodeUids r = r.uid :: r.children.map (fun p => p.uid) := rfl
  rw [hnu] at hnd hfresh
  exact nodup_insert_gens (treeUids l₁) (treeUids l₂) (r.children.map (fun p => p.uid))
    r.uid a n hnd hfresh

theorem mem_treeUids_mid (l₁ l₂ : List RoamNode) (r : RoamNode) (u : String) :
    u ∈ treeUids (l₁ ++ r :: l₂) ↔
      u ∈ treeUids l₁ ∨ u ∈ nodeUids r ∨ u ∈ treeUids l₂ := by
  rw [treeUids_mid]
  simp [List.mem_append]

theorem replace_fresh (l₁ l₂ : List RoamNode) (r r₂ : RoamNode) (a n : Nat)
    (hfresh : ∀ u ∈ treeUids (l₁ ++ r :: l₂), GenFresh a u)
    (huid : r₂.uid = r.uid)
    (hch : r₂.children.map (fun p => p.uid) =
      r.children.map (fun p => p.uid) ++ gensFrom a n) :
    ∀ u ∈ treeUids (l₁ ++ r₂ :: l₂), GenFresh (a + n) u := by
  intro u hu
  rcases (mem_treeUids_mid l₁ l₂ r₂ u).mp hu with h | h | h
  · exact genFresh_mono u a (a + n) (hfresh u ((mem_treeUids_mid l₁ l₂ r u).mpr (Or.inl h)))
      (Nat.le_add_right a n)
  · rw [nodeUids_eq r₂ r a n huid hch] at h
    rcases List.mem_cons.mp h with rfl | h'
    · exact genFresh_mono _ a (a + n)
        (hfresh _ ((mem_treeUids_mid l₁ l₂ r _).mpr (Or.inr (Or.inl (uid_mem_nodeUids r)))))
        (Nat.le_add_right a n)
    · rcases List.mem_append.mp h' with h'' | h''
      · refine genFresh_mono u a (a + n)
          (hfresh u ((mem_treeUids_mid l₁ l₂ r u).mpr (Or.inr (Or.inl ?_))))
          (Nat.le_add_right a n)
        unfold nodeUids
        exact List.mem_cons_of_mem _ h''
      · rcases (mem_gensFrom u n a).mp h'' with ⟨k, _, hk2, rfl⟩
        exact genFresh_genUid k (a + n) hk2
  · exact genFresh_mono u a (a + n) (hfresh u ((mem_treeUids_mid l₁ l₂ r u).mpr
      (Or.inr (Or.inr h)))) (Nat.le_add_right a n)

theorem replace_mem_sub (l₁ l₂ : List RoamNode) (r r₂ : RoamNode) (a n : Nat)
    (huid : r₂.uid = r.uid)
    (hch : r₂.children.map (fun p => p.uid) =
      r.children.map (fun p => p.uid) ++ gensFrom a n) :
    ∀ u ∈ treeUids (l₁ ++ r₂ :: l₂),
      u ∈ treeUids (l₁ ++ r :: l₂) ∨ ∃ k, a ≤ k ∧ k < a + n ∧ u = genUid k := by
  intro u hu
  rcases (mem_treeUids_mid l₁ l₂ r₂ u).mp hu with h | h | h
  · exact Or.inl ((mem_treeUids_mid l₁ l₂ r u).mpr (Or.inl h))
  · rw [nodeUids_eq r₂ r a n huid hch] at h
    rcases List.mem_cons.mp h with rfl | h'
    · exact Or.inl ((mem_treeUids_mid l₁ l₂ r _).mpr (Or.inr (Or.inl (uid_mem_nodeUids r))))
    · rcases List.mem_append.mp h' with h'' | h''
      · refine Or.inl ((mem_treeUids_mid l₁ l₂ r u).mpr (Or.inr (Or.inl ?_)))
        unfold nodeUids
        exact List.mem_cons_of_mem _ h''
      · exact Or.inr ((mem_gensFrom u n a).mp h'')
  · exact Or.inl ((mem_treeUids_mid l₁ l₂ r u).mpr (Or.inr (Or.inr h)))

theorem replace_mem_super (l₁ l₂ : List RoamNode) (r r₂ : RoamNode) (a n : Nat)
    (huid : r₂.uid = r.uid)
    (hch : r₂.children.map (fun p => p.uid) =
      r.children.map (fun p => p.uid) ++ gensFrom a n) :
    ∀ u ∈ treeUids (l₁ ++ r :: l₂), u ∈ treeUids (l₁ ++ r₂ :: l₂) := by
  intro u hu
  rcases (mem_treeUids_mid l₁ l₂ r u).mp hu with h | h | h
  · exact (mem_treeUids_mid l₁ l₂ r₂ u).mpr (Or.inl h)
  · refine (mem_treeUids_mid l₁ l₂ r₂ u).mpr (Or.inr (Or.inl ?_))
    rw [nodeUids_eq r₂ r a n huid hch]
    unfold nodeUids at h
    rcases List.mem_cons.mp h with rfl | h'
    · exact List.mem_cons_self _ _
    · exact List.mem_cons_of_mem _ (List.mem_append_left _ h')
  · exact (mem_treeUids_mid l₁ l₂ r₂ u).mpr (Or.inr (Or.inr h))

theorem treeIds_mid_congr (l₁ l₂ : List RoamNode) (r r₂ : RoamNode)
    (h : extractICalIdFromNode r₂ = extractICalIdFromNode r) :
    treeIds (l₁ ++ r₂ :: l₂) = treeIds (l₁ ++ r :: l₂) := by
  unfold treeIds
  rw [List.filterMap_append, List.filterMap_append, List.filterMap_cons, List.filterMap_cons, h]

theorem treeIds_mid (l₁ l₂ : List RoamNode) (r : RoamNode) (x : String)
    (h : extractICalIdFromNode r = some x) :
    treeIds (l₁ ++ r :: l₂) = treeIds l₁ ++ (x :: treeIds l₂) := by
  unfold treeIds
  rw [List.filterMap_append, List.filterMap_cons, h]

theorem instantiateProps_uids (ps : List PropPayload) : ∀ c : Nat,
    (instantiateProps c ps).1.map (fun p => p.uid) = gensFrom c ps.length := by
  induction ps with
  | nil => intro c; rfl
  | cons p rest ih =>
      intro c
      unfold instantiateProps
      rw [List.map_cons, ih (c + 1), List.length_cons]
      rfl

theorem instantiateBlock_uids (b : BlockPayload) (c : Nat) :
    nodeUids (instantiateBlock c b).1 = gensFrom c (b.children.length + 1) := by
  unfold instantiateBlock nodeUids gensFrom
  rw [instantiateProps_uids b.children (c + 1)]

theorem map_eq_forallTwo {α β : Type} (f : α → String) (g : β → String) :
    ∀ (l₁ : List α) (l₂ : List β), l₁.map f = l₂.map g →
      List.Forall₂ (fun a b => f a = g b) l₁ l₂ := by
  intro l₁
  induction l₁ with
  | nil =>
      intro l₂ h
      cases l₂ with
      | nil => exact List.Forall₂.nil
      | cons b rest => rw [List.map_nil, List.map_cons] at h; cases h
  | cons a rest ih =>
      intro l₂ h
      cases l₂ with
      | nil => rw [List.map_nil, List.map_cons] at h; cases h
      | cons b rest₂ =>
          rw [List.map_cons, List.map_cons] at h
          exact List.Forall₂.cons (List.head_eq_of_cons_eq h)
            (ih rest₂ (List.tail_eq_of_cons_eq h))

theorem filterMap_congr_mem {α β : Type} (l : List α) (f g : α → Option β)
    (h : ∀ a ∈ l, f a = g a) : l.filterMap f = l.filterMap g := by
  induction l with
  | nil => rfl
  | cons a rest ih =>
      rw [List.filterMap_cons, List.filterMap_cons, h a (List.mem_cons_self a rest),
        ih (fun b hb => h b (List.mem_cons_of_mem a hb))]

theorem map_uid_unique (l : List PropNode) (hnd : (l.map (fun p => p.uid)).Nodup)
    (p q : PropNode) (hp : p ∈ l) (hq : q ∈ l) (h : p.uid = q.uid) : p = q := by
  induction l with
  | nil => exact absurd hp (List.not_mem_nil p)
  | cons a rest ih =>
      rw [List.map_cons, List.nodup_cons] at hnd
      rcases List.mem_cons.mp hp with rfl | hp'
      · rcases List.mem_cons.mp hq with rfl | hq'
        · rfl
        · exact absurd (h ▸ List.mem_map_of_mem _ hq') hnd.1
      · rcases List.mem_cons.mp hq with rfl | hq'
        · exact absurd (h ▸ List.mem_map_of_mem _ hp') hnd.1
        · exact ih hnd.2 hp' hq'

theorem jsMapGet_delete_self {α : Type} (m : List (String × α)) (k : String) :
    jsMapGet (jsMapDelete m k) k = none := by
  induction m with
  | nil => rfl
  | cons pr rest ih =>
      by_cases hp : pr.1 = k
      · have h1 : jsMapDelete (pr :: rest) k = jsMapDelete rest k := by
          unfold jsMapDelete
          rw [List.filter_cons]
          simp [hp]
        rw [h1, ih]
      · have h1 : jsMapDelete (pr :: rest) k = pr :: jsMapDelete rest k := by
          unfold jsMapDelete
          rw [List.filter_cons]
          simp [hp]
        rw [h1]
        unfold jsMapGet
        rw [List.find?_cons]
        simp only [hp, decide_False]
        exact ih

theorem children_uid_nodup (tree : List RoamNode) (hnd : (treeUids tree).Nodup)
    (r : RoamNode) (hr : r ∈ tree) : (r.children.map (fun p => p.uid)).Nodup := by
  have h := nodeUids_nodup tree hnd r hr
  unfold nodeUids at h
  exact (List.nodup_cons.mp h).2

theorem root_not_child_uid (tree : List RoamNode) (hnd : (treeUids tree).Nodup)
    (r : RoamNode) (hr : r ∈ tree) (p : PropNode) (hp : p ∈ r.children) :
    p.uid ≠ r.uid := by
  have h := nodeUids_nodup tree hnd r hr
  unfold nodeUids at h
  intro he
  exact (List.nodup_cons.mp h).1 (he ▸ List.mem_map_of_mem _ hp)

theorem forallTwo_imp_mem {α β : Type} (R S : α → β → Prop) :
    ∀ {l₁ : List α} {l₂ : List β}, List.Forall₂ R l₁ l₂ →
      (∀ a b, a ∈ l₁ → b ∈ l₂ → R a b → S a b) → List.Forall₂ S l₁ l₂ := by
  intro l₁ l₂ h
  induction h with
  | nil => intro _; exact List.Forall₂.nil
  | @cons a b la lb hab hrest ih =>
      intro himp
      refine List.Forall₂.cons
        (himp a b (List.mem_cons_self a la) (List.mem_cons_self b lb) hab) ?_
      exact ih (fun a' b' ha' hb' hr => himp a' b' (List.mem_cons_of_mem a ha')
        (List.mem_cons_of_mem b hb') hr)

theorem forallTwo_split_right {α β : Type} (R : α → β → Prop) :
    ∀ (A B : List β) (l : List α), List.Forall₂ R l (A ++ B) →
      ∃ l₁ l₂, l = l₁ ++ l₂ ∧ List.Forall₂ R l₁ A ∧ List.Forall₂ R l₂ B := by
  intro A
  induction A with
  | nil =>
      intro B l h
      exact ⟨[], l, rfl, List.Forall₂.nil, h⟩
  | cons b A' ih =>
      intro B l h
      rw [List.cons_append] at h
      cases h with
      | cons hab hrest =>
          rename_i a l'
          rcases ih B l' hrest with ⟨l₁, l₂, rfl, h1, h2⟩
          exact ⟨a :: l₁, l₂, rfl, List.Forall₂.cons hab h1, h2⟩

theorem forallTwo_map_right {α β γ : Type} (R : α → γ → Prop) (g : β → γ) :
    ∀ (A : List β) (l : List α), List.Forall₂ R l (A.map g) →
      List.Forall₂ (fun a b => R a (g b)) l A := by
  intro A
  induction A with
  | nil =>
      intro l h
      rw [List.map_nil] at h
      cases h
      exact List.Forall₂.nil
  | cons b A' ih =>
      intro l h
      rw [List.map_cons] at h
      cases h with
      | cons hab hrest =>
          exact List.Forall₂.cons hab (ih _ hrest)

theorem mem_replaceByUid_target (tree : List RoamNode) (u : String) (r r₂ : RoamNode)
    (hr : r ∈ tree) (h : r.uid = u) : r₂ ∈ replaceByUid tree u r₂ := by
  unfold replaceByUid
  refine List.mem_map.mpr ⟨r, hr, ?_⟩
  dsimp only
  rw [if_pos h]

theorem replaceByUid_compose (tree : List RoamNode) (u : String) (r' r₃ : RoamNode)
    (h : r'.uid = u) :
    replaceByUid (replaceByUid tree u r') u r₃ = replaceByUid tree u r₃ := by
  unfold replaceByUid
  rw [List.map_map]
  refine map_congr_mem tree _ _ ?_
  intro q _
  simp only [Function.comp]
  by_cases hq : q.uid = u
  · rw [if_pos hq, if_pos h, if_pos hq]
  · have h1 : (if q.uid = u then r' else q) = q := if_neg hq
    rw [h1]

theorem replaceByUid_nodup (tree : List RoamNode) (r r₂ : RoamNode) (a n : Nat)
    (hr : r ∈ tree) (hnd : (treeUids tree).Nodup)
    (hfresh : ∀ u ∈ treeUids tree, GenFresh a u)
    (huid : r₂.uid = r.uid)
    (hch : r₂.children.map (fun p => p.uid) =
      r.children.map (fun p => p.uid) ++ gensFrom a n) :
    (treeUids (replaceByUid tree r.uid r₂)).Nodup := by
  rcases mem_decomp tree hnd r hr with ⟨l₁, l₂, rfl, hq⟩
  rw [replaceByUid_decomp l₁ l₂ r r₂ hq]
  exact replace_nodup l₁ l₂ r r₂ a n hnd hfresh huid hch

theorem replaceByUid_fresh (tree : List RoamNode) (r r₂ : RoamNode) (a n : Nat)
    (hr : r ∈ tree) (hnd : (treeUids tree).Nodup)
    (hfresh : ∀ u ∈ treeUids tree, GenFresh a u)
    (huid : r₂.uid = r.uid)
    (hch : r₂.children.map (fun p => p.uid) =
      r.children.map (fun p => p.uid) ++ gensFrom a n) :
    ∀ u ∈ treeUids (replaceByUid tree r.uid r₂), GenFresh (a + n) u := by
  rcases mem_decomp tree hnd r hr with ⟨l₁, l₂, rfl, hq⟩
  rw [replaceByUid_decomp l₁ l₂ r r₂ hq]
  exact replace_fresh l₁ l₂ r r₂ a n hfresh huid hch

theorem replaceByUid_mem_sub (tree : List RoamNode) (r r₂ : RoamNode) (a n : Nat)
    (hr : r ∈ tree) (hnd : (treeUids tree).Nodup)
    (huid : r₂.uid = r.uid)
    (hch : r₂.children.map (fun p => p.uid) =
      r.children.map (fun p => p.uid) ++ gensFrom a n) :
    ∀ u ∈ treeUids (replaceByUid tree r.uid r₂),
      u ∈ treeUids tree ∨ ∃ k, a ≤ k ∧ k < a + n ∧ u = genUid k := by
  rcases mem_decomp tree hnd r hr with ⟨l₁, l₂, rfl, hq⟩
  rw [replaceByUid_decomp l₁ l₂ r r₂ hq]
  exact replace_mem_sub l₁ l₂ r r₂ a n huid hch

theorem replaceByUid_mem_super (tree : List RoamNode) (r r₂ : RoamNode) (a n : Nat)
    (hr : r ∈ tree) (hnd : (treeUids tree).Nodup)
    (huid : r₂.uid = r.uid)
    (hch : r₂.children.map (fun p => p.uid) =
      r.children.map (fun p => p.uid) ++ gensFrom a n) :
    ∀ u ∈ treeUids tree, u ∈ treeUids (replaceByUid tree r.uid r₂) := by
  rcases mem_decomp tree hnd r hr with ⟨l₁, l₂, rfl, hq⟩
  rw [replaceByUid_decomp l₁ l₂ r r₂ hq]
  exact replace_mem_super l₁ l₂ r r₂ a n huid hch

theorem replaceByUid_treeIds_congr (tree : List RoamNode) (r r₂ : RoamNode)
    (hr : r ∈ tree) (hnd : (treeUids tree).Nodup)
    (h : extractICalIdFromNode r₂ = extractICalIdFromNode r) :
    treeIds (replaceByUid tree r.uid r₂) = treeIds tree := by
  rcases mem_decomp tree hnd r hr with ⟨l₁, l₂, rfl, hq⟩
  rw [replaceByUid_decomp l₁ l₂ r r₂ hq]
  exact treeIds_mid_congr l₁ l₂ r r₂ h

/-! ### Infrastructure: property/block map retrieval -/

theorem buildPropsMap_entry (chs : List PropNode) (k : String) (p : PropNode)
    (h : jsMapGet (buildPropsMap chs) k = some p) :
    p ∈ chs ∧ extractPropertyKey p.text = some k := by
  rw [buildPropsMap_eq_kfold] at h
  refine kfold_entry (fun c => extractPropertyKey c.text)
    (fun k' p' => p' ∈ chs ∧ extractPropertyKey p'.text = some k') chs [] ?_
    (fun c hc k' hk' => ⟨hc, hk'⟩) k p h
  intro k' p' hp'
  cases hp'

theorem buildPropsMap_none (chs : List PropNode) (k : String)
    (h : jsMapGet (buildPropsMap chs) k = none) :
    ∀ p ∈ chs, extractPropertyKey p.text ≠ some k := by
  intro p hp hk
  have h2 := kfold_isSome (fun c => extractPropertyKey c.text) chs [] k (Or.inr ⟨p, hp, hk⟩)
  rw [← buildPropsMap_eq_kfold, h] at h2
  cases h2

theorem buildPropsMap_unique (chs : List PropNode)
    (hnd : (chs.filterMap (fun c => extractPropertyKey c.text)).Nodup)
    (p : PropNode) (k : String) (hp : p ∈ chs) (hk : extractPropertyKey p.text = some k) :
    jsMapGet (buildPropsMap chs) k = some p := by
  rw [buildPropsMap_eq_kfold]
  exact kfold_get_unique (fun c => extractPropertyKey c.text) chs [] p k hnd hp hk

theorem buildBlockMap_entry (tree : List RoamNode) (k : String) (r : RoamNode)
    (h : jsMapGet (buildBlockMap tree) k = some r) :
    r ∈ tree ∧ extractICalIdFromNode r = some k := by
  rw [buildBlockMap_eq_kfold] at h
  refine kfold_entry extractICalIdFromNode
    (fun k' r' => r' ∈ tree ∧ extractICalIdFromNode r' = some k') tree [] ?_
    (fun c hc k' hk' => ⟨hc, hk'⟩) k r h
  intro k' r' hr'
  cases hr'

theorem buildBlockMap_none (tree : List RoamNode) (k : String)
    (h : jsMapGet (buildBlockMap tree) k = none) :
    ∀ r ∈ tree, extractICalIdFromNode r ≠ some k := by
  intro r hr hk
  have h2 := kfold_isSome extractICalIdFromNode tree [] k (Or.inr ⟨r, hr, hk⟩)
  rw [← buildBlockMap_eq_kfold, h] at h2
  cases h2

theorem buildBlockMap_unique (tree : List RoamNode) (hnd : (treeIds tree).Nodup)
    (r : RoamNode) (x : String) (hr : r ∈ tree) (hx : extractICalIdFromNode r = some x) :
    jsMapGet (buildBlockMap tree) x = some r := by
  rw [buildBlockMap_eq_kfold]
  exact kfold_get_unique extractICalIdFromNode tree [] r x hnd hr hx

theorem buildBlockMap_keys_mem (tree : List RoamNode) (x : String)
    (h : x ∈ (buildBlockMap tree).map Prod.fst) :
    ∃ r ∈ tree, extractICalIdFromNode r = some x := by
  rw [buildBlockMap_eq_kfold] at h
  rcases kfold_keys extractICalIdFromNode tree [] x h with h' | h'
  · cases h'
  · exact h'

/-! ### Infrastructure: synced-record builders -/

theorem updRec_canon (tree : List RoamNode) (hnd : (treeUids tree).Nodup)
    (r : RoamNode) (hr : r ∈ tree) (p : PropNode) (hp : p ∈ r.children) (txt : String) :
    localUpdate p.uid txt tree = replaceByUid tree r.uid (updRec r p.uid txt) :=
  localUpdate_child_canon tree hnd r hr p hp txt

theorem appRec_canon (tree : List RoamNode) (hnd : (treeUids tree).Nodup)
    (r : RoamNode) (hr : r ∈ tree) (node : PropNode) :
    localAppendChild r.uid node tree = replaceByUid tree r.uid (appRec r node) :=
  localAppendChild_canon tree hnd r hr node

theorem updRec_uid (r : RoamNode) (puid txt : String) : (updRec r puid txt).uid = r.uid := rfl

theorem updRec_text (r : RoamNode) (puid txt : String) :
    (updRec r puid txt).text = r.text := rfl

theorem updRec_children (r : RoamNode) (puid txt : String) :
    (updRec r puid txt).children = r.children.map (updChild puid txt) := rfl

theorem appRec_uid (r : RoamNode) (node : PropNode) : (appRec r node).uid = r.uid := rfl

theorem appRec_text (r : RoamNode) (node : PropNode) : (appRec r node).text = r.text := rfl

theorem appRec_children (r : RoamNode) (node : PropNode) :
    (appRec r node).children = r.children ++ [node] := rfl

theorem updChild_uid (puid txt : String) (c : PropNode) :
    (updChild puid txt c).uid = c.uid := by
  unfold updChild
  by_cases h : c.uid = puid
  · rw [if_pos h]
  · rw [if_neg h]

theorem updRec_uids (r : RoamNode) (puid txt : String) :
    (updRec r puid txt).children.map (fun p => p.uid) =
      r.children.map (fun p => p.uid) := by
  rw [updRec_children, List.map_map]
  refine map_congr_mem _ _ _ ?_
  intro c _
  dsimp only [Function.comp]
  exact updChild_uid puid txt c

theorem updRec_keys (r : RoamNode) (p : PropNode) (hp : p ∈ r.children) (txt k : String)
    (hnd : (r.children.map (fun q => q.uid)).Nodup)
    (hpk : extractPropertyKey p.text = some k) (htk : extractPropertyKey txt = some k) :
    (updRec r p.uid txt).children.filterMap (fun c => extractPropertyKey c.text)
      = r.children.filterMap (fun c => extractPropertyKey c.text) := by
  rw [updRec_children, List.filterMap_map]
  refine filterMap_congr_mem _ _ _ ?_
  intro cc hcc
  dsimp only [Function.comp]
  unfold updChild
  by_cases h : cc.uid = p.uid
  · rw [if_pos h]
    have hcp : cc = p := map_uid_unique r.children hnd cc p hcc hp h
    rw [hcp, hpk]
    exact htk
  · rw [if_neg h]

theorem updRec_mem_other (r : RoamNode) (p' : PropNode) (puid txt : String)
    (h : p'.uid ≠ puid) (hp' : p' ∈ r.children) :
    p' ∈ (updRec r puid txt).children := by
  rw [updRec_children]
  refine List.mem_map.mpr ⟨p', hp', ?_⟩
  unfold updChild
  rw [if_neg h]

theorem updRec_mem_target (r : RoamNode) (p : PropNode) (hp : p ∈ r.children)
    (txt : String) : (⟨txt, p.uid⟩ : PropNode) ∈ (updRec r p.uid txt).children := by
  rw [updRec_children]
  refine List.mem_map.mpr ⟨p, hp, ?_⟩
  unfold updChild
  rw [if_pos rfl]

theorem updRec_mem_char (r : RoamNode) (puid txt : String) (p' : PropNode)
    (h : p' ∈ (updRec r puid txt).children) :
    ∃ cc ∈ r.children, p' = updChild puid txt cc := by
  rw [updRec_children] at h
  rcases List.mem_map.mp h with ⟨cc, hcc, he⟩
  exact ⟨cc, hcc, he.symm⟩

/-- What one `syncChildren` pass does to the record carrying the parent
uid, under distinct uids, distinct child keys and distinct desired keys:
the tree is the input tree with that one record's children rebuilt, every
keyed desired child is realised with equal text, and each final child is
either an original child (possibly re-texted to a matching desired child)
or a freshly created child carrying a desired text. -/
theorem syncGoLocal_establish (u : String) :
    ∀ (cs : List PropPayload) (pm : List (String × PropNode)) (tree : List RoamNode)
      (ctr : Nat) (r : RoamNode),
      r ∈ tree → r.uid = u →
      (treeUids tree).Nodup →
      (∀ v ∈ treeUids tree, GenFresh ctr v) →
      (r.children.filterMap (fun c => extractPropertyKey c.text)).Nodup →
      (cs.filterMap (fun c => extractPropertyKey c.text)).Nodup →
      (∀ k p, jsMapGet pm k = some p → p ∈ r.children ∧ extractPropertyKey p.text = some k) →
      (∀ k, jsMapGet pm k = none → ∀ c ∈ cs, extractPropertyKey c.text = some k →
        ∀ p ∈ r.children, extractPropertyKey p.text ≠ some k) →
      ∃ ch₂ ctr₂,
        (syncChildrenGoLocal u cs pm tree ctr).1 =
          (replaceByUid tree u ⟨r.text, u, ch₂⟩, ctr₂) ∧
        ctr ≤ ctr₂ ∧
        ch₂.map (fun p => p.uid) =
          r.children.map (fun p => p.uid) ++ gensFrom ctr (ctr₂ - ctr) ∧
        (ch₂.filterMap (fun c => extractPropertyKey c.text)).Nodup ∧
        (∀ c ∈ cs, ∀ k, extractPropertyKey c.text = some k →
          ∃ p ∈ ch₂, extractPropertyKey p.text = some k ∧ p.text = c.text) ∧
        ∃ op np, ch₂ = op ++ np ∧ List.Forall₂ (SyncRel cs) op r.children ∧
          ∀ p ∈ np, ∃ c ∈ cs, p.text = c.text := by
  intro cs
  induction cs with
  | nil =>
      intro pm tree ctr r hr hu hnd hfresh hkey hcs hsome hnone
      subst hu
      refine ⟨r.children, ctr, ?_, Nat.le_refl ctr, ?_, hkey, ?_, r.children, [], ?_, ?_, ?_⟩
      · show ((tree, ctr) : List RoamNode × Nat) = _
        rw [show (⟨r.text, r.uid, r.children⟩ : RoamNode) = r from rfl,
          replaceByUid_self tree hnd r hr]
      · rw [Nat.sub_self, show gensFrom ctr 0 = [] from rfl, List.append_nil]
      · intro c hc
        exact absurd hc (List.not_mem_nil c)
      · rw [List.append_nil]
      · exact forallTwo_refl _ r.children (fun p _ => ⟨rfl, Or.inl rfl⟩)
      · intro p hp
        exact absurd hp (List.not_mem_nil p)
  | cons c rest ih =>
      intro pm tree ctr r hr hu hnd hfresh hkey hcs hsome hnone
      subst hu
      cases hk : extractPropertyKey c.text with
      | none =>
          have hstep : (syncChildrenGoLocal r.uid (c :: rest) pm tree ctr).1
              = (syncChildrenGoLocal r.uid rest pm tree ctr).1 := by
            conv_lhs => unfold syncChildrenGoLocal
            rw [hk]
          have hcs' : (rest.filterMap (fun d => extractPropertyKey d.text)).Nodup := by
            rw [List.filterMap_cons, hk] at hcs
            exact hcs
          rcases ih pm tree ctr r hr rfl hnd hfresh hkey hcs' hsome
            (fun k' hn d hd hdk => hnone k' hn d (List.mem_cons_of_mem c hd) hdk)
            with ⟨ch₂, ctr₂, heq, hle, huids, hknd, hmatch, op, np, hdec, hfa, hnp⟩
          refine ⟨ch₂, ctr₂, by rw [hstep]; exact heq, hle, huids, hknd, ?_, op, np, hdec,
            ?_, ?_⟩
          · intro d hd k' hdk
            rcases List.mem_cons.mp hd with rfl | hd'
            · rw [hk] at hdk
              cases hdk
            · exact hmatch d hd' k' hdk
          · refine forallTwo_imp_mem _ _ hfa ?_
            intro pq q _ _ hrel
            exact ⟨hrel.1, hrel.2.elim Or.inl (fun hh =>
              Or.inr ⟨hh.choose, List.mem_cons_of_mem c hh.choose_spec.1,
                hh.choose_spec.2.1, hh.choose_spec.2.2⟩)⟩
          · intro p hp
            rcases hnp p hp with ⟨d, hd, he⟩
            exact ⟨d, List.mem_cons_of_mem c hd, he⟩
      | some k =>
          have hcs' : (rest.filterMap (fun d => extractPropertyKey d.text)).Nodup := by
            rw [List.filterMap_cons, hk] at hcs
            exact (List.nodup_cons.mp hcs).2
          have hknotin : k ∉ rest.filterMap (fun d => extractPropertyKey d.text) := by
            rw [List.filterMap_cons, hk] at hcs
            exact (List.nodup_cons.mp hcs).1
          cases hpm : jsMapGet pm k with
          | none =>
              have hnotin : ∀ p' ∈ r.children, extractPropertyKey p'.text ≠ some k :=
                hnone k hpm c (List.mem_cons_self c rest) hk
              have hch1 : (appRec r ⟨c.text, genUid ctr⟩).children.map (fun p => p.uid)
                  = r.children.map (fun p => p.uid) ++ gensFrom ctr 1 := by
                rw [appRec_children, List.map_append]
                rfl
              have hnd1 : (treeUids (replaceByUid tree r.uid
                  (appRec r ⟨c.text, genUid ctr⟩))).Nodup :=
                replaceByUid_nodup tree r (appRec r ⟨c.text, genUid ctr⟩) ctr 1 hr hnd
                  hfresh rfl hch1
              have hfresh1 : ∀ v ∈ treeUids (replaceByUid tree r.uid
                  (appRec r ⟨c.text, genUid ctr⟩)), GenFresh (ctr + 1) v :=
                replaceByUid_fresh tree r (appRec r ⟨c.text, genUid ctr⟩) ctr 1 hr hnd
                  hfresh rfl hch1
              have hfm1 : ((appRec r ⟨c.text, genUid ctr⟩).children.filterMap
                  (fun d => extractPropertyKey d.text))
                  = r.children.filterMap (fun d => extractPropertyKey d.text) ++ [k] := by
                rw [appRec_children, List.filterMap_append]
                congr 1
                rw [List.filterMap_cons,
                  show extractPropertyKey (⟨c.text, genUid ctr⟩ : PropNode).text = some k
                    from hk]
                rfl
              have hkey1 : ((appRec r ⟨c.text, genUid ctr⟩).children.filterMap
                  (fun d => extractPropertyKey d.text)).Nodup := by
                rw [hfm1]
                refine List.nodup_append.mpr ⟨hkey, List.nodup_singleton k, ?_⟩
                intro a ha hb
                rcases List.mem_singleton.mp hb with rfl
                rcases List.mem_filterMap.mp ha with ⟨p', hp', hpk'⟩
                exact hnotin p' hp' hpk'
              have hsome1 : ∀ k' p', jsMapGet pm k' = some p' →
                  p' ∈ (appRec r ⟨c.text, genUid ctr⟩).children ∧
                    extractPropertyKey p'.text = some k' := by
                intro k' p' h
                rcases hsome k' p' h with ⟨h1, h2⟩
                refine ⟨?_, h2⟩
                rw [appRec_children]
                exact List.mem_append_left _ h1
              have hnone1 : ∀ k', jsMapGet pm k' = none → ∀ d ∈ rest,
                  extractPropertyKey d.text = some k' →
                  ∀ p' ∈ (appRec r ⟨c.text, genUid ctr⟩).children,
                    extractPropertyKey p'.text ≠ some k' := by
                intro k' hn d hd hdk p' hp'
                rw [appRec_children] at hp'
                rcases List.mem_append.mp hp' with h' | h'
                · exact hnone k' hn d (List.mem_cons_of_mem c hd) hdk p' h'
                · rcases List.mem_singleton.mp h' with rfl
                  intro hcon
                  have hkk : k = k' := Option.some.inj (by rw [← hk]; exact hcon)
                  exact hknotin (List.mem_filterMap.mpr ⟨d, hd, by rw [hdk, hkk]⟩)
              rcases ih pm (replaceByUid tree r.uid (appRec r ⟨c.text, genUid ctr⟩)) (ctr + 1)
                (appRec r ⟨c.text, genUid ctr⟩)
                (mem_replaceByUid_target tree r.uid r _ hr rfl) rfl hnd1 hfresh1 hkey1 hcs'
                hsome1 hnone1
                with ⟨ch₂, ctr₂, heq, hle, huids, hknd, hmatch, op, np, hdec, hfa, hnp⟩
              have hstep : (syncChildrenGoLocal r.uid (c :: rest) pm tree ctr).1
                  = (syncChildrenGoLocal r.uid rest pm
                      (localAppendChild r.uid ⟨c.text, genUid ctr⟩ tree) (ctr + 1)).1 := by
                conv_lhs => unfold syncChildrenGoLocal
                rw [hk]
                dsimp only
                rw [hpm]
              refine ⟨ch₂, ctr₂, ?_, by omega, ?_, hknd, ?_, ?_⟩
              · rw [hstep, appRec_canon tree hnd r hr ⟨c.text, genUid ctr⟩]
                have heq' : (syncChildrenGoLocal r.uid rest pm
                    (replaceByUid tree r.uid (appRec r ⟨c.text, genUid ctr⟩)) (ctr + 1)).1
                    = (replaceByUid (replaceByUid tree r.uid (appRec r ⟨c.text, genUid ctr⟩))
                        r.uid ⟨r.text, r.uid, ch₂⟩, ctr₂) := heq
                rw [heq', replaceByUid_compose tree r.uid (appRec r ⟨c.text, genUid ctr⟩)
                  ⟨r.text, r.uid, ch₂⟩ rfl]
              · have huids' : ch₂.map (fun p => p.uid)
                    = (r.children.map (fun p => p.uid) ++ [genUid ctr])
                        ++ gensFrom (ctr + 1) (ctr₂ - (ctr + 1)) := by
                  rw [huids, appRec_children, List.map_append]
                  rfl
                rw [huids', List.append_assoc, List.singleton_append]
                have h2 : ctr₂ - ctr = (ctr₂ - (ctr + 1)) + 1 := by omega
                rw [h2]
                rfl
              · intro d hd k' hdk
                rcases List.mem_cons.mp hd with rfl | hd'
                · have hkk' : k' = k := by
                    rw [hdk] at hk
                    exact Option.some.inj hk
                  have hnode_mem : (⟨d.text, genUid ctr⟩ : PropNode)
                      ∈ (appRec r ⟨d.text, genUid ctr⟩).children := by
                    rw [appRec_children]
                    exact List.mem_append_right _ (List.mem_singleton.mpr rfl)
                  rcases forallTwo_mem_right _ hfa _ hnode_mem with ⟨pf, hpf, hrel⟩
                  rcases hrel.2 with htxt2 | ⟨d', hd', hke, htxt2⟩
                  · refine ⟨pf, by rw [hdec]; exact List.mem_append_left np hpf, ?_, htxt2⟩
                    rw [show pf.text = d.text from htxt2]
                    exact hdk
                  · exact absurd (List.mem_filterMap.mpr ⟨d', hd',
                      by rw [hke]; exact hdk⟩) (hkk' ▸ hknotin)
                · exact hmatch d hd' k' hdk
              · have hfa' : List.Forall₂ (SyncRel rest) op
                    (r.children ++ [(⟨c.text, genUid ctr⟩ : PropNode)]) := by
                  rw [appRec_children] at hfa
                  exact hfa
                rcases forallTwo_split_right _ r.children [⟨c.text, genUid ctr⟩] op hfa'
                  with ⟨o1, o2, hosplit, hf1, hf2⟩
                refine ⟨o1, o2 ++ np, by rw [hdec, hosplit, List.append_assoc], ?_, ?_⟩
                · refine forallTwo_imp_mem _ _ hf1 ?_
                  intro pq q _ _ hrel
                  exact ⟨hrel.1, hrel.2.elim Or.inl (fun hh =>
                    Or.inr ⟨hh.choose, List.mem_cons_of_mem c hh.choose_spec.1,
                      hh.choose_spec.2.1, hh.choose_spec.2.2⟩)⟩
                · intro pq hpq
                  rcases List.mem_append.mp hpq with h' | h'
                  · cases hf2 with
                    | cons hrel hnil =>
                        cases hnil
                        rcases List.mem_singleton.mp h' with rfl
                        rcases hrel.2 with htxt2 | ⟨d', hd', _, htxt2⟩
                        · exact ⟨c, List.mem_cons_self c rest, htxt2⟩
                        · exact ⟨d', List.mem_cons_of_mem c hd', htxt2⟩
                  · rcases hnp pq h' with ⟨d', hd', he⟩
                    exact ⟨d', List.mem_cons_of_mem c hd', he⟩
          | some p =>
              rcases hsome k p hpm with ⟨hpch, hpk⟩
              have hchnd : (r.children.map (fun q => q.uid)).Nodup :=
                children_uid_nodup tree hnd r hr
              by_cases htxt : p.text = c.text
              · -- existing text already matches: no mutation for this child
                have hstep : (syncChildrenGoLocal r.uid (c :: rest) pm tree ctr).1
                    = (syncChildrenGoLocal r.uid rest (jsMapDelete pm k) tree ctr).1 := by
                  conv_lhs => unfold syncChildrenGoLocal
                  rw [hk]
                  dsimp only
                  rw [hpm]
                  dsimp only
                  rw [if_neg (not_not_intro htxt)]
                have hsome1 : ∀ k' p', jsMapGet (jsMapDelete pm k) k' = some p' →
                    p' ∈ r.children ∧ extractPropertyKey p'.text = some k' := by
                  intro k' p' h
                  by_cases hkk : k' = k
                  · rw [hkk, jsMapGet_delete_self] at h
                    cases h
                  · rw [jsMapGet_delete_ne pm k k' hkk] at h
                    exact hsome k' p' h
                have hnone1 : ∀ k', jsMapGet (jsMapDelete pm k) k' = none → ∀ d ∈ rest,
                    extractPropertyKey d.text = some k' →
                    ∀ p' ∈ r.children, extractPropertyKey p'.text ≠ some k' := by
                  intro k' hn d hd hdk
                  by_cases hkk : k' = k
                  · subst hkk
                    exact absurd (List.mem_filterMap.mpr ⟨d, hd, hdk⟩) hknotin
                  · rw [jsMapGet_delete_ne pm k k' hkk] at hn
                    exact hnone k' hn d (List.mem_cons_of_mem c hd) hdk
                rcases ih (jsMapDelete pm k) tree ctr r hr rfl hnd hfresh hkey hcs'
                  hsome1 hnone1
                  with ⟨ch₂, ctr₂, heq, hle, huids, hknd, hmatch, op, np, hdec, hfa, hnp⟩
                refine ⟨ch₂, ctr₂, by rw [hstep]; exact heq, hle, huids, hknd, ?_, op, np,
                  hdec, ?_, ?_⟩
                · intro d hd k' hdk
                  rcases List.mem_cons.mp hd with rfl | hd'
                  · have hkk' : k' = k := by
                      rw [hdk] at hk
                      exact Option.some.inj hk
                    rcases forallTwo_mem_right _ hfa p hpch with ⟨pf, hpf, hrel⟩
                    rcases hrel.2 with htxt2 | ⟨d', hd', hke, htxt2⟩
                    · refine ⟨pf, by rw [hdec]; exact List.mem_append_left np hpf, ?_, ?_⟩
                      · rw [hkk', htxt2]
                        exact hpk
                      · rw [htxt2, htxt]
                    · exact absurd (List.mem_filterMap.mpr ⟨d', hd',
                        by rw [hke]; exact hpk⟩) hknotin
                  · exact hmatch d hd' k' hdk
                · refine forallTwo_imp_mem _ _ hfa ?_
                  intro pq q _ _ hrel
                  exact ⟨hrel.1, hrel.2.elim Or.inl (fun hh =>
                    Or.inr ⟨hh.choose, List.mem_cons_of_mem c hh.choose_spec.1,
                      hh.choose_spec.2.1, hh.choose_spec.2.2⟩)⟩
                · intro pq hpq
                  rcases hnp pq hpq with ⟨d', hd', he⟩
                  exact ⟨d', List.mem_cons_of_mem c hd', he⟩
              · -- texts differ: the matched child is re-texted
                have hstep : (syncChildrenGoLocal r.uid (c :: rest) pm tree ctr).1
                    = (syncChildrenGoLocal r.uid rest (jsMapDelete pm k)
                        (localUpdate p.uid c.text tree) ctr).1 := by
                  conv_lhs => unfold syncChildrenGoLocal
                  rw [hk]
                  dsimp only
                  rw [hpm]
                  dsimp only
                  rw [if_pos htxt]
                have hch0 : (updRec r p.uid c.text).children.map (fun q => q.uid)
                    = r.children.map (fun q => q.uid) ++ gensFrom ctr 0 := by
                  rw [updRec_uids, show gensFrom ctr 0 = [] from rfl, List.append_nil]
                have hnd1 : (treeUids (replaceByUid tree r.uid
                    (updRec r p.uid c.text))).Nodup :=
                  replaceByUid_nodup tree r (updRec r p.uid c.text) ctr 0 hr hnd hfresh
                    rfl hch0
                have hfresh1 : ∀ v ∈ treeUids (replaceByUid tree r.uid
                    (updRec r p.uid c.text)), GenFresh ctr v := by
                  have h := replaceByUid_fresh tree r (updRec r p.uid c.text) ctr 0 hr
                    hnd hfresh rfl hch0
                  rw [Nat.add_zero] at h
                  exact h
                have hkey1 : ((updRec r p.uid c.text).children.filterMap
                    (fun d => extractPropertyKey d.text)).Nodup := by
                  rw [updRec_keys r p hpch c.text k hchnd hpk hk]
                  exact hkey
                have hsome1 : ∀ k' p', jsMapGet (jsMapDelete pm k) k' = some p' →
                    p' ∈ (updRec r p.uid c.text).children ∧
                      extractPropertyKey p'.text = some k' := by
                  intro k' p' h
                  by_cases hkk : k' = k
                  · rw [hkk, jsMapGet_delete_self] at h
                    cases h
                  · rw [jsMapGet_delete_ne pm k k' hkk] at h
                    rcases hsome k' p' h with ⟨h1, h2⟩
                    refine ⟨?_, h2⟩
                    have hpuid : p'.uid ≠ p.uid := by
                      intro he
                      have hpp : p' = p := map_uid_unique r.children hchnd p' p h1 hpch he
                      rw [hpp, hpk] at h2
                      exact hkk (Option.some.inj h2).symm
                    exact updRec_mem_other r p' p.uid c.text hpuid h1
                have hnone1 : ∀ k', jsMapGet (jsMapDelete pm k) k' = none → ∀ d ∈ rest,
                    extractPropertyKey d.text = some k' →
                    ∀ p' ∈ (updRec r p.uid c.text).children,
                      extractPropertyKey p'.text ≠ some k' := by
                  intro k' hn d hd hdk p' hp'
                  by_cases hkk : k' = k
                  · subst hkk
                    exact absurd (List.mem_filterMap.mpr ⟨d, hd, hdk⟩) hknotin
                  · rw [jsMapGet_delete_ne pm k k' hkk] at hn
                    rcases updRec_mem_char r p.uid c.text p' hp' with ⟨cc, hcc, hce⟩
                    by_cases hcu : cc.uid = p.uid
                    · rw [hce]
                      unfold updChild
                      rw [if_pos hcu]
                      intro hcon
                      have hkk2 : some k = some k' := by
                        rw [← hk]
                        exact hcon
                      exact hkk (Option.some.inj hkk2).symm
                    · rw [hce]
                      unfold updChild
                      rw [if_neg hcu]
                      exact hnone k' hn d (List.mem_cons_of_mem c hd) hdk cc hcc
                rcases ih (jsMapDelete pm k) (replaceByUid tree r.uid (updRec r p.uid c.text))
                  ctr (updRec r p.uid c.text)
                  (mem_replaceByUid_target tree r.uid r _ hr rfl) rfl
                  hnd1 hfresh1 hkey1 hcs' hsome1 hnone1
                  with ⟨ch₂, ctr₂, heq, hle, huids, hknd, hmatch, op, np, hdec, hfa, hnp⟩
                refine ⟨ch₂, ctr₂, ?_, hle, ?_, hknd, ?_, ?_⟩
                · rw [hstep, updRec_canon tree hnd r hr p hpch c.text]
                  have heq' : (syncChildrenGoLocal r.uid rest (jsMapDelete pm k)
                      (replaceByUid tree r.uid (updRec r p.uid c.text)) ctr).1
                      = (replaceByUid (replaceByUid tree r.uid (updRec r p.uid c.text))
                          r.uid ⟨r.text, r.uid, ch₂⟩, ctr₂) := heq
                  rw [heq', replaceByUid_compose tree r.uid (updRec r p.uid c.text)
                    ⟨r.text, r.uid, ch₂⟩ rfl]
                · rw [updRec_uids] at huids
                  exact huids
                · intro d hd k' hdk
                  rcases List.mem_cons.mp hd with rfl | hd'
                  · have hkk' : k' = k := by
                      rw [hdk] at hk
                      exact Option.some.inj hk
                    have hmem := updRec_mem_target r p hpch d.text
                    rcases forallTwo_mem_right _ hfa _ hmem with ⟨pf, hpf, hrel⟩
                    rcases hrel.2 with htxt2 | ⟨d', hd', hke, htxt2⟩
                    · refine ⟨pf, by rw [hdec]; exact List.mem_append_left np hpf, ?_,
                        htxt2⟩
                      rw [show pf.text = d.text from htxt2]
                      exact hdk
                    · exact absurd (List.mem_filterMap.mpr ⟨d', hd',
                        by rw [hke]; exact hdk⟩) (hkk' ▸ hknotin)
                  · exact hmatch d hd' k' hdk
                · have hfa' : List.Forall₂ (SyncRel rest) op
                      (r.children.map (updChild p.uid c.text)) := by
                    rw [updRec_children] at hfa
                    exact hfa
                  have hfa'' := forallTwo_map_right (SyncRel rest) (updChild p.uid c.text)
                    r.children op hfa'
                  refine ⟨op, np, hdec, ?_, ?_⟩
                  · refine forallTwo_imp_mem _ _ hfa'' ?_
                    intro pf q _ hq hrel
                    by_cases hqu : q.uid = p.uid
                    · have hqp : q = p := map_uid_unique r.children hchnd q p hq hpch hqu
                      have hux : updChild p.uid c.text q = ⟨c.text, q.uid⟩ := by
                        unfold updChild
                        rw [if_pos hqu]
                      rw [hux] at hrel
                      refine ⟨hrel.1, ?_⟩
                      rcases hrel.2 with htxt2 | ⟨d', hd', hke, htxt2⟩
                      · exact Or.inr ⟨c, List.mem_cons_self c rest,
                          by rw [hk, hqp, hpk], htxt2⟩
                      · refine Or.inr ⟨d', List.mem_cons_of_mem c hd', ?_, htxt2⟩
                        rw [hke]
                        show extractPropertyKey c.text = extractPropertyKey q.text
                        rw [hk, hqp, hpk]
                    · have hux : updChild p.uid c.text q = q := by
                        unfold updChild
                        rw [if_neg hqu]
                      rw [hux] at hrel
                      exact ⟨hrel.1, hrel.2.elim Or.inl (fun hh =>
                        Or.inr ⟨hh.choose, List.mem_cons_of_mem c hh.choose_spec.1,
                          hh.choose_spec.2.1, hh.choose_spec.2.2⟩)⟩
                  · intro pq hpq
                    rcases hnp pq hpq with ⟨d', hd', he⟩
                    exact ⟨d', List.mem_cons_of_mem c hd', he⟩

/-! ### Infrastructure: the settled tree is a fixed point -/

theorem mem_dedupAux (x : String) :
    ∀ (ids seen : List String), x ∈ dedupAux seen ids ↔ x ∈ seen ∨ x ∈ ids := by
  intro ids
  induction ids with
  | nil =>
      intro seen
      unfold dedupAux
      simp
  | cons y rest ih =>
      intro seen
      unfold dedupAux
      by_cases hy : y ∈ seen
      · rw [if_pos hy, ih seen]
        constructor
        · intro h
          rcases h with h | h
          · exact Or.inl h
          · exact Or.inr (List.mem_cons_of_mem y h)
        · intro h
          rcases h with h | h
          · exact Or.inl h
          · rcases List.mem_cons.mp h with rfl | h'
            · exact Or.inl hy
            · exact Or.inr h'
      · rw [if_neg hy, ih (seen ++ [y])]
        constructor
        · intro h
          rcases h with h | h
          · rcases List.mem_append.mp h with h' | h'
            · exact Or.inl h'
            · rcases List.mem_singleton.mp h' with rfl
              exact Or.inr (List.mem_cons_self x rest)
          · exact Or.inr (List.mem_cons_of_mem y h)
        · intro h
          rcases h with h | h
          · exact Or.inl (List.mem_append_left _ h)
          · rcases List.mem_cons.mp h with rfl | h'
            · exact Or.inl (List.mem_append_right _ (List.mem_singleton.mpr rfl))
            · exact Or.inr h'

theorem blockIds_cons_none (b : BlockPayload) (rest : List BlockPayload)
    (h : extractICalIdFromBlock b = none) :
    blockIds (b :: rest) = blockIds rest := by
  unfold blockIds
  rw [List.filterMap_cons, h]

theorem blockIds_cons_some (b : BlockPayload) (rest : List BlockPayload) (x : String)
    (h : extractICalIdFromBlock b = some x) :
    blockIds (b :: rest) = x :: blockIds rest := by
  unfold blockIds
  rw [List.filterMap_cons, h]

theorem firstWithId_cons_skip (b : BlockPayload) (rest : List BlockPayload) (x : String)
    (h : extractICalIdFromBlock b ≠ some x) :
    firstWithId x (b :: rest) = firstWithId x rest := by
  unfold firstWithId
  rw [List.find?_cons]
  simp [h]

theorem firstWithId_cons_hit (b : BlockPayload) (rest : List BlockPayload) (x : String)
    (h : extractICalIdFromBlock b = some x) :
    firstWithId x (b :: rest) = some b := by
  unfold firstWithId
  rw [List.find?_cons]
  simp [h]

theorem mem_blockIds_first (x : String) :
    ∀ S : List BlockPayload, x ∈ blockIds S → ∃ b, firstWithId x S = some b := by
  intro S
  induction S with
  | nil =>
      intro h
      exact absurd h (List.not_mem_nil x)
  | cons b rest ih =>
      intro h
      by_cases hb : extractICalIdFromBlock b = some x
      · exact ⟨b, firstWithId_cons_hit b rest x hb⟩
      · rw [firstWithId_cons_skip b rest x hb]
        cases hid : extractICalIdFromBlock b with
        | none =>
            rw [blockIds_cons_none b rest hid] at h
            exact ih h
        | some y =>
            rw [blockIds_cons_some b rest y hid] at h
            rcases List.mem_cons.mp h with rfl | h'
            · exact absurd hid hb
            · exact ih h'

theorem syncGoLocal_noop (u : String) :
    ∀ (cs : List PropPayload) (pm : List (String × PropNode)) (tree : List RoamNode)
      (ctr : Nat),
      (cs.filterMap (fun c => extractPropertyKey c.text)).Nodup →
      (∀ c ∈ cs, ∀ k, extractPropertyKey c.text = some k →
        ∃ p, jsMapGet pm k = some p ∧ p.text = c.text) →
      syncChildrenGoLocal u cs pm tree ctr = ((tree, ctr), []) := by
  intro cs
  induction cs with
  | nil => intro pm tree ctr _ _; rfl
  | cons c rest ih =>
      intro pm tree ctr hnd hmatch
      cases hk : extractPropertyKey c.text with
      | none =>
          have hstep : syncChildrenGoLocal u (c :: rest) pm tree ctr
              = syncChildrenGoLocal u rest pm tree ctr := by
            conv_lhs => unfold syncChildrenGoLocal
            rw [hk]
          rw [hstep]
          refine ih pm tree ctr ?_ ?_
          · rw [List.filterMap_cons, hk] at hnd
            exact hnd
          · intro d hd k hdk
            exact hmatch d (List.mem_cons_of_mem c hd) k hdk
      | some k =>
          rcases hmatch c (List.mem_cons_self c rest) k hk with ⟨p, hpm, htxt⟩
          have hstep : syncChildrenGoLocal u (c :: rest) pm tree ctr
              = syncChildrenGoLocal u rest (jsMapDelete pm k) tree ctr := by
            conv_lhs => unfold syncChildrenGoLocal
            rw [hk]
            dsimp only
            rw [hpm]
            dsimp only
            rw [if_neg (not_not_intro htxt)]
          rw [hstep]
          rw [List.filterMap_cons, hk] at hnd
          refine ih (jsMapDelete pm k) tree ctr (List.nodup_cons.mp hnd).2 ?_
          intro d hd k' hdk
          rcases hmatch d (List.mem_cons_of_mem c hd) k' hdk with ⟨p', hpm', htxt'⟩
          have hkk : k' ≠ k := by
            intro he
            exact (List.nodup_cons.mp hnd).1
              (he ▸ List.mem_filterMap.mpr ⟨d, hd, hdk⟩)
          exact ⟨p', by rw [jsMapGet_delete_ne pm k k' hkk]; exact hpm', htxt'⟩

theorem syncChildrenLocal_noop (u : String) (b : BlockPayload) (tree : List RoamNode)
    (ctr : Nat) (hnd : (blockChildKeys b).Nodup) (hps : PropsSettledIn tree u b) :
    syncChildrenLocal u b.children tree ctr = ((tree, ctr), []) := by
  unfold syncChildrenLocal
  exact syncGoLocal_noop u b.children (buildPropsMap (localChildrenOf tree u)) tree ctr hnd
    (fun c hc k hck => hps c hc k hck)

theorem writeLoopLocal_noop (P : String) (tree : List RoamNode) :
    ∀ (S : List BlockPayload) (seen : List String) (ctr : Nat),
      (∀ x, x ∈ blockIds S → x ∉ seen →
        ∃ b, firstWithId x S = some b ∧ SettledFor tree x b) →
      writeLoopLocal P (buildBlockMap tree) S seen tree ctr
        = ((tree, ctr), [], dedupAux seen (blockIds S)) := by
  intro S
  induction S with
  | nil =>
      intro seen ctr _
      rfl
  | cons b rest ih =>
      intro seen ctr hsettled
      cases hid : extractICalIdFromBlock b with
      | none =>
          have hstep : writeLoopLocal P (buildBlockMap tree) (b :: rest) seen tree ctr
              = writeLoopLocal P (buildBlockMap tree) rest seen tree ctr := by
            conv_lhs => unfold writeLoopLocal
            rw [hid]
          rw [hstep, blockIds_cons_none b rest hid]
          refine ih seen ctr ?_
          intro x hx hxs
          rcases hsettled x (by rw [blockIds_cons_none b rest hid]; exact hx) hxs
            with ⟨b₀, hb₀, hs⟩
          rw [firstWithId_cons_skip b rest x (by rw [hid]; intro h; cases h)] at hb₀
          exact ⟨b₀, hb₀, hs⟩
      | some x =>
          by_cases hxs : x ∈ seen
          · have hstep : writeLoopLocal P (buildBlockMap tree) (b :: rest) seen tree ctr
                = writeLoopLocal P (buildBlockMap tree) rest seen tree ctr := by
              conv_lhs => unfold writeLoopLocal
              rw [hid]
              dsimp only
              rw [if_pos hxs]
            rw [hstep, blockIds_cons_some b rest x hid]
            have hded : dedupAux seen (x :: blockIds rest)
                = dedupAux seen (blockIds rest) := by
              conv_lhs => unfold dedupAux
              rw [if_pos hxs]
            rw [hded]
            refine ih seen ctr ?_
            intro y hy hys
            have hyx : y ≠ x := fun he => hys (he ▸ hxs)
            rcases hsettled y
              (by rw [blockIds_cons_some b rest x hid]; exact List.mem_cons_of_mem x hy)
              hys with ⟨b₀, hb₀, hs⟩
            rw [firstWithId_cons_skip b rest y
              (by rw [hid]; intro h; exact hyx (Option.some.inj h).symm)] at hb₀
            exact ⟨b₀, hb₀, hs⟩
          · rcases hsettled x
              (by rw [blockIds_cons_some b rest x hid]; exact List.mem_cons_self x _) hxs
              with ⟨b₀, hb₀, hs⟩
            rw [firstWithId_cons_hit b rest x hid] at hb₀
            cases hb₀
            rcases hs with ⟨r, hmap, htxt, hknd, hprops⟩
            have hstep : writeLoopLocal P (buildBlockMap tree) (b :: rest) seen tree ctr
                = (let tc := syncChildrenLocal r.uid b.children tree ctr
                   let tr := writeLoopLocal P (buildBlockMap tree) rest (seen ++ [x])
                     tc.1.1 tc.1.2
                   (tr.1, [] ++ tc.2 ++ tr.2.1, tr.2.2)) := by
              conv_lhs => unfold writeLoopLocal
              rw [hid]
              dsimp only
              rw [if_neg hxs]
              rw [hmap]
              dsimp only
              rw [if_neg (not_not_intro htxt)]
            rw [hstep, syncChildrenLocal_noop r.uid b tree ctr hknd hprops]
            have hreq : writeLoopLocal P (buildBlockMap tree) rest (seen ++ [x]) tree ctr
                = ((tree, ctr), [], dedupAux (seen ++ [x]) (blockIds rest)) := by
              refine ih (seen ++ [x]) ctr ?_
              intro y hy hys
              have hyx : y ≠ x := by
                intro he
                exact hys (he ▸ List.mem_append_right _ (List.mem_singleton.mpr rfl))
              have hys' : y ∉ seen := fun h => hys (List.mem_append_left _ h)
              rcases hsettled y
                (by rw [blockIds_cons_some b rest x hid]; exact List.mem_cons_of_mem x hy)
                hys' with ⟨b₀, hb₀, hsy⟩
              rw [firstWithId_cons_skip b rest y
                (by rw [hid]; intro h; exact hyx (Option.some.inj h).symm)] at hb₀
              exact ⟨b₀, hb₀, hsy⟩
            dsimp only
            rw [hreq]
            have hded : dedupAux seen (blockIds (b :: rest))
                = dedupAux (seen ++ [x]) (blockIds rest) := by
              rw [blockIds_cons_some b rest x hid]
              conv_lhs => unfold dedupAux
              rw [if_neg hxs]
            rw [hded]
            rfl

theorem removeObsoleteLocal_noop :
    ∀ (E : List (String × RoamNode)) (seen : List String) (tree : List RoamNode),
      (∀ e ∈ E, e.1 ∈ seen) → removeObsoleteLocal E seen tree = (tree, []) := by
  have hgen : ∀ (E : List (String × RoamNode)) (seen : List String)
      (acc : List RoamNode × List Mutation), (∀ e ∈ E, e.1 ∈ seen) →
      E.foldl (fun acc entry =>
        if entry.1 ∈ seen then acc
        else (localDelete entry.2.uid acc.1, acc.2 ++ [Mutation.deleteBlock entry.2.uid]))
        acc = acc := by
    intro E
    induction E with
    | nil => intro seen acc _; rfl
    | cons e rest ih =>
        intro seen acc h
        rw [List.foldl_cons, if_pos (h e (List.mem_cons_self e rest))]
        exact ih seen acc (fun d hd => h d (List.mem_cons_of_mem e hd))
  intro E seen tree h
  unfold removeObsoleteLocal
  exact hgen E seen (tree, []) h

/-- A settled tree is a fixed point of the local page write: no trace,
no tree change, no fresh uids. -/
theorem writePageLocal_settled (P : String) (blocks : List BlockPayload)
    (tree : List RoamNode) (ctr : Nat) (h : TreeSettled tree blocks) :
    writePageLocal P blocks tree ctr = ((tree, ctr), []) := by
  unfold writePageLocal
  have hloop : writeLoopLocal P (buildBlockMap tree) blocks [] tree ctr
      = ((tree, ctr), [], dedupAux [] (blockIds blocks)) := by
    refine writeLoopLocal_noop P tree blocks [] ctr ?_
    intro x hx _
    rcases mem_blockIds_first x blocks hx with ⟨b, hb⟩
    exact ⟨b, hb, h.1 x b hb⟩
  dsimp only
  rw [hloop]
  dsimp only
  have hrem : removeObsoleteLocal (buildBlockMap tree) (dedupAux [] (blockIds blocks)) tree
      = (tree, []) := by
    refine removeObsoleteLocal_noop (buildBlockMap tree) _ tree ?_
    intro e he
    refine (mem_dedupAux e.1 (blockIds blocks) []).mpr (Or.inr ?_)
    exact h.2 e.1 (List.mem_map.mpr ⟨e, he, rfl⟩)
  rw [hrem]
  rfl

/-! ### Infrastructure: recovered ids of rebuilt records -/

theorem filterMap_key_unique (l : List PropNode)
    (hnd : (l.filterMap (fun c => extractPropertyKey c.text)).Nodup)
    (p q : PropNode) (k : String) (hp : p ∈ l) (hq : q ∈ l)
    (hpk : extractPropertyKey p.text = some k) (hqk : extractPropertyKey q.text = some k) :
    p = q := by
  induction l with
  | nil => exact absurd hp (List.not_mem_nil p)
  | cons a rest ih =>
      rcases List.mem_cons.mp hp with rfl | hp'
      · rcases List.mem_cons.mp hq with rfl | hq'
        · rfl
        · rw [List.filterMap_cons, hpk] at hnd
          exact absurd (List.mem_filterMap.mpr ⟨q, hq', hqk⟩) (List.nodup_cons.mp hnd).1
      · rcases List.mem_cons.mp hq with rfl | hq'
        · rw [List.filterMap_cons, hqk] at hnd
          exact absurd (List.mem_filterMap.mpr ⟨p, hp', hpk⟩) (List.nodup_cons.mp hnd).1
        · cases hak : extractPropertyKey a.text with
          | none =>
              rw [List.filterMap_cons, hak] at hnd
              exact ih hnd hp' hq'
          | some ka =>
              rw [List.filterMap_cons, hak] at hnd
              exact ih (List.nodup_cons.mp hnd).2 hp' hq'

/-- A record whose text is a desired block's text and whose children
realise the desired children and otherwise respect the stored-property
shape recovers exactly the desired block's id. -/
theorem record_id_recovery (b : BlockPayload) (x : String) (hb : BlockOK b)
    (hid : extractICalIdFromBlock b = some x) (txt : String) (u : String)
    (ch : List PropNode) (htxt : txt = b.text)
    (hknd : (ch.filterMap (fun c => extractPropertyKey c.text)).Nodup)
    (hmatch : ∀ c ∈ b.children, ∀ k, extractPropertyKey c.text = some k →
      ∃ p ∈ ch, extractPropertyKey p.text = some k ∧ p.text = c.text)
    (hprov : ∀ p ∈ ch, (∃ c ∈ b.children, p.text = c.text) ∨
      (propTruthy p ≠ none → extractPropertyKey p.text = some "ical-id")) :
    extractICalIdFromNode ⟨txt, u, ch⟩ = some x := by
  subst htxt
  unfold extractICalIdFromNode
  unfold extractICalIdFromBlock at hid
  cases hroot : truthyId (extractICalId b.text) with
  | some y =>
      rw [hroot] at hid
      dsimp only at hid ⊢
      exact hid
  | none =>
      rw [hroot] at hid
      dsimp only at hid ⊢
      rcases hb.2 hroot with ⟨c0, rest0, hbch, hc0k, hc0t, hrest⟩
      have hc0x : childTruthy c0 = some x := by
        rw [hc0t]
        unfold extractICalIdFromBlock
        rw [hroot]
        dsimp only
        exact hid
      rcases hmatch c0 (by rw [hbch]; exact List.mem_cons_self c0 rest0) "ical-id" hc0k
        with ⟨pstar, hpstar, hpk, hpt⟩
      refine findSome_uniform _ x ch ?_ ⟨pstar, hpstar, ?_⟩
      · intro p hp
        rcases hprov p hp with ⟨c, hc, hpc⟩ | hshape
        · rw [hbch] at hc
          rcases List.mem_cons.mp hc with rfl | hc'
          · right
            show propTruthy p = some x
            unfold propTruthy
            rw [hpc]
            exact hc0x
          · left
            show propTruthy p = none
            unfold propTruthy
            rw [hpc]
            exact hrest c hc'
        · by_cases hnone : truthyId (extractICalId p.text) = none
          · exact Or.inl hnone
          · have hpik : extractPropertyKey p.text = some "ical-id" := hshape hnone
            have hpe : p = pstar := filterMap_key_unique ch hknd p pstar "ical-id" hp
              hpstar hpik hpk
            right
            show propTruthy p = some x
            unfold propTruthy
            rw [hpe, hpt]
            exact hc0x
      · show propTruthy pstar = some x
        unfold propTruthy
        rw [hpt]
        exact hc0x

theorem filterMap_key_texts : ∀ (l : List PropNode) (lt : List PropPayload),
    l.map (fun c => c.text) = lt.map (fun c => c.text) →
    l.filterMap (fun c => extractPropertyKey c.text)
      = lt.filterMap (fun c => extractPropertyKey c.text) := by
  intro l
  induction l with
  | nil =>
      intro lt h
      cases lt with
      | nil => rfl
      | cons c rest => rw [List.map_nil, List.map_cons] at h; cases h
  | cons p rest ih =>
      intro lt h
      cases lt with
      | nil => rw [List.map_nil, List.map_cons] at h; cases h
      | cons c rest₂ =>
          rw [List.map_cons, List.map_cons] at h
          rw [List.filterMap_cons, List.filterMap_cons,
            List.head_eq_of_cons_eq h]
          cases hc : extractPropertyKey c.text with
          | none => exact ih rest₂ (List.tail_eq_of_cons_eq h)
          | some k => rw [ih rest₂ (List.tail_eq_of_cons_eq h)]

theorem treeUids_snoc (tree : List RoamNode) (t : RoamNode) :
    treeUids (tree ++ [t]) = treeUids tree ++ nodeUids t := by
  rw [treeUids_append, treeUids_cons]
  show treeUids tree ++ (nodeUids t ++ []) = _
  rw [List.append_nil]

theorem nodup_snoc_gens (tree : List RoamNode) (t : RoamNode) (a m : Nat)
    (hnd : (treeUids tree).Nodup) (hfresh : ∀ v ∈ treeUids tree, GenFresh a v)
    (hg : nodeUids t = gensFrom a m) : (treeUids (tree ++ [t])).Nodup := by
  rw [treeUids_snoc, hg]
  refine List.nodup_append.mpr ⟨hnd, gensFrom_nodup m a, ?_⟩
  intro v hv hg'
  rcases (mem_gensFrom v m a).mp hg' with ⟨k, hk1, _, hv3⟩
  exact hfresh v hv k hk1 hv3

theorem treeIds_snoc_some (tree : List RoamNode) (t : RoamNode) (x : String)
    (h : extractICalIdFromNode t = some x) :
    treeIds (tree ++ [t]) = treeIds tree ++ [x] := by
  unfold treeIds
  rw [List.filterMap_append, List.filterMap_cons, h]
  rfl

theorem propsSettledIn_congr (tree tree' : List RoamNode) (u : String) (b : BlockPayload)
    (h : localChildrenOf tree' u = localChildrenOf tree u)
    (hs : PropsSettledIn tree u b) : PropsSettledIn tree' u b := by
  intro c hc k hk
  rw [h]
  exact hs c hc k hk

/-- A settled witness survives into any tree (with distinct uids on both
sides) that keeps every record recovering its id. -/
theorem settledRec_preserved (tree tree' : List RoamNode) (x : String) (b : BlockPayload)
    (hnd : (treeUids tree).Nodup) (hnd' : (treeUids tree').Nodup)
    (hmem : ∀ r ∈ tree, extractICalIdFromNode r = some x → r ∈ tree')
    (hs : SettledRec tree x b) : SettledRec tree' x b := by
  rcases hs with ⟨r, hr, hrx, hrt, hknd, hprops⟩
  refine ⟨r, hmem r hr hrx, hrx, hrt, hknd, ?_⟩
  refine propsSettledIn_congr tree tree' r.uid b ?_ hprops
  rw [localChildrenOf_eq tree hnd r hr, localChildrenOf_eq tree' hnd' r (hmem r hr hrx)]

/-- What one pass of the desired-blocks loop establishes, on a tree with
distinct uids and distinct recovered ids, stored records in the written
shape and desired blocks in the built shape: every first-occurrence id is
realised by a settled record, unprocessed map entries survive untouched,
id-less records survive untouched, every recovered id of the final tree
is processed or unprocessed-mapped, and uids grow only by fresh ones. -/
theorem writeLoopLocal_establish (P : String) (m0 : List (String × RoamNode))
    (hm0 : ∀ x r, jsMapGet m0 x = some r → extractICalIdFromNode r = some x ∧ NodeOK r) :
    ∀ (S : List BlockPayload) (seen : List String) (tree : List RoamNode) (ctr : Nat),
      (treeUids tree).Nodup →
      (∀ v ∈ treeUids tree, GenFresh ctr v) →
      (treeIds tree).Nodup →
      (∀ b ∈ S, BlockOK b) →
      (∀ x r, jsMapGet m0 x = some r → x ∉ seen → r ∈ tree) →
      (∀ r ∈ tree, ∀ y, extractICalIdFromNode r = some y →
        y ∈ seen ∨ jsMapGet m0 y = some r) →
      ∃ tree₂ ctr₂,
        (writeLoopLocal P m0 S seen tree ctr).1 = (tree₂, ctr₂) ∧
        (writeLoopLocal P m0 S seen tree ctr).2.2 = dedupAux seen (blockIds S) ∧
        ctr ≤ ctr₂ ∧
        (treeUids tree₂).Nodup ∧
        (∀ v ∈ treeUids tree₂, GenFresh ctr₂ v) ∧
        (treeIds tree₂).Nodup ∧
        (∀ u ∈ treeUids tree, u ∈ treeUids tree₂) ∧
        (∀ u ∈ treeUids tree₂,
          u ∈ treeUids tree ∨ ∃ k, ctr ≤ k ∧ k < ctr₂ ∧ u = genUid k) ∧
        (∀ x r, jsMapGet m0 x = some r → x ∉ dedupAux seen (blockIds S) → r ∈ tree₂) ∧
        (∀ r ∈ tree₂, ∀ y, extractICalIdFromNode r = some y →
          y ∈ dedupAux seen (blockIds S) ∨ jsMapGet m0 y = some r) ∧
        (∀ x b, x ∉ seen → firstWithId x S = some b → SettledRec tree₂ x b) ∧
        (∀ x b, x ∈ seen → SettledRec tree x b → SettledRec tree₂ x b) ∧
        (∀ r ∈ tree, extractICalIdFromNode r = none → r ∈ tree₂) := by
  intro S
  induction S with
  | nil =>
      intro seen tree ctr hnd hfresh hids _ hI4 hI5
      refine ⟨tree, ctr, rfl, rfl, Nat.le_refl ctr, hnd, hfresh, hids,
        fun u hu => hu, fun u hu => Or.inl hu, ?_, ?_, ?_, fun _ _ _ hs => hs,
        fun r hr _ => hr⟩
      · intro x r h hx
        exact hI4 x r h (by intro hxs; exact hx ((mem_dedupAux x [] seen).mpr (Or.inl hxs)))
      · intro r hr y hy
        rcases hI5 r hr y hy with h | h
        · exact Or.inl ((mem_dedupAux y [] seen).mpr (Or.inl h))
        · exact Or.inr h
      · intro x b _ hb
        cases hb
  | cons b rest ih =>
      intro seen tree ctr hnd hfresh hids hBOK hI4 hI5
      cases hid : extractICalIdFromBlock b with
      | none =>
          have hstep1 : (writeLoopLocal P m0 (b :: rest) seen tree ctr).1
              = (writeLoopLocal P m0 rest seen tree ctr).1 := by
            conv_lhs => unfold writeLoopLocal
            rw [hid]
          have hstep2 : (writeLoopLocal P m0 (b :: rest) seen tree ctr).2.2
              = (writeLoopLocal P m0 rest seen tree ctr).2.2 := by
            conv_lhs => unfold writeLoopLocal
            rw [hid]
          rcases ih seen tree ctr hnd hfresh hids
            (fun d hd => hBOK d (List.mem_cons_of_mem b hd)) hI4 hI5
            with ⟨tree₂, ctr₂, he1, he2, hle, c4, c5, c6, c7, c8, c9, c10, c11, c12, c13⟩
          rw [blockIds_cons_none b rest hid]
          refine ⟨tree₂, ctr₂, by rw [hstep1]; exact he1, by rw [hstep2]; exact he2,
            hle, c4, c5, c6, c7, c8, c9, c10, ?_, c12, c13⟩
          intro x bb hx hfb
          rw [firstWithId_cons_skip b rest x (by rw [hid]; intro h; cases h)] at hfb
          exact c11 x bb hx hfb
      | some x =>
          by_cases hxs : x ∈ seen
          · have hstep1 : (writeLoopLocal P m0 (b :: rest) seen tree ctr).1
                = (writeLoopLocal P m0 rest seen tree ctr).1 := by
              conv_lhs => unfold writeLoopLocal
              rw [hid]
              dsimp only
              rw [if_pos hxs]
            have hstep2 : (writeLoopLocal P m0 (b :: rest) seen tree ctr).2.2
                = (writeLoopLocal P m0 rest seen tree ctr).2.2 := by
              conv_lhs => unfold writeLoopLocal
              rw [hid]
              dsimp only
              rw [if_pos hxs]
            rcases ih seen tree ctr hnd hfresh hids
              (fun d hd => hBOK d (List.mem_cons_of_mem b hd)) hI4 hI5
              with ⟨tree₂, ctr₂, he1, he2, hle, c4, c5, c6, c7, c8, c9, c10, c11, c12, c13⟩
            have hded : dedupAux seen (blockIds (b :: rest))
                = dedupAux seen (blockIds rest) := by
              rw [blockIds_cons_some b rest x hid]
              conv_lhs => unfold dedupAux
              rw [if_pos hxs]
            rw [hded]
            refine ⟨tree₂, ctr₂, by rw [hstep1]; exact he1, by rw [hstep2]; exact he2,
              hle, c4, c5, c6, c7, c8, c9, c10, ?_, c12, c13⟩
            intro y bb hy hfb
            have hyx : y ≠ x := fun he => hy (he ▸ hxs)
            rw [firstWithId_cons_skip b rest y
              (by rw [hid]; intro h; exact hyx (Option.some.inj h).symm)] at hfb
            exact c11 y bb hy hfb
          · have hb : BlockOK b := hBOK b (List.mem_cons_self b rest)
            cases hm0x : jsMapGet m0 x with
            | some r =>
                -- matched: the stored record is re-texted and its children synced
                have hrid : extractICalIdFromNode r = some x := (hm0 x r hm0x).1
                have hrOK : NodeOK r := (hm0 x r hm0x).2
                have hr : r ∈ tree := hI4 x r hm0x hxs
                have hSU : (if r.text ≠ b.text then
                    (localUpdate r.uid b.text tree, [Mutation.updateBlock r.uid b.text])
                    else (tree, [])).1
                    = replaceByUid tree r.uid ⟨b.text, r.uid, r.children⟩ := by
                  by_cases he : r.text = b.text
                  · rw [if_neg (not_not_intro he)]
                    have h2 : (⟨b.text, r.uid, r.children⟩ : RoamNode) = r := by
                      rw [← he]
                    rw [h2]
                    exact (replaceByUid_self tree hnd r hr).symm
                  · rw [if_pos he]
                    exact localUpdate_root_canon tree hnd r hr b.text
                have hch0 : (⟨b.text, r.uid, r.children⟩ : RoamNode).children.map
                    (fun p => p.uid)
                    = r.children.map (fun p => p.uid) ++ gensFrom ctr 0 := by
                  rw [show gensFrom ctr 0 = [] from rfl, List.append_nil]
                have hnd1 : (treeUids (replaceByUid tree r.uid
                    (⟨b.text, r.uid, r.children⟩ : RoamNode))).Nodup :=
                  replaceByUid_nodup tree r _ ctr 0 hr hnd hfresh rfl hch0
                have hfresh1 : ∀ v ∈ treeUids (replaceByUid tree r.uid
                    (⟨b.text, r.uid, r.children⟩ : RoamNode)), GenFresh ctr v := by
                  have h := replaceByUid_fresh tree r (⟨b.text, r.uid, r.children⟩ : RoamNode)
                    ctr 0 hr hnd hfresh rfl hch0
                  rw [Nat.add_zero] at h
                  exact h
                have hmem1 : (⟨b.text, r.uid, r.children⟩ : RoamNode)
                    ∈ replaceByUid tree r.uid (⟨b.text, r.uid, r.children⟩ : RoamNode) :=
                  mem_replaceByUid_target tree r.uid r _ hr rfl
                have hlc : localChildrenOf (replaceByUid tree r.uid
                    (⟨b.text, r.uid, r.children⟩ : RoamNode)) r.uid = r.children :=
                  localChildrenOf_eq _ hnd1 (⟨b.text, r.uid, r.children⟩ : RoamNode) hmem1
                rcases syncGoLocal_establish r.uid b.children
                  (buildPropsMap (localChildrenOf (replaceByUid tree r.uid
                    (⟨b.text, r.uid, r.children⟩ : RoamNode)) r.uid))
                  (replaceByUid tree r.uid (⟨b.text, r.uid, r.children⟩ : RoamNode)) ctr
                  (⟨b.text, r.uid, r.children⟩ : RoamNode) hmem1 rfl hnd1 hfresh1
                  hrOK.1 hb.1
                  (by intro k p h
                      rw [hlc] at h
                      exact buildPropsMap_entry r.children k p h)
                  (by intro k h c hc hck p hp
                      rw [hlc] at h
                      exact buildPropsMap_none r.children k h p hp)
                  with ⟨ch₂, ctr₂', heqS, hleS, huidsS, hkndS, hmatchS, op, np, hdecS,
                    hfaS, hnpS⟩
                have htc2 : (syncChildrenLocal r.uid b.children
                    (replaceByUid tree r.uid (⟨b.text, r.uid, r.children⟩ : RoamNode))
                    ctr).1
                    = (replaceByUid tree r.uid ⟨b.text, r.uid, ch₂⟩, ctr₂') := by
                  have h2 : (syncChildrenLocal r.uid b.children
                      (replaceByUid tree r.uid (⟨b.text, r.uid, r.children⟩ : RoamNode))
                      ctr).1
                      = (replaceByUid (replaceByUid tree r.uid
                          (⟨b.text, r.uid, r.children⟩ : RoamNode)) r.uid
                          ⟨b.text, r.uid, ch₂⟩, ctr₂') := heqS
                  rw [h2, replaceByUid_compose tree r.uid
                    (⟨b.text, r.uid, r.children⟩ : RoamNode)
                    (⟨b.text, r.uid, ch₂⟩ : RoamNode) rfl]
                have hchS : (⟨b.text, r.uid, ch₂⟩ : RoamNode).children.map (fun p => p.uid)
                    = r.children.map (fun p => p.uid) ++ gensFrom ctr (ctr₂' - ctr) :=
                  huidsS
                have hnd2 : (treeUids (replaceByUid tree r.uid
                    (⟨b.text, r.uid, ch₂⟩ : RoamNode))).Nodup :=
                  replaceByUid_nodup tree r (⟨b.text, r.uid, ch₂⟩ : RoamNode) ctr
                    (ctr₂' - ctr) hr hnd hfresh rfl hchS
                have hfresh2 : ∀ v ∈ treeUids (replaceByUid tree r.uid
                    (⟨b.text, r.uid, ch₂⟩ : RoamNode)), GenFresh ctr₂' v := by
                  have h := replaceByUid_fresh tree r (⟨b.text, r.uid, ch₂⟩ : RoamNode)
                    ctr (ctr₂' - ctr) hr hnd hfresh rfl hchS
                  have h2 : ctr + (ctr₂' - ctr) = ctr₂' := by omega
                  rw [h2] at h
                  exact h
                have hprov : ∀ p ∈ ch₂, (∃ c ∈ b.children, p.text = c.text) ∨
                    (propTruthy p ≠ none → extractPropertyKey p.text = some "ical-id") := by
                  intro p hp
                  rw [hdecS] at hp
                  rcases List.mem_append.mp hp with hp' | hp'
                  · rcases forallTwo_mem_left _ hfaS p hp' with ⟨q, hq, hrel⟩
                    rcases hrel.2 with ht | ⟨c, hc, _, ht⟩
                    · right
                      intro htr
                      have hqt : propTruthy q ≠ none := by
                        unfold propTruthy at htr ⊢
                        rw [← ht]
                        exact htr
                      have := hrOK.2 q hq hqt
                      rw [show extractPropertyKey p.text = extractPropertyKey q.text
                        from by rw [ht]]
                      exact this
                    · exact Or.inl ⟨c, hc, ht⟩
                  · rcases hnpS p hp' with ⟨c, hc, ht⟩
                    exact Or.inl ⟨c, hc, ht⟩
                have hrecid : extractICalIdFromNode (⟨b.text, r.uid, ch₂⟩ : RoamNode)
                    = some x :=
                  record_id_recovery b x hb hid b.text r.uid ch₂ rfl hkndS hmatchS hprov
                have hids2 : treeIds (replaceByUid tree r.uid
                    (⟨b.text, r.uid, ch₂⟩ : RoamNode)) = treeIds tree :=
                  replaceByUid_treeIds_congr tree r (⟨b.text, r.uid, ch₂⟩ : RoamNode) hr
                    hnd (by rw [hrecid, hrid])
                have hmem2 : (⟨b.text, r.uid, ch₂⟩ : RoamNode)
                    ∈ replaceByUid tree r.uid (⟨b.text, r.uid, ch₂⟩ : RoamNode) :=
                  mem_replaceByUid_target tree r.uid r _ hr rfl
                have hI4' : ∀ y r', jsMapGet m0 y = some r' → y ∉ seen ++ [x] →
                    r' ∈ replaceByUid tree r.uid (⟨b.text, r.uid, ch₂⟩ : RoamNode) := by
                  intro y r' hy hys
                  have hyx : y ≠ x := by
                    intro he
                    exact hys (he ▸ List.mem_append_right _ (List.mem_singleton.mpr rfl))
                  have hys' : y ∉ seen := fun h => hys (List.mem_append_left _ h)
                  have hr' : r' ∈ tree := hI4 y r' hy hys'
                  have hne : r'.uid ≠ r.uid := by
                    intro he
                    have h2 : r' = r := uid_unique tree hnd r' r hr' hr he
                    have h3 := (hm0 y r' hy).1
                    rw [h2, hrid] at h3
                    exact hyx (Option.some.inj h3).symm
                  exact mem_replaceByUid_of_ne tree r.uid _ r' hr' hne
                have hI5' : ∀ r' ∈ replaceByUid tree r.uid
                    (⟨b.text, r.uid, ch₂⟩ : RoamNode), ∀ y,
                    extractICalIdFromNode r' = some y →
                    y ∈ seen ++ [x] ∨ jsMapGet m0 y = some r' := by
                  intro r' hr' y hy
                  rcases mem_of_mem_replaceByUid tree r.uid _ r' hr' with rfl | ⟨hmem, _⟩
                  · rw [hrecid] at hy
                    exact Or.inl (List.mem_append_right _
                      (List.mem_singleton.mpr (Option.some.inj hy).symm))
                  · rcases hI5 r' hmem y hy with h | h
                    · exact Or.inl (List.mem_append_left _ h)
                    · exact Or.inr h
                rcases ih (seen ++ [x])
                  (replaceByUid tree r.uid (⟨b.text, r.uid, ch₂⟩ : RoamNode)) ctr₂'
                  hnd2 hfresh2 (hids2 ▸ hids)
                  (fun d hd => hBOK d (List.mem_cons_of_mem b hd)) hI4' hI5'
                  with ⟨tree₃, ctr₃, he1, he2, hle3, c4, c5, c6, c7, c8, c9, c10, c11,
                    c12, c13⟩
                have hstep1 : (writeLoopLocal P m0 (b :: rest) seen tree ctr).1
                    = (writeLoopLocal P m0 rest (seen ++ [x])
                        (replaceByUid tree r.uid (⟨b.text, r.uid, ch₂⟩ : RoamNode))
                        ctr₂').1 := by
                  conv_lhs => unfold writeLoopLocal
                  rw [hid]
                  dsimp only
                  rw [if_neg hxs]
                  rw [hm0x]
                  dsimp only
                  rw [hSU, htc2]
                have hstep2 : (writeLoopLocal P m0 (b :: rest) seen tree ctr).2.2
                    = (writeLoopLocal P m0 rest (seen ++ [x])
                        (replaceByUid tree r.uid (⟨b.text, r.uid, ch₂⟩ : RoamNode))
                        ctr₂').2.2 := by
                  conv_lhs => unfold writeLoopLocal
                  rw [hid]
                  dsimp only
                  rw [if_neg hxs]
                  rw [hm0x]
                  dsimp only
                  rw [hSU, htc2]
                have hded : dedupAux seen (blockIds (b :: rest))
                    = dedupAux (seen ++ [x]) (blockIds rest) := by
                  rw [blockIds_cons_some b rest x hid]
                  conv_lhs => unfold dedupAux
                  rw [if_neg hxs]
                have hmemx : ∀ y ∈ dedupAux (seen ++ [x]) (blockIds rest),
                    y ∈ dedupAux seen (blockIds (b :: rest)) := by
                  intro y hy
                  rw [hded]
                  exact hy
                have hsettledx : SettledRec (replaceByUid tree r.uid
                    (⟨b.text, r.uid, ch₂⟩ : RoamNode)) x b := by
                  refine ⟨⟨b.text, r.uid, ch₂⟩, hmem2, hrecid, rfl, hb.1, ?_⟩
                  have hlc2 : localChildrenOf (replaceByUid tree r.uid
                      (⟨b.text, r.uid, ch₂⟩ : RoamNode))
                      (⟨b.text, r.uid, ch₂⟩ : RoamNode).uid
                      = ch₂ := localChildrenOf_eq _ hnd2 _ hmem2
                  intro c hc k hk
                  rw [show localChildrenOf (replaceByUid tree r.uid
                    (⟨b.text, r.uid, ch₂⟩ : RoamNode)) (⟨b.text, r.uid, ch₂⟩ : RoamNode).uid
                    = ch₂ from hlc2]
                  rcases hmatchS c hc k hk with ⟨p, hp, hpk, hpt⟩
                  exact ⟨p, buildPropsMap_unique ch₂ hkndS p k hp hpk, hpt⟩
                have hpres : ∀ x' b', SettledRec tree x' b' → x' ≠ x →
                    SettledRec (replaceByUid tree r.uid
                      (⟨b.text, r.uid, ch₂⟩ : RoamNode)) x' b' := by
                  intro x' b' hs hx'
                  refine settledRec_preserved tree _ x' b' hnd hnd2 ?_ hs
                  intro r' hr' hr'x
                  have hne : r'.uid ≠ r.uid := by
                    intro he
                    have h2 : r' = r := uid_unique tree hnd r' r hr' hr he
                    rw [h2, hrid] at hr'x
                    exact hx' (Option.some.inj hr'x).symm
                  exact mem_replaceByUid_of_ne tree r.uid _ r' hr' hne
                refine ⟨tree₃, ctr₃, by rw [hstep1]; exact he1, ?_, by omega, c4, c5, c6,
                  ?_, ?_, ?_, ?_, ?_, ?_, ?_⟩
                · rw [hstep2, he2, hded]
                · -- old uids survive
                  intro u hu
                  refine c7 u ?_
                  exact replaceByUid_mem_super tree r (⟨b.text, r.uid, ch₂⟩ : RoamNode)
                    ctr (ctr₂' - ctr) hr hnd rfl hchS u hu
                · -- uid provenance
                  intro u hu
                  rcases c8 u hu with h | ⟨k, hk1, hk2, hk3⟩
                  · rcases replaceByUid_mem_sub tree r (⟨b.text, r.uid, ch₂⟩ : RoamNode)
                      ctr (ctr₂' - ctr) hr hnd rfl hchS u h with h' | ⟨k, hk1, hk2, hk3⟩
                    · exact Or.inl h'
                    · exact Or.inr ⟨k, hk1, by omega, hk3⟩
                  · exact Or.inr ⟨k, by omega, by omega, hk3⟩
                · -- unprocessed map entries survive
                  intro y r' hy hys
                  rw [hded] at hys
                  exact c9 y r' hy hys
                · -- every final id is processed or mapped
                  intro r' hr' y hy
                  rcases c10 r' hr' y hy with h | h
                  · exact Or.inl (by rw [hded]; exact h)
                  · exact Or.inr h
                · -- settledness of first occurrences
                  intro y bb hy hfb
                  by_cases hyx : y = x
                  · subst hyx
                    rw [firstWithId_cons_hit b rest y hid] at hfb
                    cases hfb
                    exact c12 y b (List.mem_append_right _ (List.mem_singleton.mpr rfl))
                      hsettledx
                  · rw [firstWithId_cons_skip b rest y
                      (by rw [hid]; intro h; exact hyx (Option.some.inj h).symm)] at hfb
                    refine c11 y bb ?_ hfb
                    intro h
                    rcases List.mem_append.mp h with h' | h'
                    · exact hy h'
                    · exact hyx (List.mem_singleton.mp h')
                · -- preservation of already-settled ids
                  intro y bb hy hs
                  have hyx : y ≠ x := fun he => hxs (he ▸ hy)
                  exact c12 y bb (List.mem_append_left _ hy) (hpres y bb hs hyx)
                · -- id-less records survive
                  intro r' hr' hnone
                  have hne : r'.uid ≠ r.uid := by
                    intro he
                    have h2 : r' = r := uid_unique tree hnd r' r hr' hr he
                    rw [h2, hrid] at hnone
                    cases hnone
                  exact c13 r' (mem_replaceByUid_of_ne tree r.uid _ r' hr' hne) hnone
            | none =>
                -- unmatched: a fresh record is created at the page
                have htOK := instantiateBlock_spec b ctr
                have htuids := instantiateBlock_uids b ctr
                have hnd1 : (treeUids (tree ++ [(instantiateBlock ctr b).1])).Nodup :=
                  nodup_snoc_gens tree _ ctr (b.children.length + 1) hnd hfresh htuids
                have hfresh1 : ∀ v ∈ treeUids (tree ++ [(instantiateBlock ctr b).1]),
                    GenFresh (instantiateBlock ctr b).2 v := by
                  intro v hv
                  rw [treeUids_snoc] at hv
                  rcases List.mem_append.mp hv with h | h
                  · exact genFresh_mono v ctr _ (hfresh v h) (by rw [htOK.1]; omega)
                  · rw [htuids] at h
                    rcases (mem_gensFrom v (b.children.length + 1) ctr).mp h
                      with ⟨k, _, hk2, rfl⟩
                    exact genFresh_genUid k _ (by rw [htOK.1]; omega)
                have hchkeys : ((instantiateBlock ctr b).1.children.filterMap
                    (fun c => extractPropertyKey c.text)) = blockChildKeys b :=
                  filterMap_key_texts _ b.children htOK.2.2.2.1
                have hfat : List.Forall₂ (fun (p : PropNode) (c : PropPayload) =>
                    p.text = c.text) (instantiateBlock ctr b).1.children b.children :=
                  map_eq_forallTwo _ _ _ _ htOK.2.2.2.1
                have hmatcht : ∀ c ∈ b.children, ∀ k, extractPropertyKey c.text = some k →
                    ∃ p ∈ (instantiateBlock ctr b).1.children,
                      extractPropertyKey p.text = some k ∧ p.text = c.text := by
                  intro c hc k hk
                  rcases forallTwo_mem_right _ hfat c hc with ⟨p, hp, ht⟩
                  exact ⟨p, hp, by rw [ht]; exact hk, ht⟩
                have htid : extractICalIdFromNode (instantiateBlock ctr b).1 = some x := by
                  have h2 : (instantiateBlock ctr b).1
                      = ⟨b.text, genUid ctr, (instantiateBlock ctr b).1.children⟩ := by
                    have hx1 := htOK.2.1
                    have hx2 := htOK.2.2.1
                    cases hinst : (instantiateBlock ctr b).1 with
                    | mk t u ch =>
                        rw [hinst] at hx1 hx2
                        dsimp only at hx1 hx2
                        rw [hx1, hx2]
                  rw [h2]
                  refine record_id_recovery b x hb hid b.text (genUid ctr) _ rfl
                    (by rw [hchkeys]; exact hb.1) hmatcht ?_
                  intro p hp
                  rcases forallTwo_mem_left _ hfat p hp with ⟨c, hc, ht⟩
                  exact Or.inl ⟨c, hc, ht⟩
                have hids1 : treeIds (tree ++ [(instantiateBlock ctr b).1])
                    = treeIds tree ++ [x] := treeIds_snoc_some tree _ x htid
                have hxnotin : x ∉ treeIds tree := by
                  intro hxin
                  rcases List.mem_filterMap.mp hxin with ⟨r', hr', hr'x⟩
                  rcases hI5 r' hr' x hr'x with h | h
                  · exact hxs h
                  · rw [hm0x] at h
                    cases h
                have hids1' : (treeIds (tree ++ [(instantiateBlock ctr b).1])).Nodup := by
                  rw [hids1]
                  refine List.nodup_append.mpr ⟨hids, List.nodup_singleton x, ?_⟩
                  intro a ha hb'
                  rcases List.mem_singleton.mp hb' with rfl
                  exact hxnotin ha
                have hI4' : ∀ y r', jsMapGet m0 y = some r' → y ∉ seen ++ [x] →
                    r' ∈ tree ++ [(instantiateBlock ctr b).1] := by
                  intro y r' hy hys
                  have hys' : y ∉ seen := fun h => hys (List.mem_append_left _ h)
                  exact List.mem_append_left _ (hI4 y r' hy hys')
                have hI5' : ∀ r' ∈ tree ++ [(instantiateBlock ctr b).1], ∀ y,
                    extractICalIdFromNode r' = some y →
                    y ∈ seen ++ [x] ∨ jsMapGet m0 y = some r' := by
                  intro r' hr' y hy
                  rcases List.mem_append.mp hr' with h | h
                  · rcases hI5 r' h y hy with h' | h'
                    · exact Or.inl (List.mem_append_left _ h')
                    · exact Or.inr h'
                  · rcases List.mem_singleton.mp h with rfl
                    rw [htid] at hy
                    exact Or.inl (List.mem_append_right _
                      (List.mem_singleton.mpr (Option.some.inj hy).symm))
                rcases ih (seen ++ [x]) (tree ++ [(instantiateBlock ctr b).1])
                  (instantiateBlock ctr b).2 hnd1 hfresh1 hids1'
                  (fun d hd => hBOK d (List.mem_cons_of_mem b hd)) hI4' hI5'
                  with ⟨tree₃, ctr₃, he1, he2, hle3, c4, c5, c6, c7, c8, c9, c10, c11,
                    c12, c13⟩
                have hstep1 : (writeLoopLocal P m0 (b :: rest) seen tree ctr).1
                    = (writeLoopLocal P m0 rest (seen ++ [x])
                        (tree ++ [(instantiateBlock ctr b).1])
                        (instantiateBlock ctr b).2).1 := by
                  conv_lhs => unfold writeLoopLocal
                  rw [hid]
                  dsimp only
                  rw [if_neg hxs]
                  rw [hm0x]
                have hstep2 : (writeLoopLocal P m0 (b :: rest) seen tree ctr).2.2
                    = (writeLoopLocal P m0 rest (seen ++ [x])
                        (tree ++ [(instantiateBlock ctr b).1])
                        (instantiateBlock ctr b).2).2.2 := by
                  conv_lhs => unfold writeLoopLocal
                  rw [hid]
                  dsimp only
                  rw [if_neg hxs]
                  rw [hm0x]
                have hded : dedupAux seen (blockIds (b :: rest))
                    = dedupAux (seen ++ [x]) (blockIds rest) := by
                  rw [blockIds_cons_some b rest x hid]
                  conv_lhs => unfold dedupAux
                  rw [if_neg hxs]
                have hsettledx : SettledRec (tree ++ [(instantiateBlock ctr b).1]) x b := by
                  refine ⟨(instantiateBlock ctr b).1,
                    List.mem_append_right _ (List.mem_singleton.mpr rfl), htid,
                    htOK.2.1, hb.1, ?_⟩
                  have hlc2 : localChildrenOf (tree ++ [(instantiateBlock ctr b).1])
                      (instantiateBlock ctr b).1.uid
                      = (instantiateBlock ctr b).1.children :=
                    localChildrenOf_eq _ hnd1 _
                      (List.mem_append_right _ (List.mem_singleton.mpr rfl))
                  intro c hc k hk
                  rw [hlc2]
                  rcases hmatcht c hc k hk with ⟨p, hp, hpk, hpt⟩
                  refine ⟨p, buildPropsMap_unique _ ?_ p k hp hpk, hpt⟩
                  rw [hchkeys]
                  exact hb.1
                have hpres : ∀ x' b', SettledRec tree x' b' →
                    SettledRec (tree ++ [(instantiateBlock ctr b).1]) x' b' := by
                  intro x' b' hs
                  refine settledRec_preserved tree _ x' b' hnd hnd1 ?_ hs
                  intro r' hr' _
                  exact List.mem_append_left _ hr'
                refine ⟨tree₃, ctr₃, by rw [hstep1]; exact he1, ?_, ?_, c4, c5, c6,
                  ?_, ?_, ?_, ?_, ?_, ?_, ?_⟩
                · rw [hstep2, he2, hded]
                · have := htOK.1
                  omega
                · intro u hu
                  refine c7 u ?_
                  rw [treeUids_snoc]
                  exact List.mem_append_left _ hu
                · intro u hu
                  rcases c8 u hu with h | ⟨k, hk1, hk2, hk3⟩
                  · rw [treeUids_snoc] at h
                    rcases List.mem_append.mp h with h' | h'
                    · exact Or.inl h'
                    · rw [htuids] at h'
                      rcases (mem_gensFrom u (b.children.length + 1) ctr).mp h'
                        with ⟨k, hk1, hk2, hk3⟩
                      refine Or.inr ⟨k, hk1, ?_, hk3⟩
                      have := htOK.1
                      omega
                  · refine Or.inr ⟨k, ?_, hk2, hk3⟩
                    have := htOK.1
                    omega
                · intro y r' hy hys
                  rw [hded] at hys
                  exact c9 y r' hy hys
                · intro r' hr' y hy
                  rcases c10 r' hr' y hy with h | h
                  · exact Or.inl (by rw [hded]; exact h)
                  · exact Or.inr h
                · intro y bb hy hfb
                  by_cases hyx : y = x
                  · subst hyx
                    rw [firstWithId_cons_hit b rest y hid] at hfb
                    cases hfb
                    exact c12 y b (List.mem_append_right _ (List.mem_singleton.mpr rfl))
                      hsettledx
                  · rw [firstWithId_cons_skip b rest y
                      (by rw [hid]; intro h; exact hyx (Option.some.inj h).symm)] at hfb
                    refine c11 y bb ?_ hfb
                    intro h
                    rcases List.mem_append.mp h with h' | h'
                    · exact hy h'
                    · exact hyx (List.mem_singleton.mp h')
                · intro y bb hy hs
                  exact c12 y bb (List.mem_append_left _ hy) (hpres y bb hs)
                · intro r' hr' hnone
                  exact c13 r' (List.mem_append_left _ hr') hnone

/-! ### Infrastructure: the stale sweep of a page -/

theorem sublist_flatten_map {α β : Type} (f : α → List β) :
    ∀ {l₁ l₂ : List α}, List.Sublist l₁ l₂ →
      List.Sublist (l₁.map f).flatten (l₂.map f).flatten := by
  intro l₁ l₂ h
  induction h with
  | slnil => exact List.Sublist.refl _
  | cons a _ ih =>
      rw [List.map_cons, List.flatten_cons]
      exact ih.trans (List.sublist_append_right _ _)
  | cons₂ a _ ih =>
      rw [List.map_cons, List.map_cons, List.flatten_cons, List.flatten_cons]
      exact List.Sublist.append_left ih (f a)

theorem localDelete_sublist (t : List RoamNode) (u : String)
    (h : ∀ q ∈ t, u ∉ q.children.map (fun p => p.uid)) :
    List.Sublist (localDelete u t) t := by
  unfold localDelete
  have h2 : (t.filter (fun r => r.uid ≠ u)).map
      (fun r => { r with children := r.children.filter (fun c => c.uid ≠ u) })
      = t.filter (fun r => r.uid ≠ u) := by
    refine map_eq_self_of _ _ ?_
    intro q hq
    have hq' : q ∈ t := List.mem_of_mem_filter hq
    have h3 : q.children.filter (fun c => c.uid ≠ u) = q.children := by
      refine List.filter_eq_self.mpr ?_
      intro c hc
      have : c.uid ≠ u := by
        intro he
        exact h q hq' (he ▸ List.mem_map_of_mem _ hc)
      simp [this]
    rw [h3]
  rw [h2]
  exact List.filter_sublist t

theorem mem_localDelete_of_ne (t : List RoamNode) (u : String) (q : RoamNode)
    (hq : q ∈ t) (hne : q.uid ≠ u) (hch : u ∉ q.children.map (fun p => p.uid)) :
    q ∈ localDelete u t := by
  unfold localDelete
  have h3 : q.children.filter (fun c => c.uid ≠ u) = q.children := by
    refine List.filter_eq_self.mpr ?_
    intro c hc
    have : c.uid ≠ u := by
      intro he
      exact hch (he ▸ List.mem_map_of_mem _ hc)
    simp [this]
  have hmemf : q ∈ t.filter (fun r => r.uid ≠ u) := by
    refine List.mem_filter.mpr ⟨hq, ?_⟩
    simp [hne]
  refine List.mem_map.mpr ⟨q, hmemf, ?_⟩
  rw [h3]

theorem localDelete_uid_gone (t : List RoamNode) (u : String) :
    u ∉ treeUids (localDelete u t) := by
  intro hu
  unfold localDelete at hu
  rcases List.mem_flatten.mp hu with ⟨ns, hns, hmem⟩
  rcases List.mem_map.mp hns with ⟨q, hq, he⟩
  rcases List.mem_map.mp hq with ⟨q₀, hq₀, he₀⟩
  subst he₀
  subst he
  unfold nodeUids at hmem
  rcases List.mem_cons.mp hmem with he | he
  · have := (List.mem_filter.mp hq₀).2
    simp at this
    exact this he.symm
  · dsimp only at he
    rcases List.mem_map.mp he with ⟨c, hc, hce⟩
    have := (List.mem_filter.mp hc).2
    simp at this
    exact this hce

theorem no_child_uid (tree : List RoamNode) (hnd : (treeUids tree).Nodup)
    (w : RoamNode) (hw : w ∈ tree) :
    ∀ q ∈ tree, w.uid ∉ q.children.map (fun p => p.uid) := by
  intro q hq hin
  rcases List.mem_map.mp hin with ⟨c, hc, hce⟩
  by_cases hqw : q = w
  · subst hqw
    exact root_not_child_uid tree hnd q hq c hc hce
  · exact nodeUids_disjoint tree hnd w q hw hq (fun he => hqw he.symm) w.uid
      (uid_mem_nodeUids w)
      (hce ▸ List.mem_cons_of_mem _ (List.mem_map_of_mem _ hc))

theorem removeFold_fst (seen : List String) :
    ∀ (E : List (String × RoamNode)) (t : List RoamNode) (tr : List Mutation),
      (E.foldl (fun acc entry =>
        if entry.1 ∈ seen then acc
        else (localDelete entry.2.uid acc.1, acc.2 ++ [Mutation.deleteBlock entry.2.uid]))
        (t, tr)).1 = (removeObsoleteLocal E seen t).1 := by
  intro E
  induction E with
  | nil => intro t tr; rfl
  | cons e rest ih =>
      intro t tr
      unfold removeObsoleteLocal
      rw [List.foldl_cons, List.foldl_cons]
      by_cases he : e.1 ∈ seen
      · rw [if_pos he, if_pos he]
        rw [ih t tr]
        exact (ih t []).symm
      · rw [if_neg he, if_neg he]
        rw [ih (localDelete e.2.uid t) (tr ++ [Mutation.deleteBlock e.2.uid])]
        exact (ih (localDelete e.2.uid t) [Mutation.deleteBlock e.2.uid]).symm

theorem removeObsoleteLocal_step_skip (E : List (String × RoamNode))
    (e : String × RoamNode) (seen : List String) (t : List RoamNode) (he : e.1 ∈ seen) :
    (removeObsoleteLocal (e :: E) seen t).1 = (removeObsoleteLocal E seen t).1 := by
  unfold removeObsoleteLocal
  rw [List.foldl_cons, if_pos he]

theorem removeObsoleteLocal_step_del (E : List (String × RoamNode))
    (e : String × RoamNode) (seen : List String) (t : List RoamNode) (he : e.1 ∉ seen) :
    (removeObsoleteLocal (e :: E) seen t).1
      = (removeObsoleteLocal E seen (localDelete e.2.uid t)).1 := by
  unfold removeObsoleteLocal
  rw [List.foldl_cons, if_neg he]
  exact removeFold_fst seen E (localDelete e.2.uid t) [Mutation.deleteBlock e.2.uid]

/-- The per-page stale sweep: the result tree is a sublist of the input
keeping exactly the records whose uid is no stale entry's uid; every
stale entry's uid is gone. -/
theorem removeObsoleteLocal_establish (seen : List String) :
    ∀ (E : List (String × RoamNode)) (tree : List RoamNode),
      (treeUids tree).Nodup →
      (E.map Prod.fst).Nodup →
      (∀ e ∈ E, extractICalIdFromNode e.2 = some e.1) →
      (∀ e ∈ E, e.1 ∉ seen → e.2 ∈ tree) →
      List.Sublist (removeObsoleteLocal E seen tree).1 tree ∧
      (∀ q ∈ tree, (∀ e ∈ E, e.1 ∉ seen → e.2.uid ≠ q.uid) →
        q ∈ (removeObsoleteLocal E seen tree).1) ∧
      (∀ e ∈ E, e.1 ∉ seen → e.2.uid ∉ treeUids (removeObsoleteLocal E seen tree).1) := by
  intro E
  induction E with
  | nil =>
      intro tree hnd _ _ _
      refine ⟨List.Sublist.refl tree, fun q hq _ => hq, ?_⟩
      intro e he
      exact absurd he (List.not_mem_nil e)
  | cons e rest ih =>
      intro tree hnd hkeys hEid hEmem
      by_cases he : e.1 ∈ seen
      · rw [removeObsoleteLocal_step_skip rest e seen tree he]
        rcases ih tree hnd (List.nodup_cons.mp hkeys).2
          (fun d hd => hEid d (List.mem_cons_of_mem e hd))
          (fun d hd hds => hEmem d (List.mem_cons_of_mem e hd) hds)
          with ⟨hsub, hkeep, hgone⟩
        refine ⟨hsub, ?_, ?_⟩
        · intro q hq hq'
          exact hkeep q hq (fun d hd hds => hq' d (List.mem_cons_of_mem e hd) hds)
        · intro d hd hds
          rcases List.mem_cons.mp hd with rfl | hd'
          · exact absurd he hds
          · exact hgone d hd' hds
      · rw [removeObsoleteLocal_step_del rest e seen tree he]
        have hwmem : e.2 ∈ tree := hEmem e (List.mem_cons_self e rest) he
        have hnochild := no_child_uid tree hnd e.2 hwmem
        have hdelsub : List.Sublist (localDelete e.2.uid tree) tree :=
          localDelete_sublist tree e.2.uid hnochild
        have hnd' : (treeUids (localDelete e.2.uid tree)).Nodup := by
          have hsub2 : List.Sublist (treeUids (localDelete e.2.uid tree))
              (treeUids tree) := by
            unfold treeUids
            exact sublist_flatten_map nodeUids hdelsub
          exact List.Nodup.sublist hsub2 hnd
        have hmem' : ∀ d ∈ rest, d.1 ∉ seen → d.2 ∈ localDelete e.2.uid tree := by
          intro d hd hds
          have hdmem : d.2 ∈ tree := hEmem d (List.mem_cons_of_mem e hd) hds
          have hdne : d.2 ≠ e.2 := by
            intro hdd
            have h1 := hEid d (List.mem_cons_of_mem e hd)
            have h2 := hEid e (List.mem_cons_self e rest)
            rw [hdd, h2] at h1
            exact (List.nodup_cons.mp hkeys).1
              ((Option.some.inj h1) ▸ List.mem_map_of_mem Prod.fst hd)
          have hdu : d.2.uid ≠ e.2.uid := by
            intro he2
            exact hdne (uid_unique tree hnd d.2 e.2 hdmem hwmem he2)
          exact mem_localDelete_of_ne tree e.2.uid d.2 hdmem hdu
            (fun hin => no_child_uid tree hnd e.2 hwmem d.2 hdmem hin)
        rcases ih (localDelete e.2.uid tree) hnd' (List.nodup_cons.mp hkeys).2
          (fun d hd => hEid d (List.mem_cons_of_mem e hd)) hmem'
          with ⟨hsub, hkeep, hgone⟩
        refine ⟨hsub.trans hdelsub, ?_, ?_⟩
        · intro q hq hq'
          have hqe : e.2.uid ≠ q.uid := hq' e (List.mem_cons_self e rest) he
          refine hkeep q ?_ (fun d hd hds => hq' d (List.mem_cons_of_mem e hd) hds)
          exact mem_localDelete_of_ne tree e.2.uid q hq (fun h2 => hqe h2.symm)
            (fun hin => no_child_uid tree hnd e.2 hwmem q hq hin)
        · intro d hd hds
          rcases List.mem_cons.mp hd with rfl | hd'
          · intro hin
            have hsub2 : List.Sublist (treeUids (removeObsoleteLocal rest seen
                (localDelete d.2.uid tree)).1) (treeUids (localDelete d.2.uid tree)) := by
              unfold treeUids
              exact sublist_flatten_map nodeUids hsub
            exact localDelete_uid_gone tree d.2.uid (hsub2.subset hin)
          · exact hgone d hd' hds

theorem jsMapSet_keys_nodup {α : Type} (m : List (String × α)) (k : String) (v : α)
    (h : (m.map Prod.fst).Nodup) : ((jsMapSet m k v).map Prod.fst).Nodup := by
  unfold jsMapSet
  by_cases hany : m.any (fun p => p.1 = k)
  · rw [if_pos hany]
    have h2 : (m.map (fun p => if p.1 = k then (k, v) else p)).map Prod.fst
        = m.map Prod.fst := by
      rw [List.map_map]
      refine map_congr_mem _ _ _ ?_
      intro p _
      dsimp only [Function.comp]
      by_cases hp : p.1 = k
      · rw [if_pos hp]
        exact hp.symm
      · rw [if_neg hp]
    rw [h2]
    exact h
  · rw [if_neg hany]
    rw [List.map_append]
    refine List.nodup_append.mpr ⟨h, List.nodup_singleton k, ?_⟩
    intro a ha hb
    rcases List.mem_singleton.mp hb with rfl
    rcases List.mem_map.mp ha with ⟨p, hp, he⟩
    exact hany (List.any_eq_true.mpr ⟨p, hp, by simp [he]⟩)

theorem kfold_keys_nodup {α : Type} (f : α → Option String) :
    ∀ (l : List α) (acc : List (String × α)), (acc.map Prod.fst).Nodup →
      ((kfold f acc l).map Prod.fst).Nodup := by
  intro l
  induction l with
  | nil => intro acc h; exact h
  | cons c rest ih =>
      intro acc h
      rw [kfold_cons]
      cases hc : f c with
      | none => exact ih acc h
      | some k => exact ih _ (jsMapSet_keys_nodup acc k c h)

theorem buildBlockMap_keys_nodup (tree : List RoamNode) :
    ((buildBlockMap tree).map Prod.fst).Nodup := by
  rw [buildBlockMap_eq_kfold]
  exact kfold_keys_nodup extractICalIdFromNode tree [] List.nodup_nil

theorem assoc_get_self {α : Type} :
    ∀ (m : List (String × α)), (m.map Prod.fst).Nodup → ∀ e ∈ m,
      jsMapGet m e.1 = some e.2 := by
  intro m
  induction m with
  | nil => intro _ e he; exact absurd he (List.not_mem_nil e)
  | cons pr rest ih =>
      intro hnd e he
      rcases List.mem_cons.mp he with rfl | he'
      · unfold jsMapGet
        rw [List.find?_cons]
        simp
      · have hne : ¬ pr.1 = e.1 := by
          intro h2
          rw [List.map_cons, List.nodup_cons] at hnd
          exact hnd.1 (h2 ▸ List.mem_map_of_mem Prod.fst he')
        unfold jsMapGet
        rw [List.find?_cons]
        simp only [hne, decide_False]
        exact ih (by rw [List.map_cons, List.nodup_cons] at hnd; exact hnd.2) e he'

theorem sublist_filterMap {α β : Type} (f : α → Option β) :
    ∀ {l₁ l₂ : List α}, List.Sublist l₁ l₂ →
      List.Sublist (l₁.filterMap f) (l₂.filterMap f) := by
  intro l₁ l₂ h
  induction h with
  | slnil => exact List.Sublist.refl _
  | cons a _ ih =>
      rw [List.filterMap_cons]
      cases hfa : f a with
      | none => exact ih
      | some b => exact ih.trans (List.sublist_cons_self b _)
  | cons₂ a _ ih =>
      rw [List.filterMap_cons, List.filterMap_cons]
      cases hfa : f a with
      | none => exact ih
      | some b => exact List.Sublist.cons₂ b ih

theorem treeId_unique (tree : List RoamNode) (hnd : (treeIds tree).Nodup)
    (r q : RoamNode) (x : String) (hr : r ∈ tree) (hq : q ∈ tree)
    (hrx : extractICalIdFromNode r = some x) (hqx : extractICalIdFromNode q = some x) :
    r = q := by
  induction tree with
  | nil => exact absurd hr (List.not_mem_nil r)
  | cons a rest ih =>
      rcases List.mem_cons.mp hr with rfl | hr'
      · rcases List.mem_cons.mp hq with rfl | hq'
        · rfl
        · unfold treeIds at hnd
          rw [List.filterMap_cons, hrx] at hnd
          exact absurd (List.mem_filterMap.mpr ⟨q, hq', hqx⟩) (List.nodup_cons.mp hnd).1
      · rcases List.mem_cons.mp hq with rfl | hq'
        · unfold treeIds at hnd
          rw [List.filterMap_cons, hqx] at hnd
          exact absurd (List.mem_filterMap.mpr ⟨r, hr', hrx⟩) (List.nodup_cons.mp hnd).1
        · refine ih ?_ hr' hq'
          unfold treeIds at hnd ⊢
          rw [List.filterMap_cons] at hnd
          cases ha : extractICalIdFromNode a with
          | none => rw [ha] at hnd; exact hnd
          | some y => rw [ha] at hnd; exact (List.nodup_cons.mp hnd).2

theorem firstWithId_mem_blockIds (x : String) (blocks : List BlockPayload)
    (b : BlockPayload) (h : firstWithId x blocks = some b) :
    b ∈ blocks ∧ extractICalIdFromBlock b = some x ∧ x ∈ blockIds blocks := by
  unfold firstWithId at h
  have hmem := List.mem_of_find?_eq_some h
  have hpred := List.find?_some h
  have hid : extractICalIdFromBlock b = some x := by simpa using hpred
  exact ⟨hmem, hid, List.mem_filterMap.mpr ⟨b, hmem, hid⟩⟩

/-- The full local page write, on a page tree in the written shape
(distinct uids and recovered ids, all records `NodeOK`) against desired
blocks in the built shape (`BlockOK`): the result is settled for the
desired blocks, keeps exactly the settled, still-desired and id-less
records, deletes every record whose id is not desired, and grows uids
only by fresh ones. -/
theorem writePageLocal_main (P : String) (blocks : List BlockPayload)
    (tree : List RoamNode) (ctr : Nat)
    (hnd : (treeUids tree).Nodup)
    (hfresh : ∀ v ∈ treeUids tree, GenFresh ctr v)
    (hids : (treeIds tree).Nodup)
    (hNOK : ∀ r ∈ tree, NodeOK r)
    (hBOK : ∀ b ∈ blocks, BlockOK b) :
    ctr ≤ (writePageLocal P blocks tree ctr).1.2 ∧
    (treeUids (writePageLocal P blocks tree ctr).1.1).Nodup ∧
    (∀ v ∈ treeUids (writePageLocal P blocks tree ctr).1.1,
      GenFresh (writePageLocal P blocks tree ctr).1.2 v) ∧
    (treeIds (writePageLocal P blocks tree ctr).1.1).Nodup ∧
    (∀ u ∈ treeUids (writePageLocal P blocks tree ctr).1.1,
      u ∈ treeUids tree ∨
        ∃ k, ctr ≤ k ∧ k < (writePageLocal P blocks tree ctr).1.2 ∧ u = genUid k) ∧
    TreeSettled (writePageLocal P blocks tree ctr).1.1 blocks ∧
    (∀ r ∈ tree, ∀ x, extractICalIdFromNode r = some x → x ∉ blockIds blocks →
      r.uid ∉ treeUids (writePageLocal P blocks tree ctr).1.1) ∧
    (∀ r ∈ tree, extractICalIdFromNode r = none →
      r ∈ (writePageLocal P blocks tree ctr).1.1) ∧
    (∀ y ∈ treeIds (writePageLocal P blocks tree ctr).1.1, y ∈ blockIds blocks) ∧
    (∀ x b, firstWithId x blocks = some b →
      ∃ r ∈ (writePageLocal P blocks tree ctr).1.1,
        extractICalIdFromNode r = some x ∧ r.text = b.text ∧
        ∀ q ∈ (writePageLocal P blocks tree ctr).1.1,
          extractICalIdFromNode q = some x → q = r) := by
  have hm0 : ∀ x r, jsMapGet (buildBlockMap tree) x = some r →
      extractICalIdFromNode r = some x ∧ NodeOK r := by
    intro x r h
    rcases buildBlockMap_entry tree x r h with ⟨h1, h2⟩
    exact ⟨h2, hNOK r h1⟩
  rcases writeLoopLocal_establish P (buildBlockMap tree) hm0 blocks [] tree ctr hnd hfresh
    hids hBOK
    (fun x r h _ => (buildBlockMap_entry tree x r h).1)
    (fun r hr y hy => Or.inr (buildBlockMap_unique tree hids r y hr hy))
    with ⟨tree₂, ctr₂, he1, he2, hle, c4, c5, c6, c7, c8, c9, c10, c11, c12, c13⟩
  have hkeysnd := buildBlockMap_keys_nodup tree
  have hEget : ∀ e ∈ buildBlockMap tree, jsMapGet (buildBlockMap tree) e.1 = some e.2 :=
    assoc_get_self (buildBlockMap tree) hkeysnd
  have hEid : ∀ e ∈ buildBlockMap tree, extractICalIdFromNode e.2 = some e.1 :=
    fun e he => (hm0 e.1 e.2 (hEget e he)).1
  have hseen : (writeLoopLocal P (buildBlockMap tree) blocks [] tree ctr).2.2
      = dedupAux [] (blockIds blocks) := he2
  have hEmem : ∀ e ∈ buildBlockMap tree, e.1 ∉ dedupAux [] (blockIds blocks) →
      e.2 ∈ tree₂ := fun e he hes => c9 e.1 e.2 (hEget e he) hes
  rcases removeObsoleteLocal_establish (dedupAux [] (blockIds blocks)) (buildBlockMap tree)
    tree₂ c4 hkeysnd hEid hEmem with ⟨hsub, hkeep, hgone⟩
  have hW : (writePageLocal P blocks tree ctr).1
      = ((removeObsoleteLocal (buildBlockMap tree) (dedupAux [] (blockIds blocks))
          tree₂).1, ctr₂) := by
    unfold writePageLocal
    dsimp only
    rw [he2, show (writeLoopLocal P (buildBlockMap tree) blocks [] tree ctr).1.1
      = tree₂ from by rw [he1],
      show (writeLoopLocal P (buildBlockMap tree) blocks [] tree ctr).1.2
      = ctr₂ from by rw [he1]]
  rw [hW]
  dsimp only
  have huidsub : List.Sublist
      (treeUids (removeObsoleteLocal (buildBlockMap tree)
        (dedupAux [] (blockIds blocks)) tree₂).1) (treeUids tree₂) := by
    unfold treeUids
    exact sublist_flatten_map nodeUids hsub
  have hidssub : List.Sublist
      (treeIds (removeObsoleteLocal (buildBlockMap tree)
        (dedupAux [] (blockIds blocks)) tree₂).1) (treeIds tree₂) :=
    sublist_filterMap extractICalIdFromNode hsub
  have hfnd : (treeUids (removeObsoleteLocal (buildBlockMap tree)
      (dedupAux [] (blockIds blocks)) tree₂).1).Nodup := List.Nodup.sublist huidsub c4
  have hSettledKeep : ∀ x b, firstWithId x blocks = some b →
      SettledRec (removeObsoleteLocal (buildBlockMap tree)
        (dedupAux [] (blockIds blocks)) tree₂).1 x b := by
    intro x b hfb
    have hxid := (firstWithId_mem_blockIds x blocks b hfb).2.2
    have hxseen : x ∈ dedupAux [] (blockIds blocks) :=
      (mem_dedupAux x (blockIds blocks) []).mpr (Or.inr hxid)
    refine settledRec_preserved tree₂ _ x b c4 hfnd ?_
      (c11 x b (List.not_mem_nil x) hfb)
    intro r hr hrx
    refine hkeep r hr ?_
    intro e he hes
    intro heq
    have hre : e.2 = r := uid_unique tree₂ c4 e.2 r (hEmem e he hes) hr heq
    have h2 := hEid e he
    rw [hre, hrx] at h2
    exact hes ((Option.some.inj h2) ▸ hxseen)
  have hfids : (treeIds (removeObsoleteLocal (buildBlockMap tree)
      (dedupAux [] (blockIds blocks)) tree₂).1).Nodup := List.Nodup.sublist hidssub c6
  have hidin : ∀ y ∈ treeIds (removeObsoleteLocal (buildBlockMap tree)
      (dedupAux [] (blockIds blocks)) tree₂).1, y ∈ blockIds blocks := by
    intro y hy
    rcases List.mem_filterMap.mp hy with ⟨r, hr, hry⟩
    have hr2 : r ∈ tree₂ := hsub.subset hr
    rcases c10 r hr2 y hry with h | h
    · rcases (mem_dedupAux y (blockIds blocks) []).mp h with h' | h'
      · exact absurd h' (List.not_mem_nil y)
      · exact h'
    · by_cases hys : y ∈ dedupAux [] (blockIds blocks)
      · rcases (mem_dedupAux y (blockIds blocks) []).mp hys with h' | h'
        · exact absurd h' (List.not_mem_nil y)
        · exact h'
      · exact absurd (mem_treeUids_of_mem _ r hr r.uid (uid_mem_nodeUids r))
          (hgone (y, r) (jsMapGet_mem (buildBlockMap tree) y r h) hys)
  refine ⟨hle, hfnd, ?_, hfids, ?_, ⟨?_, ?_⟩, ?_, ?_, hidin, ?_⟩
  · intro v hv
    exact c5 v (huidsub.subset hv)
  · intro u hu
    exact c8 u (huidsub.subset hu)
  · -- TreeSettled, part 1
    intro x b hfb
    rcases hSettledKeep x b hfb with ⟨r, hr, hrx, hrt, hknd2, hprops⟩
    exact ⟨r, buildBlockMap_unique _ hfids r x hr hrx, hrt, hknd2, hprops⟩
  · -- TreeSettled, part 2
    intro x hx
    rcases buildBlockMap_keys_mem _ x hx with ⟨r, hr, hrx⟩
    exact hidin x (List.mem_filterMap.mpr ⟨r, hr, hrx⟩)
  · -- stale records are deleted
    intro r hr x hrx hxnot
    have hget : jsMapGet (buildBlockMap tree) x = some r :=
      buildBlockMap_unique tree hids r x hr hrx
    have hxseen : x ∉ dedupAux [] (blockIds blocks) := by
      intro h
      rcases (mem_dedupAux x (blockIds blocks) []).mp h with h' | h'
      · exact absurd h' (List.not_mem_nil x)
      · exact hxnot h'
    exact hgone (x, r) (jsMapGet_mem (buildBlockMap tree) x r hget) hxseen
  · -- id-less records survive untouched
    intro r hr hrnone
    have hr2 : r ∈ tree₂ := c13 r hr hrnone
    refine hkeep r hr2 ?_
    intro e he hes heq
    have hre : e.2 = r := uid_unique tree₂ c4 e.2 r (hEmem e he hes) hr2 heq
    have h2 := hEid e he
    rw [hre, hrnone] at h2
    cases h2
  · -- first occurrences: existence, text, uniqueness
    intro x b hfb
    rcases hSettledKeep x b hfb with ⟨r, hr, hrx, hrt, _, _⟩
    refine ⟨r, hr, hrx, hrt, ?_⟩
    intro q hq hqx
    exact treeId_unique _ hfids q r x hq hr hqx hrx

/-! ### Infrastructure: store-level consequences of one page write -/

theorem mem_keys_isSome (s : Store) (P : String)
    (h : P ∈ s.pages.map Prod.fst) : (getPage s P).isSome := by
  rcases List.mem_map.mp h with ⟨pr, hpr, he⟩
  unfold getPage jsMapGet
  cases hf : s.pages.find? (fun p => p.1 = P) with
  | some q => rfl
  | none =>
      have := List.find?_eq_none.mp hf pr hpr
      simp [he] at this

theorem isSome_mem_keys (s : Store) (P : String)
    (h : (getPage s P).isSome) : P ∈ s.pages.map Prod.fst := by
  unfold getPage jsMapGet at h
  cases hf : s.pages.find? (fun p => p.1 = P) with
  | none => rw [hf] at h; cases h
  | some q =>
      have h1 : q.1 = P := by simpa using List.find?_some hf
      exact h1 ▸ List.mem_map_of_mem Prod.fst (List.mem_of_find?_eq_some hf)

theorem writeBlocksToPage_facts (P : String) (blocks : List BlockPayload) (s : Store)
    (hok : StoreOK s) :
    StoreOK (writeBlocksToPage P blocks s).1 ∧
    s.counter ≤ (writeBlocksToPage P blocks s).1.counter ∧
    getTree (writeBlocksToPage P blocks s).1 P
      = (writePageLocal P blocks (getTree s P) s.counter).1.1 ∧
    (writeBlocksToPage P blocks s).1.counter
      = (writePageLocal P blocks (getTree s P) s.counter).1.2 ∧
    (∀ Q, Q ≠ P → getTree (writeBlocksToPage P blocks s).1 Q = getTree s Q) ∧
    (getPage (writeBlocksToPage P blocks s).1 P).isSome ∧
    (∀ Q, (getPage s Q).isSome → (getPage (writeBlocksToPage P blocks s).1 Q).isSome) ∧
    (∀ Q, (getPage (writeBlocksToPage P blocks s).1 Q).isSome →
      (getPage s Q).isSome ∨ Q = P) := by
  have hrun := writeBlocksToPage_run P blocks s hok
  have espec := ensurePage_spec P s hok
  have hs1ctr : (ensurePage P s).1.counter = s.counter := espec.2.2.1
  have hs1get : getTree (ensurePage P s).1 P = getTree s P := by
    unfold getTree
    rw [espec.2.1]
    rfl
  have hWu := writePageLocal_uids P blocks (getTree s P) s.counter
  have hsetOK : StoreOK (setPage (ensurePage P s).1 P
      (writePageLocal P blocks (getTree s P) s.counter).1.1
      (writePageLocal P blocks (getTree s P) s.counter).1.2) := by
    refine StoreOK_setPage _ P _ _ espec.1 (by rw [hs1ctr]; exact hWu.1) ?_
    intro u hu
    rw [hs1get, hs1ctr]
    exact hWu.2 u hu
  have h1 : (writeBlocksToPage P blocks s).1 = setPage (ensurePage P s).1 P
      (writePageLocal P blocks (getTree s P) s.counter).1.1
      (writePageLocal P blocks (getTree s P) s.counter).1.2 := by
    rw [hrun]
  refine ⟨by rw [h1]; exact hsetOK, ?_, ?_, ?_, ?_, ?_, ?_, ?_⟩
  · rw [h1, setPage_counter]
    exact hWu.1
  · rw [h1]
    unfold getTree
    rw [getPage_setPage]
    rfl
  · rw [h1, setPage_counter]
  · intro Q hq
    rw [h1]
    unfold getTree
    rw [getPage_setPage_ne _ P Q _ _ hq, espec.2.2.2.2.1 Q hq]
  · rw [h1]
    rw [show getPage (setPage (ensurePage P s).1 P
      (writePageLocal P blocks (getTree s P) s.counter).1.1
      (writePageLocal P blocks (getTree s P) s.counter).1.2) P
      = some (writePageLocal P blocks (getTree s P) s.counter).1.1 from
      getPage_setPage _ P _ _]
    rfl
  · intro Q hq
    rw [h1]
    by_cases hqp : Q = P
    · subst hqp
      rw [getPage_setPage]
      rfl
    · rw [getPage_setPage_ne _ P Q _ _ hqp, espec.2.2.2.2.1 Q hqp]
      exact hq
  · intro Q hq
    by_cases hqp : Q = P
    · exact Or.inr hqp
    · rw [h1, getPage_setPage_ne _ P Q _ _ hqp,
        espec.2.2.2.2.1 Q hqp] at hq
      exact Or.inl hq

/-! ### Infrastructure: `groupByPage` and the batch loop -/

theorem jsMapGet_none_find {α : Type} (m : List (String × α)) (k : String)
    (h : jsMapGet m k = none) : m.find? (fun p => p.1 = k) = none := by
  unfold jsMapGet at h
  cases hf : m.find? (fun p => p.1 = k) with
  | none => rfl
  | some p => rw [hf] at h; cases h

theorem jsMapSet_mem_cases {α : Type} (m : List (String × α)) (k : String) (v : α)
    (e : String × α) (he : e ∈ jsMapSet m k v) : e ∈ m ∨ e = (k, v) := by
  unfold jsMapSet at he
  by_cases hany : m.any (fun p => p.1 = k)
  · rw [if_pos hany] at he
    rcases List.mem_map.mp he with ⟨q, hq, hqe⟩
    by_cases hk : q.1 = k
    · rw [if_pos hk] at hqe
      exact Or.inr hqe.symm
    · rw [if_neg hk] at hqe
      exact Or.inl (hqe ▸ hq)
  · rw [if_neg hany] at he
    rcases List.mem_append.mp he with h | h
    · exact Or.inl h
    · exact Or.inr (List.mem_singleton.mp h)

theorem jsMapSet_mem_self {α : Type} (m : List (String × α)) (k : String) (v : α) :
    (k, v) ∈ jsMapSet m k v := by
  unfold jsMapSet
  by_cases hany : m.any (fun p => p.1 = k)
  · rw [if_pos hany]
    rcases List.any_eq_true.mp hany with ⟨q, hq, hqk⟩
    refine List.mem_map.mpr ⟨q, hq, ?_⟩
    rw [if_pos (by simpa using hqk)]
  · rw [if_neg hany]
    exact List.mem_append.mpr (Or.inr (List.mem_singleton.mpr rfl))

theorem jsMapSet_mem_ne {α : Type} (m : List (String × α)) (k : String) (v : α)
    (e : String × α) (he : e ∈ m) (hk : e.1 ≠ k) : e ∈ jsMapSet m k v := by
  unfold jsMapSet
  by_cases hany : m.any (fun p => p.1 = k)
  · rw [if_pos hany]
    exact List.mem_map.mpr ⟨e, he, by rw [if_neg hk]⟩
  · rw [if_neg hany]
    exact List.mem_append.mpr (Or.inl he)

theorem jsMapGet_nodup_unique {α : Type} :
    ∀ (m : List (String × α)) (k : String) (v : α),
      ((m.map Prod.fst).Nodup) → jsMapGet m k = some v →
      ∀ e ∈ m, e.1 = k → e.2 = v := by
  intro m
  induction m with
  | nil => intro k v _ hget; unfold jsMapGet at hget; simp at hget
  | cons h t ih =>
      intro k v hnd hget e he hek
      have hnd1 : h.1 ∉ t.map Prod.fst := by
        rw [List.map_cons] at hnd
        exact (List.nodup_cons.mp hnd).1
      have hndt : (t.map Prod.fst).Nodup := by
        rw [List.map_cons] at hnd
        exact (List.nodup_cons.mp hnd).2
      unfold jsMapGet at hget
      by_cases hhk : h.1 = k
      · rw [List.find?_cons_of_pos _ (by simpa using hhk)] at hget
        have hv : h.2 = v := Option.some.inj hget
        rcases List.mem_cons.mp he with rfl | het
        · exact hv
        · exact absurd (hek.trans hhk.symm ▸ List.mem_map_of_mem Prod.fst het) hnd1
      · rw [List.find?_cons_of_neg _ (by simpa using hhk)] at hget
        rcases List.mem_cons.mp he with rfl | het
        · exact absurd hek hhk
        · exact ih k v hndt hget e het hek

theorem groupByPage_keys_aux (pre : String) :
    ∀ (l : List EventWithBlock) (m : List (String × List EventWithBlock)),
      ((m.map Prod.fst).Nodup) →
      (((l.foldl (fun m ewb =>
        let pageName := resolveEventPageName ewb.event ewb.calendarName pre
        match jsMapGet m pageName with
        | some existing => jsMapSet m pageName (existing ++ [ewb])
        | none => m ++ [(pageName, [ewb])]) m).map Prod.fst).Nodup) := by
  intro l
  induction l with
  | nil => intro m hm; exact hm
  | cons a t ih =>
      intro m hm
      rw [List.foldl_cons]
      apply ih
      dsimp only
      cases hget : jsMapGet m (resolveEventPageName a.event a.calendarName pre) with
      | some existing => exact jsMapSet_keys_nodup m _ _ hm
      | none =>
          rw [List.map_append]
          refine List.nodup_append.mpr ⟨hm, List.nodup_singleton _, ?_⟩
          intro x hx hx1
          rcases List.mem_map.mp hx with ⟨p, hp, hpe⟩
          have hx1' : x = resolveEventPageName a.event a.calendarName pre := by
            simpa using hx1
          have := List.find?_eq_none.mp (jsMapGet_none_find m _ hget) p hp
          exact this (by simp [hpe, hx1'])

/-- The page keys produced by one run's grouping are distinct. -/
theorem groupByPage_keys_nodup (pre : String) (l : List EventWithBlock) :
    ((groupByPage pre l).map Prod.fst).Nodup :=
  groupByPage_keys_aux pre l [] List.nodup_nil

theorem groupByPage_vals_aux (pre : String) (p : EventWithBlock → Prop) :
    ∀ (l : List EventWithBlock) (m : List (String × List EventWithBlock)),
      (∀ e ∈ m, ∀ x ∈ e.2, p x) → (∀ x ∈ l, p x) →
      ∀ e ∈ (l.foldl (fun m ewb =>
        let pageName := resolveEventPageName ewb.event ewb.calendarName pre
        match jsMapGet m pageName with
        | some existing => jsMapSet m pageName (existing ++ [ewb])
        | none => m ++ [(pageName, [ewb])]) m), ∀ x ∈ e.2, p x := by
  intro l
  induction l with
  | nil => intro m hm _; exact hm
  | cons a t ih =>
      intro m hm hl
      rw [List.foldl_cons]
      refine ih _ ?_ (fun x hx => hl x (List.mem_cons_of_mem a hx))
      dsimp only
      cases hget : jsMapGet m (resolveEventPageName a.event a.calendarName pre) with
      | some existing =>
          intro e he x hx
          rcases jsMapSet_mem_cases _ _ _ e he with hem | hek
          · exact hm e hem x hx
          · subst hek
            rcases List.mem_append.mp hx with hx1 | hx2
            · exact hm _ (jsMapGet_mem m _ existing hget) x hx1
            · rw [List.mem_singleton.mp hx2]
              exact hl a (List.mem_cons_self a t)
      | none =>
          intro e he x hx
          rcases List.mem_append.mp he with hem | hes
          · exact hm e hem x hx
          · rw [List.mem_singleton.mp hes] at hx
            rw [List.mem_singleton.mp hx]
            exact hl a (List.mem_cons_self a t)

/-- Every member of a group's event list came from the grouped input. -/
theorem groupByPage_mem_val (pre : String) (l : List EventWithBlock)
    (e : String × List EventWithBlock) (he : e ∈ groupByPage pre l)
    (x : EventWithBlock) (hx : x ∈ e.2) : x ∈ l :=
  groupByPage_vals_aux pre (fun x => x ∈ l) l [] (by intro e he; cases he)
    (fun x hx => hx) e he x hx

/-- Every member of a group targets the group's page key. -/
theorem groupByPage_val_key (pre : String) (l : List EventWithBlock)
    (e : String × List EventWithBlock) (he : e ∈ groupByPage pre l)
    (x : EventWithBlock) (hx : x ∈ e.2) :
    resolveEventPageName x.event x.calendarName pre = e.1 := by
  have main : ∀ (l : List EventWithBlock) (m : List (String × List EventWithBlock)),
      (∀ e ∈ m, ∀ x ∈ e.2, resolveEventPageName x.event x.calendarName pre = e.1) →
      ∀ e ∈ (l.foldl (fun m ewb =>
        let pageName := resolveEventPageName ewb.event ewb.calendarName pre
        match jsMapGet m pageName with
        | some existing => jsMapSet m pageName (existing ++ [ewb])
        | none => m ++ [(pageName, [ewb])]) m), ∀ x ∈ e.2,
        resolveEventPageName x.event x.calendarName pre = e.1 := by
    intro l
    induction l with
    | nil => intro m hm; exact hm
    | cons a t ih =>
        intro m hm
        rw [List.foldl_cons]
        refine ih _ ?_
        dsimp only
        cases hget : jsMapGet m (resolveEventPageName a.event a.calendarName pre) with
        | some existing =>
            intro e he x hx
            rcases jsMapSet_mem_cases _ _ _ e he with hem | hek
            · exact hm e hem x hx
            · subst hek
              rcases List.mem_append.mp hx with hx1 | hx2
              · exact hm _ (jsMapGet_mem m _ existing hget) x hx1
              · rw [List.mem_singleton.mp hx2]
        | none =>
            intro e he x hx
            rcases List.mem_append.mp he with hem | hes
            · exact hm e hem x hx
            · rw [List.mem_singleton.mp hes] at hx ⊢
              rw [List.mem_singleton.mp hx]
  exact main l [] (by intro e he; cases he) e he x hx

theorem groupByPage_covers_aux (pre : String) :
    ∀ (l : List EventWithBlock) (m : List (String × List EventWithBlock)),
      (m.map Prod.fst).Nodup →
      ∀ x, ((∃ e ∈ m, x ∈ e.2) ∨ x ∈ l) →
      ∃ e ∈ (l.foldl (fun m ewb =>
        let pageName := resolveEventPageName ewb.event ewb.calendarName pre
        match jsMapGet m pageName with
        | some existing => jsMapSet m pageName (existing ++ [ewb])
        | none => m ++ [(pageName, [ewb])]) m), x ∈ e.2 := by
  intro l
  induction l with
  | nil =>
      intro m hm x hx
      rcases hx with h | h
      · exact h
      · cases h
  | cons a t ih =>
      intro m hm x hx
      rw [List.foldl_cons]
      have hstep : ((((fun m (ewb : EventWithBlock) =>
          let pageName := resolveEventPageName ewb.event ewb.calendarName pre
          match jsMapGet m pageName with
          | some existing => jsMapSet m pageName (existing ++ [ewb])
          | none => m ++ [(pageName, [ewb])]) m a)).map Prod.fst).Nodup := by
        dsimp only
        cases hget : jsMapGet m (resolveEventPageName a.event a.calendarName pre) with
        | some existing => exact jsMapSet_keys_nodup m _ _ hm
        | none =>
            rw [List.map_append]
            refine List.nodup_append.mpr ⟨hm, List.nodup_singleton _, ?_⟩
            intro y hy hy1
            rcases List.mem_map.mp hy with ⟨p, hp, hpe⟩
            have hy1' : y = resolveEventPageName a.event a.calendarName pre := by
              simpa using hy1
            have := List.find?_eq_none.mp (jsMapGet_none_find m _ hget) p hp
            exact this (by simp [hpe, hy1'])
      refine ih _ hstep x ?_
      dsimp only
      rcases hx with ⟨e, he, hxe⟩ | hxl
      · refine Or.inl ?_
        cases hget : jsMapGet m (resolveEventPageName a.event a.calendarName pre) with
        | some existing =>
            by_cases hek : e.1 = resolveEventPageName a.event a.calendarName pre
            · have hev : e.2 = existing := jsMapGet_nodup_unique m _ existing hm hget e he hek
              refine ⟨(resolveEventPageName a.event a.calendarName pre, existing ++ [a]),
                jsMapSet_mem_self m _ _, ?_⟩
              exact List.mem_append.mpr (Or.inl (hev ▸ hxe))
            · exact ⟨e, jsMapSet_mem_ne m _ _ e he hek, hxe⟩
        | none => exact ⟨e, List.mem_append.mpr (Or.inl he), hxe⟩
      · rcases List.mem_cons.mp hxl with rfl | hxt
        · refine Or.inl ?_
          cases hget : jsMapGet m (resolveEventPageName x.event x.calendarName pre) with
          | some existing =>
              refine ⟨(resolveEventPageName x.event x.calendarName pre, existing ++ [x]),
                jsMapSet_mem_self m _ _, ?_⟩
              exact List.mem_append.mpr (Or.inr (List.mem_singleton.mpr rfl))
          | none =>
              refine ⟨(resolveEventPageName x.event x.calendarName pre, [x]),
                List.mem_append.mpr (Or.inr (List.mem_singleton.mpr rfl)),
                List.mem_singleton.mpr rfl⟩
        · exact Or.inr hxt

/-- Every grouped input element lands in some group. -/
theorem groupByPage_covers (pre : String) (l : List EventWithBlock)
    (x : EventWithBlock) (hx : x ∈ l) : ∃ e ∈ groupByPage pre l, x ∈ e.2 :=
  groupByPage_covers_aux pre l [] List.nodup_nil x (Or.inr hx)

/-- The sweep's global desired-id list holds exactly the grouped events'
uids. -/
theorem currentIds_char (pre : String) (l : List EventWithBlock) (x : String) :
    (x ∈ ((groupByPage pre l).map (fun p => p.2.map (fun ewb => ewb.event.uid))).flatten) ↔
      ∃ ewb ∈ l, ewb.event.uid = x := by
  constructor
  · intro hx
    rcases List.mem_flatten.mp hx with ⟨ll, hll, hxll⟩
    rcases List.mem_map.mp hll with ⟨e, he, rfl⟩
    rcases List.mem_map.mp hxll with ⟨ewb, hewb, rfl⟩
    exact ⟨ewb, groupByPage_mem_val pre l e he ewb hewb, rfl⟩
  · intro hx
    rcases hx with ⟨ewb, hewb, rfl⟩
    rcases groupByPage_covers pre l ewb hewb with ⟨e, he, hxe⟩
    exact List.mem_flatten.mpr ⟨e.2.map (fun ewb => ewb.event.uid),
      List.mem_map.mpr ⟨e, he, rfl⟩, List.mem_map.mpr ⟨ewb, hxe, rfl⟩⟩

theorem chunkAux_nil {α : Type} (k : Nat) : ∀ n, chunkAux k n ([] : List α) = [] := by
  intro n
  cases n with
  | zero => rfl
  | succ m => rfl

/-- When a single batch holds every desired event, the batch loop makes
one chunk. -/
theorem chunksOf_single {α : Type} (k : Nat) (l : List α) (h1 : l ≠ [])
    (h2 : l.length ≤ k) : chunksOf k l = [l] := by
  unfold chunksOf
  cases l with
  | nil => exact absurd rfl h1
  | cons a t =>
      show chunkAux k (t.length + 1) (a :: t) = [a :: t]
      conv_lhs => unfold chunkAux
      rw [List.take_of_length_le h2, List.drop_eq_nil_of_le h2, chunkAux_nil]

theorem processBatches_single (pre : String) (batch : List EventWithBlock) (s : Store) :
    processBatches pre [batch] s = processGroups (groupByPage pre batch) s := by
  show ((processGroups (groupByPage pre batch) s).1,
      (processGroups (groupByPage pre batch) s).2 ++ []) = _
  rw [List.append_nil]

/-- Store-level facts of the per-batch page-write loop: under distinct
group keys, each group's page ends at the local write's result computed
from its pre-run tree at some intermediate counter, and non-target pages
are untouched. -/
theorem processGroups_facts :
    ∀ (gs : List (String × List EventWithBlock)) (s : Store),
      StoreOK s → ((gs.map Prod.fst).Nodup) →
      StoreOK (processGroups gs s).1 ∧
      s.counter ≤ (processGroups gs s).1.counter ∧
      (∀ P, (∀ g ∈ gs, g.1 ≠ P) → getTree (processGroups gs s).1 P = getTree s P) ∧
      (∀ P G, (P, G) ∈ gs →
        ∃ c, s.counter ≤ c ∧
          getTree (processGroups gs s).1 P
            = (writePageLocal P (G.map (fun e => e.block)) (getTree s P) c).1.1) ∧
      (∀ Q, (getPage s Q).isSome → (getPage (processGroups gs s).1 Q).isSome) ∧
      (∀ g ∈ gs, (getPage (processGroups gs s).1 g.1).isSome) ∧
      (∀ Q, (getPage (processGroups gs s).1 Q).isSome →
        (getPage s Q).isSome ∨ ∃ g ∈ gs, g.1 = Q) := by
  intro gs
  induction gs with
  | nil =>
      intro s hok _
      exact ⟨hok, Nat.le_refl _, fun P _ => rfl, fun P G h => absurd h (List.not_mem_nil _),
        fun Q h => h, fun g h => absurd h (List.not_mem_nil _), fun Q h => Or.inl h⟩
  | cons g rest ih =>
      intro s hok hnd
      have hnd1 : g.1 ∉ rest.map Prod.fst := by
        rw [List.map_cons] at hnd
        exact (List.nodup_cons.mp hnd).1
      have hndr : (rest.map Prod.fst).Nodup := by
        rw [List.map_cons] at hnd
        exact (List.nodup_cons.mp hnd).2
      have hw := writeBlocksToPage_facts g.1 (g.2.map (fun e => e.block)) s hok
      set t1 := writeBlocksToPage g.1 (g.2.map (fun e => e.block)) s with ht1
      have hih := ih t1.1 hw.1 hndr
      have hres : processGroups (g :: rest) s = ((processGroups rest t1.1).1,
          t1.2 ++ (processGroups rest t1.1).2) := rfl
      refine ⟨?_, ?_, ?_, ?_, ?_, ?_, ?_⟩
      · rw [hres]; exact hih.1
      · rw [hres]
        exact Nat.le_trans hw.2.1 hih.2.1
      · intro P hP
        rw [hres]
        have h1 : getTree (processGroups rest t1.1).1 P = getTree t1.1 P :=
          hih.2.2.1 P (fun g' hg' => hP g' (List.mem_cons_of_mem g hg'))
        rw [h1]
        exact hw.2.2.2.2.1 P (Ne.symm (hP g (List.mem_cons_self g rest)))
      · intro P G hPG
        rw [hres]
        rcases List.mem_cons.mp hPG with heq | htail
        · have hP : P = g.1 := congrArg Prod.fst heq
          have hG : G = g.2 := congrArg Prod.snd heq
          subst hP; subst hG
          have hrest : getTree (processGroups rest t1.1).1 g.1 = getTree t1.1 g.1 := by
            refine hih.2.2.1 g.1 (fun g' hg' hgg => ?_)
            exact hnd1 (hgg ▸ List.mem_map_of_mem Prod.fst hg')
          exact ⟨s.counter, Nat.le_refl _, by rw [hrest]; exact hw.2.2.1⟩
        · have hPne : P ≠ g.1 := by
            intro h
            exact hnd1 (h ▸ List.mem_map_of_mem Prod.fst htail)
          rcases hih.2.2.2.1 P G htail with ⟨c, hc1, hc2⟩
          refine ⟨c, Nat.le_trans hw.2.1 hc1, ?_⟩
          rw [hc2, hw.2.2.2.2.1 P hPne]
      · intro Q hQ
        rw [hres]
        exact hih.2.2.2.2.1 Q (hw.2.2.2.2.2.2.1 Q hQ)
      · intro g' hg'
        rw [hres]
        rcases List.mem_cons.mp hg' with rfl | htail
        · exact hih.2.2.2.2.1 g'.1 hw.2.2.2.2.2.1
        · exact hih.2.2.2.2.2.1 g' htail
      · intro Q hQ
        rw [hres] at hQ
        rcases hih.2.2.2.2.2.2 Q hQ with h1 | ⟨g', hg', he⟩
        · rcases hw.2.2.2.2.2.2.2 Q h1 with h2 | h2
          · exact Or.inl h2
          · exact Or.inr ⟨g, List.mem_cons_self g rest, h2.symm⟩
        · exact Or.inr ⟨g', List.mem_cons_of_mem g hg', he⟩

theorem getPage_isSome_some (s : Store) (P : String) (h : (getPage s P).isSome) :
    getPage s P = some (getTree s P) := by
  unfold getTree
  cases hg : getPage s P with
  | none => rw [hg] at h; cases h
  | some t => rfl

/-- Store-level facts of the obsolete-page sweep loop: target pages and
pages outside the title list are untouched, a swept page ends at the
local sweep of its tree, and the counter and page set are unchanged. -/
theorem cleanupLoop_facts (byPage : List (String × List EventWithBlock))
    (ids : List String) :
    ∀ (titles : List String) (s : Store),
      StoreOK s → titles.Nodup →
      (∀ P ∈ titles, (getPage s P).isSome) →
      StoreOK (cleanupLoop byPage ids titles s).1 ∧
      (cleanupLoop byPage ids titles s).1.counter = s.counter ∧
      (∀ P, (jsMapGet byPage P).isSome →
        getTree (cleanupLoop byPage ids titles s).1 P = getTree s P) ∧
      (∀ P, P ∉ titles → getTree (cleanupLoop byPage ids titles s).1 P = getTree s P) ∧
      (∀ P ∈ titles, ¬ (jsMapGet byPage P).isSome →
        getTree (cleanupLoop byPage ids titles s).1 P
          = (removeObsoleteLocal (buildBlockMap (getTree s P)) ids (getTree s P)).1) ∧
      (∀ Q, (getPage (cleanupLoop byPage ids titles s).1 Q).isSome ↔
        (getPage s Q).isSome) := by
  intro titles
  induction titles with
  | nil =>
      intro s hok _ _
      exact ⟨hok, rfl, fun P _ => rfl, fun P _ => rfl,
        fun P h => absurd h (List.not_mem_nil _), fun Q => Iff.rfl⟩
  | cons title rest ih =>
      intro s hok hnd hsome
      have hndr : rest.Nodup := (List.nodup_cons.mp hnd).2
      have hnd1 : title ∉ rest := (List.nodup_cons.mp hnd).1
      by_cases htgt : (jsMapGet byPage title).isSome
      · have hstep : cleanupLoop byPage ids (title :: rest) s
            = cleanupLoop byPage ids rest s := by
          conv_lhs => unfold cleanupLoop
          rw [if_pos htgt]
        have hih := ih s hok hndr (fun P hP => hsome P (List.mem_cons_of_mem title hP))
        rw [hstep]
        refine ⟨hih.1, hih.2.1, hih.2.2.1, ?_, ?_, hih.2.2.2.2.2⟩
        · intro P hP
          exact hih.2.2.2.1 P (fun h => hP (List.mem_cons_of_mem title h))
        · intro P hP hbp
          rcases List.mem_cons.mp hP with rfl | hPr
          · exact absurd htgt hbp
          · exact hih.2.2.2.2.1 P hPr hbp
      · have hpg : getPage s title = some (getTree s title) :=
          getPage_isSome_some s title (hsome title (List.mem_cons_self title rest))
        have hbm : ∀ e ∈ buildBlockMap (getTree s title), e.2.uid ∉ pageOthers s title := by
          intro e he
          exact hok.2.1 title e.2.uid (mem_treeUids_of_mem _ e.2
            (buildBlockMap_val_mem _ e he) e.2.uid (List.mem_cons_self _ _))
        have hfold := removeObsolete_fold_localizes title ids
          (buildBlockMap (getTree s title)) s (getTree s title) [] hok.1 hpg hbm
        have hstep : cleanupLoop byPage ids (title :: rest) s
            = ((cleanupLoop byPage ids rest (setPage s title
                (removeObsoleteLocal (buildBlockMap (getTree s title)) ids
                  (getTree s title)).1 s.counter)).1,
              (removeObsoleteLocal (buildBlockMap (getTree s title)) ids
                  (getTree s title)).2 ++
               (cleanupLoop byPage ids rest (setPage s title
                (removeObsoleteLocal (buildBlockMap (getTree s title)) ids
                  (getTree s title)).1 s.counter)).2) := by
          conv_lhs => unfold cleanupLoop
          rw [if_neg htgt]
          dsimp only
          rw [hfold]
          rfl
        set s2 := setPage s title
          (removeObsoleteLocal (buildBlockMap (getTree s title)) ids
            (getTree s title)).1 s.counter with hs2
        have hok2 : StoreOK s2 := by
          refine StoreOK_setPage s title _ s.counter hok (Nat.le_refl _) ?_
          intro u hu
          exact Or.inl (removeObsolete_fold_local_uids ids _ _ [] u hu)
        have hsome2 : ∀ P ∈ rest, (getPage s2 P).isSome := by
          intro P hP
          by_cases hPt : P = title
          · subst hPt
            rw [hs2, getPage_setPage]
            rfl
          · rw [hs2, getPage_setPage_ne _ _ _ _ _ hPt]
            exact hsome P (List.mem_cons_of_mem title hP)
        have hih := ih s2 hok2 hndr hsome2
        have hgt2 : ∀ P, P ≠ title → getTree s2 P = getTree s P := by
          intro P hP
          unfold getTree
          rw [hs2, getPage_setPage_ne _ _ _ _ _ hP]
        refine ⟨by rw [hstep]; exact hih.1, ?_, ?_, ?_, ?_, ?_⟩
        · rw [hstep]
          rw [hih.2.1, hs2, setPage_counter]
        · intro P hbp
          rw [hstep]
          have hPt : P ≠ title := fun h => htgt (h ▸ hbp)
          rw [hih.2.2.1 P hbp, hgt2 P hPt]
        · intro P hP
          rw [hstep]
          have hPt : P ≠ title := fun h => hP (h ▸ List.mem_cons_self title rest)
          rw [hih.2.2.2.1 P (fun h => hP (List.mem_cons_of_mem title h)), hgt2 P hPt]
        · intro P hP hbp
          rw [hstep]
          rcases List.mem_cons.mp hP with rfl | hPr
          · rw [hih.2.2.2.1 P hnd1]
            unfold getTree
            rw [hs2, getPage_setPage]
            rfl
          · have hPt : P ≠ title := fun h => hnd1 (h ▸ hPr)
            rw [hih.2.2.2.2.1 P hPr hbp, hgt2 P hPt]
        · intro Q
          rw [hstep]
          rw [hih.2.2.2.2.2 Q]
          by_cases hQt : Q = title
          · subst hQt
            constructor
            · intro _; exact hsome Q (List.mem_cons_self Q rest)
            · intro _
              rw [hs2, getPage_setPage]
              rfl
          · rw [hs2, getPage_setPage_ne _ _ _ _ _ hQt]

/-! ### Infrastructure: the blocks `buildEventBlock` produces are
well-shaped -/

theorem lineFree_append (a b : String) (ha : LineFree a) (hb : LineFree b) :
    LineFree (a ++ b) := by
  intro c hc
  rw [String.data_append] at hc
  rcases List.mem_append.mp hc with h | h
  · exact ha c h
  · exact hb c h

theorem lineSuffixes_lineFree :
    ∀ (cs : List Char), (∀ c ∈ cs, isLineTerminator c = false) →
      lineSuffixes cs = [] := by
  intro cs
  induction cs with
  | nil => intro _; rfl
  | cons c rest ih =>
      intro h
      unfold lineSuffixes
      rw [if_neg (by rw [h c (List.mem_cons_self c rest)]; exact Bool.false_ne_true)]
      exact ih (fun d hd => h d (List.mem_cons_of_mem c hd))

theorem extractICalId_lineFree (s : String) (hlf : LineFree s) :
    extractICalId s = icalIdSuffixValue s.data := by
  unfold extractICalId
  rw [lineSuffixes_lineFree s.data hlf]
  cases h : icalIdSuffixValue s.data with
  | none => simp [h]
  | some v => simp [h]

theorem icalIdSuffixValue_pref_none (pre v : List Char) (hlen : 9 ≤ pre.length)
    (hp : (pre.take 9).map asciiLower ≠ "ical-id::".data) :
    icalIdSuffixValue (pre ++ v) = none := by
  unfold icalIdSuffixValue
  rw [if_neg]
  intro h
  apply hp
  rw [List.take_append_eq_append_take, Nat.sub_eq_zero_of_le hlen, List.take_zero,
    List.append_nil] at h
  exact h

theorem childTruthy_keyed_none (k v : String) (hlf : LineFree v)
    (hklf : LineFree (k ++ ":: "))
    (hlen : 9 ≤ (k ++ ":: ").data.length)
    (hp : (((k ++ ":: ").data.take 9).map asciiLower ≠ "ical-id::".data)) :
    childTruthy (createPropertyBlock k v) = none := by
  unfold childTruthy createPropertyBlock
  dsimp only
  rw [show k ++ ":: " ++ v = (k ++ ":: ") ++ v from rfl]
  rw [extractICalId_lineFree _ (lineFree_append _ _ hklf hlf), String.data_append]
  rw [icalIdSuffixValue_pref_none _ _ hlen hp]
  rfl

theorem takeWhile_append_all {p : Char → Bool} (l1 l2 : List Char)
    (h : ∀ c ∈ l1, p c = true) : (l1 ++ l2).takeWhile p = l1 ++ l2.takeWhile p := by
  induction l1 with
  | nil => simp
  | cons c rest ih =>
      rw [List.cons_append, List.takeWhile_cons, h c (List.mem_cons_self c rest)]
      rw [ih (fun d hd => h d (List.mem_cons_of_mem c hd))]
      rfl

theorem extractPropertyKey_keyed (k v : String) (hne : k.data ≠ [])
    (hwd : ∀ c ∈ k.data, isWordDashChar c = true) :
    extractPropertyKey (k ++ ":: " ++ v) = some k := by
  unfold extractPropertyKey
  have hdata : (k ++ ":: " ++ v).data
      = k.data ++ (Char.ofNat 58 :: Char.ofNat 58 :: Char.ofNat 32 :: v.data) := by
    rw [show k ++ ":: " ++ v = k ++ (":: " ++ v) from by rw [String.append_assoc]]
    rw [String.data_append, String.data_append]
    rfl
  rw [hdata]
  rw [takeWhile_append_all k.data _ hwd]
  rw [show (Char.ofNat 58 :: Char.ofNat 58 :: Char.ofNat 32 :: v.data).takeWhile
      isWordDashChar = [] from by rw [List.takeWhile_cons]; rw [show isWordDashChar
      (Char.ofNat 58) = false from by decide]; rfl]
  rw [List.append_nil]
  rw [if_neg (by simpa using hne)]
  rw [if_pos (show (List.take 2 (List.drop k.data.length
    (k.data ++ Char.ofNat 58 :: Char.ofNat 58 :: Char.ofNat 32 :: v.data)))
    = [Char.ofNat 58, Char.ofNat 58] from by rw [List.drop_left]; rfl)]

theorem buildEventBlock_children (e : ICalEvent) (cal tp : String) :
    (buildEventBlock e cal tp).children
      = createPropertyBlock "ical-id" e.uid
        :: ((if safeText e.description ≠ "" then
              [createPropertyBlock "ical-desc" (safeText e.description)] else [])
          ++ (if safeText e.location ≠ "" then
              [createPropertyBlock "ical-location" (safeText e.location)] else [])
          ++ (match e.meetingUrl with
              | some m => if m ≠ "" then
                  [createPropertyBlock "ical-meeting-url"
                    ("[**JOIN MEETING**](" ++ m ++ ")")]
                else []
              | none => [])
          ++ (if e.url ≠ "" then
              [createPropertyBlock "ical-url" ("[link](" ++ e.url ++ ")")] else [])
          ++ (match e.dtend with
              | some d => if formatRoamDate d ≠ (match e.dtstart with
                    | some d0 => formatRoamDate d0 | none => "No date") then
                  [createPropertyBlock "ical-end" ("[[" ++ formatRoamDate d ++ "]]")]
                else []
              | none => [])) := rfl

theorem seg_keys_sublist (L : List PropPayload) (k : String)
    (hlen : L = [] ∨ ∃ c, L = [c])
    (hkey : ∀ c ∈ L, extractPropertyKey c.text = some k) :
    List.Sublist (L.filterMap (fun c => extractPropertyKey c.text)) [k] := by
  rcases hlen with rfl | ⟨c, rfl⟩
  · simp
  · simp [hkey c (List.mem_singleton.mpr rfl)]

/-- A safe event's built block recovers the event's uid as its id and is
well-shaped in the `BlockOK` sense. -/
theorem buildEventBlock_ok (e : ICalEvent) (cal tp : String) (hs : EventSafe e cal tp) :
    extractICalIdFromBlock (buildEventBlock e cal tp) = some e.uid ∧
    BlockOK (buildEventBlock e cal tp) := by
  obtain ⟨hmain, hid, hdesc, hloc, hurl, hmeet, hend⟩ := hs
  have hch := buildEventBlock_children e cal tp
  have hA : ∀ c ∈ (if safeText e.description ≠ "" then
      [createPropertyBlock "ical-desc" (safeText e.description)] else []),
      childTruthy c = none ∧ extractPropertyKey c.text = some "ical-desc" := by
    intro c hc
    by_cases h : safeText e.description ≠ ""
    · rw [if_pos h] at hc
      rw [List.mem_singleton.mp hc]
      exact ⟨childTruthy_keyed_none _ _ hdesc (by decide) (by decide) (by decide),
        extractPropertyKey_keyed _ _ (by decide) (by decide)⟩
    · rw [if_neg h] at hc
      cases hc
  have hB : ∀ c ∈ (if safeText e.location ≠ "" then
      [createPropertyBlock "ical-location" (safeText e.location)] else []),
      childTruthy c = none ∧ extractPropertyKey c.text = some "ical-location" := by
    intro c hc
    by_cases h : safeText e.location ≠ ""
    · rw [if_pos h] at hc
      rw [List.mem_singleton.mp hc]
      exact ⟨childTruthy_keyed_none _ _ hloc (by decide) (by decide) (by decide),
        extractPropertyKey_keyed _ _ (by decide) (by decide)⟩
    · rw [if_neg h] at hc
      cases hc
  have hC : ∀ c ∈ (match e.meetingUrl with
      | some m => if m ≠ "" then
          [createPropertyBlock "ical-meeting-url" ("[**JOIN MEETING**](" ++ m ++ ")")]
        else []
      | none => []),
      childTruthy c = none ∧ extractPropertyKey c.text = some "ical-meeting-url" := by
    intro c hc
    cases hm : e.meetingUrl with
    | none => rw [hm] at hc; cases hc
    | some m =>
        rw [hm] at hc
        dsimp only at hc
        by_cases h : m ≠ ""
        · rw [if_pos h] at hc
          rw [List.mem_singleton.mp hc]
          have hmlf : LineFree m := by
            have : e.meetingUrl.getD "" = m := by rw [hm]; rfl
            rw [this] at hmeet
            exact hmeet
          exact ⟨childTruthy_keyed_none _ _
              (lineFree_append _ _ (lineFree_append _ _ (by decide) hmlf) (by decide))
              (by decide) (by decide) (by decide),
            extractPropertyKey_keyed _ _ (by decide) (by decide)⟩
        · rw [if_neg h] at hc
          cases hc
  have hD : ∀ c ∈ (if e.url ≠ "" then
      [createPropertyBlock "ical-url" ("[link](" ++ e.url ++ ")")] else []),
      childTruthy c = none ∧ extractPropertyKey c.text = some "ical-url" := by
    intro c hc
    by_cases h : e.url ≠ ""
    · rw [if_pos h] at hc
      rw [List.mem_singleton.mp hc]
      exact ⟨childTruthy_keyed_none _ _
          (lineFree_append _ _ (lineFree_append _ _ (by decide) hurl) (by decide))
          (by decide) (by decide) (by decide),
        extractPropertyKey_keyed _ _ (by decide) (by decide)⟩
    · rw [if_neg h] at hc
      cases hc
  have hE : ∀ c ∈ (match e.dtend with
      | some d => if formatRoamDate d ≠ (match e.dtstart with
            | some d0 => formatRoamDate d0 | none => "No date") then
          [createPropertyBlock "ical-end" ("[[" ++ formatRoamDate d ++ "]]")]
        else []
      | none => []),
      childTruthy c = none ∧ extractPropertyKey c.text = some "ical-end" := by
    intro c hc
    cases hd : e.dtend with
    | none => rw [hd] at hc; cases hc
    | some d =>
        rw [hd] at hc
        dsimp only at hc
        by_cases h : formatRoamDate d ≠ (match e.dtstart with
            | some d0 => formatRoamDate d0 | none => "No date")
        · rw [if_pos h] at hc
          rw [List.mem_singleton.mp hc]
          have hdlf : LineFree (formatRoamDate d) := by
            have : (e.dtend.map formatRoamDate).getD "" = formatRoamDate d := by
              rw [hd]; rfl
            rw [this] at hend
            exact hend
          exact ⟨childTruthy_keyed_none _ _
              (lineFree_append _ _ (lineFree_append _ _ (by decide) hdlf) (by decide))
              (by decide) (by decide) (by decide),
            extractPropertyKey_keyed _ _ (by decide) (by decide)⟩
        · rw [if_neg h] at hc
          cases hc
  have hrest : ∀ c ∈ ((if safeText e.description ≠ "" then
        [createPropertyBlock "ical-desc" (safeText e.description)] else [])
      ++ (if safeText e.location ≠ "" then
        [createPropertyBlock "ical-location" (safeText e.location)] else [])
      ++ (match e.meetingUrl with
          | some m => if m ≠ "" then
              [createPropertyBlock "ical-meeting-url"
                ("[**JOIN MEETING**](" ++ m ++ ")")]
            else []
          | none => [])
      ++ (if e.url ≠ "" then
          [createPropertyBlock "ical-url" ("[link](" ++ e.url ++ ")")] else [])
      ++ (match e.dtend with
          | some d => if formatRoamDate d ≠ (match e.dtstart with
                | some d0 => formatRoamDate d0 | none => "No date") then
              [createPropertyBlock "ical-end" ("[[" ++ formatRoamDate d ++ "]]")]
            else []
          | none => [])), childTruthy c = none := by
    intro c hc
    rcases List.mem_append.mp hc with hc | hc5
    · rcases List.mem_append.mp hc with hc | hc4
      · rcases List.mem_append.mp hc with hc | hc3
        · rcases List.mem_append.mp hc with hc1 | hc2
          · exact (hA c hc1).1
          · exact (hB c hc2).1
        · exact (hC c hc3).1
      · exact (hD c hc4).1
    · exact (hE c hc5).1
  have hmainid : extractICalIdFromBlock (buildEventBlock e cal tp)
      = (buildEventBlock e cal tp).children.findSome?
          (fun c => truthyId (extractICalId c.text)) := by
    unfold extractICalIdFromBlock
    rw [hmain]
  have hconcl1 : extractICalIdFromBlock (buildEventBlock e cal tp) = some e.uid := by
    rw [hmainid, hch, List.findSome?_cons]
    rw [show truthyId (extractICalId (createPropertyBlock "ical-id" e.uid).text)
      = some e.uid from hid]
  refine ⟨hconcl1, ?_, ?_⟩
  · have hkeys : blockChildKeys (buildEventBlock e cal tp)
        = "ical-id" :: ((if safeText e.description ≠ "" then
            [createPropertyBlock "ical-desc" (safeText e.description)] else [])
          ++ (if safeText e.location ≠ "" then
            [createPropertyBlock "ical-location" (safeText e.location)] else [])
          ++ (match e.meetingUrl with
              | some m => if m ≠ "" then
                  [createPropertyBlock "ical-meeting-url"
                    ("[**JOIN MEETING**](" ++ m ++ ")")]
                else []
              | none => [])
          ++ (if e.url ≠ "" then
              [createPropertyBlock "ical-url" ("[link](" ++ e.url ++ ")")] else [])
          ++ (match e.dtend with
              | some d => if formatRoamDate d ≠ (match e.dtstart with
                    | some d0 => formatRoamDate d0 | none => "No date") then
                  [createPropertyBlock "ical-end" ("[[" ++ formatRoamDate d ++ "]]")]
                else []
              | none => [])).filterMap (fun c => extractPropertyKey c.text) := by
      unfold blockChildKeys
      rw [hch, List.filterMap_cons]
      rw [show extractPropertyKey (createPropertyBlock "ical-id" e.uid).text
        = some "ical-id" from extractPropertyKey_keyed "ical-id" e.uid
          (by decide) (by decide)]
    rw [hkeys]
    refine List.Nodup.sublist ?_
      (by decide : (["ical-id", "ical-desc", "ical-location", "ical-meeting-url",
        "ical-url", "ical-end"] : List String).Nodup)
    rw [show (["ical-id", "ical-desc", "ical-location", "ical-meeting-url",
        "ical-url", "ical-end"] : List String)
      = "ical-id" :: ((["ical-desc"] ++ ["ical-location"]) ++ ["ical-meeting-url"]
          ++ ["ical-url"] ++ ["ical-end"]) from rfl]
    refine List.Sublist.cons₂ _ ?_
    rw [List.filterMap_append, List.filterMap_append, List.filterMap_append,
      List.filterMap_append]
    refine List.Sublist.append (List.Sublist.append (List.Sublist.append
      (List.Sublist.append ?_ ?_) ?_) ?_) ?_
    · refine seg_keys_sublist _ _ ?_ (fun c hc => (hA c hc).2)
      by_cases h : safeText e.description ≠ ""
      · rw [if_pos h]; exact Or.inr ⟨_, rfl⟩
      · rw [if_neg h]; exact Or.inl rfl
    · refine seg_keys_sublist _ _ ?_ (fun c hc => (hB c hc).2)
      by_cases h : safeText e.location ≠ ""
      · rw [if_pos h]; exact Or.inr ⟨_, rfl⟩
      · rw [if_neg h]; exact Or.inl rfl
    · refine seg_keys_sublist _ _ ?_ (fun c hc => (hC c hc).2)
      cases hm : e.meetingUrl with
      | none => exact Or.inl rfl
      | some m =>
          dsimp only
          by_cases h : m ≠ ""
          · rw [if_pos h]; exact Or.inr ⟨_, rfl⟩
          · rw [if_neg h]; exact Or.inl rfl
    · refine seg_keys_sublist _ _ ?_ (fun c hc => (hD c hc).2)
      by_cases h : e.url ≠ ""
      · rw [if_pos h]; exact Or.inr ⟨_, rfl⟩
      · rw [if_neg h]; exact Or.inl rfl
    · refine seg_keys_sublist _ _ ?_ (fun c hc => (hE c hc).2)
      cases hd : e.dtend with
      | none => exact Or.inl rfl
      | some d =>
          dsimp only
          by_cases h : formatRoamDate d ≠ (match e.dtstart with
              | some d0 => formatRoamDate d0 | none => "No date")
          · rw [if_pos h]; exact Or.inr ⟨_, rfl⟩
          · rw [if_neg h]; exact Or.inl rfl
  · intro _
    refine ⟨createPropertyBlock "ical-id" e.uid, _, hch,
      extractPropertyKey_keyed "ical-id" e.uid (by decide) (by decide), ?_, hrest⟩
    rw [hconcl1]
    exact hid

/-! ### Infrastructure: assembling the full run -/

theorem jsMapGet_of_mem_nodup {α : Type} :
    ∀ (m : List (String × α)) (k : String) (v : α),
      (k, v) ∈ m → ((m.map Prod.fst).Nodup) → jsMapGet m k = some v := by
  intro m
  induction m with
  | nil => intro k v hmem _; cases hmem
  | cons h t ih =>
      intro k v hmem hnd
      have hnd1 : h.1 ∉ t.map Prod.fst := by
        rw [List.map_cons] at hnd
        exact (List.nodup_cons.mp hnd).1
      have hndt : (t.map Prod.fst).Nodup := by
        rw [List.map_cons] at hnd
        exact (List.nodup_cons.mp hnd).2
      by_cases hk : h.1 = k
      · unfold jsMapGet
        rw [List.find?_cons_of_pos _ (by simpa using hk)]
        rcases List.mem_cons.mp hmem with heq | ht
        · rw [← heq]
          rfl
        · exact absurd (List.mem_map_of_mem Prod.fst ht) (hk ▸ hnd1)
      · unfold jsMapGet
        rw [List.find?_cons_of_neg _ (by simpa using hk)]
        rcases List.mem_cons.mp hmem with heq | ht
        · exact absurd (congrArg Prod.fst heq.symm) hk
        · exact ih k v ht hndt

theorem filterMap_eq_map_of_some {α β : Type} (f : α → Option β) (g : α → β) :
    ∀ (l : List α), (∀ x ∈ l, f x = some (g x)) → l.filterMap f = l.map g := by
  intro l
  induction l with
  | nil => intro _; rfl
  | cons a t ih =>
      intro h
      rw [List.filterMap_cons, h a (List.mem_cons_self a t),
        ih (fun x hx => h x (List.mem_cons_of_mem a hx)), List.map_cons]

/-- Every prepared desired entry's block is the one built from its event
and calendar name. -/
theorem desiredWithBlocks_shape (calendars : List ICalCalendar) (config : BatchConfig) :
    ∀ ewb ∈ desiredWithBlocks calendars config,
      ewb.block = buildEventBlock ewb.event ewb.calendarName config.titlePrefix := by
  intro ewb h
  rcases List.mem_map.mp h with ⟨e, _, rfl⟩
  rfl

/-- Under per-event safety, the desired ids of a group's blocks are
exactly the group's event uids, in order. -/
theorem blockIds_of_group (G : List EventWithBlock)
    (h : ∀ ewb ∈ G, extractICalIdFromBlock ewb.block = some ewb.event.uid) :
    blockIds (G.map (fun x => x.block)) = G.map (fun x => x.event.uid) := by
  unfold blockIds
  rw [List.filterMap_map]
  exact filterMap_eq_map_of_some _ _ G h

/-- The store a full single-batch run produces: each target page ends at
the local page write's result on its pre-run tree, each stored non-target
page under the path root ends at the local sweep of its pre-run tree, and
the page set grows by exactly the target pages. -/
theorem writeBlocks_main (pre : String) (calendars : List ICalCalendar)
    (config : BatchConfig) (s : Store) (hok : StoreOK s)
    (hbatch : chunksOf config.batchSize (desiredWithBlocks calendars config)
      = [desiredWithBlocks calendars config]) :
    StoreOK (writeBlocks pre calendars config s).1 ∧
    (∀ P G, (P, G) ∈ groupByPage pre (desiredWithBlocks calendars config) →
      ∃ c, s.counter ≤ c ∧
        getTree (writeBlocks pre calendars config s).1 P
          = (writePageLocal P (G.map (fun x => x.block)) (getTree s P) c).1.1) ∧
    (∀ P, jsMapGet (groupByPage pre (desiredWithBlocks calendars config)) P = none →
      ((pre ++ "/").data.isPrefixOf P.data) = true →
      (getPage s P).isSome →
      getTree (writeBlocks pre calendars config s).1 P
        = (removeObsoleteLocal (buildBlockMap (getTree s P))
            (((groupByPage pre (desiredWithBlocks calendars config)).map
              (fun p => p.2.map (fun ewb => ewb.event.uid))).flatten)
            (getTree s P)).1) ∧
    (∀ Q, (getPage (writeBlocks pre calendars config s).1 Q).isSome ↔
      ((getPage s Q).isSome ∨
        ∃ g ∈ groupByPage pre (desiredWithBlocks calendars config), g.1 = Q)) := by
  have hknd := groupByPage_keys_nodup pre (desiredWithBlocks calendars config)
  have h1 : processBatches pre
      (chunksOf config.batchSize (desiredWithBlocks calendars config)) s
      = processGroups (groupByPage pre (desiredWithBlocks calendars config)) s := by
    rw [hbatch]
    exact processBatches_single pre (desiredWithBlocks calendars config) s
  have hpgf := processGroups_facts (groupByPage pre (desiredWithBlocks calendars config))
    s hok hknd
  have hw : (writeBlocks pre calendars config s).1
      = (cleanupLoop (groupByPage pre (desiredWithBlocks calendars config))
          (((groupByPage pre (desiredWithBlocks calendars config)).map
            (fun p => p.2.map (fun ewb => ewb.event.uid))).flatten)
          (((processBatches pre
              (chunksOf config.batchSize (desiredWithBlocks calendars config)) s).1.pages.map
            (fun p => p.1)).filter (fun t => (pre ++ "/").data.isPrefixOf t.data))
          (processBatches pre
            (chunksOf config.batchSize (desiredWithBlocks calendars config)) s).1).1 := rfl
  rw [h1] at hw
  have hnd1 : (((processGroups (groupByPage pre (desiredWithBlocks calendars config))
      s).1.pages.map (fun p => p.1)).filter
      (fun t => (pre ++ "/").data.isPrefixOf t.data)).Nodup :=
    List.Nodup.filter _ hpgf.1.1
  have hsome1 : ∀ P ∈ (((processGroups (groupByPage pre
      (desiredWithBlocks calendars config)) s).1.pages.map (fun p => p.1)).filter
      (fun t => (pre ++ "/").data.isPrefixOf t.data)),
      (getPage (processGroups (groupByPage pre
        (desiredWithBlocks calendars config)) s).1 P).isSome := by
    intro P hP
    exact mem_keys_isSome _ P (List.mem_filter.mp hP).1
  have hclf := cleanupLoop_facts (groupByPage pre (desiredWithBlocks calendars config))
    (((groupByPage pre (desiredWithBlocks calendars config)).map
      (fun p => p.2.map (fun ewb => ewb.event.uid))).flatten)
    (((processGroups (groupByPage pre (desiredWithBlocks calendars config)) s).1.pages.map
      (fun p => p.1)).filter (fun t => (pre ++ "/").data.isPrefixOf t.data))
    (processGroups (groupByPage pre (desiredWithBlocks calendars config)) s).1
    hpgf.1 hnd1 hsome1
  refine ⟨?_, ?_, ?_, ?_⟩
  · rw [hw]
    exact hclf.1
  · intro P G hPG
    have hget : jsMapGet (groupByPage pre (desiredWithBlocks calendars config)) P
        = some G := jsMapGet_of_mem_nodup _ P G hPG hknd
    rcases hpgf.2.2.2.1 P G hPG with ⟨c, hc1, hc2⟩
    refine ⟨c, hc1, ?_⟩
    rw [hw, hclf.2.2.1 P (by rw [hget]; rfl), hc2]
  · intro P hnone hpref hsome
    have hng : ∀ g ∈ groupByPage pre (desiredWithBlocks calendars config),
        g.1 ≠ P := by
      intro g hg he
      have h2 := jsMapGet_of_mem_nodup _ g.1 g.2 (by
        rw [show (g.1, g.2) = g from rfl]; exact hg) hknd
      rw [he, hnone] at h2
      cases h2
    have hS1tree := hpgf.2.2.1 P hng
    have hS1some := hpgf.2.2.2.2.1 P hsome
    have hmemtitles : P ∈ (((processGroups (groupByPage pre
        (desiredWithBlocks calendars config)) s).1.pages.map (fun p => p.1)).filter
        (fun t => (pre ++ "/").data.isPrefixOf t.data)) :=
      List.mem_filter.mpr ⟨isSome_mem_keys _ P hS1some, hpref⟩
    have h3 := hclf.2.2.2.2.1 P hmemtitles (by rw [hnone]; simp)
    rw [hw, h3, hS1tree]
  · intro Q
    rw [hw, hclf.2.2.2.2.2 Q]
    constructor
    · exact hpgf.2.2.2.2.2.2 Q
    · intro h
      rcases h with h | ⟨g, hg, he⟩
      · exact hpgf.2.2.2.2.1 Q h
      · exact he ▸ hpgf.2.2.2.2.2.1 g hg

theorem getTree_mem_or_nil (s : Store) (P : String) :
    getTree s P = [] ∨ (P, getTree s P) ∈ s.pages := by
  unfold getTree getPage jsMapGet
  cases hf : s.pages.find? (fun p => p.1 = P) with
  | none => exact Or.inl rfl
  | some q =>
      refine Or.inr ?_
      have h1 : q.1 = P := by simpa using List.find?_some hf
      have h2 := List.mem_of_find?_eq_some hf
      show (P, q.2) ∈ s.pages
      rw [← h1]
      exact h2

/-- A decidable sufficient condition for `StoreOK`: distinct page titles,
pairwise-disjoint page uid sets, and no stored uid starting with the
generated-uid prefix. -/
theorem StoreOK_of_pairwise (s : Store)
    (hnd : (s.pages.map (fun p => p.1)).Nodup)
    (hdisj : ∀ p ∈ s.pages, ∀ q ∈ s.pages, p.1 ≠ q.1 →
      ∀ u ∈ treeUids p.2, u ∉ treeUids q.2)
    (hfresh : ∀ u ∈ storeUids s, (("gen-" : String).data.isPrefixOf u.data) = false) :
    StoreOK s := by
  refine ⟨hnd, ?_, ?_⟩
  · intro P u hu hmem
    rcases getTree_mem_or_nil s P with h | h
    · rw [h] at hu
      simp [treeUids] at hu
    · rcases (mem_pageOthers s P u).mp hmem with ⟨pg, hpg, hne, hupg⟩
      exact hdisj (P, getTree s P) h pg hpg (Ne.symm hne) u hu hupg
  · intro u hu k _ he
    have h2 : (("gen-" : String).data.isPrefixOf u.data) = true := by
      rw [he]
      show ("gen-" : String).data.isPrefixOf (("gen-" ++
        String.mk (List.replicate k (Char.ofNat 105))).data) = true
      rw [String.data_append]
      exact List.isPrefixOf_iff_prefix.mpr (List.prefix_append _ _)
    rw [hfresh u hu] at h2
    cases h2

theorem group_blocks_ok (pre : String) (calendars : List ICalCalendar)
    (config : BatchConfig)
    (hsafe : ∀ ewb ∈ desiredWithBlocks calendars config,
      EventSafe ewb.event ewb.calendarName config.titlePrefix)
    (P : String) (G : List EventWithBlock)
    (hPG : (P, G) ∈ groupByPage pre (desiredWithBlocks calendars config)) :
    (∀ ewb ∈ G, extractICalIdFromBlock ewb.block = some ewb.event.uid) ∧
    (∀ b ∈ G.map (fun x => x.block), BlockOK b) := by
  have hmem : ∀ ewb ∈ G, ewb ∈ desiredWithBlocks calendars config :=
    fun ewb h => groupByPage_mem_val pre _ (P, G) hPG ewb h
  constructor
  · intro ewb h
    rw [desiredWithBlocks_shape calendars config ewb (hmem ewb h)]
    exact (buildEventBlock_ok _ _ _ (hsafe ewb (hmem ewb h))).1
  · intro b hb
    rcases List.mem_map.mp hb with ⟨ewb, hewb, rfl⟩
    rw [desiredWithBlocks_shape calendars config ewb (hmem ewb hewb)]
    exact (buildEventBlock_ok _ _ _ (hsafe ewb (hmem ewb hewb))).2

theorem tree_genFresh (s : Store) (hok : StoreOK s) (P : String) (c : Nat)
    (hc : s.counter ≤ c) : ∀ v ∈ treeUids (getTree s P), GenFresh c v :=
  fun v hv => genFresh_mono v s.counter c (hok.2.2 v (getTree_sub_storeUids s P v hv)) hc


/-- A page-write round over groups whose pages are all present and
settled changes nothing and issues nothing. -/
theorem processGroups_noop :
    ∀ (gs : List (String × List EventWithBlock)) (s : Store), StoreOK s →
      (∀ g ∈ gs, (getPage s g.1).isSome ∧
        TreeSettled (getTree s g.1) (g.2.map (fun e => e.block))) →
      processGroups gs s = (s, []) := by
  intro gs
  induction gs with
  | nil => intro s _ _; rfl
  | cons g rest ih =>
      intro s hok hset
      have hg := hset g (List.mem_cons_self g rest)
      have hrun := writeBlocksToPage_run g.1 (g.2.map (fun e => e.block)) s hok
      have hens : ensurePage g.1 s = (s, []) := by
        unfold ensurePage
        rw [if_pos hg.1]
      have hwpl := writePageLocal_settled g.1 (g.2.map (fun e => e.block))
        (getTree s g.1) s.counter hg.2
      have hstep : writeBlocksToPage g.1 (g.2.map (fun e => e.block)) s = (s, []) := by
        rw [hrun, hens, hwpl]
        dsimp only
        rw [setPage_self s g.1 (getTree s g.1) hok.1 (getPage_isSome_some s g.1 hg.1)]
        rfl
      have hshape : processGroups (g :: rest) s
          = ((processGroups rest (writeBlocksToPage g.1 (g.2.map (fun e => e.block)) s).1).1,
             (writeBlocksToPage g.1 (g.2.map (fun e => e.block)) s).2
               ++ (processGroups rest
                 (writeBlocksToPage g.1 (g.2.map (fun e => e.block)) s).1).2) := rfl
      rw [hshape, hstep]
      dsimp only
      rw [ih s hok (fun g' hg' => hset g' (List.mem_cons_of_mem g hg'))]
      rfl

theorem fold_skip_all (ids : List String) :
    ∀ (bm : List (String × RoamNode)) (s : Store) (tr : List Mutation),
      (∀ e ∈ bm, e.1 ∈ ids) →
      bm.foldl (fun acc entry =>
        if entry.1 ∈ ids then acc
        else (storeDelete acc.1 entry.2.uid, acc.2 ++ [Mutation.deleteBlock entry.2.uid]))
        (s, tr) = (s, tr) := by
  intro bm
  induction bm with
  | nil => intro s tr _; rfl
  | cons e rest ih =>
      intro s tr h
      rw [List.foldl_cons]
      dsimp only
      rw [if_pos (h e (List.mem_cons_self e rest))]
      exact ih s tr (fun d hd => h d (List.mem_cons_of_mem e hd))

/-- A sweep round on which every mapped id of every swept page is still
desired changes nothing and issues nothing. -/
theorem cleanupLoop_noop (byPage : List (String × List EventWithBlock))
    (ids : List String) :
    ∀ (titles : List String) (s : Store),
      (∀ P ∈ titles, ¬ (jsMapGet byPage P).isSome →
        ∀ e ∈ buildBlockMap (getTree s P), e.1 ∈ ids) →
      cleanupLoop byPage ids titles s = (s, []) := by
  intro titles
  induction titles with
  | nil => intro s _; rfl
  | cons title rest ih =>
      intro s h
      by_cases ht : (jsMapGet byPage title).isSome
      · have hstep : cleanupLoop byPage ids (title :: rest) s
            = cleanupLoop byPage ids rest s := by
          conv_lhs => unfold cleanupLoop
          rw [if_pos ht]
        rw [hstep]
        exact ih s (fun P hP => h P (List.mem_cons_of_mem title hP))
      · have hfold := fold_skip_all ids (buildBlockMap (getTree s title)) s []
          (h title (List.mem_cons_self title rest) ht)
        have hstep : cleanupLoop byPage ids (title :: rest) s
            = ((cleanupLoop byPage ids rest s).1,
               [] ++ (cleanupLoop byPage ids rest s).2) := by
          conv_lhs => unfold cleanupLoop
          rw [if_neg ht]
          dsimp only
          rw [hfold]
        rw [hstep, ih s (fun P hP => h P (List.mem_cons_of_mem title hP))]
        rfl

/-- Claim C2 (corrected): for a single-batch run over safe desired
events from a well-formed store whose pages carry distinct uids and
distinct recovered ical-ids, running the reconciliation twice with
identical input issues zero mutations on the second run.  With more
than one batch the claim fails: `c2_counterexample`. -/
theorem c2_second_run_no_mutations (pre : String) (calendars : List ICalCalendar)
    (config : BatchConfig) (s : Store)
    (hok : StoreOK s)
    (hbatch : chunksOf config.batchSize (desiredWithBlocks calendars config)
      = [desiredWithBlocks calendars config])
    (hsafe : ∀ ewb ∈ desiredWithBlocks calendars config,
      EventSafe ewb.event ewb.calendarName config.titlePrefix)
    (hpages : ∀ p ∈ s.pages, (treeUids p.2).Nodup ∧ (treeIds p.2).Nodup ∧
      ∀ r ∈ p.2, NodeOK r) :
    (writeBlocks pre calendars config (writeBlocks pre calendars config s).1).2 = [] := by
  have hknd := groupByPage_keys_nodup pre (desiredWithBlocks calendars config)
  have hmain := writeBlocks_main pre calendars config s hok hbatch
  have hok1 := hmain.1
  have hpage : ∀ P, (treeUids (getTree s P)).Nodup ∧ (treeIds (getTree s P)).Nodup ∧
      ∀ r ∈ getTree s P, NodeOK r := by
    intro P
    rcases getTree_mem_or_nil s P with h | h
    · rw [h]
      exact ⟨by simp [treeUids], by simp [treeIds], fun r hr => absurd hr
        (List.not_mem_nil r)⟩
    · exact hpages _ h
  have hsettled : ∀ g ∈ groupByPage pre (desiredWithBlocks calendars config),
      TreeSettled (getTree (writeBlocks pre calendars config s).1 g.1)
        (g.2.map (fun e => e.block)) := by
    intro g hg
    rcases hmain.2.1 g.1 g.2 (by rw [show (g.1, g.2) = g from rfl]; exact hg)
      with ⟨c, hc, htree⟩
    rw [htree]
    have hgb := group_blocks_ok pre calendars config hsafe g.1 g.2
      (by rw [show (g.1, g.2) = g from rfl]; exact hg)
    exact (writePageLocal_main g.1 (g.2.map (fun x => x.block)) (getTree s g.1) c
      (hpage g.1).1 (tree_genFresh s hok g.1 c hc) (hpage g.1).2.1 (hpage g.1).2.2
      hgb.2).2.2.2.2.2.1
  have hpresent : ∀ g ∈ groupByPage pre (desiredWithBlocks calendars config),
      (getPage (writeBlocks pre calendars config s).1 g.1).isSome := by
    intro g hg
    exact (hmain.2.2.2 g.1).mpr (Or.inr ⟨g, hg, rfl⟩)
  have hnoop : processGroups (groupByPage pre (desiredWithBlocks calendars config))
      (writeBlocks pre calendars config s).1
      = ((writeBlocks pre calendars config s).1, []) :=
    processGroups_noop _ _ hok1 (fun g hg => ⟨hpresent g hg, hsettled g hg⟩)
  have hb1 : processBatches pre
      (chunksOf config.batchSize (desiredWithBlocks calendars config))
      (writeBlocks pre calendars config s).1
      = ((writeBlocks pre calendars config s).1, []) := by
    rw [hbatch, processBatches_single]
    exact hnoop
  have hcln : ∀ P ∈ (((writeBlocks pre calendars config s).1.pages.map
      (fun p => p.1)).filter (fun t => (pre ++ "/").data.isPrefixOf t.data)),
      ¬ (jsMapGet (groupByPage pre (desiredWithBlocks calendars config)) P).isSome →
      ∀ e ∈ buildBlockMap (getTree (writeBlocks pre calendars config s).1 P),
        e.1 ∈ (((groupByPage pre (desiredWithBlocks calendars config)).map
          (fun p => p.2.map (fun ewb => ewb.event.uid))).flatten) := by
    intro P hP hnt e he
    have hnone : jsMapGet (groupByPage pre (desiredWithBlocks calendars config)) P
        = none := by
      cases hg : jsMapGet (groupByPage pre (desiredWithBlocks calendars config)) P with
      | none => rfl
      | some G => rw [hg] at hnt; exact absurd rfl hnt
    have hsome1 : (getPage (writeBlocks pre calendars config s).1 P).isSome :=
      mem_keys_isSome _ P (List.mem_filter.mp hP).1
    have hpref : ((pre ++ "/").data.isPrefixOf P.data) = true :=
      (List.mem_filter.mp hP).2
    have hsomes : (getPage s P).isSome := by
      rcases (hmain.2.2.2 P).mp hsome1 with h | ⟨g, hg, he'⟩
      · exact h
      · have h2 := jsMapGet_of_mem_nodup _ g.1 g.2
          (by rw [show (g.1, g.2) = g from rfl]; exact hg) hknd
        rw [he', hnone] at h2
        cases h2
    have hswept := hmain.2.2.1 P hnone hpref hsomes
    have hndE := buildBlockMap_keys_nodup (getTree s P)
    have hEid : ∀ d ∈ buildBlockMap (getTree s P),
        extractICalIdFromNode d.2 = some d.1 := by
      intro d hd
      exact (buildBlockMap_entry (getTree s P) d.1 d.2
        (assoc_get_self _ hndE d hd)).2
    have hEmem : ∀ d ∈ buildBlockMap (getTree s P),
        d.1 ∉ (((groupByPage pre (desiredWithBlocks calendars config)).map
          (fun p => p.2.map (fun ewb => ewb.event.uid))).flatten) →
        d.2 ∈ getTree s P :=
      fun d hd _ => buildBlockMap_val_mem (getTree s P) d hd
    rcases removeObsoleteLocal_establish
      (((groupByPage pre (desiredWithBlocks calendars config)).map
        (fun p => p.2.map (fun ewb => ewb.event.uid))).flatten)
      (buildBlockMap (getTree s P)) (getTree s P) (hpage P).1 hndE hEid hEmem
      with ⟨hsub, hkeep, hgone⟩
    by_contra hnot
    have hmem2 : e.2 ∈ getTree (writeBlocks pre calendars config s).1 P :=
      buildBlockMap_val_mem _ e he
    have hid2 : extractICalIdFromNode e.2 = some e.1 :=
      (buildBlockMap_entry _ e.1 e.2 (assoc_get_self _
        (buildBlockMap_keys_nodup _) e he)).2
    rw [hswept] at hmem2
    have hmemtree : e.2 ∈ getTree s P := hsub.subset hmem2
    have hE1 : jsMapGet (buildBlockMap (getTree s P)) e.1 = some e.2 :=
      buildBlockMap_unique (getTree s P) (hpage P).2.1 e.2 e.1 hmemtree hid2
    have hgone2 := hgone (e.1, e.2) (jsMapGet_mem _ e.1 e.2 hE1) hnot
    exact hgone2 (mem_treeUids_of_mem _ e.2 hmem2 e.2.uid
      (List.mem_cons_self _ _))
  have hfull : (writeBlocks pre calendars config
      (writeBlocks pre calendars config s).1).2
      = (processBatches pre
          (chunksOf config.batchSize (desiredWithBlocks calendars config))
          (writeBlocks pre calendars config s).1).2
        ++ (cleanupLoop (groupByPage pre (desiredWithBlocks calendars config))
            (((groupByPage pre (desiredWithBlocks calendars config)).map
              (fun p => p.2.map (fun ewb => ewb.event.uid))).flatten)
            (((processBatches pre
                (chunksOf config.batchSize (desiredWithBlocks calendars config))
                (writeBlocks pre calendars config s).1).1.pages.map
              (fun p => p.1)).filter (fun t => (pre ++ "/").data.isPrefixOf t.data))
            (processBatches pre
              (chunksOf config.batchSize (desiredWithBlocks calendars config))
              (writeBlocks pre calendars config s).1).1).2 := rfl
  rw [hb1] at hfull
  rw [cleanupLoop_noop _ _ _ _ hcln] at hfull
  exact hfull

/-- Witness for the corrected C2 statement at a concrete input: the
second identical run issues no mutations. -/
theorem c2_second_run_no_mutations_witness :
    (writeBlocks "ical" [⟨"work", [⟨"a", "Standup", "", none, none, "", "", none⟩]⟩]
      ⟨50, 500, [], "#gcal"⟩
      (writeBlocks "ical" [⟨"work", [⟨"a", "Standup", "", none, none, "", "", none⟩]⟩]
        ⟨50, 500, [], "#gcal"⟩ ⟨[], 0⟩).1).2 = [] :=
  c2_second_run_no_mutations "ical"
    [⟨"work", [⟨"a", "Standup", "", none, none, "", "", none⟩]⟩]
    ⟨50, 500, [], "#gcal"⟩ ⟨[], 0⟩
    (StoreOK_of_pairwise _ (by decide) (by decide) (by decide))
    (by decide) (by decide) (by decide)

/-! ### Infrastructure: an id-less record is untouched by every page
operation -/

theorem localUpdate_app (uid txt : String) (r : RoamNode) (h : uid ∉ nodeUids r) :
    (⟨if r.uid = uid then txt else r.text, r.uid,
      r.children.map (fun c => if c.uid = uid then ⟨txt, c.uid⟩ else c)⟩ : RoamNode)
      = r := by
  have h1 : r.uid ≠ uid := fun he => h (he ▸ List.mem_cons_self _ _)
  rw [if_neg h1]
  rw [map_eq_self_of _ _ (fun c hc => by
    rw [if_neg (fun (he : c.uid = uid) => h (he ▸ List.mem_cons_of_mem r.uid
      (List.mem_map_of_mem (fun c => c.uid) hc)))])]

theorem nodeUids_localUpdate_app (uid txt : String) (q : RoamNode) :
    nodeUids (⟨if q.uid = uid then txt else q.text, q.uid,
      q.children.map (fun c => if c.uid = uid then ⟨txt, c.uid⟩ else c)⟩ : RoamNode)
      = nodeUids q := by
  unfold nodeUids
  dsimp only
  rw [List.map_map]
  refine congrArg _ (map_congr_mem _ _ _ (fun c _ => ?_))
  by_cases hc : c.uid = uid
  · show ((if c.uid = uid then (⟨txt, c.uid⟩ : PropNode) else c)).uid = c.uid
    rw [if_pos hc]
  · show ((if c.uid = uid then (⟨txt, c.uid⟩ : PropNode) else c)).uid = c.uid
    rw [if_neg hc]

theorem untouched_mono (r : RoamNode) (tree : List RoamNode) (c c' : Nat)
    (h : Untouched r tree c) (hc : c ≤ c') : Untouched r tree c' :=
  ⟨h.1, h.2.1, fun u hu => genFresh_mono u c c' (h.2.2 u hu) hc⟩

theorem untouched_localUpdate (r : RoamNode) (tree : List RoamNode) (ctr : Nat)
    (uid txt : String) (hinv : Untouched r tree ctr) (h : uid ∉ nodeUids r) :
    Untouched r (localUpdate uid txt tree) ctr := by
  obtain ⟨h1, h2, h3⟩ := hinv
  refine ⟨List.mem_map.mpr ⟨r, h1, localUpdate_app uid txt r h⟩, ?_, h3⟩
  intro q' hq' u hu hur
  rcases List.mem_map.mp hq' with ⟨q, hq, himg⟩
  have huids : nodeUids q' = nodeUids q := by
    rw [← himg]
    exact nodeUids_localUpdate_app uid txt q
  have hqr : q = r := h2 q hq u (huids ▸ hu) hur
  rw [← himg, hqr]
  exact localUpdate_app uid txt r h

theorem untouched_localAppendChild (r : RoamNode) (tree : List RoamNode) (ctr : Nat)
    (puid : String) (node : PropNode) (hinv : Untouched r tree ctr)
    (hp : r.uid ≠ puid) (hn : node.uid ∉ nodeUids r) :
    Untouched r (localAppendChild puid node tree) ctr := by
  obtain ⟨h1, h2, h3⟩ := hinv
  refine ⟨List.mem_map.mpr ⟨r, h1, by rw [if_neg hp]⟩, ?_, h3⟩
  intro q' hq' u hu hur
  rcases List.mem_map.mp hq' with ⟨q, hq, himg⟩
  have hcases : u ∈ nodeUids q ∨ u = node.uid := by
    by_cases hqp : q.uid = puid
    · rw [← himg, if_pos hqp] at hu
      unfold nodeUids at hu ⊢
      dsimp only at hu
      rw [List.map_append] at hu
      rcases List.mem_cons.mp hu with he | hm
      · exact Or.inl (he ▸ List.mem_cons_self _ _)
      · rcases List.mem_append.mp hm with hm1 | hm2
        · exact Or.inl (List.mem_cons_of_mem _ hm1)
        · exact Or.inr (by simpa using hm2)
    · rw [← himg, if_neg hqp] at hu
      exact Or.inl hu
  rcases hcases with hq1 | hq2
  · have hqr : q = r := h2 q hq u hq1 hur
    rw [← himg, hqr, if_neg hp]
  · exact absurd (hq2 ▸ hur) hn

theorem localDelete_app (uid : String) (r : RoamNode) (h : uid ∉ nodeUids r) :
    r.children.filter (fun c => c.uid ≠ uid) = r.children :=
  List.filter_eq_self.mpr (fun c hc => by
    have hne : c.uid ≠ uid := fun (he : c.uid = uid) => h (he ▸ List.mem_cons_of_mem r.uid
      (List.mem_map_of_mem (fun c => c.uid) hc))
    simpa using hne)

theorem untouched_localDelete (r : RoamNode) (tree : List RoamNode) (ctr : Nat)
    (uid : String) (hinv : Untouched r tree ctr) (h : uid ∉ nodeUids r) :
    Untouched r (localDelete uid tree) ctr := by
  obtain ⟨h1, h2, h3⟩ := hinv
  have hruid : r.uid ≠ uid := fun he => h (he ▸ List.mem_cons_self _ _)
  have hrimg : ({ r with children := r.children.filter (fun c => c.uid ≠ uid) } : RoamNode)
      = r := by
    rw [localDelete_app uid r h]
  refine ⟨?_, ?_, h3⟩
  · unfold localDelete
    exact List.mem_map.mpr ⟨r, List.mem_filter.mpr ⟨h1, by simpa using hruid⟩, hrimg⟩
  · intro q' hq' u hu hur
    unfold localDelete at hq'
    rcases List.mem_map.mp hq' with ⟨q, hq, himg⟩
    have hqt : q ∈ tree := List.mem_of_mem_filter hq
    have hsub : u ∈ nodeUids q := by
      rw [← himg] at hu
      unfold nodeUids at hu ⊢
      dsimp only at hu
      rcases List.mem_cons.mp hu with he | hm
      · exact he ▸ List.mem_cons_self _ _
      · rcases List.mem_map.mp hm with ⟨c, hc, hce⟩
        exact hce ▸ List.mem_cons_of_mem _ (List.mem_map_of_mem (fun c => c.uid)
          (List.mem_of_mem_filter hc))
    have hqr : q = r := h2 q hqt u hsub hur
    rw [← himg, hqr, hrimg]

theorem localChildrenOf_mem_rec (tree : List RoamNode) (uid : String) (c : PropNode)
    (h : c ∈ localChildrenOf tree uid) :
    ∃ m ∈ tree, m.uid = uid ∧ c ∈ m.children := by
  unfold localChildrenOf at h
  cases hf : tree.find? (fun r => r.uid = uid) with
  | none => rw [hf] at h; cases h
  | some m =>
      rw [hf] at h
      exact ⟨m, List.mem_of_find?_eq_some hf, by simpa using List.find?_some hf, h⟩

theorem syncGoLocal_untouched (puid : String) (r : RoamNode) (hp : r.uid ≠ puid) :
    ∀ (cs : List PropPayload) (pm : List (String × PropNode)) (tree : List RoamNode)
      (ctr : Nat),
      Untouched r tree ctr →
      (∀ e ∈ pm, e.2.uid ∉ nodeUids r) →
      Untouched r (syncChildrenGoLocal puid cs pm tree ctr).1.1
        (syncChildrenGoLocal puid cs pm tree ctr).1.2 := by
  intro cs
  induction cs with
  | nil => intro pm tree ctr hinv _; exact hinv
  | cons newChild rest ih =>
      intro pm tree ctr hinv hpm
      cases hk : extractPropertyKey newChild.text with
      | none =>
          have hstep : (syncChildrenGoLocal puid (newChild :: rest) pm tree ctr).1
              = (syncChildrenGoLocal puid rest pm tree ctr).1 := by
            conv_lhs => unfold syncChildrenGoLocal
            rw [hk]
          rw [hstep]
          exact ih pm tree ctr hinv hpm
      | some k =>
          cases hget : jsMapGet pm k with
          | some existing =>
              have hex : existing.uid ∉ nodeUids r :=
                hpm (k, existing) (jsMapGet_mem pm k existing hget)
              by_cases htxt : existing.text ≠ newChild.text
              · have hstep : (syncChildrenGoLocal puid (newChild :: rest) pm tree ctr).1
                    = (syncChildrenGoLocal puid rest (jsMapDelete pm k)
                        (localUpdate existing.uid newChild.text tree) ctr).1 := by
                  conv_lhs => unfold syncChildrenGoLocal
                  rw [hk]
                  dsimp only
                  rw [hget]
                  dsimp only
                  rw [if_pos htxt]
                rw [hstep]
                exact ih (jsMapDelete pm k) _ ctr
                  (untouched_localUpdate r tree ctr existing.uid newChild.text hinv hex)
                  (fun e he => hpm e (mem_of_mem_jsMapDelete pm k e he))
              · have hstep : (syncChildrenGoLocal puid (newChild :: rest) pm tree ctr).1
                    = (syncChildrenGoLocal puid rest (jsMapDelete pm k) tree ctr).1 := by
                  conv_lhs => unfold syncChildrenGoLocal
                  rw [hk]
                  dsimp only
                  rw [hget]
                  dsimp only
                  rw [if_neg htxt]
                rw [hstep]
                exact ih (jsMapDelete pm k) tree ctr hinv
                  (fun e he => hpm e (mem_of_mem_jsMapDelete pm k e he))
          | none =>
              have hstep : (syncChildrenGoLocal puid (newChild :: rest) pm tree ctr).1
                  = (syncChildrenGoLocal puid rest pm
                      (localAppendChild puid ⟨newChild.text, genUid ctr⟩ tree)
                      (ctr + 1)).1 := by
                conv_lhs => unfold syncChildrenGoLocal
                rw [hk]
                dsimp only
                rw [hget]
              rw [hstep]
              have hgen : genUid ctr ∉ nodeUids r :=
                fun hmem => hinv.2.2 (genUid ctr) hmem ctr (Nat.le_refl ctr) rfl
              exact ih pm _ (ctr + 1)
                (untouched_mono r _ ctr (ctr + 1)
                  (untouched_localAppendChild r tree ctr puid ⟨newChild.text, genUid ctr⟩
                    hinv hp hgen) (Nat.le_succ ctr))
                hpm

theorem untouched_append_new (r : RoamNode) (tree : List RoamNode) (ctr : Nat)
    (b : BlockPayload) (hinv : Untouched r tree ctr) :
    Untouched r (tree ++ [(instantiateBlock ctr b).1]) (instantiateBlock ctr b).2 := by
  obtain ⟨h1, h2, h3⟩ := hinv
  have hle : ctr ≤ (instantiateBlock ctr b).2 := by
    rw [(instantiateBlock_spec b ctr).1]
    omega
  refine ⟨List.mem_append.mpr (Or.inl h1), ?_, fun u hu => genFresh_mono u ctr _
    (h3 u hu) hle⟩
  intro q hq u hu hur
  rcases List.mem_append.mp hq with hq1 | hq2
  · exact h2 q hq1 u hu hur
  · rw [List.mem_singleton.mp hq2, instantiateBlock_uids b ctr] at hu
    rcases (mem_gensFrom u _ _).mp hu with ⟨k, hk1, _, hke⟩
    exact absurd hke (h3 u hur k hk1)

theorem writeLoopLocal_untouched (P : String) (bm : List (String × RoamNode))
    (r : RoamNode) (hbm : ∀ e ∈ bm, e.2.uid ∉ nodeUids r) :
    ∀ (blocks : List BlockPayload) (seen : List String) (tree : List RoamNode) (ctr : Nat),
      Untouched r tree ctr →
      Untouched r (writeLoopLocal P bm blocks seen tree ctr).1.1
        (writeLoopLocal P bm blocks seen tree ctr).1.2 := by
  intro blocks
  induction blocks with
  | nil => intro seen tree ctr hinv; exact hinv
  | cons block rest ih =>
      intro seen tree ctr hinv
      cases hid : extractICalIdFromBlock block with
      | none =>
          have hstep : (writeLoopLocal P bm (block :: rest) seen tree ctr).1
              = (writeLoopLocal P bm rest seen tree ctr).1 := by
            conv_lhs => unfold writeLoopLocal
            rw [hid]
          rw [hstep]
          exact ih seen tree ctr hinv
      | some icalId =>
          by_cases hseen : icalId ∈ seen
          · have hstep : (writeLoopLocal P bm (block :: rest) seen tree ctr).1
                = (writeLoopLocal P bm rest seen tree ctr).1 := by
              conv_lhs => unfold writeLoopLocal
              rw [hid]
              dsimp only
              rw [if_pos hseen]
            rw [hstep]
            exact ih seen tree ctr hinv
          · cases hget : jsMapGet bm icalId with
            | some existing =>
                have hex : existing.uid ∉ nodeUids r :=
                  hbm (icalId, existing) (jsMapGet_mem bm icalId existing hget)
                have hruid : r.uid ≠ existing.uid :=
                  fun he => hex (he ▸ List.mem_cons_self _ _)
                have hpm : ∀ (t' : List RoamNode), Untouched r t' ctr →
                    ∀ e ∈ buildPropsMap (localChildrenOf t' existing.uid),
                      e.2.uid ∉ nodeUids r := by
                  intro t' hinv' e he hur
                  rcases localChildrenOf_mem_rec t' existing.uid e.2
                    (buildPropsMap_val_mem _ e he) with ⟨m, hm, hmuid, hcm⟩
                  have hmr : m = r := hinv'.2.1 m hm e.2.uid
                    (List.mem_cons_of_mem m.uid
                      (List.mem_map_of_mem (fun c => c.uid) hcm)) hur
                  exact hruid (by rw [← hmuid, hmr])
                by_cases htxt : existing.text ≠ block.text
                · have hstep : (writeLoopLocal P bm (block :: rest) seen tree ctr).1
                      = (writeLoopLocal P bm rest (seen ++ [icalId])
                          (syncChildrenLocal existing.uid block.children
                            (localUpdate existing.uid block.text tree) ctr).1.1
                          (syncChildrenLocal existing.uid block.children
                            (localUpdate existing.uid block.text tree) ctr).1.2).1 := by
                    conv_lhs => unfold writeLoopLocal
                    rw [hid]
                    dsimp only
                    rw [if_neg hseen, hget]
                    dsimp only
                    rw [if_pos htxt]
                  rw [hstep]
                  have hinv1 : Untouched r (localUpdate existing.uid block.text tree) ctr :=
                    untouched_localUpdate r tree ctr existing.uid block.text hinv hex
                  exact ih _ _ _ (syncGoLocal_untouched existing.uid r hruid
                    block.children _ _ ctr hinv1 (hpm _ hinv1))
                · have hstep : (writeLoopLocal P bm (block :: rest) seen tree ctr).1
                      = (writeLoopLocal P bm rest (seen ++ [icalId])
                          (syncChildrenLocal existing.uid block.children tree ctr).1.1
                          (syncChildrenLocal existing.uid block.children tree ctr).1.2).1 := by
                    conv_lhs => unfold writeLoopLocal
                    rw [hid]
                    dsimp only
                    rw [if_neg hseen, hget]
                    dsimp only
                    rw [if_neg htxt]
                  rw [hstep]
                  exact ih _ _ _ (syncGoLocal_untouched existing.uid r hruid
                    block.children _ _ ctr hinv (hpm _ hinv))
            | none =>
                have hstep : (writeLoopLocal P bm (block :: rest) seen tree ctr).1
                    = (writeLoopLocal P bm rest (seen ++ [icalId])
                        (tree ++ [(instantiateBlock ctr block).1])
                        (instantiateBlock ctr block).2).1 := by
                  conv_lhs => unfold writeLoopLocal
                  rw [hid]
                  dsimp only
                  rw [if_neg hseen, hget]
                rw [hstep]
                exact ih _ _ _ (untouched_append_new r tree ctr block hinv)

theorem removeObsoleteLocal_untouched (seen : List String) (r : RoamNode) :
    ∀ (E : List (String × RoamNode)) (tree : List RoamNode) (ctr : Nat),
      (∀ e ∈ E, e.2.uid ∉ nodeUids r) →
      Untouched r tree ctr →
      Untouched r (removeObsoleteLocal E seen tree).1 ctr := by
  intro E
  induction E with
  | nil => intro tree ctr _ hinv; exact hinv
  | cons e rest ih =>
      intro tree ctr hE hinv
      by_cases hs : e.1 ∈ seen
      · rw [removeObsoleteLocal_step_skip rest e seen tree hs]
        exact ih tree ctr (fun d hd => hE d (List.mem_cons_of_mem e hd)) hinv
      · rw [removeObsoleteLocal_step_del rest e seen tree hs]
        exact ih _ ctr (fun d hd => hE d (List.mem_cons_of_mem e hd))
          (untouched_localDelete r tree ctr e.2.uid hinv
            (hE e (List.mem_cons_self e rest)))

/-- A full local page write leaves an id-less untouched record untouched. -/
theorem writePageLocal_untouched (P : String) (blocks : List BlockPayload)
    (tree : List RoamNode) (ctr : Nat) (r : RoamNode)
    (hinv : Untouched r tree ctr) (hnone : extractICalIdFromNode r = none) :
    Untouched r (writePageLocal P blocks tree ctr).1.1
      (writePageLocal P blocks tree ctr).1.2 := by
  have hbm : ∀ e ∈ buildBlockMap tree, e.2.uid ∉ nodeUids r := by
    intro e he hur
    have her : e.2 = r := hinv.2.1 e.2 (buildBlockMap_val_mem tree e he) e.2.uid
      (List.mem_cons_self _ _) hur
    have hid := (buildBlockMap_entry tree e.1 e.2 (assoc_get_self _
      (buildBlockMap_keys_nodup tree) e he)).2
    rw [her, hnone] at hid
    cases hid
  have hloop := writeLoopLocal_untouched P (buildBlockMap tree) r hbm blocks [] tree ctr hinv
  exact removeObsoleteLocal_untouched _ r (buildBlockMap tree) _ _ hbm hloop

theorem processGroups_untouched (r : RoamNode) (P : String)
    (hnone : extractICalIdFromNode r = none) :
    ∀ (gs : List (String × List EventWithBlock)) (s : Store),
      StoreOK s →
      Untouched r (getTree s P) s.counter →
      Untouched r (getTree (processGroups gs s).1 P)
        (processGroups gs s).1.counter := by
  intro gs
  induction gs with
  | nil => intro s _ hinv; exact hinv
  | cons g rest ih =>
      intro s hok hinv
      have hw := writeBlocksToPage_facts g.1 (g.2.map (fun e => e.block)) s hok
      have hres : (processGroups (g :: rest) s).1
          = (processGroups rest (writeBlocksToPage g.1 (g.2.map (fun e => e.block)) s).1).1 :=
        rfl
      rw [hres]
      refine ih _ hw.1 ?_
      by_cases hgp : g.1 = P
      · subst hgp
        have h1 := hw.2.2.1
        have h2 := hw.2.2.2.1
        rw [h1, h2]
        exact writePageLocal_untouched g.1 (g.2.map (fun e => e.block)) (getTree s g.1)
          s.counter r (untouched_mono r _ s.counter s.counter hinv (Nat.le_refl _)) hnone
      · rw [hw.2.2.2.2.1 P (fun h => hgp h.symm)]
        exact untouched_mono r _ s.counter _ hinv (by
          rw [hw.2.2.2.1]
          exact (writePageLocal_uids g.1 (g.2.map (fun e => e.block))
            (getTree s g.1) s.counter).1)

/-- Store-level facts of the batch loop, for arbitrarily many batches. -/
theorem processBatches_facts (pre : String) :
    ∀ (chunks : List (List EventWithBlock)) (s : Store), StoreOK s →
      StoreOK (processBatches pre chunks s).1 ∧
      s.counter ≤ (processBatches pre chunks s).1.counter ∧
      (∀ P, (∀ batch ∈ chunks, ∀ g ∈ groupByPage pre batch, g.1 ≠ P) →
        getTree (processBatches pre chunks s).1 P = getTree s P) ∧
      (∀ Q, (getPage s Q).isSome → (getPage (processBatches pre chunks s).1 Q).isSome) ∧
      (∀ Q, (getPage (processBatches pre chunks s).1 Q).isSome →
        (getPage s Q).isSome ∨ ∃ batch ∈ chunks, ∃ g ∈ groupByPage pre batch, g.1 = Q) ∧
      (∀ (r : RoamNode) (P : String), extractICalIdFromNode r = none →
        Untouched r (getTree s P) s.counter →
        Untouched r (getTree (processBatches pre chunks s).1 P)
          (processBatches pre chunks s).1.counter) := by
  intro chunks
  induction chunks with
  | nil =>
      intro s hok
      exact ⟨hok, Nat.le_refl _, fun P _ => rfl, fun Q h => h, fun Q h => Or.inl h,
        fun r P _ hinv => hinv⟩
  | cons batch rest ih =>
      intro s hok
      have hpg := processGroups_facts (groupByPage pre batch) s hok
        (groupByPage_keys_nodup pre batch)
      have hres : (processBatches pre (batch :: rest) s).1
          = (processBatches pre rest (processGroups (groupByPage pre batch) s).1).1 := rfl
      have hih := ih (processGroups (groupByPage pre batch) s).1 hpg.1
      refine ⟨?_, ?_, ?_, ?_, ?_, ?_⟩
      · rw [hres]; exact hih.1
      · rw [hres]; exact Nat.le_trans hpg.2.1 hih.2.1
      · intro P hP
        rw [hres, hih.2.2.1 P (fun b hb => hP b (List.mem_cons_of_mem batch hb)),
          hpg.2.2.1 P (hP batch (List.mem_cons_self batch rest))]
      · intro Q hQ
        rw [hres]
        exact hih.2.2.2.1 Q (hpg.2.2.2.2.1 Q hQ)
      · intro Q hQ
        rw [hres] at hQ
        rcases hih.2.2.2.2.1 Q hQ with h1 | ⟨b, hb, hg⟩
        · rcases hpg.2.2.2.2.2.2 Q h1 with h2 | ⟨g, hg2, he⟩
          · exact Or.inl h2
          · exact Or.inr ⟨batch, List.mem_cons_self batch rest, g, hg2, he⟩
        · exact Or.inr ⟨b, List.mem_cons_of_mem batch hb, hg⟩
      · intro r P hnone hinv
        rw [hres]
        exact hih.2.2.2.2.2 r P hnone
          (processGroups_untouched r P hnone (groupByPage pre batch) s hok hinv)

/-- Claim C5 (corrected): a pre-existing root record from which no
ical-id can be recovered — neither from its own text nor from any
child's — is invisible to reconciliation, but instead of being deleted
as stale it survives the whole run unchanged on any page of a
well-formed store: it is neither updated nor deleted, whatever the
batching.  The deletion half of the claim as stated is refuted by
`c5_counterexample`. -/
theorem c5_idless_survives (pre : String) (calendars : List ICalCalendar)
    (config : BatchConfig) (s : Store)
    (hok : StoreOK s)
    (P : String)
    (hnduid : (treeUids (getTree s P)).Nodup)
    (r : RoamNode) (hr : r ∈ getTree s P)
    (hnone : extractICalIdFromNode r = none) :
    r ∈ getTree (writeBlocks pre calendars config s).1 P := by
  have hinv0 : Untouched r (getTree s P) s.counter := by
    refine ⟨hr, ?_, ?_⟩
    · intro q hq u hu hur
      by_cases hqr : q = r
      · exact hqr
      · exact absurd hur (nodeUids_disjoint (getTree s P) hnduid q r hq hr hqr u hu)
    · intro u hu
      exact hok.2.2 u (getTree_sub_storeUids s P u
        (mem_treeUids_of_mem _ r hr u hu))
  have hbat := processBatches_facts pre
    (chunksOf config.batchSize (desiredWithBlocks calendars config)) s hok
  have hinv1 := hbat.2.2.2.2.2 r P hnone hinv0
  have hw : (writeBlocks pre calendars config s).1
      = (cleanupLoop (groupByPage pre (desiredWithBlocks calendars config))
          (((groupByPage pre (desiredWithBlocks calendars config)).map
            (fun p => p.2.map (fun ewb => ewb.event.uid))).flatten)
          (((processBatches pre
              (chunksOf config.batchSize (desiredWithBlocks calendars config)) s).1.pages.map
            (fun p => p.1)).filter (fun t => (pre ++ "/").data.isPrefixOf t.data))
          (processBatches pre
            (chunksOf config.batchSize (desiredWithBlocks calendars config)) s).1).1 := rfl
  have hndt : ((((processBatches pre
      (chunksOf config.batchSize (desiredWithBlocks calendars config)) s).1.pages.map
      (fun p => p.1)).filter (fun t => (pre ++ "/").data.isPrefixOf t.data))).Nodup :=
    List.Nodup.filter _ hbat.1.1
  have hsome1 : ∀ Q ∈ ((((processBatches pre
      (chunksOf config.batchSize (desiredWithBlocks calendars config)) s).1.pages.map
      (fun p => p.1)).filter (fun t => (pre ++ "/").data.isPrefixOf t.data))),
      (getPage (processBatches pre
        (chunksOf config.batchSize (desiredWithBlocks calendars config)) s).1 Q).isSome :=
    fun Q hQ => mem_keys_isSome _ Q (List.mem_filter.mp hQ).1
  have hclf := cleanupLoop_facts (groupByPage pre (desiredWithBlocks calendars config))
    (((groupByPage pre (desiredWithBlocks calendars config)).map
      (fun p => p.2.map (fun ewb => ewb.event.uid))).flatten)
    _ _ hbat.1 hndt hsome1
  rw [hw]
  by_cases htv : (jsMapGet (groupByPage pre (desiredWithBlocks calendars config)) P).isSome
  · rw [hclf.2.2.1 P htv]
    exact hinv1.1
  · by_cases hT : P ∈ ((((processBatches pre
        (chunksOf config.batchSize (desiredWithBlocks calendars config)) s).1.pages.map
        (fun p => p.1)).filter (fun t => (pre ++ "/").data.isPrefixOf t.data)))
    · rw [hclf.2.2.2.2.1 P hT htv]
      have hbmE : ∀ e ∈ buildBlockMap (getTree (processBatches pre
          (chunksOf config.batchSize (desiredWithBlocks calendars config)) s).1 P),
          e.2.uid ∉ nodeUids r := by
        intro e he hur
        have her : e.2 = r := hinv1.2.1 e.2 (buildBlockMap_val_mem _ e he) e.2.uid
          (List.mem_cons_self _ _) hur
        have hid := (buildBlockMap_entry _ e.1 e.2 (assoc_get_self _
          (buildBlockMap_keys_nodup _) e he)).2
        rw [her, hnone] at hid
        cases hid
      exact (removeObsoleteLocal_untouched _ r _ _ _ hbmE hinv1).1
    · rw [hclf.2.2.2.1 P hT]
      exact hinv1.1

/-- Witness for the corrected C5 statement at a concrete input: the
id-less record is still on the target page after the run. -/
theorem c5_idless_survives_witness :
    (⟨"just some note", "n1", []⟩ : RoamNode) ∈
      getTree
        (writeBlocks "ical" [⟨"work", [⟨"a", "Standup", "", none, none, "", "", none⟩]⟩]
          ⟨50, 500, [], "#gcal"⟩
          ⟨[(resolveEventPageName ⟨"a", "Standup", "", none, none, "", "", none⟩
              "work" "ical",
             [⟨"just some note", "n1", []⟩])], 0⟩).1
        (resolveEventPageName ⟨"a", "Standup", "", none, none, "", "", none⟩
          "work" "ical") :=
  c5_idless_survives "ical" [⟨"work", [⟨"a", "Standup", "", none, none, "", "", none⟩]⟩]
    ⟨50, 500, [], "#gcal"⟩
    ⟨[(resolveEventPageName ⟨"a", "Standup", "", none, none, "", "", none⟩
        "work" "ical",
       [⟨"just some note", "n1", []⟩])], 0⟩
    (StoreOK_of_pairwise _ (by decide) (by decide) (by decide))
    (resolveEventPageName ⟨"a", "Standup", "", none, none, "", "", none⟩ "work" "ical")
    (by decide)
    ⟨"just some note", "n1", []⟩ (by decide) (by decide)

theorem chunkAux_subset {α : Type} (k : Nat) :
    ∀ (n : Nat) (cs l : List α), l ∈ chunkAux k n cs → ∀ x ∈ l, x ∈ cs := by
  intro n
  induction n with
  | zero =>
      intro cs l h
      rw [show chunkAux k 0 cs = [] from by cases cs <;> rfl] at h
      cases h
  | succ n ihn =>
      intro cs l h
      cases cs with
      | nil =>
          rw [show chunkAux k (n + 1) ([] : List α) = [] from rfl] at h
          cases h
      | cons c t =>
          rw [show chunkAux k (n + 1) (c :: t)
            = (c :: t).take k :: chunkAux k n ((c :: t).drop k) from rfl] at h
          rcases List.mem_cons.mp h with rfl | h2
          · exact fun x hx => List.take_subset k _ hx
          · exact fun x hx => List.drop_subset k _ (ihn _ l h2 x hx)

theorem chunksOf_subset {α : Type} (k : Nat) (cs l : List α) (h : l ∈ chunksOf k cs) :
    ∀ x ∈ l, x ∈ cs :=
  chunkAux_subset k cs.length cs l h

theorem chunkAux_cover {α : Type} (k : Nat) (hk : 1 ≤ k) :
    ∀ (n : Nat) (cs : List α), cs.length ≤ n →
      ∀ x ∈ cs, ∃ l ∈ chunkAux k n cs, x ∈ l := by
  intro n
  induction n with
  | zero =>
      intro cs hn x hx
      rw [List.length_eq_zero.mp (Nat.le_zero.mp hn)] at hx
      cases hx
  | succ n ihn =>
      intro cs hn x hx
      cases cs with
      | nil => cases hx
      | cons c t =>
          rw [show chunkAux k (n + 1) (c :: t)
            = (c :: t).take k :: chunkAux k n ((c :: t).drop k) from rfl]
          have hsplit : x ∈ (c :: t).take k ++ (c :: t).drop k := by
            rw [List.take_append_drop]
            exact hx
          rcases List.mem_append.mp hsplit with h1 | h2
          · exact ⟨(c :: t).take k, List.mem_cons_self _ _, h1⟩
          · have hlen : ((c :: t).drop k).length ≤ n := by
              rw [List.length_drop]
              have : (c :: t).length ≤ n + 1 := hn
              omega
            rcases ihn _ hlen x h2 with ⟨l, hl, hxl⟩
            exact ⟨l, List.mem_cons_of_mem _ hl, hxl⟩

theorem chunksOf_cover {α : Type} (k : Nat) (hk : 1 ≤ k) (cs : List α) (x : α)
    (hx : x ∈ cs) : ∃ l ∈ chunksOf k cs, x ∈ l :=
  chunkAux_cover k hk cs.length cs (Nat.le_refl _) x hx

theorem groupByPage_val_nonempty (pre : String) (l : List EventWithBlock)
    (e : String × List EventWithBlock) (he : e ∈ groupByPage pre l) : e.2 ≠ [] := by
  have main : ∀ (l : List EventWithBlock) (m : List (String × List EventWithBlock)),
      (∀ e ∈ m, e.2 ≠ []) →
      ∀ e ∈ (l.foldl (fun m ewb =>
        let pageName := resolveEventPageName ewb.event ewb.calendarName pre
        match jsMapGet m pageName with
        | some existing => jsMapSet m pageName (existing ++ [ewb])
        | none => m ++ [(pageName, [ewb])]) m), e.2 ≠ [] := by
    intro l
    induction l with
    | nil => intro m hm; exact hm
    | cons a t ih =>
        intro m hm
        rw [List.foldl_cons]
        refine ih _ ?_
        dsimp only
        cases hget : jsMapGet m (resolveEventPageName a.event a.calendarName pre) with
        | some existing =>
            intro e he
            rcases jsMapSet_mem_cases _ _ _ e he with hem | hek
            · exact hm e hem
            · rw [hek]
              simp
        | none =>
            intro e he
            rcases List.mem_append.mp he with hem | hes
            · exact hm e hem
            · rw [List.mem_singleton.mp hes]
              simp
  exact main l [] (by intro e he; cases he) e he

/-- The global grouping's entry at `P` holds exactly the desired events
resolving to `P`. -/
theorem groupByPage_char (pre : String) (l : List EventWithBlock)
    (P : String) (G : List EventWithBlock) (hPG : (P, G) ∈ groupByPage pre l)
    (ewb : EventWithBlock) :
    ewb ∈ G ↔ (ewb ∈ l ∧ resolveEventPageName ewb.event ewb.calendarName pre = P) := by
  constructor
  · intro h
    exact ⟨groupByPage_mem_val pre l (P, G) hPG ewb h,
      groupByPage_val_key pre l (P, G) hPG ewb h⟩
  · intro ⟨hl, hres⟩
    rcases groupByPage_covers pre l ewb hl with ⟨e, he, hin⟩
    have h1 : e.1 = P := by
      rw [← groupByPage_val_key pre l e he ewb hin, hres]
    have h2 := jsMapGet_of_mem_nodup _ e.1 e.2
      (by rw [show (e.1, e.2) = e from rfl]; exact he) (groupByPage_keys_nodup pre l)
    have h3 := jsMapGet_of_mem_nodup _ P G hPG (groupByPage_keys_nodup pre l)
    rw [h1, h3] at h2
    rw [show G = e.2 from Option.some.inj h2]
    exact hin

/-- In any run, whatever the batching, a stored page under the path
root that is no target page ends at the local sweep of its pre-run
tree against the run's global desired-id list. -/
theorem writeBlocks_swept_page (pre : String) (calendars : List ICalCalendar)
    (config : BatchConfig) (s : Store) (hok : StoreOK s)
    (P : String)
    (hnone : jsMapGet (groupByPage pre (desiredWithBlocks calendars config)) P = none)
    (hpref : ((pre ++ "/").data.isPrefixOf P.data) = true)
    (hsome : (getPage s P).isSome) :
    getTree (writeBlocks pre calendars config s).1 P
      = (removeObsoleteLocal (buildBlockMap (getTree s P))
          (((groupByPage pre (desiredWithBlocks calendars config)).map
            (fun p => p.2.map (fun ewb => ewb.event.uid))).flatten)
          (getTree s P)).1 := by
  have hbat := processBatches_facts pre
    (chunksOf config.batchSize (desiredWithBlocks calendars config)) s hok
  have hP : ∀ batch ∈ chunksOf config.batchSize (desiredWithBlocks calendars config),
      ∀ g ∈ groupByPage pre batch, g.1 ≠ P := by
    intro batch hb g hg he
    obtain ⟨ewb, hewb⟩ := List.exists_mem_of_ne_nil g.2
      (groupByPage_val_nonempty pre batch g hg)
    have h2 : ewb ∈ desiredWithBlocks calendars config :=
      chunksOf_subset _ _ _ hb ewb (groupByPage_mem_val pre batch g hg ewb hewb)
    rcases groupByPage_covers pre (desiredWithBlocks calendars config) ewb h2
      with ⟨e, he2, hin⟩
    have h3 : e.1 = P := by
      rw [← groupByPage_val_key pre (desiredWithBlocks calendars config) e he2 ewb hin,
        groupByPage_val_key pre batch g hg ewb hewb, he]
    have h4 := jsMapGet_of_mem_nodup _ e.1 e.2
      (by rw [show (e.1, e.2) = e from rfl]; exact he2)
      (groupByPage_keys_nodup pre (desiredWithBlocks calendars config))
    rw [h3, hnone] at h4
    cases h4
  have htree1 : getTree (processBatches pre
      (chunksOf config.batchSize (desiredWithBlocks calendars config)) s).1 P
      = getTree s P := hbat.2.2.1 P hP
  have hsome1 : (getPage (processBatches pre
      (chunksOf config.batchSize (desiredWithBlocks calendars config)) s).1 P).isSome :=
    hbat.2.2.2.1 P hsome
  have hw : (writeBlocks pre calendars config s).1
      = (cleanupLoop (groupByPage pre (desiredWithBlocks calendars config))
          (((groupByPage pre (desiredWithBlocks calendars config)).map
            (fun p => p.2.map (fun ewb => ewb.event.uid))).flatten)
          (((processBatches pre
              (chunksOf config.batchSize (desiredWithBlocks calendars config)) s).1.pages.map
            (fun p => p.1)).filter (fun t => (pre ++ "/").data.isPrefixOf t.data))
          (processBatches pre
            (chunksOf config.batchSize (desiredWithBlocks calendars config)) s).1).1 := rfl
  have hndt : ((((processBatches pre
      (chunksOf config.batchSize (desiredWithBlocks calendars config)) s).1.pages.map
      (fun p => p.1)).filter (fun t => (pre ++ "/").data.isPrefixOf t.data))).Nodup :=
    List.Nodup.filter _ hbat.1.1
  have hsomet : ∀ Q ∈ ((((processBatches pre
      (chunksOf config.batchSize (desiredWithBlocks calendars config)) s).1.pages.map
      (fun p => p.1)).filter (fun t => (pre ++ "/").data.isPrefixOf t.data))),
      (getPage (processBatches pre
        (chunksOf config.batchSize (desiredWithBlocks calendars config)) s).1 Q).isSome :=
    fun Q hQ => mem_keys_isSome _ Q (List.mem_filter.mp hQ).1
  have hclf := cleanupLoop_facts (groupByPage pre (desiredWithBlocks calendars config))
    (((groupByPage pre (desiredWithBlocks calendars config)).map
      (fun p => p.2.map (fun ewb => ewb.event.uid))).flatten)
    _ _ hbat.1 hndt hsomet
  have hmemtitles : P ∈ ((((processBatches pre
      (chunksOf config.batchSize (desiredWithBlocks calendars config)) s).1.pages.map
      (fun p => p.1)).filter (fun t => (pre ++ "/").data.isPrefixOf t.data))) :=
    List.mem_filter.mpr ⟨isSome_mem_keys _ P hsome1, hpref⟩
  have hsw := hclf.2.2.2.2.1 P hmemtitles (by rw [hnone]; simp)
  rw [hw, hsw, htree1]

/-- Claim C4 (corrected): after the cross-location sweep — whatever the
batching — on every stored page under the configured prefix that is no
current target page, a mapped record is deleted exactly when its
recovered ical-id is desired nowhere in the run: a record whose id
coincides with an identity desired at a different location survives.
The unconditional-deletion claim as stated is refuted by
`c4_counterexample`. -/
theorem c4_sweep_global (pre : String) (calendars : List ICalCalendar)
    (config : BatchConfig) (s : Store)
    (hok : StoreOK s)
    (P : String)
    (hnone : jsMapGet (groupByPage pre (desiredWithBlocks calendars config)) P = none)
    (hpref : ((pre ++ "/").data.isPrefixOf P.data) = true)
    (hsome : (getPage s P).isSome)
    (hnduid : (treeUids (getTree s P)).Nodup)
    (hndid : (treeIds (getTree s P)).Nodup)
    (r : RoamNode) (hr : r ∈ getTree s P)
    (x : String) (hid : extractICalIdFromNode r = some x) :
    ((∀ ewb ∈ desiredWithBlocks calendars config, ewb.event.uid ≠ x) →
      r.uid ∉ treeUids (getTree (writeBlocks pre calendars config s).1 P)) ∧
    ((∃ ewb ∈ desiredWithBlocks calendars config, ewb.event.uid = x) →
      r ∈ getTree (writeBlocks pre calendars config s).1 P) := by
  have hswept := writeBlocks_swept_page pre calendars config s hok P
    hnone hpref hsome
  have hndE := buildBlockMap_keys_nodup (getTree s P)
  have hEid : ∀ e ∈ buildBlockMap (getTree s P), extractICalIdFromNode e.2 = some e.1 := by
    intro e he
    exact (buildBlockMap_entry (getTree s P) e.1 e.2
      (assoc_get_self _ hndE e he)).2
  have hEmem : ∀ e ∈ buildBlockMap (getTree s P),
      e.1 ∉ (((groupByPage pre (desiredWithBlocks calendars config)).map
        (fun p => p.2.map (fun ewb => ewb.event.uid))).flatten) → e.2 ∈ getTree s P :=
    fun e he _ => buildBlockMap_val_mem (getTree s P) e he
  rcases removeObsoleteLocal_establish
    (((groupByPage pre (desiredWithBlocks calendars config)).map
      (fun p => p.2.map (fun ewb => ewb.event.uid))).flatten)
    (buildBlockMap (getTree s P)) (getTree s P) hnduid hndE hEid hEmem
    with ⟨hsub, hkeep, hgone⟩
  constructor
  · intro hstale
    rw [hswept]
    have hxnot : x ∉ (((groupByPage pre (desiredWithBlocks calendars config)).map
        (fun p => p.2.map (fun ewb => ewb.event.uid))).flatten) := by
      intro hx
      rcases (currentIds_char pre (desiredWithBlocks calendars config) x).mp hx
        with ⟨ewb, hewb, he⟩
      exact hstale ewb hewb he
    have hEx : jsMapGet (buildBlockMap (getTree s P)) x = some r :=
      buildBlockMap_unique (getTree s P) hndid r x hr hid
    exact hgone (x, r) (jsMapGet_mem _ x r hEx) hxnot
  · intro hdes
    rw [hswept]
    refine hkeep r hr ?_
    intro e he hes heq
    have hsame : e.2 = r := uid_unique (getTree s P) hnduid e.2 r
      (buildBlockMap_val_mem (getTree s P) e he) hr heq
    have hex : e.1 = x := by
      have h2 := hEid e he
      rw [hsame, hid] at h2
      exact (Option.some.inj h2).symm
    apply hes
    rw [hex]
    exact (currentIds_char pre (desiredWithBlocks calendars config) x).mpr hdes

/-- Witness for the corrected C4 statement at a concrete input: on an
obsolete page, the record whose id "b" is desired nowhere is deleted,
while the record whose id "a" is desired at a different location
survives. -/
theorem c4_sweep_global_witness :
    (("w2" : String) ∉ treeUids (getTree
      (writeBlocks "ical" [⟨"home", [⟨"a", "Standup", "", none, none, "", "", none⟩]⟩]
        ⟨50, 500, [], "#gcal"⟩
        ⟨[("ical/work/old",
           [⟨"stale", "w1", [⟨"ical-id:: a", "wc1"⟩]⟩,
            ⟨"junk", "w2", [⟨"ical-id:: b", "wc2"⟩]⟩])], 0⟩).1
      "ical/work/old")) ∧
    (⟨"stale", "w1", [⟨"ical-id:: a", "wc1"⟩]⟩ : RoamNode) ∈ getTree
      (writeBlocks "ical" [⟨"home", [⟨"a", "Standup", "", none, none, "", "", none⟩]⟩]
        ⟨50, 500, [], "#gcal"⟩
        ⟨[("ical/work/old",
           [⟨"stale", "w1", [⟨"ical-id:: a", "wc1"⟩]⟩,
            ⟨"junk", "w2", [⟨"ical-id:: b", "wc2"⟩]⟩])], 0⟩).1
      "ical/work/old" :=
  ⟨(c4_sweep_global "ical" [⟨"home", [⟨"a", "Standup", "", none, none, "", "", none⟩]⟩]
      ⟨50, 500, [], "#gcal"⟩
      ⟨[("ical/work/old",
         [⟨"stale", "w1", [⟨"ical-id:: a", "wc1"⟩]⟩,
          ⟨"junk", "w2", [⟨"ical-id:: b", "wc2"⟩]⟩])], 0⟩
      (StoreOK_of_pairwise _ (by decide) (by decide) (by decide))
      "ical/work/old" (by decide) (by decide) (by decide)
      (by decide) (by decide)
      ⟨"junk", "w2", [⟨"ical-id:: b", "wc2"⟩]⟩ (by decide)
      "b" (by decide)).1 (by decide),
   (c4_sweep_global "ical" [⟨"home", [⟨"a", "Standup", "", none, none, "", "", none⟩]⟩]
      ⟨50, 500, [], "#gcal"⟩
      ⟨[("ical/work/old",
         [⟨"stale", "w1", [⟨"ical-id:: a", "wc1"⟩]⟩,
          ⟨"junk", "w2", [⟨"ical-id:: b", "wc2"⟩]⟩])], 0⟩
      (StoreOK_of_pairwise _ (by decide) (by decide) (by decide))
      "ical/work/old" (by decide) (by decide) (by decide)
      (by decide) (by decide)
      ⟨"stale", "w1", [⟨"ical-id:: a", "wc1"⟩]⟩ (by decide)
      "a" (by decide)).2 (by decide)⟩

theorem processGroups_gone (u : String) (P : String) :
    ∀ (gs : List (String × List EventWithBlock)) (s : Store), StoreOK s →
      u ∉ treeUids (getTree s P) → GenFresh s.counter u →
      u ∉ treeUids (getTree (processGroups gs s).1 P) ∧
        GenFresh (processGroups gs s).1.counter u := by
  intro gs
  induction gs with
  | nil => intro s _ h1 h2; exact ⟨h1, h2⟩
  | cons g rest ih =>
      intro s hok h1 h2
      have hw := writeBlocksToPage_facts g.1 (g.2.map (fun e => e.block)) s hok
      have hres : (processGroups (g :: rest) s).1
          = (processGroups rest
              (writeBlocksToPage g.1 (g.2.map (fun e => e.block)) s).1).1 := rfl
      rw [hres]
      refine ih _ hw.1 ?_ (genFresh_mono u s.counter _ h2 hw.2.1)
      by_cases hgp : g.1 = P
      · subst hgp
        rw [hw.2.2.1]
        intro hu
        rcases (writePageLocal_uids g.1 (g.2.map (fun e => e.block))
          (getTree s g.1) s.counter).2 u hu with hold | ⟨k, hk1, _, hke⟩
        · exact h1 hold
        · exact h2 k hk1 hke
      · rw [hw.2.2.2.2.1 P (fun h => hgp h.symm)]
        exact h1

theorem processBatches_gone (pre : String) (u : String) (P : String) :
    ∀ (chunks : List (List EventWithBlock)) (s : Store), StoreOK s →
      u ∉ treeUids (getTree s P) → GenFresh s.counter u →
      u ∉ treeUids (getTree (processBatches pre chunks s).1 P) ∧
        GenFresh (processBatches pre chunks s).1.counter u := by
  intro chunks
  induction chunks with
  | nil => intro s _ h1 h2; exact ⟨h1, h2⟩
  | cons batch rest ih =>
      intro s hok h1 h2
      have hres : (processBatches pre (batch :: rest) s).1
          = (processBatches pre rest (processGroups (groupByPage pre batch) s).1).1 := rfl
      rw [hres]
      have hpg := processGroups_gone u P (groupByPage pre batch) s hok h1 h2
      exact ih _ (processGroups_facts (groupByPage pre batch) s hok
        (groupByPage_keys_nodup pre batch)).1 hpg.1 hpg.2

theorem cleanupLoop_gone (byPage : List (String × List EventWithBlock))
    (ids : List String) (titles : List String) (s : Store)
    (hok : StoreOK s) (hndt : titles.Nodup)
    (hsome : ∀ P ∈ titles, (getPage s P).isSome)
    (u : String) (P : String) (hgone : u ∉ treeUids (getTree s P)) :
    u ∉ treeUids (getTree (cleanupLoop byPage ids titles s).1 P) := by
  have hclf := cleanupLoop_facts byPage ids titles s hok hndt hsome
  by_cases h1 : (jsMapGet byPage P).isSome
  · rw [hclf.2.2.1 P h1]
    exact hgone
  · by_cases h2 : P ∈ titles
    · rw [hclf.2.2.2.2.1 P h2 h1]
      intro hu
      exact hgone (removeObsolete_fold_local_uids ids _ _ [] u hu)
    · rw [hclf.2.2.2.1 P h2]
      exact hgone

/-- Across arbitrarily many batches: as soon as one batch writes the
page, a pre-existing record whose recovered id that batch does not
desire is deleted, and its uid never reappears. -/
theorem processBatches_kill (pre : String) (P : String) (x : String) (r : RoamNode)
    (hx : extractICalIdFromNode r = some x) :
    ∀ (chunks : List (List EventWithBlock)) (s : Store),
      StoreOK s →
      (treeUids (getTree s P)).Nodup →
      (treeIds (getTree s P)).Nodup →
      (∀ q ∈ getTree s P, NodeOK q) →
      r ∈ getTree s P →
      (∀ batch ∈ chunks, ∀ g ∈ groupByPage pre batch, g.1 = P →
        (∀ b ∈ g.2.map (fun e => e.block), BlockOK b) ∧
          x ∉ blockIds (g.2.map (fun e => e.block))) →
      (∃ batch ∈ chunks, ∃ g ∈ groupByPage pre batch, g.1 = P) →
      r.uid ∉ treeUids (getTree (processBatches pre chunks s).1 P) := by
  intro chunks
  induction chunks with
  | nil =>
      intro s _ _ _ _ _ _ hhit
      rcases hhit with ⟨b, hb, _⟩
      cases hb
  | cons batch rest ih =>
      intro s hok htu hti hNOK hr hblk hhit
      have hres : (processBatches pre (batch :: rest) s).1
          = (processBatches pre rest (processGroups (groupByPage pre batch) s).1).1 := rfl
      have hpgf := processGroups_facts (groupByPage pre batch) s hok
        (groupByPage_keys_nodup pre batch)
      by_cases hkey : ∃ G1, (P, G1) ∈ groupByPage pre batch
      · obtain ⟨G1, hG1⟩ := hkey
        rcases hpgf.2.2.2.1 P G1 hG1 with ⟨c, hc, htree⟩
        have hblk1 := hblk batch (List.mem_cons_self batch rest) (P, G1) hG1 rfl
        have hmain := writePageLocal_main P (G1.map (fun e => e.block)) (getTree s P) c
          htu (tree_genFresh s hok P c hc) hti hNOK hblk1.1
        have hkill : r.uid ∉ treeUids (getTree
            (processGroups (groupByPage pre batch) s).1 P) := by
          rw [htree]
          exact hmain.2.2.2.2.2.2.1 r hr x hx hblk1.2
        have hfr : GenFresh (processGroups (groupByPage pre batch) s).1.counter r.uid := by
          have h0 : GenFresh s.counter r.uid := hok.2.2 r.uid
            (getTree_sub_storeUids s P r.uid
              (mem_treeUids_of_mem _ r hr r.uid (List.mem_cons_self _ _)))
          exact genFresh_mono r.uid s.counter _ h0 hpgf.2.1
        rw [hres]
        exact (processBatches_gone pre r.uid P rest _ hpgf.1 hkill hfr).1
      · have hnokey : ∀ g ∈ groupByPage pre batch, g.1 ≠ P := by
          intro g hg he
          exact hkey ⟨g.2, by rw [← he, show (g.1, g.2) = g from rfl]; exact hg⟩
        have htree1 : getTree (processGroups (groupByPage pre batch) s).1 P
            = getTree s P := hpgf.2.2.1 P hnokey
        have hhit2 : ∃ b ∈ rest, ∃ g ∈ groupByPage pre b, g.1 = P := by
          rcases hhit with ⟨b, hb, g, hg, he⟩
          rcases List.mem_cons.mp hb with rfl | hbr
          · exact absurd he (hnokey g hg)
          · exact ⟨b, hbr, g, hg, he⟩
        rw [hres]
        refine ih _ hpgf.1 ?_ ?_ ?_ ?_
          (fun b hb => hblk b (List.mem_cons_of_mem batch hb)) hhit2
        · rw [htree1]; exact htu
        · rw [htree1]; exact hti
        · rw [htree1]; exact hNOK
        · rw [htree1]; exact hr

/-- Claim C1 (corrected): at the end of a run — whatever the batching,
provided the batch size is positive so the batch loop terminates — over
safe desired events, on a target page whose pre-existing records carry
distinct uids and distinct recovered ical-ids, every pre-existing root
record whose recovered ical-id differs from every event uid desired at
that page is deleted: its uid is gone from the final page tree.  The
claim without the distinct-recovered-id proviso is refuted by
`c1_counterexample`. -/
theorem c1_stale_target_deleted (pre : String) (calendars : List ICalCalendar)
    (config : BatchConfig) (s : Store)
    (hok : StoreOK s)
    (hk : 1 ≤ config.batchSize)
    (hsafe : ∀ ewb ∈ desiredWithBlocks calendars config,
      EventSafe ewb.event ewb.calendarName config.titlePrefix)
    (P : String) (G : List EventWithBlock)
    (hPG : (P, G) ∈ groupByPage pre (desiredWithBlocks calendars config))
    (hnduid : (treeUids (getTree s P)).Nodup)
    (hndid : (treeIds (getTree s P)).Nodup)
    (hNOK : ∀ q ∈ getTree s P, NodeOK q)
    (r : RoamNode) (hr : r ∈ getTree s P)
    (x : String) (hx : extractICalIdFromNode r = some x)
    (hstale : ∀ ewb ∈ G, ewb.event.uid ≠ x) :
    r.uid ∉ treeUids (getTree (writeBlocks pre calendars config s).1 P) := by
  have hgb := group_blocks_ok pre calendars config hsafe P G hPG
  have hblk : ∀ batch ∈ chunksOf config.batchSize (desiredWithBlocks calendars config),
      ∀ g ∈ groupByPage pre batch, g.1 = P →
      (∀ b ∈ g.2.map (fun e => e.block), BlockOK b) ∧
        x ∉ blockIds (g.2.map (fun e => e.block)) := by
    intro batch hb g hg he
    have hsubG : ∀ ewb ∈ g.2, ewb ∈ G := by
      intro ewb hewb
      refine (groupByPage_char pre (desiredWithBlocks calendars config) P G hPG ewb).mpr
        ⟨chunksOf_subset _ _ _ hb ewb (groupByPage_mem_val pre batch g hg ewb hewb), ?_⟩
      rw [groupByPage_val_key pre batch g hg ewb hewb, he]
    constructor
    · intro b hb2
      rcases List.mem_map.mp hb2 with ⟨ewb, hewb, rfl⟩
      exact hgb.2 ewb.block (List.mem_map_of_mem _ (hsubG ewb hewb))
    · rw [blockIds_of_group g.2 (fun ewb hewb => hgb.1 ewb (hsubG ewb hewb))]
      intro hmem
      rcases List.mem_map.mp hmem with ⟨ewb, hewb, hee⟩
      exact hstale ewb (hsubG ewb hewb) hee
  have hhit : ∃ batch ∈ chunksOf config.batchSize (desiredWithBlocks calendars config),
      ∃ g ∈ groupByPage pre batch, g.1 = P := by
    obtain ⟨ewb0, hewb0⟩ := List.exists_mem_of_ne_nil G
      (groupByPage_val_nonempty pre (desiredWithBlocks calendars config) (P, G) hPG)
    have h2 : ewb0 ∈ desiredWithBlocks calendars config :=
      groupByPage_mem_val pre _ (P, G) hPG ewb0 hewb0
    rcases chunksOf_cover config.batchSize hk _ ewb0 h2 with ⟨batch, hbm, hxb⟩
    rcases groupByPage_covers pre batch ewb0 hxb with ⟨g, hgm, hin⟩
    refine ⟨batch, hbm, g, hgm, ?_⟩
    rw [← groupByPage_val_key pre batch g hgm ewb0 hin,
      groupByPage_val_key pre _ (P, G) hPG ewb0 hewb0]
  have hkill := processBatches_kill pre P x r hx
    (chunksOf config.batchSize (desiredWithBlocks calendars config)) s hok
    hnduid hndid hNOK hr hblk hhit
  have hbat := processBatches_facts pre
    (chunksOf config.batchSize (desiredWithBlocks calendars config)) s hok
  have hw : (writeBlocks pre calendars config s).1
      = (cleanupLoop (groupByPage pre (desiredWithBlocks calendars config))
          (((groupByPage pre (desiredWithBlocks calendars config)).map
            (fun p => p.2.map (fun ewb => ewb.event.uid))).flatten)
          (((processBatches pre
              (chunksOf config.batchSize (desiredWithBlocks calendars config)) s).1.pages.map
            (fun p => p.1)).filter (fun t => (pre ++ "/").data.isPrefixOf t.data))
          (processBatches pre
            (chunksOf config.batchSize (desiredWithBlocks calendars config)) s).1).1 := rfl
  rw [hw]
  exact cleanupLoop_gone _ _ _ _ hbat.1 (List.Nodup.filter _ hbat.1.1)
    (fun Q hQ => mem_keys_isSome _ Q (List.mem_filter.mp hQ).1) r.uid P hkill

/-- Witness for the corrected C1 statement at a concrete input: a record
with stale recovered id "x" on the target page is gone after the run. -/
theorem c1_stale_target_deleted_witness :
    ("u1" : String) ∉ treeUids (getTree
      (writeBlocks "ical" [⟨"work", [⟨"a", "Standup", "", none, none, "", "", none⟩]⟩]
        ⟨50, 500, [], "#gcal"⟩
        ⟨[(resolveEventPageName ⟨"a", "Standup", "", none, none, "", "", none⟩
            "work" "ical",
           [⟨"old1", "u1", [⟨"ical-id:: x", "cu1"⟩]⟩])], 0⟩).1
      (resolveEventPageName ⟨"a", "Standup", "", none, none, "", "", none⟩
        "work" "ical")) :=
  c1_stale_target_deleted "ical" [⟨"work", [⟨"a", "Standup", "", none, none, "", "", none⟩]⟩]
    ⟨50, 500, [], "#gcal"⟩
    ⟨[(resolveEventPageName ⟨"a", "Standup", "", none, none, "", "", none⟩
        "work" "ical",
       [⟨"old1", "u1", [⟨"ical-id:: x", "cu1"⟩]⟩])], 0⟩
    (StoreOK_of_pairwise _ (by decide) (by decide) (by decide))
    (by decide) (by decide)
    (resolveEventPageName ⟨"a", "Standup", "", none, none, "", "", none⟩ "work" "ical")
    (desiredWithBlocks [⟨"work", [⟨"a", "Standup", "", none, none, "", "", none⟩]⟩]
      ⟨50, 500, [], "#gcal"⟩)
    (by decide) (by decide) (by decide) (by decide)
    ⟨"old1", "u1", [⟨"ical-id:: x", "cu1"⟩]⟩ (by decide)
    "x" (by decide) (by decide)

/-- Witness for C10 at a concrete input. -/
theorem c10_no_date_headline_witness :
    (ICalEvent.dtstart ⟨"a", "Standup", "", none, none, "", "", none⟩ = none)
    ∧ ∃ pre post : List Char,
        (buildEventBlock ⟨"a", "Standup", "", none, none, "", "", none⟩ "work" "#gcal").text.data
          = pre ++ "[[No date]]".data ++ post :=
  ⟨rfl, c10_no_date_headline ⟨"a", "Standup", "", none, none, "", "", none⟩ "work" "#gcal" rfl⟩

end RoamIcal
